import Mathlib

/-!
# Grizzly: a columnar data engine

A shallow embedding of the Go package `grizzly` (validity bitmaps, typed columns,
frames, predicate expressions and deferred plans) together with theorems about it.

Conventions of the embedding.

* Go slices are Lean lists.  An index expression that Go would abort with a run-time
  panic (index out of range, nil interface call) returns `Err.panic`.
* A Go function returning `(T, error)` returns `Except Err T`.
* `int64` values are integers; no arithmetic that could overflow is performed on them.
* `uint64` bitmap words are natural numbers; the only arithmetic on them is
  `w | 1 << k` with `k < 64`, which cannot leave the 64-bit range.
* Go strings holding data are byte sequences (`GoString`); column names, which are only
  ever compared for equality, are Lean strings.
* `float64` values are IEEE-754 binary64 bit patterns; comparison is defined on the
  patterns, conversions are supplied by a `FloatRuntime`.
-/

namespace Grizzly

/-! ## Outcomes -/

/-- Every way an operation of the engine can fail: one constructor per `fmt.Errorf`
site of the source, plus `panic` for a Go run-time panic.  `fuel` is not a failure of the
engine: the embedding of a loop returns it when the loop runs past its step bound. -/
inductive Err where
  | noColumns
  | mismatchedLength (name : String)
  | duplicateColumn (name : String)
  | unknownColumn (name : String)
  | maskLengthMismatch
  | cannotCompareInt64
  | cannotCompareFloat64
  | boolLiteralRequired
  | logicalMaskLengthMismatch
  | unknownSourceKind
  | source (code : Nat)
  | parseInt64 (row : Int)
  | parseFloat64 (row : Int)
  | parseBool (row : Int)
  | jsonRowsEmpty
  | panic
  | fuel
  deriving DecidableEq

deriving instance DecidableEq for Except

/-- Go string used as data: a sequence of bytes. -/
abbrev GoString := List Nat

/-- Slice read `xs[i]`; panics when `i` is out of range. -/
def sliceGet {α : Type} (xs : List α) (i : Nat) : Except Err α :=
  match xs[i]? with
  | some x => .ok x
  | none => .error .panic

/-- Slice write `xs[i] = x`; panics when `i` is out of range. -/
def sliceSet {α : Type} (xs : List α) (i : Nat) (x : α) : Except Err (List α) :=
  if i < xs.length then .ok (xs.set i x) else .error .panic

/-! ## bitmap.go -/

/-- Packed validity bits, 64 per word, bit `i % 64` of word `i / 64` for row `i`. -/
structure bitmap where
  bits : List Nat
  deriving DecidableEq

/-- Incremental builder of a bitmap: the words so far and the number of rows appended. -/
structure bitmapBuilder where
  bits : List Nat
  n : Nat
  deriving DecidableEq

/-- Source `newBitmap(n, defaultValid)`. -/
def newBitmap (n : Nat) (defaultValid : Bool) : bitmap :=
  let words := (n + 63) / 64
  if defaultValid then
    let full := List.replicate words (2 ^ 64 - 1)
    if n % 64 != 0 && words > 0 then
      ⟨full.set (words - 1) ((1 <<< (n % 64)) - 1)⟩
    else ⟨full⟩
  else ⟨List.replicate words 0⟩

/-- Source `bitmap.get`. -/
def bitmap.get (b : bitmap) (i : Nat) : Except Err Bool := do
  let w ← sliceGet b.bits (i / 64)
  pure ((w >>> (i % 64)) &&& 1 == 1)

/-- Source `bitmap.set`; the updated bitmap is returned. -/
def bitmap.set (b : bitmap) (i : Nat) : Except Err bitmap := do
  let w ← sliceGet b.bits (i / 64)
  let bits ← sliceSet b.bits (i / 64) (w ||| (1 <<< (i % 64)))
  pure ⟨bits⟩

/-- Loop of `newBitmapFromBools`: `i` is the position of the head of the remaining mask. -/
def newBitmapFromBools.fill : List Bool → Nat → bitmap → Except Err bitmap
  | [], _, b => pure b
  | m :: rest, i, b => do
    let b ← if m then b.set i else pure b
    newBitmapFromBools.fill rest (i + 1) b

/-- Source `newBitmapFromBools`. -/
def newBitmapFromBools (mask : List Bool) : Except Err bitmap :=
  newBitmapFromBools.fill mask 0 ⟨List.replicate ((mask.length + 63) / 64) 0⟩

/-- Source `bitmapBuilder.Append`. -/
def bitmapBuilder.Append (b : bitmapBuilder) (valid : Bool) : Except Err bitmapBuilder := do
  let bits := if b.n % 64 == 0 then b.bits ++ [0] else b.bits
  let bits ← if valid then do
      let w ← sliceGet bits (b.n / 64)
      sliceSet bits (b.n / 64) (w ||| (1 <<< (b.n % 64)))
    else pure bits
  pure ⟨bits, b.n + 1⟩

/-- Source `bitmapBuilder.Build`. -/
def bitmapBuilder.Build (b : bitmapBuilder) : bitmap := ⟨b.bits⟩

/-! ## dtype.go -/

/-- Source `DType` with its five constants. -/
inductive DType where
  | DTypeInvalid
  | DTypeInt64
  | DTypeFloat64
  | DTypeBool
  | DTypeUtf8
  deriving DecidableEq

export DType (DTypeInvalid DTypeInt64 DTypeFloat64 DTypeBool DTypeUtf8)

/-- Source `DType.String`. -/
def DType.String : DType → String
  | DTypeInt64 => "int64"
  | DTypeFloat64 => "float64"
  | DTypeBool => "bool"
  | DTypeUtf8 => "utf8"
  | DTypeInvalid => "invalid"

/-! ## column.go -/

/-- IEEE-754 binary64 value, given by its 64-bit pattern. -/
structure Float64 where
  bits : Nat
  deriving DecidableEq

instance : Inhabited Float64 := ⟨⟨0⟩⟩

/-- The four column structs of the source share one shape; `α` is the element type. -/
structure TypedColumn (α : Type) where
  name : String
  data : List α
  valid : bitmap
  deriving DecidableEq

abbrev Int64Column := TypedColumn Int
abbrev Float64Column := TypedColumn Float64
abbrev BoolColumn := TypedColumn Bool
abbrev Utf8Column := TypedColumn GoString

namespace TypedColumn

variable {α : Type}

/-- Source `NewInt64Column` and its three siblings; `valid = none` is Go's `nil`. -/
def New (name : String) (data : List α) (valid : Option (List Bool)) :
    Except Err (TypedColumn α) := do
  let v ← match valid with
    | none => pure (newBitmap data.length true)
    | some vs => newBitmapFromBools vs
  pure ⟨name, data, v⟩

/-- Source `newInt64ColumnOwned` and siblings. -/
def Owned (name : String) (data : List α) (valid : bitmap) : TypedColumn α :=
  ⟨name, data, valid⟩

def Name (c : TypedColumn α) : String := c.name

def Len (c : TypedColumn α) : Nat := c.data.length

/-- Source `IsNull`: `!c.valid.get(i)`. -/
def IsNull (c : TypedColumn α) (i : Nat) : Except Err Bool := do
  let v ← c.valid.get i
  pure (!v)

/-- Source `Value`: `c.data[i]`. -/
def Value (c : TypedColumn α) (i : Nat) : Except Err α := sliceGet c.data i

/-- First loop of `Filter`: the number of true entries of the mask. -/
def countTrue (mask : List Bool) : Nat :=
  mask.foldl (fun n m => if m then n + 1 else n) 0

/-- Second loop of `Filter`, over the remaining rows of `c.data`; `i` is the row number
of the head, the state is `(out, valid, idx)`. -/
def filterLoop (c : TypedColumn α) (mask : List Bool) :
    List α → Nat → List α × bitmapBuilder × Nat → Except Err (List α × bitmapBuilder × Nat)
  | [], _, st => pure st
  | x :: rest, i, (out, valid, idx) => do
    let m ← sliceGet mask i
    if !m then
      filterLoop c mask rest (i + 1) (out, valid, idx)
    else do
      let out ← sliceSet out idx x
      let null ← c.IsNull i
      let valid ← valid.Append (!null)
      filterLoop c mask rest (i + 1) (out, valid, idx + 1)

/-- Source `Filter` (identical in the four variants). -/
def Filter [Inhabited α] (c : TypedColumn α) (mask : List Bool) :
    Except Err (TypedColumn α) := do
  let n := countTrue mask
  let out := List.replicate n default
  let (out, valid, _) ← filterLoop c mask c.data 0 (out, ⟨[], 0⟩, 0)
  pure (Owned c.name out valid.Build)

/-- Loop of `Take` over the remaining entries of `order`; `out[i] = c.data[row]` fills
the slots left to right, so the filled part of `out` is carried as a list. -/
def takeLoop (c : TypedColumn α) :
    List Int → List α × bitmapBuilder → Except Err (List α × bitmapBuilder)
  | [], st => pure st
  | row :: rest, (out, valid) => do
    if row < 0 then throw Err.panic
    else do
      let x ← sliceGet c.data row.toNat
      let null ← c.IsNull row.toNat
      let valid ← valid.Append (!null)
      takeLoop c rest (out ++ [x], valid)

/-- Source `Take` (identical in the four variants). -/
def Take (c : TypedColumn α) (order : List Int) : Except Err (TypedColumn α) := do
  let (out, valid) ← takeLoop c order ([], ⟨[], 0⟩)
  pure (Owned c.name out valid.Build)

end TypedColumn

/-- The `Column` interface, closed over its four implementations. -/
inductive Column where
  | int64 (c : Int64Column)
  | float64 (c : Float64Column)
  | bool (c : BoolColumn)
  | utf8 (c : Utf8Column)
  deriving DecidableEq

namespace Column

def Name : Column → String
  | int64 c => c.Name
  | float64 c => c.Name
  | bool c => c.Name
  | utf8 c => c.Name

def DType : Column → Grizzly.DType
  | int64 _ => DTypeInt64
  | float64 _ => DTypeFloat64
  | bool _ => DTypeBool
  | utf8 _ => DTypeUtf8

def Len : Column → Nat
  | int64 c => c.Len
  | float64 c => c.Len
  | bool c => c.Len
  | utf8 c => c.Len

def IsNull : Column → Nat → Except Err Bool
  | int64 c, i => c.IsNull i
  | float64 c, i => c.IsNull i
  | bool c, i => c.IsNull i
  | utf8 c, i => c.IsNull i

def Filter : Column → List Bool → Except Err Column
  | int64 c, mask => int64 <$> c.Filter mask
  | float64 c, mask => float64 <$> c.Filter mask
  | bool c, mask => bool <$> c.Filter mask
  | utf8 c, mask => utf8 <$> c.Filter mask

def Take : Column → List Int → Except Err Column
  | int64 c, order => int64 <$> c.Take order
  | float64 c, order => float64 <$> c.Take order
  | bool c, order => bool <$> c.Take order
  | utf8 c, order => utf8 <$> c.Take order

end Column

/-! ## Value comparison -/

/-- NaN test on the bit pattern: exponent all ones, fraction non-zero. -/
def Float64.isNaN (x : Float64) : Bool :=
  x.bits / 2 ^ 52 % 2 ^ 11 == 2047 && x.bits % 2 ^ 52 != 0

/-- Signed magnitude of a non-NaN pattern; both zeros map to `0`. -/
def Float64.rank (x : Float64) : Int :=
  if x.bits / 2 ^ 63 % 2 == 1 then -((x.bits % 2 ^ 63 : Nat) : Int) else ((x.bits % 2 ^ 63 : Nat) : Int)

/-- Go `x < y` on `float64`: false when either side is NaN. -/
def Float64.lt (x y : Float64) : Bool :=
  !x.isNaN && !y.isNaN && decide (x.rank < y.rank)

/-- Go `x == y` on `float64`: false when either side is NaN, `-0 == +0`. -/
def Float64.eq (x y : Float64) : Bool :=
  !x.isNaN && !y.isNaN && decide (x.rank = y.rank)

/-- Go `a < b` on strings: byte-wise lexicographic, a proper prefix is smaller. -/
def bytesLess : GoString → GoString → Bool
  | [], [] => false
  | [], _ :: _ => true
  | _ :: _, [] => false
  | a :: as, b :: bs => if a < b then true else if b < a then false else bytesLess as bs

/-! ## sort.SliceStable

`sort.SliceStable` belongs to the Go standard library (`sort/zsortfunc.go`).  Its worker
`stable_func` sorts blocks of 20 elements by insertion and then merges neighbouring
blocks with `symMerge_func`, doubling the block size until one block covers the slice.
The embedding follows the library function by function.

* The comparator closures of `SortBy` read `order[i]` and `order[j]` first, so `less` is
  given as a function of the two elements rather than of their positions.
* A library call on `data[a:b]` is given that segment as a list, and positions count from
  `a`.  Every midpoint of the library has the form `(i + j) >> 1`, and
  `(i + j) >> 1 - a = ((i - a) + (j - a)) >> 1`, so the same elements are compared.
* Outside the insertion sort, `data.Swap` occurs only in the two loops of `symMerge_func`
  that move one element past a run of its neighbours, and in `rotate_func`, which
  exchanges two neighbouring runs (the library documents it as changing data of the form
  `x u v y` to `x v u y`).  These loops compare nothing; they are given by the arrangement
  they leave behind.
* Every loop and recursion carries a step bound that the library's loop does not reach
  (`SliceStable_settles`); running past it would be `Err.fuel`. -/

/-- Inner loop of `insertionSort_func`: `for j := i; j > a && less(j, j-1); j--` swaps
`x = data[i]` with its left neighbour.  `left` lists the elements to the left of `x`,
nearest first. -/
def sinkLeft {β : Type} (less : β → β → Except Err Bool) (x : β) :
    List β → Except Err (List β)
  | [] => pure [x]
  | y :: left => do
    if (← less x y) then
      let rest ← sinkLeft less x left
      pure (y :: rest)
    else
      pure (x :: y :: left)

/-- Library `insertionSort_func(data, a, b)` on the segment `data[a:b]`. -/
def insertionSort_func {β : Type} (less : β → β → Except Err Bool) (data : List β) :
    Except Err (List β) := do
  let left ← data.foldlM (fun left x => sinkLeft less x left) []
  pure left.reverse

/-- The binary search loop that `symMerge_func` runs three times:
`for i < j { h := int(uint(i+j) >> 1); if goRight(h) { i = h + 1 } else { j = h } }`;
the result is the final `i`. -/
def searchLoop (goRight : Nat → Except Err Bool) : Nat → Nat → Nat → Except Err Nat
  | 0, _, _ => throw Err.fuel
  | fuel + 1, i, j =>
    if i < j then do
      let h := (i + j) / 2
      if (← goRight h) then searchLoop goRight fuel (h + 1) j
      else searchLoop goRight fuel i h
    else pure i

/-- Library `rotate_func(data, a, m, b)`: the neighbouring runs `u = data[a:m]` and
`v = data[m:b]` change places, `x u v y` becomes `x v u y`. -/
def rotate_func {β : Type} (data : List β) (a m b : Nat) : List β :=
  data.take a ++ ((data.take b).drop m ++ (data.take m).drop a) ++ data.drop b

/-- Library `symMerge_func(data, a, m, b)` on the segment `data[a:b]`, with `m` counted
from `a`: merges the sorted runs `data[a:m]` and `data[m:b]`. -/
def symMerge_func {β : Type} (less : β → β → Except Err Bool) :
    Nat → List β → Nat → Except Err (List β)
  | 0, _, _ => throw Err.fuel
  | fuel + 1, data, m =>
    let b := data.length
    if m = 1 then do
      -- `if m-a == 1`: insert `data[a]` into `data[m:b]`
      let i ← searchLoop (fun h => do less (← sliceGet data h) (← sliceGet data 0))
        (b - m + 1) m b
      -- `for k := a; k < i-1; k++ { data.Swap(k, k+1) }`: `data[a]` reaches position `i-1`
      pure ((data.take i).drop 1 ++ data.take 1 ++ data.drop i)
    else if b - m = 1 then do
      -- `if b-m == 1`: insert `data[m]` into `data[a:m]`
      let i ← searchLoop (fun h => do pure (!(← less (← sliceGet data m) (← sliceGet data h))))
        (m + 1) 0 m
      -- `for k := m; k > i; k-- { data.Swap(k, k-1) }`: `data[m]` reaches position `i`
      pure (data.take i ++ data.drop m ++ (data.take m).drop i)
    else do
      let mid := b / 2
      let n := mid + m
      let start := if m > mid then n - b else 0
      let r := if m > mid then mid else m
      let p := n - 1
      let start ← searchLoop
        (fun c => do pure (!(← less (← sliceGet data (p - c)) (← sliceGet data c))))
        (r - start + 1) start r
      let end_ := n - start
      let data := if start < m ∧ m < end_ then rotate_func data start m end_ else data
      let data ← if 0 < start ∧ start < mid then do
          let left ← symMerge_func less fuel (data.take mid) start
          pure (left ++ data.drop mid)
        else pure data
      if mid < end_ ∧ end_ < b then do
        let right ← symMerge_func less fuel (data.drop mid) (end_ - mid)
        pure (data.take mid ++ right)
      else pure data

/-- First loop of `stable_func`, on `rest = data[a:]`:
`for b <= n { insertionSort_func(data, a, b); a = b; b += blockSize }` followed by
`insertionSort_func(data, a, n)`. -/
def stable_func.blocks {β : Type} (less : β → β → Except Err Bool) (blockSize : Nat) :
    Nat → List β → Except Err (List β)
  | 0, _ => throw Err.fuel
  | fuel + 1, rest =>
    if blockSize ≤ rest.length then do
      let block ← insertionSort_func less (rest.take blockSize)
      let tail ← stable_func.blocks less blockSize fuel (rest.drop blockSize)
      pure (block ++ tail)
    else insertionSort_func less rest

/-- Inner loop of the second phase of `stable_func`, on `rest = data[a:]`:
`for b <= n { symMerge_func(data, a, a+blockSize, b); a = b; b += 2 * blockSize }`
followed by `if m := a + blockSize; m < n { symMerge_func(data, a, m, n) }`. -/
def stable_func.pass {β : Type} (less : β → β → Except Err Bool) (blockSize : Nat) :
    Nat → List β → Except Err (List β)
  | 0, _ => throw Err.fuel
  | fuel + 1, rest =>
    if 2 * blockSize ≤ rest.length then do
      let merged ← symMerge_func less (2 * blockSize) (rest.take (2 * blockSize)) blockSize
      let tail ← stable_func.pass less blockSize fuel (rest.drop (2 * blockSize))
      pure (merged ++ tail)
    else if blockSize < rest.length then symMerge_func less rest.length rest blockSize
    else pure rest

/-- Outer loop of the second phase of `stable_func`:
`for blockSize < n { ...; blockSize *= 2 }`. -/
def stable_func.rounds {β : Type} (less : β → β → Except Err Bool) :
    Nat → Nat → List β → Except Err (List β)
  | 0, _, _ => throw Err.fuel
  | fuel + 1, blockSize, data =>
    if blockSize < data.length then do
      let data ← stable_func.pass less blockSize (data.length + 1) data
      stable_func.rounds less fuel (2 * blockSize) data
    else pure data

/-- Library `stable_func(data, n)` with `blockSize := 20`. -/
def stable_func {β : Type} (less : β → β → Except Err Bool) (data : List β) :
    Except Err (List β) := do
  let data ← stable_func.blocks less 20 (data.length + 1) data
  stable_func.rounds less (data.length + 1) 20 data

/-- Library `sort.SliceStable(xs, less)`. -/
def SliceStable {β : Type} (less : β → β → Except Err Bool) (xs : List β) :
    Except Err (List β) :=
  stable_func less xs

/-! ## dataframe.go -/

/-- Source `DataFrame`; the Go map `index` is an association list, newest binding first. -/
structure DataFrame where
  columns : List Column
  index : List (String × Nat)
  nrows : Nat
  deriving DecidableEq

/-- Loop of `NewDataFrame`: `i` is the position of the head of the remaining columns. -/
def NewDataFrame.loop (n : Nat) :
    List Column → Nat → List (String × Nat) → Except Err (List (String × Nat))
  | [], _, idx => pure idx
  | c :: rest, i, idx =>
    if c.Len != n then throw (Err.mismatchedLength c.Name)
    else if (idx.lookup c.Name).isSome then throw (Err.duplicateColumn c.Name)
    else NewDataFrame.loop n rest (i + 1) ((c.Name, i) :: idx)

/-- Source `NewDataFrame`. -/
def NewDataFrame (cols : List Column) : Except Err DataFrame :=
  match cols with
  | [] => throw Err.noColumns
  | c0 :: _ => do
    let idx ← NewDataFrame.loop c0.Len cols 0 []
    pure ⟨cols, idx, c0.Len⟩

def DataFrame.Height (df : DataFrame) : Nat := df.nrows

def DataFrame.Width (df : DataFrame) : Nat := df.columns.length

def DataFrame.Columns (df : DataFrame) : List Column := df.columns

/-- Source `DataFrame.Column`; `none` is the `(nil, false)` result. -/
def DataFrame.Column (df : DataFrame) (name : String) : Except Err (Option Grizzly.Column) :=
  match df.index.lookup name with
  | none => pure none
  | some i => do
    let c ← sliceGet df.columns i
    pure (some c)

/-- Body of the loop of `Select`: the column appended for one name. -/
def DataFrame.Select.lookup (df : DataFrame) (name : String) : Except Err Grizzly.Column := do
  match ← df.Column name with
  | none => throw (Err.unknownColumn name)
  | some c => pure c

/-- Source `DataFrame.Select`. -/
def DataFrame.Select (df : DataFrame) (names : List String) : Except Err DataFrame := do
  let cols ← names.mapM (DataFrame.Select.lookup df)
  NewDataFrame cols

/-- The comparator closure of `SortBy` for a typed key column, on the row numbers
`li = order[i]` and `lj = order[j]`; `before a b` is the final value comparison, which
depends on the column type and on `desc`. -/
def sortLess {α : Type} (col : TypedColumn α) (before : α → α → Bool) (li lj : Nat) :
    Except Err Bool := do
  let aiNull ← col.IsNull li
  let ajNull ← col.IsNull lj
  if aiNull && ajNull then
    pure (decide (li < lj))
  else if aiNull then
    pure false
  else if ajNull then
    pure true
  else do
    let a ← sliceGet col.data li
    let b ← sliceGet col.data lj
    pure (before a b)

/-- Value comparison of the `*Int64Column` case. -/
def beforeInt64 (desc : Bool) (a b : Int) : Bool :=
  if desc then decide (a > b) else decide (a < b)

/-- Value comparison of the `*Float64Column` case. -/
def beforeFloat64 (desc : Bool) (a b : Float64) : Bool :=
  if desc then Float64.lt b a else Float64.lt a b

/-- Value comparison of the `*BoolColumn` case. -/
def beforeBool (desc : Bool) (a b : Bool) : Bool :=
  if desc then a && !b else !a && b

/-- Value comparison of the `*Utf8Column` case. -/
def beforeUtf8 (desc : Bool) (a b : GoString) : Bool :=
  if desc then bytesLess b a else bytesLess a b

/-- The type switch of `SortBy`: the sorted `order` for key column `c`. -/
def sortOrder (c : Column) (desc : Bool) (order : List Nat) : Except Err (List Nat) :=
  match c with
  | .int64 col => SliceStable (sortLess col (beforeInt64 desc)) order
  | .float64 col => SliceStable (sortLess col (beforeFloat64 desc)) order
  | .bool col => SliceStable (sortLess col (beforeBool desc)) order
  | .utf8 col => SliceStable (sortLess col (beforeUtf8 desc)) order

/-- Source `DataFrame.SortBy`. -/
def DataFrame.SortBy (df : DataFrame) (column : String) (desc : Bool) :
    Except Err DataFrame := do
  match ← df.Column column with
  | none => throw (Err.unknownColumn column)
  | some c =>
    let order ← sortOrder c desc (List.range df.nrows)
    let cols ← df.columns.mapM (fun col => col.Take (order.map Int.ofNat))
    NewDataFrame cols

/-! ## expr.go -/

/-- A Go value passed as the `any` literal of a comparison.  `other` stands for a value
of any remaining dynamic type and carries its `fmt.Sprint` text. -/
inductive Literal where
  | int (v : Int)
  | int64 (v : Int)
  | int32 (v : Int)
  | float64 (v : Float64)
  | string (s : GoString)
  | bool (b : Bool)
  | other (text : GoString)
  deriving DecidableEq

/-- Floating-point services of the Go runtime and of `strconv`/`fmt`, kept abstract:
`int64(x)`, `float64(n)`, `strconv.ParseFloat(s, 64)` and the `%v` text of a float. -/
structure FloatRuntime where
  toInt64 : Float64 → Int
  ofInt : Int → Float64
  parseFloat : GoString → Option Float64
  format : Float64 → GoString

/-- Digits loop of `strconv.ParseUint(s, 10, 64)`. -/
def parseDigits : GoString → Nat → Option Nat
  | [], acc => some acc
  | c :: rest, acc =>
    if 48 ≤ c ∧ c ≤ 57 then parseDigits rest (acc * 10 + (c - 48)) else none

/-- Model of `strconv.ParseInt(s, 10, 64)`; `none` when it returns an error (bad syntax
or a value outside the `int64` range). -/
def ParseInt (s : GoString) : Option Int :=
  match s with
  | [] => none
  | c :: rest =>
    let neg := c == 45
    let body := if c == 43 || c == 45 then rest else s
    if body.isEmpty then none
    else
      match parseDigits body 0 with
      | none => none
      | some un =>
        if neg then (if un ≤ 2 ^ 63 then some (-(un : Int)) else none)
        else (if un < 2 ^ 63 then some (un : Int) else none)

/-- Model of `strconv.FormatInt(v, 10)`. -/
def FormatInt (v : Int) : GoString :=
  (if v < 0 then [45] else []) ++ (Nat.toDigits 10 v.natAbs).map Char.toNat

/-- Source `literalToInt64`; `none` is the `ok = false` result. -/
def literalToInt64 (rt : FloatRuntime) : Literal → Option Int
  | .int x => some x
  | .int64 x => some x
  | .int32 x => some x
  | .float64 x => some (rt.toInt64 x)
  | .string x => ParseInt x
  | _ => none

/-- Source `literalToFloat64`; `none` is the `ok = false` result. -/
def literalToFloat64 (rt : FloatRuntime) : Literal → Option Float64
  | .int x => some (rt.ofInt x)
  | .int64 x => some (rt.ofInt x)
  | .float64 x => some x
  | .string x => rt.parseFloat x
  | _ => none

/-- Model of `fmt.Sprint(v)` for a literal. -/
def Sprint (rt : FloatRuntime) : Literal → GoString
  | .int x => FormatInt x
  | .int64 x => FormatInt x
  | .int32 x => FormatInt x
  | .float64 x => rt.format x
  | .string x => x
  | .bool b => if b then [116, 114, 117, 101] else [102, 97, 108, 115, 101]
  | .other text => text

/-- The `Expr` interface, closed over its three implementations. -/
inductive Expr where
  | compareExpr (left : String) (op : String) (right : Literal)
  | evenExpr (col : String)
  | logicalExpr (left : Expr) (right : Expr) (op : String)
  deriving DecidableEq

structure ColRef where
  name : String

def Col (name : String) : ColRef := ⟨name⟩

def ColRef.Eq (c : ColRef) (v : Literal) : Expr := .compareExpr c.name "eq" v

def ColRef.Gt (c : ColRef) (v : Literal) : Expr := .compareExpr c.name "gt" v

def ColRef.Even (c : ColRef) : Expr := .evenExpr c.name

def And (a b : Expr) : Expr := .logicalExpr a b "and"

def Or (a b : Expr) : Expr := .logicalExpr a b "or"

/-- Body of the loop of `compareExpr.Eval` at row `i`: the pair `(vals[i], valid[i])`
left by the iteration, or the error it returns. -/
def compareExpr.cell (rt : FloatRuntime) (op : String) (right : Literal) (col : Column)
    (i : Nat) : Except Err (Bool × Bool) := do
  if ← col.IsNull i then
    pure (false, false)
  else
    match col with
    | .int64 c =>
      match literalToInt64 rt right with
      | none => throw Err.cannotCompareInt64
      | some r => do
        let v ← c.Value i
        pure (if op == "eq" then decide (v = r) else decide (v > r), true)
    | .float64 c =>
      match literalToFloat64 rt right with
      | none => throw Err.cannotCompareFloat64
      | some r => do
        let v ← c.Value i
        pure (if op == "eq" then Float64.eq v r else Float64.lt r v, true)
    | .utf8 c => do
      let r := Sprint rt right
      let v ← c.Value i
      pure (if op == "eq" then decide (v = r) else bytesLess r v, true)
    | .bool c =>
      match right with
      | .bool r => do
        let v ← c.Value i
        pure (if op == "eq" then decide (v = r) else v && !r, true)
      | _ => throw Err.boolLiteralRequired

/-- Body of the loop of `evenExpr.Eval` at row `i`. -/
def evenExpr.cell (rt : FloatRuntime) (col : Column) (i : Nat) : Except Err (Bool × Bool) := do
  if ← col.IsNull i then
    pure (false, false)
  else
    match col with
    | .int64 c => do
      let v ← c.Value i
      pure (decide (Int.tmod v 2 = 0), true)
    | .float64 c => do
      let v ← c.Value i
      pure (decide (Int.tmod (rt.toInt64 v) 2 = 0), true)
    | .utf8 c => do
      let v ← c.Value i
      pure (decide (v.length % 2 = 0), true)
    | .bool c => do
      let v ← c.Value i
      pure (!v, true)

/-- Body of the loop of `logicalExpr.Eval` at row `i`. -/
def logicalExpr.cell (op : String) (la lb : BoolColumn) (i : Nat) :
    Except Err (Bool × Bool) := do
  if ← la.IsNull i then
    pure (false, false)
  else if ← lb.IsNull i then
    pure (false, false)
  else do
    let a ← la.Value i
    if op == "and" then
      if a then do
        let b ← lb.Value i
        pure (b, true)
      else pure (false, true)
    else
      if a then pure (true, true)
      else do
        let b ← lb.Value i
        pure (b, true)

/-- The tail shared by the three `Eval` methods: run the loop body on rows `0..n-1`
and build the `_mask` column from the two filled slices. -/
def maskOf (n : Nat) (cell : Nat → Except Err (Bool × Bool)) : Except Err BoolColumn := do
  let cells ← (List.range n).mapM cell
  TypedColumn.New "_mask" (cells.map Prod.fst) (some (cells.map Prod.snd))

/-- Source `Eval` of `compareExpr`, `evenExpr` and `logicalExpr`. -/
def Expr.Eval (rt : FloatRuntime) (df : DataFrame) : Expr → Except Err BoolColumn
  | .compareExpr left op right => do
    match ← df.Column left with
    | none => throw (Err.unknownColumn left)
    | some col => maskOf col.Len (compareExpr.cell rt op right col)
  | .evenExpr name => do
    match ← df.Column name with
    | none => throw (Err.unknownColumn name)
    | some col => maskOf col.Len (evenExpr.cell rt col)
  | .logicalExpr left right op => do
    let la ← Expr.Eval rt df left
    let lb ← Expr.Eval rt df right
    if la.Len != lb.Len then throw Err.logicalMaskLengthMismatch
    else maskOf la.Len (logicalExpr.cell op la lb)

/-- Source `DataFrame.Filter`. -/
def DataFrame.Filter (rt : FloatRuntime) (df : DataFrame) (expr : Expr) :
    Except Err DataFrame := do
  let mask ← expr.Eval rt df
  if mask.Len != df.nrows then throw Err.maskLengthMismatch
  else do
    let vals := mask.data
    let cols ← df.columns.mapM (fun c => c.Filter vals)
    NewDataFrame cols

/-! ## lazy.go -/

structure ScanOptions where
  Delimiter : Nat
  NullValues : List GoString
  deriving DecidableEq

/-- Source kinds: `sourceCSV = 1`, `sourceJSON = 2`. -/
structure lazySource where
  kind : Nat
  path : String
  csv : ScanOptions
  deriving DecidableEq

def sourceCSV : Nat := 1

def sourceJSON : Nat := 2

def opSelect : Nat := 1

def opFilter : Nat := 2

def opSort : Nat := 3

/-- Source `planOp`; `filter = none` is a nil `Expr`. -/
structure planOp where
  typeID : Nat
  cols : List String
  filter : Option Expr
  sortBy : String
  desc : Bool
  deriving DecidableEq

structure LazyFrame where
  source : lazySource
  ops : List planOp
  deriving DecidableEq

def ScanCSV (path : String) (opts : ScanOptions) : LazyFrame :=
  let opts := if opts.NullValues.length == 0 then
      { opts with NullValues := [[], [78, 85, 76, 76], [110, 117, 108, 108]] }
    else opts
  ⟨⟨sourceCSV, path, opts⟩, []⟩

def ScanJSON (path : String) : LazyFrame :=
  ⟨⟨sourceJSON, path, ⟨0, []⟩⟩, []⟩

def LazyFrame.Select (lf : LazyFrame) (cols : List String) : LazyFrame :=
  { lf with ops := lf.ops ++ [⟨opSelect, cols, none, "", false⟩] }

def LazyFrame.Filter (lf : LazyFrame) (expr : Expr) : LazyFrame :=
  { lf with ops := lf.ops ++ [⟨opFilter, [], some expr, "", false⟩] }

def LazyFrame.Sort (lf : LazyFrame) (col : String) (desc : Bool) : LazyFrame :=
  { lf with ops := lf.ops ++ [⟨opSort, [], none, col, desc⟩] }

/-- Loop of `optimize`: the state is `(filters, other)`. -/
def LazyFrame.optimize.split : List planOp → List planOp × List planOp → List planOp × List planOp
  | [], st => st
  | op :: rest, (filters, other) =>
    if op.typeID == opFilter then LazyFrame.optimize.split rest (filters ++ [op], other)
    else LazyFrame.optimize.split rest (filters, other ++ [op])

/-- Source `LazyFrame.optimize`. -/
def LazyFrame.optimize (lf : LazyFrame) : LazyFrame :=
  let (filters, other) := LazyFrame.optimize.split lf.ops ([], [])
  { lf with ops := filters ++ other }

/-- One iteration of the execution loop of `Collect`. -/
def applyOp (rt : FloatRuntime) (df : DataFrame) (op : planOp) : Except Err DataFrame :=
  if op.typeID == opFilter then
    match op.filter with
    | none => throw Err.panic
    | some e => df.Filter rt e
  else if op.typeID == opSelect then df.Select op.cols
  else if op.typeID == opSort then df.SortBy op.sortBy op.desc
  else pure df

/-- The execution loop of `Collect`: the operations applied in list order, fail-fast. -/
def applyOps (rt : FloatRuntime) : List planOp → DataFrame → Except Err DataFrame
  | [], df => pure df
  | op :: rest, df => do
    let df ← applyOp rt df op
    applyOps rt rest df

/-! ## lazy.go over a heap of backing arrays

The plan-building methods copy the operation slice with `append` before they add an
operation.  To observe that, this section keeps the slices of `planOp` in a heap of
backing arrays, with the aliasing rules of Go's `append`. -/

/-- A Go slice header of type `[]planOp`: the backing array it points into, its length
and its capacity (every slice of this package starts at offset `0` of its array).
The `nil` slice has length and capacity `0`. -/
structure opSlice where
  arr : Nat
  len : Nat
  cap : Nat
  deriving DecidableEq

/-- The backing arrays allocated so far, by identifier. -/
structure opHeap where
  arrays : List (List planOp)
  deriving DecidableEq

/-- The `nil` slice `[]planOp(nil)`. -/
def opSlice.nil : opSlice := ⟨0, 0, 0⟩

/-- The zero value of `planOp`, held by the unused cells of a fresh backing array. -/
def planOp.zero : planOp := ⟨0, [], none, "", false⟩

/-- The elements of a slice: the first `len` cells of its backing array. -/
def opHeap.read (h : opHeap) (s : opSlice) : List planOp :=
  (h.arrays.getD s.arr []).take s.len

/-- Go's builtin `append(s, xs...)`: when the capacity of `s` fits the new elements
they are written into the backing array of `s`, which the result shares; otherwise a
new array is allocated, of the capacity chosen by the runtime's growth rule `grow`
(never less than needed), and the elements are copied there. -/
def opHeap.append (grow : Nat → Nat → Nat) (h : opHeap) (s : opSlice) (xs : List planOp) :
    opHeap × opSlice :=
  let need := s.len + xs.length
  if need ≤ s.cap then
    let a := h.arrays.getD s.arr []
    (⟨h.arrays.set s.arr (a.take s.len ++ xs ++ a.drop need)⟩, ⟨s.arr, need, s.cap⟩)
  else
    let cap := max need (grow s.cap need)
    (⟨h.arrays ++ [h.read s ++ xs ++ List.replicate (cap - need) planOp.zero]⟩,
      ⟨h.arrays.length, need, cap⟩)

/-- The struct `LazyFrame` as Go stores it: the source by value and the header of the
operation slice. -/
structure planRef where
  source : lazySource
  ops : opSlice
  deriving DecidableEq

/-- The statement shared by `Select`, `Filter` and `Sort`:
`next := *lf; next.ops = append(append([]planOp(nil), lf.ops...), op); return &next`. -/
def planRef.chain (grow : Nat → Nat → Nat) (h : opHeap) (lf : planRef) (op : planOp) :
    opHeap × planRef :=
  let next := lf
  let (h1, copy) := h.append grow opSlice.nil (h.read lf.ops)
  let (h2, ops) := h1.append grow copy [op]
  (h2, { next with ops := ops })

/-- Source `LazyFrame.Select`, on the heap. -/
def planRef.Select (grow : Nat → Nat → Nat) (h : opHeap) (lf : planRef) (cols : List String) :
    opHeap × planRef :=
  lf.chain grow h ⟨opSelect, cols, none, "", false⟩

/-- Source `LazyFrame.Filter`, on the heap. -/
def planRef.Filter (grow : Nat → Nat → Nat) (h : opHeap) (lf : planRef) (expr : Expr) :
    opHeap × planRef :=
  lf.chain grow h ⟨opFilter, [], some expr, "", false⟩

/-- Source `LazyFrame.Sort`, on the heap. -/
def planRef.Sort (grow : Nat → Nat → Nat) (h : opHeap) (lf : planRef) (col : String)
    (desc : Bool) : opHeap × planRef :=
  lf.chain grow h ⟨opSort, [], none, col, desc⟩

/-! ## csv.go: schema inference -/

/-- Model of `strings.ToLower` on the bytes of a string: the ASCII capitals are lowered
and every other byte is kept.  Go also lowers letters outside ASCII; none of them
becomes a byte of a token of `ParseBool`, the only reader of the result here, so the
verdict of `ParseBool` is the same. -/
def ToLower (s : GoString) : GoString :=
  s.map (fun c => if 65 ≤ c ∧ c ≤ 90 then c + 32 else c)

/-- Model of `strconv.ParseBool`; `none` when it returns an error.  The accepted
texts are `1 t T TRUE true True` and `0 f F FALSE false False`. -/
def ParseBool (s : GoString) : Option Bool :=
  if s = [49] ∨ s = [116] ∨ s = [84] ∨ s = [84, 82, 85, 69] ∨ s = [116, 114, 117, 101]
      ∨ s = [84, 114, 117, 101] then some true
  else if s = [48] ∨ s = [102] ∨ s = [70] ∨ s = [70, 65, 76, 83, 69]
      ∨ s = [102, 97, 108, 115, 101] ∨ s = [70, 97, 108, 115, 101] then some false
  else none

/-- The loop of `inferType` with its three flags, and the chain of returns after it.
The null set is the list of its keys. -/
def inferType.loop (rt : FloatRuntime) (nullSet : List GoString) :
    List GoString → Bool → Bool → Bool → DType
  | [], allInt, allFloat, allBool =>
    if allInt then DTypeInt64
    else if allFloat then DTypeFloat64
    else if allBool then DTypeBool
    else DTypeUtf8
  | v :: rest, allInt, allFloat, allBool =>
    if v ∈ nullSet then inferType.loop rt nullSet rest allInt allFloat allBool
    else
      let allInt := if (ParseInt v).isNone then false else allInt
      let allFloat := if (rt.parseFloat v).isNone then false else allFloat
      let allBool := if (ParseBool (ToLower v)).isNone then false else allBool
      if !allInt && !allFloat && !allBool then DTypeUtf8
      else inferType.loop rt nullSet rest allInt allFloat allBool

/-- Source `inferType`. -/
def inferType (rt : FloatRuntime) (values : List GoString) (nullSet : List GoString) : DType :=
  inferType.loop rt nullSet values true true true

/-! ## csv.go: typed builders -/

/-- The one shape of `int64Builder`, `float64Builder`, `boolBuilder` and `utf8Builder`:
the data so far, the validity bits so far and the null set (the list of its keys). -/
structure Builder (α : Type) where
  data : List α
  valid : bitmapBuilder
  nulls : List GoString
  deriving DecidableEq

abbrev int64Builder := Builder Int
abbrev float64Builder := Builder Float64
abbrev boolBuilder := Builder Bool
abbrev utf8Builder := Builder GoString

/-- Source `Append` of `int64Builder`, `float64Builder` and `boolBuilder`, which differ
in the zero value appended first, in the parser and in the error text.  The result is
the builder after the call together with the returned `error` (`none` for `nil`); a
failed parse returns after the zero value was appended to `data`. -/
def Builder.Append {α : Type} (zero : α) (parse : GoString → Option α) (fail : Int → Err)
    (b : Builder α) (raw : GoString) (row : Int) : Except Err (Builder α × Option Err) := do
  let data := b.data ++ [zero]
  if raw ∈ b.nulls then
    let valid ← b.valid.Append false
    pure (⟨data, valid, b.nulls⟩, none)
  else
    match parse raw with
    | none => pure (⟨data, b.valid, b.nulls⟩, some (fail row))
    | some v => do
      let data ← sliceSet data (data.length - 1) v
      let valid ← b.valid.Append true
      pure (⟨data, valid, b.nulls⟩, none)

/-- Source `utf8Builder.Append`. -/
def utf8Builder.Append (b : utf8Builder) (raw : GoString) (_row : Int) :
    Except Err (utf8Builder × Option Err) := do
  let data := b.data ++ [raw]
  let isNull := decide (raw ∈ b.nulls)
  let valid ← b.valid.Append (!isNull)
  pure (⟨data, valid, b.nulls⟩, none)

/-- The `typedBuilder` interface, closed over its four implementations. -/
inductive typedBuilder where
  | int64 (b : int64Builder)
  | float64 (b : float64Builder)
  | bool (b : boolBuilder)
  | utf8 (b : utf8Builder)
  deriving DecidableEq

/-- Source `Append` of the four builders. -/
def typedBuilder.Append (rt : FloatRuntime) (tb : typedBuilder) (raw : GoString) (row : Int) :
    Except Err (typedBuilder × Option Err) :=
  match tb with
  | .int64 b => do
    let (b, err) ← Builder.Append 0 ParseInt Err.parseInt64 b raw row
    pure (.int64 b, err)
  | .float64 b => do
    let (b, err) ← Builder.Append ⟨0⟩ rt.parseFloat Err.parseFloat64 b raw row
    pure (.float64 b, err)
  | .bool b => do
    let (b, err) ← Builder.Append false (fun s => ParseBool (ToLower s)) Err.parseBool b raw row
    pure (.bool b, err)
  | .utf8 b => do
    let (b, err) ← utf8Builder.Append b raw row
    pure (.utf8 b, err)

/-- Source `Build` of the four builders. -/
def typedBuilder.Build (tb : typedBuilder) (name : String) : Column :=
  match tb with
  | .int64 b => .int64 (TypedColumn.Owned name b.data b.valid.Build)
  | .float64 b => .float64 (TypedColumn.Owned name b.data b.valid.Build)
  | .bool b => .bool (TypedColumn.Owned name b.data b.valid.Build)
  | .utf8 b => .utf8 (TypedColumn.Owned name b.data b.valid.Build)

/-- Source `newBuilder`. -/
def newBuilder (dtype : DType) (nulls : List GoString) : typedBuilder :=
  match dtype with
  | DTypeInt64 => .int64 ⟨[], ⟨[], 0⟩, nulls⟩
  | DTypeFloat64 => .float64 ⟨[], ⟨[], 0⟩, nulls⟩
  | DTypeBool => .bool ⟨[], ⟨[], 0⟩, nulls⟩
  | _ => .utf8 ⟨[], ⟨[], 0⟩, nulls⟩

/-- The calls that the two row loops of `readCSV` make on the builder of one column:
`Append` on each value of that column, in row order, with the row number counted up
from `row`, returning at the first error. -/
def typedBuilder.appendRows (rt : FloatRuntime) :
    typedBuilder → List GoString → Int → Except Err (typedBuilder × Option Err)
  | tb, [], _ => pure (tb, none)
  | tb, v :: rest, row => do
    let (tb, err) ← tb.Append rt v row
    match err with
    | some e => pure (tb, some e)
    | none => typedBuilder.appendRows rt tb rest (row + 1)

/-! ## column.go and dataframe.go: the content fingerprint -/

/-- Source `ValueString` of the four column types, which differ in the text of a
non-null value. -/
def TypedColumn.ValueString {α : Type} (c : TypedColumn α) (text : α → GoString) (i : Nat) :
    Except Err GoString := do
  if ← c.IsNull i then pure []
  else do
    let v ← sliceGet c.data i
    pure (text v)

/-- Source `ValueString` of the `Column` interface: decimal text for Int64,
`strconv.FormatFloat(v, 'g', -1, 64)` for Float64, `true`/`false` for Bool and the
text itself for Utf8. -/
def Column.ValueString (rt : FloatRuntime) : Column → Nat → Except Err GoString
  | .int64 c, i => c.ValueString FormatInt i
  | .float64 c, i => c.ValueString rt.format i
  | .bool c, i =>
    c.ValueString (fun v => if v then [116, 114, 117, 101] else [102, 97, 108, 115, 101]) i
  | .utf8 c, i => c.ValueString (fun v => v) i

/-- Source `hashWriteByte`; the state of the hash is the sequence of bytes written. -/
def hashWriteByte (h : List Nat) (b : Nat) : List Nat := h ++ [b]

/-- Source `hashWriteString`. -/
def hashWriteString (h : List Nat) (s : GoString) : List Nat := h ++ s

/-- Body of the inner loop of `ProjectionChecksum` for row `i` and column `j`. -/
def ProjectionChecksum.cell (rt : FloatRuntime) (df : DataFrame) (i : Nat) (h : List Nat)
    (j : Nat) : Except Err (List Nat) := do
  let h := if j > 0 then hashWriteByte h 0x1f else h
  let c ← sliceGet df.columns j
  let s ← c.ValueString rt i
  pure (hashWriteString h s)

/-- Body of the outer loop of `ProjectionChecksum` for row `i`. -/
def ProjectionChecksum.row (rt : FloatRuntime) (df : DataFrame) (maxCols : Nat) (h : List Nat)
    (i : Nat) : Except Err (List Nat) := do
  let h ← (List.range maxCols).foldlM (ProjectionChecksum.cell rt df i) h
  pure (hashWriteByte h 10)

/-- The clamping of `maxCols` at the head of `ProjectionChecksum`. -/
def ProjectionChecksum.clamp (df : DataFrame) (maxCols : Int) : Nat :=
  let maxCols := if maxCols ≤ 0 then 1 else maxCols
  let maxCols := if maxCols > df.columns.length then (df.columns.length : Int) else maxCols
  maxCols.toNat

/-- The two loops of `ProjectionChecksum`: the bytes written to the hash. -/
def DataFrame.checksumInput (rt : FloatRuntime) (df : DataFrame) (maxCols : Int) :
    Except Err (List Nat) :=
  (List.range df.nrows).foldlM (ProjectionChecksum.row rt df (ProjectionChecksum.clamp df maxCols))
    []

/-- Source `DataFrame.ProjectionChecksum`; `sum` is the hexadecimal SHA-256 digest of
the bytes written, `hex.EncodeToString(h.Sum(nil))`. -/
def DataFrame.ProjectionChecksum (rt : FloatRuntime) (sum : List Nat → GoString)
    (df : DataFrame) (maxCols : Int) : Except Err GoString := do
  let h ← df.checksumInput rt maxCols
  pure (sum h)

/-! ## json.go

`readJSON` reads the file, decodes it with `encoding/json` and turns the decoded value
into a list of records (`normalizeJSONRows`); that part is taken from outside
(`Readers.readRows`).  `recordsToFrame`, which builds the frame from the records, is
embedded.  It collects the keys of the records in a Go map and walks that map with
`range`; the order of such a walk is not fixed by the language and may differ from one
walk to the next, so it is taken from outside as well (`Readers.rangeKeys`). -/

/-- One record: a Go `map[string]any`, given by its bindings.  A value is `none` for a
JSON `null` and otherwise the text that `fmt.Sprint` prints for it. -/
abbrev jsonRow := List (String × Option GoString)

/-- The key set of `recordsToFrame`:
`for i := range rows { for k := range rows[i] { keySet[k] = struct{}{} } }`,
as the list of the distinct keys. -/
def recordsToFrame.keySet (rows : List jsonRow) : List String :=
  rows.foldl (fun ks row => row.foldl (fun ks kv => if kv.1 ∈ ks then ks else ks ++ [kv.1]) ks) []

/-- The texts of one key in `recordsToFrame`: for each record `fmt.Sprint` of the value
bound to the key, and the empty text when the key is absent or bound to `nil`. -/
def recordsToFrame.raw (rows : List jsonRow) (key : String) : List GoString :=
  rows.map (fun row =>
    match row.lookup key with
    | some (some v) => v
    | _ => [])

/-- Body of the loop over the keys in `recordsToFrame`: the column built for one key. -/
def recordsToFrame.column (rt : FloatRuntime) (rows : List jsonRow) (key : String) :
    Except Err Column := do
  let raw := recordsToFrame.raw rows key
  let nullSet : List GoString := [[]]
  let b := newBuilder (inferType rt raw nullSet) nullSet
  let (b, err) ← typedBuilder.appendRows rt b raw 1
  match err with
  | some e => throw e
  | none => pure (b.Build key)

/-- Source `recordsToFrame`; `rangeKeys` is the order in which `for k := range keySet`
visits the keys. -/
def recordsToFrame (rt : FloatRuntime) (rangeKeys : List String → List String)
    (rows : List jsonRow) : Except Err DataFrame :=
  if rows.length == 0 then throw Err.jsonRowsEmpty
  else do
    let keys := rangeKeys (recordsToFrame.keySet rows)
    let cols ← keys.mapM (recordsToFrame.column rt rows)
    NewDataFrame cols

/-! ## lazy.go: Collect -/

/-- What one call of `Collect` takes from outside the program: the frame that `readCSV`
reads from a file, the records that `readJSON` decodes from a file, and the order in
which `range` visits the keys of a map during this call, which is some arrangement of the
keys. -/
structure Readers where
  readCSV : String → ScanOptions → Except Err DataFrame
  readRows : String → Except Err (List jsonRow)
  rangeKeys : List String → List String
  rangeKeys_perm : ∀ ks, (rangeKeys ks).Perm ks

/-- Source `readJSON`. -/
def readJSON (rt : FloatRuntime) (rd : Readers) (path : String) : Except Err DataFrame := do
  let rows ← rd.readRows path
  recordsToFrame rt rd.rangeKeys rows

/-- The source switch of `Collect`: materialize the base frame. -/
def readSource (rt : FloatRuntime) (rd : Readers) (source : lazySource) : Except Err DataFrame :=
  if source.kind == sourceCSV then rd.readCSV source.path source.csv
  else if source.kind == sourceJSON then readJSON rt rd source.path
  else throw Err.unknownSourceKind

/-- Source `LazyFrame.Collect`. -/
def LazyFrame.Collect (rt : FloatRuntime) (rd : Readers) (lf : LazyFrame) :
    Except Err DataFrame := do
  let optimized := lf.optimize
  let df ← readSource rt rd optimized.source
  applyOps rt optimized.ops df
/-! ## Specification-level functions -/
/-- Bit `i` of a bitmap as a total function: false beyond the stored words. -/
def bitmap.bit (b : bitmap) (i : Nat) : Bool := (b.bits.getD (i / 64) 0).testBit (i % 64)

/-- Total counterpart of `bitmapBuilder.Append`. -/
def bitmapBuilder.push (b : bitmapBuilder) (valid : Bool) : bitmapBuilder :=
  let bits := if b.n % 64 == 0 then b.bits ++ [0] else b.bits
  ⟨if valid then bits.set (b.n / 64) (bits.getD (b.n / 64) 0 ||| (1 <<< (b.n % 64))) else bits,
    b.n + 1⟩

/-- The builder reached from the empty one by appending the given validity flags. -/
def packBits (bs : List Bool) : bitmapBuilder := bs.foldl bitmapBuilder.push ⟨[], 0⟩

/-- Representation invariant of a builder holding the flags `bs`. -/
def bitmapBuilder.Holds (b : bitmapBuilder) (bs : List Bool) : Prop :=
  b.n = bs.length ∧ b.bits.length = (bs.length + 63) / 64 ∧
    ∀ i, (bitmap.mk b.bits).bit i = bs.getD i false


/-- The entries of `xs` standing at the true positions of `mask`, in order. -/
def pick {β : Type} : List Bool → List β → List β
  | true :: ms, x :: xs => x :: pick ms xs
  | false :: ms, _ :: xs => pick ms xs
  | _, _ => []

/-- The entries of `xs` at the positions listed in `order` (out-of-range ones skipped). -/
def gather {β : Type} (order : List Nat) (xs : List β) : List β :=
  order.filterMap (fun r => xs[r]?)

/-- The positions of the true entries of a mask, increasing. -/
def truePositions (mask : List Bool) : List Nat :=
  (List.range mask.length).filter (fun i => mask.getD i false)

namespace TypedColumn

variable {α : Type}

/-- Column invariant: every row has a stored validity bit. -/
def WF (c : TypedColumn α) : Prop := c.data.length ≤ 64 * c.valid.bits.length

instance (c : TypedColumn α) : Decidable c.WF := by
  unfold WF; infer_instance

/-- The validity flags of the rows, in row order. -/
def valids (c : TypedColumn α) : List Bool := (List.range c.data.length).map c.valid.bit

/-- The rows of a column: stored value and validity flag. -/
def rows (c : TypedColumn α) : List (α × Bool) := c.data.zip c.valids

/-- The column built from a list of rows by a fresh bitmap builder. -/
def ofRows (name : String) (rs : List (α × Bool)) : TypedColumn α :=
  ⟨name, rs.map Prod.fst, (packBits (rs.map Prod.snd)).Build⟩

end TypedColumn

/-- A value read from a column of any of the four types. -/
inductive Cell where
  | int64 (v : Int)
  | float64 (v : Float64)
  | bool (v : Bool)
  | utf8 (v : GoString)
  deriving DecidableEq

namespace Column

/-- The `Value(i)` method of the four concrete column types. -/
def Value : Column → Nat → Except Err Cell
  | int64 c, i => Cell.int64 <$> c.Value i
  | float64 c, i => Cell.float64 <$> c.Value i
  | bool c, i => Cell.bool <$> c.Value i
  | utf8 c, i => Cell.utf8 <$> c.Value i

/-- The validity bitmap of a column. -/
def validity : Column → bitmap
  | int64 c => c.valid
  | float64 c => c.valid
  | bool c => c.valid
  | utf8 c => c.valid

/-- Column invariant: every row has a stored validity bit. -/
def WF (c : Column) : Prop := c.Len ≤ 64 * c.validity.bits.length

instance (c : Column) : Decidable c.WF := by
  unfold WF; infer_instance

/-- Rebuild a column from its rows transformed by `f`, keeping name and type. -/
def mapRows (f : (α : Type) → List (α × Bool) → List (α × Bool)) : Column → Column
  | int64 c => int64 (TypedColumn.ofRows c.name (f Int c.rows))
  | float64 c => float64 (TypedColumn.ofRows c.name (f Float64 c.rows))
  | bool c => bool (TypedColumn.ofRows c.name (f Bool c.rows))
  | utf8 c => utf8 (TypedColumn.ofRows c.name (f GoString c.rows))

/-- The column holding the rows of `c` at the true positions of `mask`. -/
def filterRows (mask : List Bool) (c : Column) : Column := c.mapRows (fun _ => pick mask)

/-- The column holding the rows of `c` at the positions `order`. -/
def takeRows (order : List Nat) (c : Column) : Column := c.mapRows (fun _ => gather order)

/-- Observable statement that `out` consists of the rows of `src` at the positions `pos`,
in that order: same name, one row per position, and row `k` of `out` reads back with the
nullity and the stored value of row `pos[k]` of `src`. -/
def RowsFrom (out src : Column) (pos : List Nat) : Prop :=
  out.Name = src.Name ∧ out.Len = pos.length ∧
    ∀ k p, pos[k]? = some p →
      ∃ null v, src.IsNull p = .ok null ∧ out.IsNull k = .ok null ∧
        src.Value p = .ok v ∧ out.Value k = .ok v

end Column

/-! ### Sample data -/

/-- The column `age:Int64 = [10, null, 7, 42]`. -/
def sampleAge : Column := .int64 ⟨"age", [10, 0, 7, 42], ⟨[13]⟩⟩

/-- The column `name:Utf8 = ["b", null, "a", null]`. -/
def sampleName : Column := .utf8 ⟨"name", [[98], [], [97], []], ⟨[5]⟩⟩

/-- The name index that `NewDataFrame` builds for a list of columns. -/
def indexOf (cols : List Column) : List (String × Nat) :=
  ((cols.map Column.Name).zip (List.range cols.length)).reverse

/-- Frame invariant: the frame is what `NewDataFrame` returns for its own columns (at
least one column, equal lengths, distinct names, index mapping names to positions), and
every column has a validity bit for each row. -/
def DataFrame.WF (df : DataFrame) : Prop :=
  NewDataFrame df.columns = .ok df ∧ ∀ c ∈ df.columns, c.WF

instance (df : DataFrame) : Decidable df.WF := by
  unfold DataFrame.WF; infer_instance

/-- The frame `age:Int64 = [10, null, 7, 42]`, `name:Utf8 = ["b", null, "a", null]`. -/
def sampleFrame : DataFrame := ⟨[sampleAge, sampleName], [("name", 1), ("age", 0)], 4⟩

/-- Two columns of the list, at different positions, have the same name. -/
def SharesName (cols : List Column) : Prop :=
  ∃ (i j : Nat) (a b : Column), i < j ∧ cols[i]? = some a ∧ cols[j]? = some b ∧ a.Name = b.Name

/-- Some column of the list has a length different from that of the first column. -/
def LengthDiffers (cols : List Column) : Prop :=
  ∃ c0 ∈ cols.head?, ∃ c ∈ cols, c.Len ≠ c0.Len

/-- Stable insertion sort with a total comparator: the already placed elements are kept
nearest-first and every new element is inserted after the elements it is less than.  For
a comparator that is a strict weak order this is the one stable sorted arrangement. -/
def stableSort {β : Type} (p : β → β → Bool) (xs : List β) : List β :=
  (List.insertionSort (fun a b => p a b = false) xs.reverse).reverse

/-- The sort key of row `i`: the stored value when the row is valid, `none` when the row
is null (or absent). -/
def TypedColumn.key {α : Type} (c : TypedColumn α) (i : Nat) : Option α :=
  match c.rows[i]? with
  | some (a, true) => some a
  | _ => none

/-- Total counterpart of `sortLess` on row keys. -/
def rowLess {α : Type} (before : α → α → Bool) (key : Nat → Option α) (li lj : Nat) : Bool :=
  match key li, key lj with
  | none, none => decide (li < lj)
  | none, some _ => false
  | some _, none => true
  | some a, some b => before a b

/-- The row order that `sortOrder` computes (the given order when it fails). -/
def sortedOrder (c : Column) (desc : Bool) (order : List Nat) : List Nat :=
  match sortOrder c desc order with
  | .ok out => out
  | .error _ => order

/-- The row order that the stable sort of a key column by its comparator has to be. -/
def stableOrder (c : Column) (desc : Bool) (order : List Nat) : List Nat :=
  match c with
  | .int64 col => stableSort (rowLess (beforeInt64 desc) col.key) order
  | .float64 col => stableSort (rowLess (beforeFloat64 desc) col.key) order
  | .bool col => stableSort (rowLess (beforeBool desc) col.key) order
  | .utf8 col => stableSort (rowLess (beforeUtf8 desc) col.key) order

/-- A strict linear order given as a boolean comparison. -/
structure StrictLinear {α : Type} (before : α → α → Bool) : Prop where
  irrefl : ∀ a, before a a = false
  trans : ∀ a b c, before a b = true → before b c = true → before a c = true
  total : ∀ a b, before a b = false → before b a = false → a = b

/-- A strict weak order given as a boolean comparison: asymmetric, and "not before" is
transitive. -/
structure StrictWeak {β : Type} (p : β → β → Bool) : Prop where
  asymm : ∀ a b, p a b = true → p b a = false
  negtrans : ∀ a b c, p a b = false → p b c = false → p a c = false

/-- The comparison `before` is a strict weak order on the values that satisfy `S`. -/
structure WeakOn {α : Type} (before : α → α → Bool) (S : α → Prop) : Prop where
  asymm : ∀ a b, S a → S b → before a b = true → before b a = false
  negtrans : ∀ a b c, S a → S b → S c → before a b = false → before b c = false →
    before a c = false

/-- Order on row numbers that a stable sort by `p` realises: `p` first, ties by position. -/
def tieLe {β : Type} (p : β → β → Bool) (pos : β → Nat) (a b : β) : Prop :=
  p a b = true ∨ (p b a = false ∧ pos a ≤ pos b)

/-- What the comparison of a later element `y` with an earlier element `x` settles about
an arrangement relation `N`: the comparison succeeds, `y` may stand before `x` when it
answers true, and `x` may stand before `y` when it answers false. -/
def Settles {β : Type} (less : β → β → Except Err Bool) (N : β → β → Prop) (x y : β) : Prop :=
  ∃ v, less y x = .ok v ∧ (v = true → N y x) ∧ (v = false → N x y)

/-- State of `stable_func` between two rounds: `data` consists of runs of `size` elements,
the last one possibly shorter; every run is arranged by `N` and is a rearrangement of the
stretch of `orig` that stood at its place. -/
inductive Blocks {β : Type} (N : β → β → Prop) (size : Nat) : List β → List β → Prop
  | last (d xs : List β) : d.length ≤ size → d.Pairwise N → d.Perm xs → Blocks N size d xs
  | cons (b d xb xs : List β) : b.length = size → b.Pairwise N → b.Perm xb →
      Blocks N size d xs → Blocks N size (b ++ d) (xb ++ xs)

/-- Go `==` on two key values of one column type; on Float64 no NaN equals anything and
`-0` equals `+0`. -/
def Cell.sameKey : Cell → Cell → Bool
  | .int64 a, .int64 b => a == b
  | .float64 a, .float64 b => Float64.eq a b
  | .bool a, .bool b => a == b
  | .utf8 a, .utf8 b => a == b
  | _, _ => false

/-- No valid row of a Float64 column holds a NaN (columns of the other types hold none). -/
def Column.NaNFree : Column → Prop
  | .float64 t => ∀ r ∈ t.rows, r.2 = true → r.1.isNaN = false
  | _ => True

instance (c : Column) : Decidable c.NaNFree := by
  cases c <;> unfold Column.NaNFree <;> infer_instance

/-- The tail of `maskOf`: the `_mask` column built from the cells `(vals[i], valid[i])`. -/
def packMask (cs : List (Bool × Bool)) : Except Err BoolColumn :=
  TypedColumn.New "_mask" (cs.map Prod.fst) (some (cs.map Prod.snd))

/-- Row-wise combination performed by `logicalExpr.Eval` on two mask rows. -/
def logicalExpr.combine (op : String) (a b : Bool × Bool) : Bool × Bool :=
  if !a.2 || !b.2 then (false, false)
  else (if op == "and" then a.1 && b.1 else a.1 || b.1, true)

/-- The cells `(vals[i], valid[i])` that `Eval` computes before building the mask. -/
def Expr.cells (rt : FloatRuntime) (df : DataFrame) : Expr → Except Err (List (Bool × Bool))
  | .compareExpr left op right => do
    match ← df.Column left with
    | none => throw (Err.unknownColumn left)
    | some col => (List.range col.Len).mapM (compareExpr.cell rt op right col)
  | .evenExpr name => do
    match ← df.Column name with
    | none => throw (Err.unknownColumn name)
    | some col => (List.range col.Len).mapM (evenExpr.cell rt col)
  | .logicalExpr left right op => do
    let ca ← Expr.cells rt df left
    let cb ← Expr.cells rt df right
    if ca.length != cb.length then throw Err.logicalMaskLengthMismatch
    else pure (List.zipWith (logicalExpr.combine op) ca cb)

/-- The rows that a mask retains: those where the mask is non-null and true. -/
def keptRows (mask : BoolColumn) (n : Nat) : List Nat :=
  (List.range n).filter (fun i =>
    decide (mask.IsNull i = .ok false) && decide (mask.Value i = .ok true))

/-- Ascending order of the values of one column type: numeric order for Int64, `false`
before `true` for Bool, byte-wise lexicographic order for Utf8. -/
def Cell.le : Cell → Cell → Prop
  | .int64 a, .int64 b => a ≤ b
  | .bool a, .bool b => a = true → b = true
  | .utf8 a, .utf8 b => a = b ∨ List.Lex (· < ·) a b
  | _, _ => False

/-- A float runtime for the samples, none of which reaches a float conversion. -/
def sampleRuntime : FloatRuntime := ⟨fun _ => 0, fun _ => ⟨0⟩, fun _ => none, fun _ => []⟩

/-- No sort operation of the list is keyed on a Float64 column of the frame. -/
def SortKeysOK (df : DataFrame) (ops : List planOp) : Prop :=
  ∀ op ∈ ops, op.typeID = opSort →
    ∀ c ∈ df.columns, c.Name = op.sortBy → c.DType ≠ DTypeFloat64

instance (df : DataFrame) (ops : List planOp) : Decidable (SortKeysOK df ops) := by
  unfold SortKeysOK; infer_instance

/-- No sort operation of the list is keyed on a column of the frame that holds a NaN in a
valid row. -/
def SortKeysNaNFree (df : DataFrame) (ops : List planOp) : Prop :=
  ∀ op ∈ ops, op.typeID = opSort →
    ∀ c ∈ df.columns, c.Name = op.sortBy → c.NaNFree

instance (df : DataFrame) (ops : List planOp) : Decidable (SortKeysNaNFree df ops) := by
  unfold SortKeysNaNFree; infer_instance

/-- Record sources whose CSV reader returns `sampleFrame` for every path. -/
def sampleReaders : Readers :=
  ⟨fun _ _ => .ok sampleFrame, fun _ => .error (.source 0), id, fun _ => List.Perm.refl _⟩

/-- The frame `x:Float64 = [3.0, NaN, 1.0]`, all rows valid. -/
def sampleFloats : DataFrame :=
  ⟨[.float64 ⟨"x", [⟨0x4008000000000000⟩, ⟨0x7ff8000000000000⟩, ⟨0x3ff0000000000000⟩], ⟨[7]⟩⟩],
    [("x", 0)], 3⟩

/-- Record sources whose CSV reader returns `sampleFloats` for every path. -/
def sampleFloatReaders : Readers :=
  ⟨fun _ _ => .ok sampleFloats, fun _ => .error (.source 0), id, fun _ => List.Perm.refl _⟩

/-- The column `k:Float64` of 21 valid rows: rows 0 to 16 hold `2.0`, row 17 holds NaN,
row 18 holds `1.0`, row 19 holds `5.0` and row 20 holds `1.0`. -/
def sampleNaNKey : Column :=
  .float64 ⟨"k", List.replicate 17 ⟨0x4000000000000000⟩ ++
    [⟨0x7ff8000000000000⟩, ⟨0x3ff0000000000000⟩, ⟨0x4014000000000000⟩, ⟨0x3ff0000000000000⟩],
    ⟨[2097151]⟩⟩

/-- The frame whose only column is `sampleNaNKey`. -/
def sampleNaNFrame : DataFrame := ⟨[sampleNaNKey], [("k", 0)], 21⟩

/-- The frame `x:Float64 = [3.0, -0.0, 1.0, 2.0]`, all rows valid. -/
def sampleCleanFloats : DataFrame :=
  ⟨[.float64 ⟨"x", [⟨0x4008000000000000⟩, ⟨0x8000000000000000⟩, ⟨0x3ff0000000000000⟩,
    ⟨0x4000000000000000⟩], ⟨[15]⟩⟩], [("x", 0)], 4⟩

/-- Record sources whose CSV reader returns `sampleCleanFloats` for every path. -/
def sampleCleanReaders : Readers :=
  ⟨fun _ _ => .ok sampleCleanFloats, fun _ => .error (.source 0), id,
    fun _ => List.Perm.refl _⟩

/-- The plan `scan.select("name").filter(Col("age").Gt(9))`. -/
def planSelectThenFilter : LazyFrame :=
  ((ScanCSV "people.csv" ⟨0, []⟩).Select ["name"]).Filter ((Col "age").Gt (.int 9))

/-- The plan `scan.sort("x", false).filter(Col("x").Gt(0.0))`. -/
def planSortThenFilter : LazyFrame :=
  ((ScanCSV "floats.csv" ⟨0, []⟩).Sort "x" false).Filter ((Col "x").Gt (.float64 ⟨0⟩))

/-! ### Plans on the heap -/

/-- A slice header is valid in a heap: its length is within its capacity and, unless
the capacity is zero, it points at an allocated array of exactly that capacity. -/
def opHeap.Valid (h : opHeap) (s : opSlice) : Prop :=
  s.len ≤ s.cap ∧ (0 < s.cap → s.arr < h.arrays.length ∧ (h.arrays.getD s.arr []).length = s.cap)

instance (h : opHeap) (s : opSlice) : Decidable (h.Valid s) := by
  unfold opHeap.Valid; infer_instance

/-- The plan that a stored `LazyFrame` denotes in a heap: its source and the elements
of its operation slice. -/
def planRef.view (h : opHeap) (p : planRef) : LazyFrame := ⟨p.source, h.read p.ops⟩

/-- The arrays of `h` are still there, unchanged, in `h2`. -/
def opHeap.Extends (h2 h : opHeap) : Prop :=
  h.arrays.length ≤ h2.arrays.length ∧
    ∀ j, j < h.arrays.length → h2.arrays.getD j [] = h.arrays.getD j []

/-- Outcome of a chaining call made on the stored plan `p` in the heap `h`, seen from
`p` and from any other stored plan `r`: the returned plan denotes `expected`, the plans
`p` and `r` denote what they denoted before the call, and the three slices are valid in
the heap after the call. -/
def planRef.ChainedTo (h : opHeap) (p r : planRef) (res : opHeap × planRef)
    (expected : LazyFrame) : Prop :=
  res.2.view res.1 = expected ∧ p.view res.1 = p.view h ∧ r.view res.1 = r.view h ∧
    res.1.Valid res.2.ops ∧ res.1.Valid p.ops ∧ res.1.Valid r.ops

/-- A growth rule that doubles the needed capacity. -/
def sampleGrow : Nat → Nat → Nat := fun _ need => 2 * need

/-- A heap with one backing array of capacity four that holds two operations. -/
def sampleHeap : opHeap :=
  ⟨[[⟨opSelect, ["age"], none, "", false⟩, ⟨opSort, [], none, "age", true⟩,
    planOp.zero, planOp.zero]]⟩

/-- A stored plan whose slice has spare capacity in the array of `sampleHeap`. -/
def samplePlanRef : planRef := ⟨⟨sourceJSON, "people.json", ⟨0, []⟩⟩, ⟨0, 2, 4⟩⟩

/-! ### Frames and masks -/

/-- The invariants of a frame: at least one column, every column as long as the frame
is high, pairwise distinct column names, and a name index that sends the name of each
column to the position of that column. -/
def FrameInvariants (df : DataFrame) : Prop :=
  0 < df.Width ∧ (∀ c ∈ df.Columns, c.Len = df.Height) ∧ ¬ SharesName df.Columns ∧
    ∀ (i : Nat) (c : Column), df.Columns[i]? = some c → df.index.lookup c.Name = some i

/-- Row `i` of a mask reads back as null when `valid` is false, and otherwise as the
non-null value `val`. -/
def MaskRow (m : BoolColumn) (i : Nat) (val valid : Bool) : Prop :=
  m.IsNull i = .ok (!valid) ∧ (valid = true → m.Value i = .ok val)

/-- The verdict of `Even` on a non-null value: an even integer, a float whose
conversion to `int64` is even, a text of even byte length, a false boolean. -/
def Cell.isEven (rt : FloatRuntime) : Cell → Prop
  | .int64 v => 2 ∣ v
  | .float64 v => 2 ∣ rt.toInt64 v
  | .utf8 v => 2 ∣ v.length
  | .bool v => v = false

instance (rt : FloatRuntime) (c : Cell) : Decidable (c.isEven rt) := by
  cases c <;> unfold Cell.isEven <;> infer_instance

/-- The frame `age:Int64 = [null, null]`. -/
def sampleNullAges : DataFrame := ⟨[.int64 ⟨"age", [0, 0], ⟨[0]⟩⟩], [("age", 0)], 2⟩

/-- The frame `x:Int64 = [4, 3, null, -2]`. -/
def sampleXs : DataFrame := ⟨[.int64 ⟨"x", [4, 3, 0, -2], ⟨[11]⟩⟩], [("x", 0)], 4⟩

/-- Two frames satisfying the frame invariants hold the same columns, possibly in a
different order. -/
def SameColumns (a b : DataFrame) : Prop := a.WF ∧ b.WF ∧ a.columns.Perm b.columns

instance (a b : DataFrame) : Decidable (SameColumns a b) := by
  unfold SameColumns; infer_instance

/-- Two outcomes agree up to the order of the columns: the same error, or two frames
holding the same columns. -/
def SameUpToOrder : Except Err DataFrame → Except Err DataFrame → Prop
  | .ok a, .ok b => SameColumns a b
  | .error e1, .error e2 => e1 = e2
  | _, _ => False

/-- The records `{"x": 4, "y": "a"}`, `{"x": 3, "y": "b"}`, `{"x": -2, "y": null}` of a
JSON source. -/
def sampleJsonRows : List jsonRow :=
  [[("x", some [52]), ("y", some [97])], [("x", some [51]), ("y", some [98])],
    [("x", some [45, 50]), ("y", none)]]

/-- A call in which `range` visits the keys `x`, `y` in this order. -/
def sampleJsonForward : Readers :=
  ⟨fun _ _ => .error (.source 0), fun _ => .ok sampleJsonRows, id, fun _ => List.Perm.refl _⟩

/-- A call on the same files in which `range` visits the keys in the order `y`, `x`. -/
def sampleJsonBackward : Readers :=
  ⟨fun _ _ => .error (.source 0), fun _ => .ok sampleJsonRows, List.reverse,
    fun ks => List.reverse_perm ks⟩

/-- The plan `filter(Even x), sort(x)` over a JSON source. -/
def planJsonFilterSort : LazyFrame :=
  ((ScanJSON "xs.json").Filter (Col "x").Even).Sort "x" false

/-- The plan `sort(x), filter(Even x)` over the same source. -/
def planJsonSortFilter : LazyFrame :=
  ((ScanJSON "xs.json").Sort "x" false).Filter (Col "x").Even

/-- The plan `filter(Even x), select(x), sort(x)` over a JSON source. -/
def planJsonEvenFirst : LazyFrame :=
  (((ScanJSON "xs.json").Filter (Col "x").Even).Select ["x"]).Sort "x" false

/-- The plan `select(x), filter(Even x), sort(x)` over the same source. -/
def planJsonEvenSecond : LazyFrame :=
  (((ScanJSON "xs.json").Select ["x"]).Filter (Col "x").Even).Sort "x" false

/-! ### Schema inference -/

/-- Every value of the sample that is not a null token passes the test `ok`. -/
def AllParse (ok : GoString → Bool) (values nullSet : List GoString) : Prop :=
  ∀ v ∈ values, v ∉ nullSet → ok v = true

instance (ok : GoString → Bool) (values nullSet : List GoString) :
    Decidable (AllParse ok values nullSet) := by
  unfold AllParse; infer_instance

/-- The text parses as a 64-bit integer. -/
def parsesInt (v : GoString) : Bool := (ParseInt v).isSome

/-- The text parses as a float. -/
def parsesFloat (rt : FloatRuntime) (v : GoString) : Bool := (rt.parseFloat v).isSome

/-- The text parses as a boolean after lowering its case. -/
def parsesBool (v : GoString) : Bool := (ParseBool (ToLower v)).isSome

/-- A runtime whose `ParseFloat` accepts the integer texts and the text `1.5`; the
parsed value plays no part in inference and is only exact for `1.5`. -/
def sampleParseRuntime : FloatRuntime :=
  ⟨fun _ => 0, fun _ => ⟨0⟩,
    fun s => if (ParseInt s).isSome then some ⟨0⟩
      else if s = [49, 46, 53] then some ⟨0x3FF8000000000000⟩ else none,
    fun _ => []⟩

/-- The operation list `sort(name), select(name, age), filter(Even age)`. -/
def opsSortSelectEven : List planOp :=
  [⟨opSort, [], none, "name", false⟩, ⟨opSelect, ["name", "age"], none, "", false⟩,
    ⟨opFilter, [], some (Col "age").Even, "", false⟩]

/-! ### The content fingerprint -/

/-- Row `i` reads the same in both columns: the same nullity and, where present, the
same value. -/
def Column.SameCell (a b : Column) (i : Nat) : Prop :=
  a.IsNull i = b.IsNull i ∧ (a.IsNull i = .ok false → a.Value i = b.Value i)

instance (a b : Column) (i : Nat) : Decidable (a.SameCell b i) := by
  unfold Column.SameCell; infer_instance

/-- Row `i` of the Utf8 column `a` is null where the Utf8 column `b` holds a present
empty string. -/
def Column.NullVersusEmpty (a b : Column) (i : Nat) : Prop :=
  a.DType = DTypeUtf8 ∧ b.DType = DTypeUtf8 ∧ a.IsNull i = .ok true ∧
    b.IsNull i = .ok false ∧ b.Value i = .ok (.utf8 [])

instance (a b : Column) (i : Nat) : Decidable (a.NullVersusEmpty b i) := by
  unfold Column.NullVersusEmpty; infer_instance

/-- Two columns of the same name, type and length whose first `n` rows are identical
except where one holds a null and the other a present empty string (Utf8 only). -/
def Column.TwinOf (n : Nat) (a b : Column) : Prop :=
  a.Name = b.Name ∧ a.DType = b.DType ∧ a.Len = b.Len ∧
    ∀ i, i < n → a.SameCell b i ∨ a.NullVersusEmpty b i ∨ b.NullVersusEmpty a i

instance (n : Nat) (a b : Column) : Decidable (a.TwinOf n b) := by
  unfold Column.TwinOf; infer_instance

/-- Two frames that are identical except that at some cells of Utf8 columns one holds a
null and the other holds a present empty string. -/
def NullEmptyTwins (df1 df2 : DataFrame) : Prop :=
  df1.nrows = df2.nrows ∧ List.Forall₂ (Column.TwinOf df1.nrows) df1.columns df2.columns

instance (df1 df2 : DataFrame) : Decidable (NullEmptyTwins df1 df2) := by
  unfold NullEmptyTwins; infer_instance

/-- The frame `id:Int64 = [1, 2]`, `note:Utf8 = [null, "x"]`. -/
def sampleNoteNull : DataFrame :=
  ⟨[.int64 ⟨"id", [1, 2], ⟨[3]⟩⟩, .utf8 ⟨"note", [[], [120]], ⟨[2]⟩⟩],
    [("note", 1), ("id", 0)], 2⟩

/-- The frame `id:Int64 = [1, 2]`, `note:Utf8 = ["", "x"]`. -/
def sampleNoteEmpty : DataFrame :=
  ⟨[.int64 ⟨"id", [1, 2], ⟨[3]⟩⟩, .utf8 ⟨"note", [[], [120]], ⟨[3]⟩⟩],
    [("note", 1), ("id", 0)], 2⟩

/-! ### Builders -/

/-- The dtype that a builder produces. -/
def typedBuilder.dtype : typedBuilder → DType
  | .int64 _ => DTypeInt64
  | .float64 _ => DTypeFloat64
  | .bool _ => DTypeBool
  | .utf8 _ => DTypeUtf8

/-- The null set of a builder. -/
def typedBuilder.nulls : typedBuilder → List GoString
  | .int64 b => b.nulls
  | .float64 b => b.nulls
  | .bool b => b.nulls
  | .utf8 b => b.nulls

/-- The validity bits of a builder. -/
def typedBuilder.valid : typedBuilder → bitmapBuilder
  | .int64 b => b.valid
  | .float64 b => b.valid
  | .bool b => b.valid
  | .utf8 b => b.valid

/-- The data slots of a builder, as cells. -/
def typedBuilder.cells : typedBuilder → List Cell
  | .int64 b => b.data.map Cell.int64
  | .float64 b => b.data.map Cell.float64
  | .bool b => b.data.map Cell.bool
  | .utf8 b => b.data.map Cell.utf8

/-- The value that a text denotes under a dtype, when it parses: `strconv.ParseInt` in
base 10, `strconv.ParseFloat`, `strconv.ParseBool` after lowering the case, and the
text itself for Utf8. -/
def parseCell (rt : FloatRuntime) : DType → GoString → Option Cell
  | DTypeInt64, raw => (ParseInt raw).map Cell.int64
  | DTypeFloat64, raw => (rt.parseFloat raw).map Cell.float64
  | DTypeBool, raw => (ParseBool (ToLower raw)).map Cell.bool
  | _, raw => some (Cell.utf8 raw)

/-- The row that a token stands for: `none` (null) for a null token, otherwise the
parsed value. -/
def rowOf (rt : FloatRuntime) (dtype : DType) (nulls : List GoString) (raw : GoString) :
    Option Cell :=
  if raw ∈ nulls then none else parseCell rt dtype raw

/-- A builder holds the rows `rows` (`none` for a null row): one validity bit and one
data slot per row, and the data slot of each present row holds its value. -/
def typedBuilder.HoldsRows (tb : typedBuilder) (rows : List (Option Cell)) : Prop :=
  tb.valid.Holds (rows.map Option.isSome) ∧ tb.cells.length = rows.length ∧
    ∀ (i : Nat) (v : Cell), rows[i]? = some (some v) → tb.cells[i]? = some v

/-- The column `col` is named `name`, has the dtype `dtype` and consists of the rows
`rows`: row `i` is null exactly when `rows[i]` is `none`, and a present row reads back
its value. -/
def Column.HasRows (col : Column) (name : String) (dtype : Grizzly.DType)
    (rows : List (Option Cell)) :
    Prop :=
  col.Name = name ∧ col.DType = dtype ∧ col.Len = rows.length ∧
    ∀ (i : Nat) (r : Option Cell), rows[i]? = some r →
      col.IsNull i = .ok r.isNone ∧ ∀ v, r = some v → col.Value i = .ok v

/-- The token `7`. -/
def tokenSeven : GoString := [55]

/-- The token `NA`. -/
def tokenNA : GoString := [78, 65]

/-- The token `x`. -/
def tokenX : GoString := [120]
/-! ## Lemmas: slices and bitmaps -/

theorem word_bit (w k : Nat) : ((w >>> k) &&& 1 == 1) = w.testBit k := by
  rw [Nat.testBit_to_div_mod, Nat.and_one_is_mod, Nat.shiftRight_eq_div_pow]
  by_cases h : w / 2 ^ k % 2 = 1 <;> simp [h]

theorem sliceGet_of_lt {α : Type} (xs : List α) (i : Nat) (h : i < xs.length) :
    sliceGet xs i = .ok (xs.get ⟨i, h⟩) := by
  simp [sliceGet, List.getElem?_eq_getElem h]

theorem sliceGet_getD {α : Type} (xs : List α) (i : Nat) (d : α) (h : i < xs.length) :
    sliceGet xs i = .ok (xs.getD i d) := by
  simp [sliceGet, List.getElem?_eq_getElem h, List.getD_eq_getElem _ _ h]

theorem sliceSet_of_lt {α : Type} (xs : List α) (i : Nat) (x : α) (h : i < xs.length) :
    sliceSet xs i x = .ok (xs.set i x) := by
  simp [sliceSet, h]

theorem bitmap.get_of_lt (b : bitmap) (i : Nat) (h : i / 64 < b.bits.length) :
    b.get i = .ok (b.bit i) := by
  unfold bitmap.get bitmap.bit
  rw [sliceGet_getD _ _ 0 h]
  show Except.ok _ = _
  rw [word_bit]

theorem getD_append_zero (l : List Nat) (j : Nat) : (l ++ [0]).getD j 0 = l.getD j 0 := by
  rcases Nat.lt_trichotomy j l.length with h | h | h
  · rw [List.getD_append _ _ _ _ h]
  · subst h
    simp [List.getD_eq_getElem?_getD]
  · rw [List.getD_eq_default _ _ (by simp; omega), List.getD_eq_default _ _ (by omega)]

theorem testBit_mark (w k j : Nat) :
    (w ||| (1 <<< k)).testBit j = (w.testBit j || decide (j = k)) := by
  rw [Nat.testBit_or, Nat.one_shiftLeft, Nat.testBit_two_pow]
  by_cases h : j = k
  · subst h; simp
  · have h' : ¬ k = j := fun e => h e.symm
    simp [h, h']

theorem getD_set (l : List Nat) (p j x : Nat) (hp : p < l.length) :
    (l.set p x).getD j 0 = if j = p then x else l.getD j 0 := by
  simp only [List.getD_eq_getElem?_getD, List.getElem?_set]
  by_cases h : p = j
  · subst h; simp [hp]
  · have h' : ¬ j = p := fun e => h e.symm
    simp [h, h']

theorem getD_snoc (bs : List Bool) (v : Bool) (i : Nat) :
    (bs ++ [v]).getD i false = if i = bs.length then v else bs.getD i false := by
  rcases Nat.lt_trichotomy i bs.length with h | h | h
  · rw [List.getD_append _ _ _ _ h, if_neg (by omega)]
  · subst h; simp [List.getD_eq_getElem?_getD]
  · have h1 : (bs ++ [v]).length ≤ i := by simp; omega
    rw [List.getD_eq_default _ _ h1, List.getD_eq_default _ _ (by omega), if_neg (by omega)]

theorem bitmapBuilder.push_holds (b : bitmapBuilder) (bs : List Bool) (v : Bool)
    (h : b.Holds bs) : (b.push v).Holds (bs ++ [v]) ∧ b.Append v = .ok (b.push v) := by
  obtain ⟨hn, hl, hb⟩ := h
  have hlen : (if b.n % 64 == 0 then b.bits ++ [0] else b.bits).length = (bs.length + 1 + 63) / 64 := by
    split
    · rename_i h0
      have : b.n % 64 = 0 := by simpa using h0
      simp [hl]; omega
    · rename_i h0
      have : ¬ b.n % 64 = 0 := by simpa using h0
      simp [hl]; omega
  have hin : b.n / 64 < (if b.n % 64 == 0 then b.bits ++ [0] else b.bits).length := by
    rw [hlen]; omega
  have hsame : ∀ j, (if b.n % 64 == 0 then b.bits ++ [0] else b.bits).getD j 0 = b.bits.getD j 0 := by
    intro j
    split
    · exact getD_append_zero _ _
    · rfl
  refine ⟨⟨?_, ?_, ?_⟩, ?_⟩
  · simp [bitmapBuilder.push, hn]
  · cases v <;> simp only [bitmapBuilder.push, List.length_append, List.length_singleton, List.length_set] <;> simpa using hlen
  · intro i
    have hold := hb i
    have holdn := hb b.n
    rw [List.getD_eq_default _ _ (by omega)] at holdn
    simp only [bitmap.bit] at hold holdn ⊢
    cases v
    · have e1 : (bitmapBuilder.push b false).bits = if b.n % 64 == 0 then b.bits ++ [0] else b.bits := rfl
      rw [e1, hsame, hold, getD_snoc]
      split
      · rename_i e; subst e; rw [List.getD_eq_default _ _ (Nat.le_refl _)]
      · rfl
    · have e1 : (bitmapBuilder.push b true).bits =
          (if b.n % 64 == 0 then b.bits ++ [0] else b.bits).set (b.n / 64)
            ((if b.n % 64 == 0 then b.bits ++ [0] else b.bits).getD (b.n / 64) 0 |||
              (1 <<< (b.n % 64))) := rfl
      rw [e1, getD_set _ _ _ _ hin, hsame, hsame, getD_snoc]
      by_cases hw : i / 64 = b.n / 64
      · rw [if_pos hw, testBit_mark, ← hw, hold]
        by_cases hi : i = bs.length
        · have h2 : i % 64 = b.n % 64 := by omega
          rw [if_pos hi, h2]; simp
        · have h2 : ¬ i % 64 = b.n % 64 := by omega
          rw [if_neg hi]; simp [h2]
      · rw [if_neg hw, hold]
        have hne : i ≠ bs.length := by intro e; apply hw; rw [e, hn]
        rw [if_neg hne]
  · unfold bitmapBuilder.Append bitmapBuilder.push
    cases v
    · rfl
    · simp only [if_true]
      rw [sliceGet_getD _ _ 0 hin]
      show sliceSet _ _ _ >>= _ = _
      rw [sliceSet_of_lt _ _ _ hin]
      rfl

theorem packBits_snoc (bs : List Bool) (v : Bool) :
    packBits (bs ++ [v]) = (packBits bs).push v := by
  simp [packBits, List.foldl_append]

theorem packBits_holds (bs : List Bool) : (packBits bs).Holds bs := by
  induction bs using List.reverseRecOn with
  | nil => exact ⟨rfl, rfl, fun i => by simp [packBits, bitmap.bit]⟩
  | append_singleton bs v ih =>
    rw [packBits_snoc]
    exact (bitmapBuilder.push_holds _ _ _ ih).1

theorem packBits_Append (bs : List Bool) (v : Bool) :
    (packBits bs).Append v = .ok (packBits (bs ++ [v])) := by
  rw [packBits_snoc]
  exact (bitmapBuilder.push_holds _ _ _ (packBits_holds bs)).2

theorem packBits_bit (bs : List Bool) (i : Nat) :
    (packBits bs).Build.bit i = bs.getD i false := (packBits_holds bs).2.2 i

theorem packBits_length (bs : List Bool) :
    (packBits bs).Build.bits.length = (bs.length + 63) / 64 := (packBits_holds bs).2.1

/-! ## Lemmas: typed columns -/

theorem pick_length_le {β : Type} (ms : List Bool) (xs : List β) :
    (pick ms xs).length ≤ xs.length := by
  induction ms generalizing xs with
  | nil => simp [pick]
  | cons m ms ih =>
    cases xs with
    | nil => cases m <;> simp [pick]
    | cons x xs =>
      cases m
      · simp only [pick, List.length_cons]; exact Nat.le_succ_of_le (ih xs)
      · simp only [pick, List.length_cons]; exact Nat.succ_le_succ (ih xs)

theorem pick_map {β γ : Type} (f : β → γ) (ms : List Bool) (xs : List β) :
    pick ms (xs.map f) = (pick ms xs).map f := by
  induction ms generalizing xs with
  | nil => simp [pick]
  | cons m ms ih =>
    cases xs with
    | nil => cases m <;> simp [pick]
    | cons x xs => cases m <;> simp [pick, ih]

theorem countTrue_aux (ms : List Bool) (k : Nat) :
    ms.foldl (fun n m => if m then n + 1 else n) k = k + ms.count true := by
  induction ms generalizing k with
  | nil => simp
  | cons m ms ih =>
    cases m
    · simp [ih]
    · simp [ih]; omega

theorem countTrue_eq (ms : List Bool) : TypedColumn.countTrue ms = ms.count true := by
  simp [TypedColumn.countTrue, countTrue_aux]

theorem pick_length {β : Type} (ms : List Bool) (xs : List β) (h : ms.length = xs.length) :
    (pick ms xs).length = ms.count true := by
  induction ms generalizing xs with
  | nil => simp [pick]
  | cons m ms ih =>
    cases xs with
    | nil => simp at h
    | cons x xs =>
      have h' : ms.length = xs.length := by simpa using h
      cases m <;> simp [pick, ih xs h']

namespace TypedColumn

variable {α : Type}

theorem IsNull_of_lt (c : TypedColumn α) (i : Nat) (h : i / 64 < c.valid.bits.length) :
    c.IsNull i = .ok (!c.valid.bit i) := by
  unfold IsNull
  rw [bitmap.get_of_lt _ _ h]
  rfl

theorem IsNull_of_WF (c : TypedColumn α) (hwf : c.WF) (i : Nat) (h : i < c.data.length) :
    c.IsNull i = .ok (!c.valid.bit i) :=
  c.IsNull_of_lt i (by unfold WF at hwf; omega)

theorem filterLoop_spec (c : TypedColumn α) (mask : List Bool) (rest : List α) :
    ∀ (i : Nat) (ms : List Bool) (acc pad : List α) (flags : List Bool),
      mask.drop i = ms → ms.length = rest.length →
      i + rest.length ≤ 64 * c.valid.bits.length →
      (pick ms rest).length ≤ pad.length →
      filterLoop c mask rest i (acc ++ pad, packBits flags, acc.length) =
        .ok (acc ++ pick ms rest ++ pad.drop (pick ms rest).length,
          packBits (flags ++ pick ms ((List.range' i rest.length).map c.valid.bit)),
          acc.length + (pick ms rest).length) := by
  induction rest with
  | nil =>
    intro i ms acc pad flags _ hlen _ _
    have : ms = [] := List.length_eq_zero.mp hlen
    subst this
    simp [filterLoop, pick, pure, Except.pure]
  | cons x rest ih =>
    intro i ms acc pad flags hdrop hlen hcov hpad
    cases ms with
    | nil => simp at hlen
    | cons m ms =>
      have hlen' : ms.length = rest.length := by simpa using hlen
      have hmi : mask[i]? = some m := by
        have := congrArg (fun l => l[0]?) hdrop
        simpa using this
      have hdrop' : mask.drop (i + 1) = ms := by
        have := congrArg List.tail hdrop
        simpa using this
      have hget : sliceGet mask i = .ok m := by simp [sliceGet, hmi]
      have hcov' : i + 1 + rest.length ≤ 64 * c.valid.bits.length := by
        simp only [List.length_cons] at hcov; omega
      unfold filterLoop
      rw [hget]
      cases m
      · have hpad' : (pick ms rest).length ≤ pad.length := by simpa [pick] using hpad
        have := ih (i + 1) ms acc pad flags hdrop' hlen' hcov' hpad'
        simp only [pick, List.range'_succ, List.map_cons, List.length_cons] at this ⊢
        exact this
      · cases pad with
        | nil => simp [pick] at hpad
        | cons p pad =>
          have hpad' : (pick ms rest).length ≤ pad.length := by simpa [pick] using hpad
          have hset : sliceSet (acc ++ p :: pad) acc.length x = .ok ((acc ++ [x]) ++ pad) := by
            rw [sliceSet_of_lt _ _ _ (by simp)]
            simp
          have hnull : c.IsNull i = .ok (!c.valid.bit i) :=
            c.IsNull_of_lt i (by simp only [List.length_cons] at hcov; omega)
          have := ih (i + 1) ms (acc ++ [x]) pad (flags ++ [c.valid.bit i]) hdrop' hlen' hcov' hpad'
          simp only [List.length_append, List.length_singleton] at this
          show (sliceSet (acc ++ p :: pad) acc.length x >>= fun out =>
            c.IsNull i >>= fun null => (packBits flags).Append (!null) >>= fun valid =>
              filterLoop c mask rest (i + 1) (out, valid, acc.length + 1)) = _
          rw [hset, hnull]
          show ((packBits flags).Append (!!c.valid.bit i) >>= fun valid =>
              filterLoop c mask rest (i + 1) (acc ++ [x] ++ pad, valid, acc.length + 1)) = _
          rw [Bool.not_not, packBits_Append]
          show filterLoop c mask rest (i + 1) (acc ++ [x] ++ pad, _, acc.length + 1) = _
          rw [this]
          simp [pick, List.range'_succ, Nat.add_assoc, Nat.add_comm 1]


theorem valids_length (c : TypedColumn α) : c.valids.length = c.data.length := by
  simp [valids]

theorem rows_length (c : TypedColumn α) : c.rows.length = c.data.length := by
  simp [rows, valids_length]

theorem rows_fst (c : TypedColumn α) : c.rows.map Prod.fst = c.data := by
  unfold rows
  rw [List.map_fst_zip]
  rw [valids_length]

theorem rows_snd (c : TypedColumn α) : c.rows.map Prod.snd = c.valids := by
  unfold rows
  rw [List.map_snd_zip]
  rw [valids_length]

theorem rows_getElem? (c : TypedColumn α) (r : Nat) (h : r < c.data.length) :
    c.rows[r]? = some (c.data.get ⟨r, h⟩, c.valid.bit r) := by
  unfold rows valids
  rw [List.getElem?_eq_getElem (by simp; exact h)]
  simp

theorem typedFilter_spec [Inhabited α] (c : TypedColumn α) (mask : List Bool) (hwf : c.WF)
    (hlen : mask.length = c.data.length) :
    c.Filter mask = .ok (ofRows c.name (pick mask c.rows)) := by
  have h := filterLoop_spec c mask c.data 0 mask [] (List.replicate (countTrue mask) default) []
    (by simp) hlen (by unfold WF at hwf; omega)
    (by rw [pick_length _ _ hlen, countTrue_eq]; simp)
  simp only [List.nil_append, List.length_nil, Nat.zero_add] at h
  unfold Filter
  show (filterLoop c mask c.data 0 (List.replicate (countTrue mask) default, ⟨[], 0⟩, 0) >>= _) = _
  have hp : (⟨[], 0⟩ : bitmapBuilder) = packBits [] := rfl
  rw [hp, h]
  show Except.ok _ = Except.ok _
  congr 1
  unfold Owned ofRows
  have h1 : (pick mask c.rows).map Prod.fst = pick mask c.data := by
    rw [← pick_map, rows_fst]
  have h2 : (pick mask c.rows).map Prod.snd = pick mask c.valids := by
    rw [← pick_map, rows_snd]
  rw [h1, h2]
  have h3 : List.drop (pick mask c.data).length (List.replicate (countTrue mask) (default : α)) = [] := by
    rw [List.drop_eq_nil_iff]
    simp [pick_length _ _ hlen, countTrue_eq]
  rw [h3]
  simp [valids, List.range_eq_range']

theorem takeLoop_spec (c : TypedColumn α) (hwf : c.WF) (order : List Nat) :
    ∀ (out : List α) (flags : List Bool), (∀ r ∈ order, r < c.data.length) →
      takeLoop c (order.map Int.ofNat) (out, packBits flags) =
        .ok (out ++ (gather order c.rows).map Prod.fst,
          packBits (flags ++ (gather order c.rows).map Prod.snd)) := by
  induction order with
  | nil => intro out flags _; simp [takeLoop, gather, pure, Except.pure]
  | cons r order ih =>
    intro out flags hr
    have hr0 : r < c.data.length := hr r (List.mem_cons_self _ _)
    have hrest : ∀ r ∈ order, r < c.data.length := fun q hq => hr q (List.mem_cons_of_mem _ hq)
    have hg : gather (r :: order) c.rows = (c.data.get ⟨r, hr0⟩, c.valid.bit r) :: gather order c.rows := by
      simp [gather, List.filterMap_cons, rows_getElem? c r hr0]
    have hnn : ¬ (Int.ofNat r < 0) := by simp
    rw [hg, List.map_cons]
    unfold takeLoop
    simp only [hnn, if_false, Int.toNat_ofNat]
    show (sliceGet c.data r >>= fun x => c.IsNull r >>= fun null =>
      (packBits flags).Append (!null) >>= fun valid =>
        takeLoop c (order.map Int.ofNat) (out ++ [x], valid)) = _
    rw [sliceGet_of_lt _ _ hr0, c.IsNull_of_WF hwf r hr0]
    show ((packBits flags).Append (!!c.valid.bit r) >>= fun valid =>
        takeLoop c (order.map Int.ofNat) (out ++ [c.data.get ⟨r, hr0⟩], valid)) = _
    rw [Bool.not_not, packBits_Append]
    show takeLoop c (order.map Int.ofNat) (out ++ [c.data.get ⟨r, hr0⟩], _) = _
    rw [ih _ _ hrest]
    simp

theorem typedTake_spec (c : TypedColumn α) (hwf : c.WF) (order : List Nat)
    (hr : ∀ r ∈ order, r < c.data.length) :
    c.Take (order.map Int.ofNat) = .ok (ofRows c.name (gather order c.rows)) := by
  unfold Take
  have hp : (⟨[], 0⟩ : bitmapBuilder) = packBits [] := rfl
  show (takeLoop c (order.map Int.ofNat) ([], ⟨[], 0⟩) >>= _) = _
  rw [hp, takeLoop_spec c hwf order [] [] hr]
  rfl

theorem ofRows_WF (name : String) (rs : List (α × Bool)) : (ofRows name rs).WF := by
  unfold WF ofRows
  have := packBits_length (rs.map Prod.snd)
  simp only [List.length_map] at this ⊢
  rw [this]
  omega

theorem ofRows_valids (name : String) (rs : List (α × Bool)) :
    (ofRows name rs).valids = rs.map Prod.snd := by
  unfold valids ofRows
  apply List.ext_getElem
  · simp
  · intro i h1 h2
    simp only [List.getElem_map, List.getElem_range]
    rw [packBits_bit]
    simp at h2
    simp [List.getD_eq_getElem?_getD, List.getElem?_eq_getElem, h2]

theorem ofRows_rows (name : String) (rs : List (α × Bool)) : (ofRows name rs).rows = rs := by
  have h1 := ofRows_valids name rs
  unfold rows
  rw [h1]
  show List.zip (rs.map Prod.fst) (rs.map Prod.snd) = rs
  clear h1
  induction rs with
  | nil => rfl
  | cons r rs ih => simp [ih]

end TypedColumn

/-! ## Lemmas: the column interface -/

theorem gather_getElem? {β : Type} (pos : List Nat) (xs : List β)
    (h : ∀ p ∈ pos, p < xs.length) (k : Nat) :
    (gather pos xs)[k]? = (pos[k]?).bind (fun p => xs[p]?) := by
  induction pos generalizing k with
  | nil => simp [gather]
  | cons p pos ih =>
    have hp : p < xs.length := h p (List.mem_cons_self _ _)
    have hrest : ∀ q ∈ pos, q < xs.length := fun q hq => h q (List.mem_cons_of_mem _ hq)
    have hg : gather (p :: pos) xs = xs.get ⟨p, hp⟩ :: gather pos xs := by
      simp [gather, List.filterMap_cons, List.getElem?_eq_getElem hp]
    rw [hg]
    cases k with
    | zero => simp [List.getElem?_eq_getElem hp]
    | succ k => simpa using ih hrest k

theorem gather_length {β : Type} (pos : List Nat) (xs : List β)
    (h : ∀ p ∈ pos, p < xs.length) : (gather pos xs).length = pos.length := by
  induction pos with
  | nil => simp [gather]
  | cons p pos ih =>
    have hp : p < xs.length := h p (List.mem_cons_self _ _)
    have hrest : ∀ q ∈ pos, q < xs.length := fun q hq => h q (List.mem_cons_of_mem _ hq)
    have hg : gather (p :: pos) xs = xs.get ⟨p, hp⟩ :: gather pos xs := by
      simp [gather, List.filterMap_cons, List.getElem?_eq_getElem hp]
    rw [hg, List.length_cons, ih hrest, List.length_cons]

theorem truePositions_cons (m : Bool) (ms : List Bool) :
    truePositions (m :: ms) =
      (if m then [0] else []) ++ (truePositions ms).map (fun i => i + 1) := by
  unfold truePositions
  rw [List.length_cons, List.range_succ_eq_map, List.filter_cons, List.filter_map]
  cases m <;> simp [Function.comp_def]

theorem gather_shift {β : Type} (pos : List Nat) (x : β) (xs : List β) :
    gather (pos.map (fun i => i + 1)) (x :: xs) = gather pos xs := by
  simp [gather, List.filterMap_map, Function.comp_def]

theorem pick_eq_gather {β : Type} (ms : List Bool) (xs : List β) (h : ms.length = xs.length) :
    pick ms xs = gather (truePositions ms) xs := by
  induction ms generalizing xs with
  | nil => simp [pick, gather, truePositions]
  | cons m ms ih =>
    cases xs with
    | nil => simp at h
    | cons x xs =>
      have h' : ms.length = xs.length := by simpa using h
      rw [truePositions_cons]
      cases m
      · simp only [pick, Bool.false_eq_true, if_false, List.nil_append, gather_shift]
        exact ih xs h'
      · simp only [pick, if_true]
        have : gather ([0] ++ (truePositions ms).map (fun i => i + 1)) (x :: xs) =
            x :: gather ((truePositions ms).map (fun i => i + 1)) (x :: xs) := by
          simp [gather, List.filterMap_cons]
        rw [this, gather_shift, ih xs h']

theorem truePositions_lt (ms : List Bool) : ∀ p ∈ truePositions ms, p < ms.length := by
  intro p hp
  unfold truePositions at hp
  exact List.mem_range.mp (List.mem_filter.mp hp).1

theorem truePositions_length (ms : List Bool) : (truePositions ms).length = ms.count true := by
  induction ms with
  | nil => simp [truePositions]
  | cons m ms ih =>
    rw [truePositions_cons]
    cases m <;> simp [ih]

namespace TypedColumn

variable {α : Type}

theorem observe_row (c : TypedColumn α) (hwf : c.WF) (i : Nat) (v : α) (b : Bool)
    (h : c.rows[i]? = some (v, b)) : c.IsNull i = .ok (!b) ∧ c.Value i = .ok v := by
  have hi : i < c.data.length := by
    have := (List.getElem?_eq_some_iff.mp h).1
    rwa [rows_length] at this
  rw [rows_getElem? c i hi] at h
  injection h with h
  injection h with h1 h2
  subst h1 h2
  exact ⟨c.IsNull_of_WF hwf i hi, sliceGet_of_lt _ _ hi⟩

end TypedColumn

namespace Column

theorem WF_iff (c : Column) : c.WF ↔
    match c with
    | int64 t => t.WF
    | float64 t => t.WF
    | bool t => t.WF
    | utf8 t => t.WF := by
  cases c <;> exact Iff.rfl

theorem Filter_spec (c : Column) (mask : List Bool) (hwf : c.WF) (hlen : mask.length = c.Len) :
    c.Filter mask = .ok (c.filterRows mask) := by
  cases c with
  | int64 t => exact congrArg (Functor.map int64) (t.typedFilter_spec mask hwf hlen)
  | float64 t => exact congrArg (Functor.map float64) (t.typedFilter_spec mask hwf hlen)
  | bool t => exact congrArg (Functor.map bool) (t.typedFilter_spec mask hwf hlen)
  | utf8 t => exact congrArg (Functor.map utf8) (t.typedFilter_spec mask hwf hlen)

theorem Take_spec (c : Column) (order : List Nat) (hwf : c.WF) (hr : ∀ r ∈ order, r < c.Len) :
    c.Take (order.map Int.ofNat) = .ok (c.takeRows order) := by
  cases c with
  | int64 t => exact congrArg (Functor.map int64) (t.typedTake_spec hwf order hr)
  | float64 t => exact congrArg (Functor.map float64) (t.typedTake_spec hwf order hr)
  | bool t => exact congrArg (Functor.map bool) (t.typedTake_spec hwf order hr)
  | utf8 t => exact congrArg (Functor.map utf8) (t.typedTake_spec hwf order hr)

theorem mapRows_Name (f : (α : Type) → List (α × Bool) → List (α × Bool)) (c : Column) :
    (c.mapRows f).Name = c.Name := by
  cases c <;> rfl

theorem mapRows_WF (f : (α : Type) → List (α × Bool) → List (α × Bool)) (c : Column) :
    (c.mapRows f).WF := by
  cases c <;> exact TypedColumn.ofRows_WF _ _

theorem takeRows_RowsFrom (c : Column) (pos : List Nat) (hwf : c.WF)
    (hpos : ∀ p ∈ pos, p < c.Len) : (c.takeRows pos).RowsFrom c pos := by
  refine ⟨mapRows_Name _ c, ?_, ?_⟩
  · cases c <;>
      simp only [takeRows, mapRows, Len, TypedColumn.Len, TypedColumn.ofRows, List.length_map] <;>
      exact gather_length _ _ (by rw [TypedColumn.rows_length]; exact hpos)
  · intro k p hk
    have hp : p < c.Len := hpos p (List.getElem?_mem hk)
    cases c with
    | int64 t =>
      have hrow := TypedColumn.rows_getElem? t p hp
      have hout : (TypedColumn.ofRows t.name (gather pos t.rows)).rows[k]? =
          some (t.data.get ⟨p, hp⟩, t.valid.bit p) := by
        rw [TypedColumn.ofRows_rows, gather_getElem? _ _ (by rw [TypedColumn.rows_length]; exact hpos),
          hk]
        exact hrow
      have h1 := TypedColumn.observe_row t hwf p _ _ hrow
      have h2 := TypedColumn.observe_row _ (TypedColumn.ofRows_WF _ _) k _ _ hout
      exact ⟨_, Cell.int64 (t.data.get ⟨p, hp⟩), h1.1, h2.1,
        congrArg (Functor.map Cell.int64) h1.2, congrArg (Functor.map Cell.int64) h2.2⟩
    | float64 t =>
      have hrow := TypedColumn.rows_getElem? t p hp
      have hout : (TypedColumn.ofRows t.name (gather pos t.rows)).rows[k]? =
          some (t.data.get ⟨p, hp⟩, t.valid.bit p) := by
        rw [TypedColumn.ofRows_rows, gather_getElem? _ _ (by rw [TypedColumn.rows_length]; exact hpos),
          hk]
        exact hrow
      have h1 := TypedColumn.observe_row t hwf p _ _ hrow
      have h2 := TypedColumn.observe_row _ (TypedColumn.ofRows_WF _ _) k _ _ hout
      exact ⟨_, Cell.float64 (t.data.get ⟨p, hp⟩), h1.1, h2.1,
        congrArg (Functor.map Cell.float64) h1.2, congrArg (Functor.map Cell.float64) h2.2⟩
    | bool t =>
      have hrow := TypedColumn.rows_getElem? t p hp
      have hout : (TypedColumn.ofRows t.name (gather pos t.rows)).rows[k]? =
          some (t.data.get ⟨p, hp⟩, t.valid.bit p) := by
        rw [TypedColumn.ofRows_rows, gather_getElem? _ _ (by rw [TypedColumn.rows_length]; exact hpos),
          hk]
        exact hrow
      have h1 := TypedColumn.observe_row t hwf p _ _ hrow
      have h2 := TypedColumn.observe_row _ (TypedColumn.ofRows_WF _ _) k _ _ hout
      exact ⟨_, Cell.bool (t.data.get ⟨p, hp⟩), h1.1, h2.1,
        congrArg (Functor.map Cell.bool) h1.2, congrArg (Functor.map Cell.bool) h2.2⟩
    | utf8 t =>
      have hrow := TypedColumn.rows_getElem? t p hp
      have hout : (TypedColumn.ofRows t.name (gather pos t.rows)).rows[k]? =
          some (t.data.get ⟨p, hp⟩, t.valid.bit p) := by
        rw [TypedColumn.ofRows_rows, gather_getElem? _ _ (by rw [TypedColumn.rows_length]; exact hpos),
          hk]
        exact hrow
      have h1 := TypedColumn.observe_row t hwf p _ _ hrow
      have h2 := TypedColumn.observe_row _ (TypedColumn.ofRows_WF _ _) k _ _ hout
      exact ⟨_, Cell.utf8 (t.data.get ⟨p, hp⟩), h1.1, h2.1,
        congrArg (Functor.map Cell.utf8) h1.2, congrArg (Functor.map Cell.utf8) h2.2⟩

theorem filterRows_eq_takeRows (c : Column) (mask : List Bool) (hlen : mask.length = c.Len) :
    c.filterRows mask = c.takeRows (truePositions mask) := by
  cases c <;>
    simp only [filterRows, takeRows, mapRows] <;>
    rw [pick_eq_gather _ _ (by rw [TypedColumn.rows_length]; exact hlen)]

end Column

/-! ## Lemmas: frames -/

theorem mapM_ok {β γ : Type} (f : β → Except Err γ) (g : β → γ) (l : List β)
    (h : ∀ x ∈ l, f x = .ok (g x)) : l.mapM f = .ok (l.map g) := by
  induction l with
  | nil => rfl
  | cons x l ih =>
    rw [List.mapM_cons, h x (List.mem_cons_self _ _),
      ih (fun y hy => h y (List.mem_cons_of_mem _ hy))]
    rfl

theorem lookup_of_mem (l : List (String × Nat)) (k : String) (v : Nat)
    (hnd : (l.map Prod.fst).Nodup) (h : (k, v) ∈ l) : l.lookup k = some v := by
  induction l with
  | nil => simp at h
  | cons e l ih =>
    obtain ⟨a, b⟩ := e
    rw [List.map_cons, List.nodup_cons] at hnd
    rcases List.mem_cons.mp h with hhead | htail
    · injection hhead with h1 h2
      subst h1 h2
      simp [List.lookup_cons]
    · have hne : k ≠ a := by
        intro e
        subst e
        exact hnd.1 (List.mem_map.mpr ⟨(k, v), htail, rfl⟩)
      have : (k == a) = false := by simpa using hne
      rw [List.lookup_cons, this]
      exact ih hnd.2 htail

theorem lookup_none_of_not_mem (l : List (String × Nat)) (k : String)
    (h : k ∉ l.map Prod.fst) : l.lookup k = none := by
  induction l with
  | nil => rfl
  | cons e l ih =>
    obtain ⟨a, b⟩ := e
    rw [List.map_cons, List.mem_cons, not_or] at h
    have : (k == a) = false := by simpa using h.1
    rw [List.lookup_cons, this]
    exact ih h.2

theorem lookup_isSome_of_mem (l : List (String × Nat)) (k : String)
    (h : k ∈ l.map Prod.fst) : (l.lookup k).isSome = true := by
  induction l with
  | nil => simp at h
  | cons e l ih =>
    obtain ⟨a, b⟩ := e
    rw [List.lookup_cons]
    by_cases hk : k = a
    · subst hk; simp
    · have : (k == a) = false := by simpa using hk
      rw [this]
      rw [List.map_cons, List.mem_cons] at h
      exact ih (h.resolve_left hk)

/-- The loop of `NewDataFrame` succeeds exactly on equal lengths and fresh, distinct names,
and then extends the index by the numbered names. -/
theorem NewDataFrame_loop_ok (n : Nat) (cols : List Column) :
    ∀ (i : Nat) (idx idx' : List (String × Nat)),
      NewDataFrame.loop n cols i idx = .ok idx' ↔
        (∀ c ∈ cols, c.Len = n) ∧ (cols.map Column.Name).Nodup ∧
        (∀ c ∈ cols, c.Name ∉ idx.map Prod.fst) ∧
        idx' = ((cols.map Column.Name).zip (List.range' i cols.length)).reverse ++ idx := by
  induction cols with
  | nil =>
    intro i idx idx'
    simp only [NewDataFrame.loop, pure, Except.pure, Except.ok.injEq]
    constructor
    · intro h; subst h; simp
    · intro h; simpa using h.2.2.2.symm
  | cons c rest ih =>
    intro i idx idx'
    unfold NewDataFrame.loop
    by_cases hlen : c.Len = n
    · by_cases hdup : c.Name ∈ idx.map Prod.fst
      · have h1 := lookup_isSome_of_mem idx c.Name hdup
        simp only [hlen, bne_self_eq_false, Bool.false_eq_true, if_false, h1, if_true, throw,
          throwThe, MonadExceptOf.throw]
        constructor
        · intro h; cases h
        · intro h; exact absurd hdup (h.2.2.1 c (List.mem_cons_self _ _))
      · have h1 := lookup_none_of_not_mem idx c.Name hdup
        simp only [hlen, bne_self_eq_false, Bool.false_eq_true, if_false, h1, Option.isSome_none]
        rw [ih (i + 1) ((c.Name, i) :: idx) idx']
        simp only [List.mem_cons, forall_eq_or_imp, List.map_cons, List.nodup_cons,
          List.length_cons, List.range'_succ, List.zip_cons_cons, List.reverse_cons,
          List.append_assoc, List.singleton_append, not_or, hlen, true_and]
        constructor
        · rintro ⟨h1, h2, h3, h4⟩
          refine ⟨h1, ⟨?_, h2⟩, ⟨hdup, fun a ha => (h3 a ha).2⟩, h4⟩
          intro hmem
          obtain ⟨a, ha, hname⟩ := List.mem_map.mp hmem
          exact (h3 a ha).1 hname
        · rintro ⟨h1, ⟨h2, h3⟩, ⟨_, h4⟩, h5⟩
          refine ⟨h1, h3, fun a ha => ⟨?_, h4 a ha⟩, h5⟩
          intro hname
          exact h2 (List.mem_map.mpr ⟨a, ha, hname⟩)
    · have hne : (c.Len != n) = true := by simpa using hlen
      simp only [hne, if_true, throw, throwThe, MonadExceptOf.throw]
      constructor
      · intro h; cases h
      · intro h; exact absurd (h.1 c (List.mem_cons_self _ _)) hlen

theorem NewDataFrame_ok_iff (cols : List Column) (df : DataFrame) :
    NewDataFrame cols = .ok df ↔
      ∃ c0 rest, cols = c0 :: rest ∧ (∀ c ∈ cols, c.Len = c0.Len) ∧
        (cols.map Column.Name).Nodup ∧ df = ⟨cols, indexOf cols, c0.Len⟩ := by
  cases cols with
  | nil =>
    simp only [NewDataFrame, throw, throwThe, MonadExceptOf.throw]
    constructor
    · intro h; cases h
    · rintro ⟨c0, rest, h, _⟩; cases h
  | cons c0 rest =>
    have key := NewDataFrame_loop_ok c0.Len (c0 :: rest) 0 []
    constructor
    · intro h
      unfold NewDataFrame at h
      cases hl : NewDataFrame.loop c0.Len (c0 :: rest) 0 [] with
      | error e => simp only [hl] at h; cases h
      | ok idx =>
        simp only [hl] at h
        have hdf : df = ⟨c0 :: rest, idx, c0.Len⟩ := by
          injection h with h; exact h.symm
        obtain ⟨h1, h2, _, h4⟩ := (key idx).mp hl
        refine ⟨c0, rest, rfl, h1, h2, ?_⟩
        rw [hdf, h4, indexOf, List.range_eq_range', List.append_nil]
    · rintro ⟨c1, rest1, hc, h1, h2, h3⟩
      injection hc with hc1 hc2
      subst hc1 hc2
      have hl := (key (indexOf (c0 :: rest))).mpr
        ⟨h1, h2, fun _ _ => by simp, by rw [indexOf, List.range_eq_range', List.append_nil]⟩
      unfold NewDataFrame
      simp only [hl]
      rw [h3]
      rfl

theorem NewDataFrame_error_iff (cols : List Column) :
    (∃ e, NewDataFrame cols = .error e) ↔
      cols = [] ∨ (∃ c0 ∈ cols.head?, ∃ c ∈ cols, c.Len ≠ c0.Len) ∨
        ¬ (cols.map Column.Name).Nodup := by
  constructor
  · rintro ⟨e, he⟩
    cases cols with
    | nil => exact Or.inl rfl
    | cons c0 rest =>
      by_contra hcon
      rw [not_or, not_or] at hcon
      obtain ⟨_, h2, h3⟩ := hcon
      have : NewDataFrame (c0 :: rest) = .ok ⟨c0 :: rest, indexOf (c0 :: rest), c0.Len⟩ :=
        (NewDataFrame_ok_iff _ _).mpr ⟨c0, rest, rfl, fun c hc => by
          by_contra hne
          exact h2 ⟨c0, by simp, c, hc, hne⟩, not_not.mp h3, rfl⟩
      rw [this] at he
      cases he
  · intro h
    cases hres : NewDataFrame cols with
    | error e => exact ⟨e, rfl⟩
    | ok df =>
      obtain ⟨c0, rest, hc, h1, h2, _⟩ := (NewDataFrame_ok_iff _ _).mp hres
      rcases h with h | ⟨c1, hc1, c, hcm, hne⟩ | h
      · rw [h] at hc; cases hc
      · rw [hc] at hc1
        simp at hc1
        subst hc1
        exact absurd (h1 c hcm) hne
      · exact absurd h2 h

theorem indexOf_lookup (cols : List Column) (hnd : (cols.map Column.Name).Nodup)
    (i : Nat) (c : Column) (h : cols[i]? = some c) : (indexOf cols).lookup c.Name = some i := by
  apply lookup_of_mem
  · rw [indexOf, List.map_reverse, List.nodup_reverse, List.map_fst_zip]
    · exact hnd
    · simp
  · rw [indexOf, List.mem_reverse]
    obtain ⟨hi, hc⟩ := List.getElem?_eq_some_iff.mp h
    rw [List.mem_iff_getElem?]
    refine ⟨i, ?_⟩
    rw [List.getElem?_eq_getElem (by simp; exact hi)]
    simp [hc]

theorem indexOf_lookup_none (cols : List Column) (name : String)
    (h : name ∉ cols.map Column.Name) : (indexOf cols).lookup name = none := by
  apply lookup_none_of_not_mem
  rw [indexOf, List.map_reverse, List.mem_reverse, List.map_fst_zip]
  · exact h
  · simp

theorem frame_of_New {cols : List Column} {df : DataFrame} (h : NewDataFrame cols = .ok df) :
    df.columns = cols ∧ df.index = indexOf cols ∧ (cols.map Column.Name).Nodup ∧
      (∀ c ∈ cols, c.Len = df.nrows) ∧ cols ≠ [] := by
  obtain ⟨c0, rest, hc, h1, h2, h3⟩ := (NewDataFrame_ok_iff _ _).mp h
  subst h3
  exact ⟨rfl, rfl, h2, h1, by rw [hc]; simp⟩

theorem frame_Column_of_getElem? {cols : List Column} {df : DataFrame}
    (h : NewDataFrame cols = .ok df) (i : Nat) (c : Column) (hc : cols[i]? = some c) :
    df.Column c.Name = .ok (some c) := by
  obtain ⟨h1, h2, h3, _, _⟩ := frame_of_New h
  unfold DataFrame.Column
  rw [h2, indexOf_lookup cols h3 i c hc, h1]
  simp [sliceGet, hc, bind, Except.bind, pure, Except.pure]

theorem frame_Column_of_mem {cols : List Column} {df : DataFrame}
    (h : NewDataFrame cols = .ok df) (c : Column) (hc : c ∈ cols) :
    df.Column c.Name = .ok (some c) := by
  obtain ⟨i, hi⟩ := List.mem_iff_getElem?.mp hc
  exact frame_Column_of_getElem? h i c hi

theorem frame_Column_none {cols : List Column} {df : DataFrame}
    (h : NewDataFrame cols = .ok df) (name : String) (hn : name ∉ cols.map Column.Name) :
    df.Column name = .ok none := by
  obtain ⟨_, h2, _, _, _⟩ := frame_of_New h
  unfold DataFrame.Column
  rw [h2, indexOf_lookup_none cols name hn]
  rfl

theorem sharesName_iff (cols : List Column) :
    SharesName cols ↔ ¬ (cols.map Column.Name).Nodup := by
  rw [List.nodup_iff_getElem?_ne_getElem?]
  constructor
  · rintro ⟨i, j, a, b, hij, ha, hb, hab⟩ hno
    have hj : j < (cols.map Column.Name).length := by
      rw [List.length_map]; exact (List.getElem?_eq_some_iff.mp hb).1
    apply hno i j hij hj
    rw [List.getElem?_map, List.getElem?_map, ha, hb]
    simp [hab]
  · intro h
    simp only [not_forall] at h
    obtain ⟨i, j, hij, hj, heq⟩ := h
    have heq' := not_not.mp heq
    rw [List.length_map] at hj
    have hi : i < cols.length := by omega
    refine ⟨i, j, cols.get ⟨i, hi⟩, cols.get ⟨j, hj⟩, hij, List.getElem?_eq_getElem hi,
      List.getElem?_eq_getElem hj, ?_⟩
    rw [List.getElem?_map, List.getElem?_map, List.getElem?_eq_getElem hi,
      List.getElem?_eq_getElem hj] at heq'
    simpa using heq'

theorem Select_spec {cols : List Column} {df : DataFrame} (h : NewDataFrame cols = .ok df)
    (picked : List Column) (hp : ∀ c ∈ picked, c ∈ cols) :
    df.Select (picked.map Column.Name) = NewDataFrame picked := by
  unfold DataFrame.Select
  have hm : (picked.map Column.Name).mapM (DataFrame.Select.lookup df) = .ok picked := by
    induction picked with
    | nil => rfl
    | cons c picked ih =>
      have hc : DataFrame.Select.lookup df c.Name = .ok c := by
        unfold DataFrame.Select.lookup
        rw [frame_Column_of_mem h c (hp c (List.mem_cons_self _ _))]
        rfl
      rw [List.map_cons, List.mapM_cons, hc, ih (fun y hy => hp y (List.mem_cons_of_mem _ hy))]
      rfl
  rw [hm]
  rfl

theorem mapM_ok_forall₂ {β γ : Type} (f : β → Except Err γ) (l : List β) (ys : List γ) :
    l.mapM f = .ok ys ↔ List.Forall₂ (fun x y => f x = .ok y) l ys := by
  induction l generalizing ys with
  | nil =>
    constructor
    · intro h
      have : ys = [] := by
        have h' : (Except.ok [] : Except Err (List γ)) = .ok ys := h
        injection h' with h'
        exact h'.symm
      subst this
      exact List.Forall₂.nil
    · intro h
      cases h
      rfl
  | cons x l ih =>
    rw [List.mapM_cons]
    constructor
    · intro h
      cases hx : f x with
      | error e => rw [hx] at h; cases h
      | ok y =>
        rw [hx] at h
        cases hl : l.mapM f with
        | error e => rw [hl] at h; cases h
        | ok ys' =>
          rw [hl] at h
          have h' : (Except.ok (y :: ys') : Except Err (List γ)) = .ok ys := h
          injection h' with h'
          subst h'
          exact List.Forall₂.cons hx ((ih ys').mp hl)
    · intro h
      cases h with
      | cons hx hrest =>
        rw [hx, (ih _).mpr hrest]
        rfl

theorem mapM_ok_length {β γ : Type} (f : β → Except Err γ) (l : List β) (ys : List γ)
    (h : l.mapM f = .ok ys) : ys.length = l.length :=
  ((mapM_ok_forall₂ f l ys).mp h).length_eq.symm

theorem mapM_ok_of_mem {β γ : Type} (f : β → Except Err γ) (l : List β) (ys : List γ)
    (h : l.mapM f = .ok ys) : ∀ x ∈ l, ∃ y, f x = .ok y ∧ y ∈ ys := by
  have h2 := (mapM_ok_forall₂ f l ys).mp h
  clear h
  induction h2 with
  | nil => intro x hx; cases hx
  | cons hxy _ ih =>
    intro x hx
    rcases List.mem_cons.mp hx with hx | hx
    · subst hx; exact ⟨_, hxy, List.mem_cons_self _ _⟩
    · obtain ⟨y, hy1, hy2⟩ := ih x hx
      exact ⟨y, hy1, List.mem_cons_of_mem _ hy2⟩

theorem mapM_ok_mem_out {β γ : Type} (f : β → Except Err γ) (l : List β) (ys : List γ)
    (h : l.mapM f = .ok ys) : ∀ y ∈ ys, ∃ x ∈ l, f x = .ok y := by
  have h2 := (mapM_ok_forall₂ f l ys).mp h
  clear h
  induction h2 with
  | nil => intro y hy; cases hy
  | cons hxy _ ih =>
    intro y hy
    rcases List.mem_cons.mp hy with hy | hy
    · subst hy; exact ⟨_, List.mem_cons_self _ _, hxy⟩
    · obtain ⟨x, hx1, hx2⟩ := ih y hy
      exact ⟨x, List.mem_cons_of_mem _ hx1, hx2⟩

theorem frame_Column_cases {cols : List Column} {df : DataFrame}
    (h : NewDataFrame cols = .ok df) (name : String) :
    (name ∉ cols.map Column.Name ∧ df.Column name = .ok none) ∨
      ∃ c ∈ cols, c.Name = name ∧ df.Column name = .ok (some c) := by
  by_cases hn : name ∈ cols.map Column.Name
  · obtain ⟨c, hc, hname⟩ := List.mem_map.mp hn
    exact Or.inr ⟨c, hc, hname, hname ▸ frame_Column_of_mem h c hc⟩
  · exact Or.inl ⟨hn, frame_Column_none h name hn⟩

theorem frame_Column_some {cols : List Column} {df : DataFrame}
    (h : NewDataFrame cols = .ok df) (name : String) (c : Column)
    (hc : df.Column name = .ok (some c)) : c ∈ cols ∧ c.Name = name := by
  rcases frame_Column_cases h name with ⟨_, h2⟩ | ⟨c', hc1, hc2, hc3⟩
  · rw [h2] at hc; cases hc
  · rw [hc3] at hc
    injection hc with hc
    injection hc with hc
    subst hc
    exact ⟨hc1, hc2⟩

theorem indexOf_map (f : Column → Column) (hname : ∀ c, (f c).Name = c.Name)
    (cols : List Column) : indexOf (cols.map f) = indexOf cols := by
  unfold indexOf
  rw [List.map_map, List.length_map]
  congr 3
  exact funext hname

/-- Rebuilding every column with a name-preserving map that yields a common length again
gives a frame with the same index. -/
theorem NewDataFrame_map {cols : List Column} {df : DataFrame}
    (h : NewDataFrame cols = .ok df) (f : Column → Column)
    (hname : ∀ c, (f c).Name = c.Name) (m : Nat) (hlen : ∀ c ∈ cols, (f c).Len = m) :
    NewDataFrame (cols.map f) = .ok ⟨cols.map f, df.index, m⟩ := by
  obtain ⟨c0, rest, hc, _, h2, h3⟩ := (NewDataFrame_ok_iff _ _).mp h
  rw [NewDataFrame_ok_iff]
  refine ⟨f c0, rest.map f, by rw [hc]; rfl, ?_, ?_, ?_⟩
  · intro c hcm
    obtain ⟨c', hc', rfl⟩ := List.mem_map.mp hcm
    rw [hlen c' hc', hlen c0 (by rw [hc]; simp)]
  · rw [List.map_map]
    have : (Column.Name ∘ f) = Column.Name := funext hname
    rw [this]
    exact h2
  · rw [indexOf_map f hname, hlen c0 (by rw [hc]; simp), h3]

/-! ## Lemmas: plans -/

theorem optimize_split_eq (ops : List planOp) (filters other : List planOp) :
    LazyFrame.optimize.split ops (filters, other) =
      (filters ++ ops.filter (fun op => op.typeID == opFilter),
        other ++ ops.filter (fun op => !(op.typeID == opFilter))) := by
  induction ops generalizing filters other with
  | nil => simp [LazyFrame.optimize.split]
  | cons op ops ih =>
    unfold LazyFrame.optimize.split
    by_cases h : (op.typeID == opFilter) = true
    · rw [if_pos h, ih]
      simp [List.filter_cons, h]
    · rw [if_neg h, ih]
      simp [List.filter_cons, h]

theorem optimize_ops (lf : LazyFrame) :
    lf.optimize.ops = lf.ops.filter (fun op => op.typeID == opFilter) ++
      lf.ops.filter (fun op => !(op.typeID == opFilter)) := by
  unfold LazyFrame.optimize
  rw [optimize_split_eq]
  simp

/-! ## Lemmas: the library's stable sort -/

theorem bind_ok_eq {β γ : Type} (x : Except Err β) (a : β) (f : β → Except Err γ) (h : x = .ok a) :
    (x >>= f) = f a := by
  rw [h]; rfl

theorem pair_sublist_append {β : Type} (A B : List β) (x y : β) (hx : x ∈ A) (hy : y ∈ B) :
    List.Sublist [x, y] (A ++ B) :=
  List.Sublist.append (List.singleton_sublist.mpr hx) (List.singleton_sublist.mpr hy)

/-- One pass of the inner loop of the insertion sort keeps the arrangement. -/
theorem sinkLeft_settles {β : Type} (less : β → β → Except Err Bool) (N : β → β → Prop)
    (hN : ∀ a b c, N a b → N b c → N a c) (x : β) (left : List β)
    (hleft : left.Pairwise (fun a b => N b a)) (h : ∀ y ∈ left, Settles less N y x) :
    ∃ out, sinkLeft less x left = .ok out ∧ out.Perm (x :: left) ∧
      out.Pairwise (fun a b => N b a) := by
  induction left with
  | nil => exact ⟨[x], rfl, List.Perm.refl _, List.pairwise_singleton _ _⟩
  | cons y left ih =>
    rw [List.pairwise_cons] at hleft
    obtain ⟨v, hv, ht, hf⟩ := h y (List.mem_cons_self _ _)
    unfold sinkLeft
    cases v with
    | true =>
      obtain ⟨rest, hr1, hr2, hr3⟩ := ih hleft.2 (fun z hz => h z (List.mem_cons_of_mem _ hz))
      refine ⟨y :: rest, ?_, ?_, ?_⟩
      · rw [bind_ok_eq _ _ _ hv]
        simp only [if_true]
        rw [bind_ok_eq _ _ _ hr1]
        rfl
      · exact (List.Perm.cons y hr2).trans (List.Perm.swap x y left)
      · rw [List.pairwise_cons]
        refine ⟨?_, hr3⟩
        intro z hz
        rcases List.mem_cons.mp (hr2.subset hz) with hz | hz
        · subst hz; exact ht rfl
        · exact hleft.1 z hz
    | false =>
      refine ⟨x :: y :: left, ?_, List.Perm.refl _, ?_⟩
      · rw [bind_ok_eq _ _ _ hv]
        rfl
      · rw [List.pairwise_cons, List.pairwise_cons]
        refine ⟨?_, hleft⟩
        intro z hz
        rcases List.mem_cons.mp hz with hz | hz
        · subst hz; exact hf rfl
        · exact hN _ _ _ (hleft.1 z hz) (hf rfl)

theorem foldlM_sinkLeft_settles {β : Type} (less : β → β → Except Err Bool) (N : β → β → Prop)
    (hN : ∀ a b c, N a b → N b c → N a c) (xs : List β) :
    ∀ left : List β, left.Pairwise (fun a b => N b a) →
      (∀ y ∈ left, ∀ x ∈ xs, Settles less N y x) →
      (∀ x y, List.Sublist [x, y] xs → Settles less N x y) →
      ∃ out, xs.foldlM (fun left x => sinkLeft less x left) left = .ok out ∧
        out.Perm (xs.reverse ++ left) ∧ out.Pairwise (fun a b => N b a) := by
  induction xs with
  | nil => intro left hl _ _; exact ⟨left, rfl, List.Perm.refl _, hl⟩
  | cons x xs ih =>
    intro left hl h1 h2
    obtain ⟨l', e1, e2, e3⟩ := sinkLeft_settles less N hN x left hl
      (fun y hy => h1 y hy x (List.mem_cons_self _ _))
    obtain ⟨out, o1, o2, o3⟩ := ih l' e3
      (fun y hy z hz => by
        rcases List.mem_cons.mp (e2.subset hy) with hy | hy
        · subst hy
          exact h2 _ _ (List.Sublist.cons₂ _ (List.singleton_sublist.mpr hz))
        · exact h1 y hy z (List.mem_cons_of_mem _ hz))
      (fun a b hab => h2 a b (List.Sublist.cons _ hab))
    refine ⟨out, ?_, ?_, o3⟩
    · rw [List.foldlM_cons, bind_ok_eq _ _ _ e1]
      exact o1
    · refine o2.trans ?_
      rw [List.reverse_cons, List.append_assoc]
      exact List.Perm.append_left _ e2

/-- The insertion sort arranges a segment by `N` when every comparison of a later with
an earlier element settles `N`. -/
theorem insertionSort_func_settles {β : Type} (less : β → β → Except Err Bool)
    (N : β → β → Prop) (hN : ∀ a b c, N a b → N b c → N a c) (xs : List β)
    (h : ∀ x y, List.Sublist [x, y] xs → Settles less N x y) :
    ∃ out, insertionSort_func less xs = .ok out ∧ out.Perm xs ∧ out.Pairwise N := by
  obtain ⟨l, h1, h2, h3⟩ := foldlM_sinkLeft_settles less N hN xs [] List.Pairwise.nil
    (fun y hy => by cases hy) h
  refine ⟨l.reverse, ?_, ?_, ?_⟩
  · unfold insertionSort_func
    rw [bind_ok_eq _ _ _ h1]
    rfl
  · rw [List.append_nil] at h2
    exact (List.reverse_perm l).trans (h2.trans (List.reverse_perm xs))
  · rw [List.pairwise_reverse]
    exact h3

/-- The binary search loop of `symMerge_func`, for any test that succeeds on the searched
range: the result lies in the range, the test holds just left of it and fails at it. -/
theorem searchLoop_spec (goRight : Nat → Except Err Bool) (fuel : Nat) :
    ∀ i j : Nat, i ≤ j → j - i < fuel → (∀ h, i ≤ h → h < j → ∃ v, goRight h = .ok v) →
      ∃ s, searchLoop goRight fuel i j = .ok s ∧ i ≤ s ∧ s ≤ j ∧
        (s = i ∨ goRight (s - 1) = .ok true) ∧ (s = j ∨ goRight s = .ok false) := by
  induction fuel with
  | zero => intro i j _ h; omega
  | succ fuel ih =>
    intro i j hij hfuel hok
    unfold searchLoop
    by_cases hlt : i < j
    · rw [if_pos hlt]
      have hh1 : i ≤ (i + j) / 2 := by omega
      have hh2 : (i + j) / 2 < j := by omega
      obtain ⟨v, hv⟩ := hok _ hh1 hh2
      simp only []
      rw [bind_ok_eq _ _ _ hv]
      cases v with
      | true =>
        simp only [if_true]
        obtain ⟨s, e1, e2, e3, e4, e5⟩ := ih ((i + j) / 2 + 1) j (by omega) (by omega)
          (fun h a b => hok h (by omega) b)
        refine ⟨s, e1, by omega, e3, ?_, e5⟩
        rcases e4 with e4 | e4
        · right
          rw [e4, Nat.add_sub_cancel]
          exact hv
        · exact Or.inr e4
      | false =>
        simp only [Bool.false_eq_true, if_false]
        obtain ⟨s, e1, e2, e3, e4, e5⟩ := ih i ((i + j) / 2) hh1 (by omega)
          (fun h a b => hok h a (by omega))
        refine ⟨s, e1, e2, by omega, e4, ?_⟩
        rcases e5 with e5 | e5
        · right
          rw [e5]
          exact hv
        · exact Or.inr e5
    · rw [if_neg hlt]
      exact ⟨i, rfl, le_refl _, hij, Or.inl rfl, Or.inl (by omega)⟩

/-- Elements of a front part stand before elements of a back part of another run as soon
as the last of the front stands before the first of the back. -/
theorem take_drop_cross {β : Type} (N : β → β → Prop) (hN : ∀ a b c, N a b → N b c → N a c)
    (l r : List β) (hl : l.Pairwise N) (hr : r.Pairwise N) (s k : Nat) (hs : s ≤ l.length)
    (h : ∀ a b, 0 < s → l[s - 1]? = some a → r[k]? = some b → N a b) :
    ∀ x ∈ l.take s, ∀ y ∈ r.drop k, N x y := by
  intro x hx y hy
  obtain ⟨i, hi⟩ := List.mem_iff_getElem?.mp hx
  obtain ⟨j, hj⟩ := List.mem_iff_getElem?.mp hy
  rw [List.getElem?_take] at hi
  split at hi
  · rename_i his
    rw [List.getElem?_drop] at hj
    obtain ⟨hi1, hi2⟩ := List.getElem?_eq_some_iff.mp hi
    obtain ⟨hj1, hj2⟩ := List.getElem?_eq_some_iff.mp hj
    have hs1 : s - 1 < l.length := by omega
    have hk1 : k < r.length := by omega
    have hab := h _ _ (by omega) (List.getElem?_eq_getElem hs1) (List.getElem?_eq_getElem hk1)
    have hxa : x = l[s - 1] ∨ N x l[s - 1] := by
      by_cases e : i = s - 1
      · left; subst e; exact hi2.symm
      · right
        rw [← hi2]
        exact (List.pairwise_iff_getElem.mp hl) i (s - 1) hi1 hs1 (by omega)
    have hby : r[k] = y ∨ N r[k] y := by
      by_cases e : j = 0
      · left; subst e; simpa using hj2
      · right
        rw [← hj2]
        exact (List.pairwise_iff_getElem.mp hr) k (k + j) hk1 hj1 (by omega)
    rcases hxa with hxa | hxa <;> rcases hby with hby | hby
    · rw [hxa, ← hby]; exact hab
    · rw [hxa]; exact hN _ _ _ hab hby
    · rw [← hby]; exact hN _ _ _ hxa hab
    · exact hN _ _ _ hxa (hN _ _ _ hab hby)
  · cases hi
theorem sliceGet_some {β : Type} (xs : List β) (i : Nat) (a : β) (h : xs[i]? = some a) :
    sliceGet xs i = .ok a := by
  unfold sliceGet
  rw [h]

theorem symMerge_func_first {β : Type} (less : β → β → Except Err Bool) (fuel : Nat)
    (data : List β) (m : Nat) (h : m = 1) :
    symMerge_func less (fuel + 1) data m =
      (searchLoop (fun h => do less (← sliceGet data h) (← sliceGet data 0))
        (data.length - m + 1) m data.length >>= fun i =>
          pure ((data.take i).drop 1 ++ data.take 1 ++ data.drop i)) := by
  unfold symMerge_func
  simp only []
  rw [if_pos h]

theorem symMerge_func_second {β : Type} (less : β → β → Except Err Bool) (fuel : Nat)
    (data : List β) (m : Nat) (h1 : m ≠ 1) (h2 : data.length - m = 1) :
    symMerge_func less (fuel + 1) data m =
      (searchLoop (fun h => do pure (!(← less (← sliceGet data m) (← sliceGet data h))))
        (m + 1) 0 m >>= fun i =>
          pure (data.take i ++ data.drop m ++ (data.take m).drop i)) := by
  unfold symMerge_func
  simp only []
  rw [if_neg h1, if_pos h2]

theorem symMerge_func_third {β : Type} (less : β → β → Except Err Bool) (fuel : Nat)
    (data : List β) (m : Nat) (h1 : m ≠ 1) (h2 : data.length - m ≠ 1) :
    symMerge_func less (fuel + 1) data m =
      (searchLoop
        (fun c => do pure (!(← less (← sliceGet data (data.length / 2 + m - 1 - c))
          (← sliceGet data c))))
        ((if m > data.length / 2 then data.length / 2 else m) -
          (if m > data.length / 2 then data.length / 2 + m - data.length else 0) + 1)
        (if m > data.length / 2 then data.length / 2 + m - data.length else 0)
        (if m > data.length / 2 then data.length / 2 else m) >>= fun start =>
      if 0 < start ∧ start < data.length / 2 then
        symMerge_func less fuel
          ((if start < m ∧ m < data.length / 2 + m - start then
            rotate_func data start m (data.length / 2 + m - start) else data).take
              (data.length / 2)) start >>= fun left =>
        (pure (left ++ (if start < m ∧ m < data.length / 2 + m - start then
            rotate_func data start m (data.length / 2 + m - start) else data).drop
              (data.length / 2)) >>= fun data2 =>
          if data.length / 2 < data.length / 2 + m - start ∧
              data.length / 2 + m - start < data.length then
            (symMerge_func less fuel (data2.drop (data.length / 2))
              (data.length / 2 + m - start - data.length / 2) >>= fun right =>
              pure (data2.take (data.length / 2) ++ right))
          else pure data2)
      else
        (pure (if start < m ∧ m < data.length / 2 + m - start then
              rotate_func data start m (data.length / 2 + m - start) else data) >>=
          fun data2 =>
          if data.length / 2 < data.length / 2 + m - start ∧
              data.length / 2 + m - start < data.length then
            (symMerge_func less fuel (data2.drop (data.length / 2))
              (data.length / 2 + m - start - data.length / 2) >>= fun right =>
              pure (data2.take (data.length / 2) ++ right))
          else pure data2)) := by
  rw [symMerge_func]
  simp only []
  rw [if_neg h1, if_neg h2]

theorem less_eval {β : Type} (less : β → β → Except Err Bool) (data : List β) (i j : Nat)
    (a b : β) (hi : data[i]? = some b) (hj : data[j]? = some a) :
    (do less (← sliceGet data i) (← sliceGet data j)) = less b a := by
  rw [bind_ok_eq _ _ _ (sliceGet_some data i b hi), bind_ok_eq _ _ _ (sliceGet_some data j a hj)]

theorem not_less_eval {β : Type} (less : β → β → Except Err Bool) (data : List β) (i j : Nat)
    (a b : β) (v : Bool) (hi : data[i]? = some b) (hj : data[j]? = some a)
    (hv : less b a = .ok v) :
    (do pure (!(← less (← sliceGet data i) (← sliceGet data j))) : Except Err Bool) =
      .ok (!v) := by
  rw [bind_ok_eq _ _ _ (sliceGet_some data i b hi), bind_ok_eq _ _ _ (sliceGet_some data j a hj),
    bind_ok_eq _ _ _ hv]
  rfl

theorem rotate_split {β : Type} (l r : List β) (s k : Nat) (hs : s ≤ l.length)
    (hk : k ≤ r.length) :
    (if s < l.length ∧ l.length < l.length + k then
        rotate_func (l ++ r) s l.length (l.length + k) else l ++ r) =
      (l.take s ++ r.take k) ++ (l.drop s ++ r.drop k) := by
  have e1 : (l ++ r).take s = l.take s := by
    rw [List.take_append_eq_append_take, show s - l.length = 0 by omega]
    simp
  have e2 : ((l ++ r).take (l.length + k)).drop l.length = r.take k := by
    rw [List.take_append_eq_append_take, List.take_of_length_le (by omega),
      show l.length + k - l.length = k by omega, List.drop_left]
  have e3 : ((l ++ r).take l.length).drop s = l.drop s := by
    rw [List.take_left]
  have e4 : (l ++ r).drop (l.length + k) = r.drop k := by
    rw [List.drop_append]
  split
  · unfold rotate_func
    rw [e1, e2, e3, e4]
    simp only [List.append_assoc]
  · rename_i h
    have : s = l.length ∨ k = 0 := by omega
    rcases this with e | e
    · subst e
      simp
    · subst e
      simp only [List.take_zero, List.append_nil, List.drop_zero]
      rw [← List.append_assoc, List.take_append_drop]

theorem pairwise_take_drop {β : Type} (N : β → β → Prop) (l : List β) (hl : l.Pairwise N)
    (s : Nat) : ∀ x ∈ l.take s, ∀ y ∈ l.drop s, N x y := by
  have := hl
  rw [← List.take_append_drop s l, List.pairwise_append] at this
  exact this.2.2
theorem insert_between {β : Type} (N : β → β → Prop) (hN : ∀ a b c, N a b → N b c → N a c)
    (w : List β) (hw : w.Pairwise N) (z : β) (i : Nat) (hi : i ≤ w.length)
    (h1 : ∀ a, 0 < i → w[i - 1]? = some a → N a z) (h2 : ∀ b, w[i]? = some b → N z b) :
    (w.take i ++ [z] ++ w.drop i).Pairwise N ∧ (w.take i ++ [z] ++ w.drop i).Perm (z :: w) := by
  constructor
  · rw [List.append_assoc, List.pairwise_append]
    refine ⟨hw.sublist (List.take_sublist _ _), ?_, ?_⟩
    · rw [List.singleton_append, List.pairwise_cons]
      refine ⟨?_, hw.sublist (List.drop_sublist _ _)⟩
      intro y hy
      exact take_drop_cross N hN [z] w (List.pairwise_singleton _ _) hw 1 i (le_refl _)
        (fun a b _ ha hb => by
          have : a = z := by simpa using ha.symm
          rw [this]
          exact h2 b hb) z (by simp) y hy
    · intro x hx y hy
      rcases List.mem_append.mp hy with hy | hy
      · have hy' : y ∈ [z].drop 0 := by simpa using hy
        exact take_drop_cross N hN w [z] hw (List.pairwise_singleton _ _) i 0 hi
          (fun a b hpos ha hb => by
            have : b = z := by simpa using hb.symm
            rw [this]
            exact h1 a hpos ha) x hx y hy'
      · exact pairwise_take_drop N w hw i x hx y hy
  · rw [List.append_assoc, List.singleton_append]
    refine List.perm_middle.trans ?_
    rw [List.take_append_drop]

/-- The merge step: two neighbouring runs arranged by `N` are merged into one run
arranged by `N`, provided every comparison of an element of the right run with an element
of the left run settles `N`. -/
theorem symMerge_func_settles {β : Type} (less : β → β → Except Err Bool) (N : β → β → Prop)
    (hN : ∀ a b c, N a b → N b c → N a c) (fuel : Nat) :
    ∀ l r : List β, l ≠ [] → r ≠ [] → (l ++ r).length ≤ fuel → l.Pairwise N → r.Pairwise N →
      (∀ x ∈ l, ∀ y ∈ r, Settles less N x y) →
      ∃ out, symMerge_func less fuel (l ++ r) l.length = .ok out ∧ out.Perm (l ++ r) ∧
        out.Pairwise N := by
  induction fuel with
  | zero =>
    intro l r hl _ hlen
    cases l with
    | nil => exact absurd rfl hl
    | cons x l => simp at hlen
  | succ fuel ih =>
    intro l r hl0 hr0 hlen hl hr hset
    have hlpos : 0 < l.length := List.length_pos.mpr hl0
    have hrpos : 0 < r.length := List.length_pos.mpr hr0
    have hB : (l ++ r).length = l.length + r.length := List.length_append _ _
    have hgetl : ∀ c, c < l.length → (l ++ r)[c]? = l[c]? :=
      fun c hc => List.getElem?_append_left hc
    have hgetr : ∀ q, (l ++ r)[l.length + q]? = r[q]? := by
      intro q
      rw [List.getElem?_append_right (by omega), Nat.add_sub_cancel_left]
    by_cases hm1 : l.length = 1
    · -- the left run is a single element
      obtain ⟨x, rfl⟩ := List.length_eq_one.mp hm1
      rw [symMerge_func_first less fuel _ _ hm1]
      have hok : ∀ h, 1 ≤ h → h < ([x] ++ r).length →
          ∃ v, (fun h => do less (← sliceGet ([x] ++ r) h) (← sliceGet ([x] ++ r) 0)) h =
            .ok v := by
        intro h h1 h2
        have hh : h - 1 < r.length := by rw [hB] at h2; simp at h2; omega
        obtain ⟨v, hv, _⟩ := hset x (by simp) r[h - 1] (List.getElem_mem _)
        refine ⟨v, ?_⟩
        show (do less (← sliceGet ([x] ++ r) h) (← sliceGet ([x] ++ r) 0)) = .ok v
        rw [less_eval less _ h 0 x r[h - 1] (by
          have := hgetr (h - 1)
          rw [show [x].length + (h - 1) = h by simp; omega] at this
          rw [this]
          exact List.getElem?_eq_getElem hh) (by simp)]
        exact hv
      obtain ⟨s, e1, e2, e3, e4, e5⟩ := searchLoop_spec _ (([x] ++ r).length - [x].length + 1)
        [x].length ([x] ++ r).length (by rw [hB]; omega) (by omega) hok
      have hs1 : 1 ≤ s := e2
      have hs2 : s - 1 ≤ r.length := by rw [hB] at e3; simp at e3; omega
      have hshape : (([x] ++ r).take s).drop 1 ++ ([x] ++ r).take 1 ++ ([x] ++ r).drop s =
          r.take (s - 1) ++ [x] ++ r.drop (s - 1) := by
        obtain ⟨t, rfl⟩ : ∃ t, s = t + 1 := ⟨s - 1, by omega⟩
        simp
      have hins := insert_between N hN r hr x (s - 1) hs2
        (fun a hpos ha => by
          rcases e4 with e4 | e4
          · simp at e4; omega
          · obtain ⟨v, hv, hv1, _⟩ := hset x (by simp) a (List.getElem?_mem ha)
            have e4' : (do less (← sliceGet ([x] ++ r) (s - 1)) (← sliceGet ([x] ++ r) 0)) =
                .ok true := e4
            rw [less_eval less _ (s - 1) 0 x a (by
              have := hgetr (s - 1 - 1)
              rw [show [x].length + (s - 1 - 1) = s - 1 by simp; omega] at this
              rw [this]
              exact ha) (by simp), hv] at e4'
            injection e4' with e4'
            exact hv1 e4')
        (fun b hb => by
          rcases e5 with e5 | e5
          · have : (s - 1) < r.length := (List.getElem?_eq_some_iff.mp hb).1
            rw [hB] at e5; simp at e5; omega
          · obtain ⟨v, hv, _, hv2⟩ := hset x (by simp) b (List.getElem?_mem hb)
            have e5' : (do less (← sliceGet ([x] ++ r) s) (← sliceGet ([x] ++ r) 0)) =
                .ok false := e5
            rw [less_eval less _ s 0 x b (by
              have := hgetr (s - 1)
              rw [show [x].length + (s - 1) = s by simp; omega] at this
              rw [this]
              exact hb) (by simp), hv] at e5'
            injection e5' with e5'
            exact hv2 e5')
      refine ⟨r.take (s - 1) ++ [x] ++ r.drop (s - 1), ?_, hins.2, hins.1⟩
      rw [bind_ok_eq _ _ _ e1, ← hshape]
      rfl
    · by_cases hm2 : (l ++ r).length - l.length = 1
      · -- the right run is a single element
        have hr1 : r.length = 1 := by rw [hB] at hm2; omega
        obtain ⟨y, rfl⟩ := List.length_eq_one.mp hr1
        rw [symMerge_func_second less fuel _ _ hm1 hm2]
        have hm : (l ++ [y])[l.length]? = some y := by simp
        have hok : ∀ h, 0 ≤ h → h < l.length →
            ∃ v, (fun h => do pure (!(← less (← sliceGet (l ++ [y]) l.length)
              (← sliceGet (l ++ [y]) h)))) h = .ok v := by
          intro h _ h2
          obtain ⟨v, hv, _⟩ := hset l[h] (List.getElem_mem _) y (by simp)
          exact ⟨!v, not_less_eval less _ _ h l[h] y v hm
            ((hgetl h h2).trans (List.getElem?_eq_getElem h2)) hv⟩
        obtain ⟨s, e1, e2, e3, e4, e5⟩ := searchLoop_spec _ (l.length + 1) 0 l.length
          (Nat.zero_le _) (by omega) hok
        have hshape : (l ++ [y]).take s ++ (l ++ [y]).drop l.length ++
            ((l ++ [y]).take l.length).drop s = l.take s ++ [y] ++ l.drop s := by
          rw [List.take_append_eq_append_take, show s - l.length = 0 by omega, List.drop_left,
            List.take_left]
          simp
        have hins := insert_between N hN l hl y s e3
          (fun a hpos ha => by
            rcases e4 with e4 | e4
            · omega
            · obtain ⟨v, hv, _, hv2⟩ := hset a (List.getElem?_mem ha) y (by simp)
              have e4' : (do pure (!(← less (← sliceGet (l ++ [y]) l.length)
                  (← sliceGet (l ++ [y]) (s - 1)))) : Except Err Bool) = .ok true := e4
              rw [not_less_eval less _ _ (s - 1) a y v hm
                ((hgetl (s - 1) (by omega)).trans ha) hv] at e4'
              injection e4' with e4'
              exact hv2 (by simpa using e4'))
          (fun b hb => by
            have hsl : s < l.length := (List.getElem?_eq_some_iff.mp hb).1
            rcases e5 with e5 | e5
            · omega
            · obtain ⟨v, hv, hv1, _⟩ := hset b (List.getElem?_mem hb) y (by simp)
              have e5' : (do pure (!(← less (← sliceGet (l ++ [y]) l.length)
                  (← sliceGet (l ++ [y]) s))) : Except Err Bool) = .ok false := e5
              rw [not_less_eval less _ _ s b y v hm ((hgetl s hsl).trans hb) hv] at e5'
              injection e5' with e5'
              exact hv1 (by simpa using e5'))
        refine ⟨l.take s ++ [y] ++ l.drop s, ?_, hins.2.trans (List.perm_append_singleton y l).symm, hins.1⟩
        rw [bind_ok_eq _ _ _ e1, ← hshape]
        rfl
      · -- the general step: split both runs, exchange the middle parts, merge both halves
        rw [symMerge_func_third less fuel _ _ hm1 hm2]
        simp only [hB]
        obtain ⟨mid, hmid⟩ : ∃ mid, mid = (l.length + r.length) / 2 := ⟨_, rfl⟩
        rw [← hmid]
        have hm2' : r.length ≠ 1 := by rw [hB] at hm2; omega
        generalize hlo : (if l.length > mid then mid + l.length - (l.length + r.length) else 0)
          = lo
        generalize hhi : (if l.length > mid then mid else l.length) = hi
        have hfacts : lo ≤ hi ∧ hi ≤ l.length ∧ hi ≤ mid ∧ mid + l.length ≤ l.length + r.length + lo ∧
            (lo = 0 ∨ mid - lo = r.length) ∧ (hi = mid ∨ hi = l.length) := by
          subst hlo hhi
          split <;> omega
        obtain ⟨f1, f2, f3, f4, f5, f6⟩ := hfacts
        have probe : ∀ c q a b, l[c]? = some a → r[q]? = some b →
            mid + l.length - 1 - c = l.length + q →
            ∃ v, (v = true → N b a) ∧ (v = false → N a b) ∧
              (do pure (!(← less (← sliceGet (l ++ r) (mid + l.length - 1 - c))
                (← sliceGet (l ++ r) c))) : Except Err Bool) = .ok (!v) := by
          intro c q a b ha hb hq
          obtain ⟨v, hv, h1, h2⟩ := hset a (List.getElem?_mem ha) b (List.getElem?_mem hb)
          have hc : c < l.length := (List.getElem?_eq_some_iff.mp ha).1
          exact ⟨v, h1, h2, not_less_eval less _ _ c a b v (by rw [hq, hgetr]; exact hb)
            ((hgetl c hc).trans ha) hv⟩
        have hok : ∀ c, lo ≤ c → c < hi →
            ∃ v, (fun c => do pure (!(← less (← sliceGet (l ++ r) (mid + l.length - 1 - c))
                (← sliceGet (l ++ r) c)))) c = .ok v := by
          intro c h1 h2
          have hc : c < l.length := by omega
          have hq : mid - 1 - c < r.length := by omega
          obtain ⟨v, _, _, hv⟩ := probe c (mid - 1 - c) l[c] r[mid - 1 - c]
            (List.getElem?_eq_getElem hc) (List.getElem?_eq_getElem hq) (by omega)
          exact ⟨!v, hv⟩
        obtain ⟨s, e1, e2, e3, e4, e5⟩ := searchLoop_spec _ (hi - lo + 1) lo hi f1 (by omega) hok
        rw [bind_ok_eq _ _ _ e1]
        have hsm : s ≤ l.length := by omega
        have hsmid : s ≤ mid := by omega
        have hk : mid - s ≤ r.length := by omega
        have hend : mid + l.length - s = l.length + (mid - s) := by omega
        rw [hend, rotate_split l r s (mid - s) hsm hk]
        have hL0 : (l.take s ++ r.take (mid - s)).length = mid := by
          rw [List.length_append, List.length_take, List.length_take]
          omega
        rw [List.take_left' hL0, List.drop_left' hL0]
        have hc1 : ∀ x ∈ l.take s, ∀ y ∈ r.drop (mid - s), N x y :=
          take_drop_cross N hN l r hl hr s (mid - s) hsm (fun a b hpos ha hb => by
            have hkr : mid - s < r.length := (List.getElem?_eq_some_iff.mp hb).1
            rcases e4 with e4 | e4
            · omega
            · obtain ⟨v, _, h2, hg⟩ := probe (s - 1) (mid - s) a b ha hb (by omega)
              have := hg.symm.trans e4
              injection this with this
              exact h2 (by simpa using this))
        have hc2 : ∀ x ∈ r.take (mid - s), ∀ y ∈ l.drop s, N x y :=
          take_drop_cross N hN r l hr hl (mid - s) s hk (fun a b hpos ha hb => by
            have hsl : s < l.length := (List.getElem?_eq_some_iff.mp hb).1
            rcases e5 with e5 | e5
            · omega
            · obtain ⟨v, h1, _, hg⟩ := probe s (mid - s - 1) b a hb ha (by omega)
              have := hg.symm.trans e5
              injection this with this
              exact h1 (by simpa using this))
        have hfinal : ∀ L R : List β, L.Perm (l.take s ++ r.take (mid - s)) →
            R.Perm (l.drop s ++ r.drop (mid - s)) → L.Pairwise N → R.Pairwise N →
            (L ++ R).Perm (l ++ r) ∧ (L ++ R).Pairwise N := by
          intro L R hL hR hLp hRp
          constructor
          · refine (List.Perm.append hL hR).trans ?_
            have e : l ++ r = (l.take s ++ l.drop s) ++ (r.take (mid - s) ++ r.drop (mid - s)) := by
              rw [List.take_append_drop, List.take_append_drop]
            rw [e]
            simp only [List.append_assoc]
            refine List.Perm.append_left _ ?_
            rw [← List.append_assoc, ← List.append_assoc]
            exact List.Perm.append_right _ List.perm_append_comm
          · rw [List.pairwise_append]
            refine ⟨hLp, hRp, ?_⟩
            intro x hx y hy
            rcases List.mem_append.mp (hL.subset hx) with hx | hx <;>
              rcases List.mem_append.mp (hR.subset hy) with hy | hy
            · exact pairwise_take_drop N l hl s x hx y hy
            · exact hc1 x hx y hy
            · exact hc2 x hx y hy
            · exact pairwise_take_drop N r hr (mid - s) x hx y hy
        have hright : ∀ L : List β, L.length = mid → L.Perm (l.take s ++ r.take (mid - s)) →
            L.Pairwise N →
            ∃ out, (if mid < l.length + (mid - s) ∧
                  l.length + (mid - s) < l.length + r.length then
                (symMerge_func less fuel ((L ++ (l.drop s ++ r.drop (mid - s))).drop mid)
                  (l.length + (mid - s) - mid) >>= fun right =>
                  pure ((L ++ (l.drop s ++ r.drop (mid - s))).take mid ++ right))
              else pure (L ++ (l.drop s ++ r.drop (mid - s)))) = .ok out ∧
              out.Perm (l ++ r) ∧ out.Pairwise N := by
          intro L hLlen hL hLp
          rw [List.take_left' hLlen, List.drop_left' hLlen]
          by_cases hc : mid < l.length + (mid - s) ∧ l.length + (mid - s) < l.length + r.length
          · rw [if_pos hc]
            have hne1 : l.drop s ≠ [] :=
              List.ne_nil_of_length_pos (by rw [List.length_drop]; omega)
            have hne2 : r.drop (mid - s) ≠ [] :=
              List.ne_nil_of_length_pos (by rw [List.length_drop]; omega)
            obtain ⟨R, hR1, hR2, hR3⟩ := ih (l.drop s) (r.drop (mid - s)) hne1 hne2
              (by rw [List.length_append, List.length_drop, List.length_drop]; omega)
              (hl.sublist (List.drop_sublist _ _)) (hr.sublist (List.drop_sublist _ _))
              (fun x hx y hy => hset x (List.mem_of_mem_drop hx) y (List.mem_of_mem_drop hy))
            rw [List.length_drop, show l.length - s = l.length + (mid - s) - mid by omega] at hR1
            obtain ⟨g1, g2⟩ := hfinal L R hL hR2 hLp hR3
            refine ⟨L ++ R, ?_, g1, g2⟩
            rw [bind_ok_eq _ _ _ hR1]
            rfl
          · rw [if_neg hc]
            have hRp : (l.drop s ++ r.drop (mid - s)).Pairwise N := by
              have : l.drop s = [] ∨ r.drop (mid - s) = [] := by
                by_cases h : l.length ≤ s
                · exact Or.inl (List.drop_of_length_le h)
                · exact Or.inr (List.drop_of_length_le (by omega))
              rcases this with e | e
              · rw [e, List.nil_append]; exact hr.sublist (List.drop_sublist _ _)
              · rw [e, List.append_nil]; exact hl.sublist (List.drop_sublist _ _)
            obtain ⟨g1, g2⟩ := hfinal L _ hL (List.Perm.refl _) hLp hRp
            exact ⟨_, rfl, g1, g2⟩
        by_cases hleft : 0 < s ∧ s < mid
        · rw [if_pos hleft]
          have hne1 : l.take s ≠ [] :=
            List.ne_nil_of_length_pos (by rw [List.length_take]; omega)
          have hne2 : r.take (mid - s) ≠ [] :=
            List.ne_nil_of_length_pos (by rw [List.length_take]; omega)
          obtain ⟨L, hL1, hL2, hL3⟩ := ih (l.take s) (r.take (mid - s)) hne1 hne2
            (by rw [hL0]; omega)
            (hl.sublist (List.take_sublist _ _)) (hr.sublist (List.take_sublist _ _))
            (fun x hx y hy => hset x (List.mem_of_mem_take hx) y (List.mem_of_mem_take hy))
          rw [List.length_take, Nat.min_eq_left hsm] at hL1
          rw [bind_ok_eq _ _ _ hL1]
          exact hright L (by rw [hL2.length_eq, hL0]) hL2 hL3
        · rw [if_neg hleft]
          have hLp : (l.take s ++ r.take (mid - s)).Pairwise N := by
            have : l.take s = [] ∨ r.take (mid - s) = [] := by
              by_cases h : s = 0
              · left; rw [h]; rfl
              · right
                rw [show mid - s = 0 by omega]
                rfl
            rcases this with e | e
            · rw [e, List.nil_append]; exact hr.sublist (List.take_sublist _ _)
            · rw [e, List.append_nil]; exact hl.sublist (List.take_sublist _ _)
          exact hright _ hL0 (List.Perm.refl _) hLp
theorem Blocks_perm {β : Type} (N : β → β → Prop) (size : Nat) (d orig : List β)
    (h : Blocks N size d orig) : d.Perm orig := by
  induction h with
  | last d xs _ _ hp => exact hp
  | cons b d xb xs _ _ hp _ ih => exact List.Perm.append hp ih

theorem Blocks_short {β : Type} (N : β → β → Prop) (size : Nat) (d orig : List β)
    (h : Blocks N size d orig) (hlen : d.length ≤ size) : d.Pairwise N := by
  cases h with
  | last d xs _ hp _ => exact hp
  | cons b d xb xs hb hp _ _ =>
    rw [List.length_append] at hlen
    have : d = [] := List.length_eq_zero.mp (by omega)
    rw [this, List.append_nil]
    exact hp

theorem Blocks_split {β : Type} (N : β → β → Prop) (size : Nat) (d orig : List β)
    (h : Blocks N size d orig) (hlen : size ≤ d.length) :
    ∃ b d2 xb xs, d = b ++ d2 ∧ orig = xb ++ xs ∧ b.length = size ∧ b.Pairwise N ∧
      b.Perm xb ∧ Blocks N size d2 xs := by
  cases h with
  | last d xs h1 h2 h3 =>
    exact ⟨d, [], orig, [], (List.append_nil _).symm, (List.append_nil _).symm,
      Nat.le_antisymm h1 hlen, h2, h3,
      Blocks.last [] [] (Nat.zero_le _) List.Pairwise.nil (List.Perm.refl _)⟩
  | cons b d xb xs h1 h2 h3 h4 => exact ⟨b, d, xb, xs, rfl, rfl, h1, h2, h3, h4⟩

/-- The first loop of `stable_func` leaves runs of `blockSize` elements, each sorted. -/
theorem blocks_settles {β : Type} (less : β → β → Except Err Bool) (N : β → β → Prop)
    (hN : ∀ a b c, N a b → N b c → N a c) (size : Nat) (hsize : 0 < size) (fuel : Nat) :
    ∀ rest : List β, rest.length < fuel →
      (∀ x y, List.Sublist [x, y] rest → Settles less N x y) →
      ∃ out, stable_func.blocks less size fuel rest = .ok out ∧ Blocks N size out rest := by
  induction fuel with
  | zero => intro rest h; omega
  | succ fuel ih =>
    intro rest hlen H
    unfold stable_func.blocks
    by_cases hc : size ≤ rest.length
    · rw [if_pos hc]
      obtain ⟨block, b1, b2, b3⟩ := insertionSort_func_settles less N hN (rest.take size)
        (fun x y hxy => H x y (hxy.trans (List.take_sublist _ _)))
      obtain ⟨tail, t1, t2⟩ := ih (rest.drop size) (by rw [List.length_drop]; omega)
        (fun x y hxy => H x y (hxy.trans (List.drop_sublist _ _)))
      refine ⟨block ++ tail, ?_, ?_⟩
      · rw [bind_ok_eq _ _ _ b1, bind_ok_eq _ _ _ t1]
        rfl
      · have := Blocks.cons block tail (rest.take size) (rest.drop size)
          (by rw [b2.length_eq, List.length_take]; omega) b3 b2 t2
        rwa [List.take_append_drop] at this
    · rw [if_neg hc]
      obtain ⟨out, b1, b2, b3⟩ := insertionSort_func_settles less N hN rest H
      exact ⟨out, b1, Blocks.last out rest (by rw [b2.length_eq]; omega) b3 b2⟩

/-- One round of merging doubles the length of the sorted runs. -/
theorem pass_settles {β : Type} (less : β → β → Except Err Bool) (N : β → β → Prop)
    (hN : ∀ a b c, N a b → N b c → N a c) (size : Nat) (hsize : 0 < size) (fuel : Nat) :
    ∀ data orig : List β, Blocks N size data orig → data.length < fuel →
      (∀ x y, List.Sublist [x, y] orig → Settles less N x y) →
      ∃ out, stable_func.pass less size fuel data = .ok out ∧ Blocks N (2 * size) out orig := by
  induction fuel with
  | zero => intro data orig _ h; omega
  | succ fuel ih =>
    intro data orig hB hlen H
    unfold stable_func.pass
    by_cases hc : 2 * size ≤ data.length
    · rw [if_pos hc]
      obtain ⟨b, d2, xb, xs, rfl, rfl, hb1, hb2, hb3, hB2⟩ :=
        Blocks_split N size data orig hB (by omega)
      rw [List.length_append] at hc hlen
      obtain ⟨c, d3, xc, xs3, rfl, rfl, hc1, hc2, hc3, hB3⟩ :=
        Blocks_split N size d2 xs hB2 (by omega)
      rw [List.length_append] at hlen
      have hbc : (b ++ c).length = 2 * size := by rw [List.length_append]; omega
      rw [← List.append_assoc, List.take_left' hbc, List.drop_left' hbc]
      obtain ⟨merged, m1, m2, m3⟩ := symMerge_func_settles less N hN (2 * size) b c
        (List.ne_nil_of_length_pos (by omega)) (List.ne_nil_of_length_pos (by omega))
        (by omega) hb2 hc2
        (fun x hx y hy => H x y (by
          rw [← List.append_assoc]
          exact (pair_sublist_append xb xc x y (hb3.subset hx) (hc3.subset hy)).trans
            (List.sublist_append_left _ _)))
      rw [hb1] at m1
      obtain ⟨tail, t1, t2⟩ := ih d3 xs3 hB3 (by omega)
        (fun x y hxy => H x y (hxy.trans
          ((List.sublist_append_right _ _).trans (List.sublist_append_right _ _))))
      refine ⟨merged ++ tail, ?_, ?_⟩
      · rw [bind_ok_eq _ _ _ m1, bind_ok_eq _ _ _ t1]
        rfl
      · rw [← List.append_assoc]
        exact Blocks.cons merged tail (xb ++ xc) xs3 (by rw [m2.length_eq, hbc]) m3
          (m2.trans (List.Perm.append hb3 hc3)) t2
    · rw [if_neg hc]
      by_cases hc2 : size < data.length
      · rw [if_pos hc2]
        obtain ⟨b, d2, xb, xs, rfl, rfl, hb1, hb2, hb3, hB2⟩ :=
          Blocks_split N size data orig hB (by omega)
        have hlen2 : (b ++ d2).length = size + d2.length := by rw [List.length_append, hb1]
        rw [hlen2] at hc hc2
        obtain ⟨merged, m1, m2, m3⟩ := symMerge_func_settles less N hN (b ++ d2).length b d2
          (List.ne_nil_of_length_pos (by omega)) (List.ne_nil_of_length_pos (by omega))
          (le_refl _) hb2 (Blocks_short N size d2 xs hB2 (by omega))
          (fun x hx y hy => H x y
            (pair_sublist_append xb xs x y (hb3.subset hx)
              ((Blocks_perm N size d2 xs hB2).subset hy)))
        rw [hb1] at m1
        exact ⟨merged, m1, Blocks.last merged _ (by rw [m2.length_eq, hlen2]; omega) m3
          (m2.trans (List.Perm.append hb3 (Blocks_perm N size d2 xs hB2)))⟩
      · rw [if_neg hc2]
        exact ⟨data, rfl, Blocks.last data orig (by omega)
          (Blocks_short N size data orig hB (by omega)) (Blocks_perm N size data orig hB)⟩

/-- The rounds of merging end with one sorted run. -/
theorem rounds_settles {β : Type} (less : β → β → Except Err Bool) (N : β → β → Prop)
    (hN : ∀ a b c, N a b → N b c → N a c) (fuel : Nat) :
    ∀ (size : Nat) (data orig : List β), 0 < size → Blocks N size data orig →
      data.length < size + fuel → 0 < fuel →
      (∀ x y, List.Sublist [x, y] orig → Settles less N x y) →
      ∃ out, stable_func.rounds less fuel size data = .ok out ∧ out.Perm orig ∧
        out.Pairwise N := by
  induction fuel with
  | zero => intro size data orig _ _ _ h; omega
  | succ fuel ih =>
    intro size data orig hsize hB hlen _ H
    unfold stable_func.rounds
    by_cases hc : size < data.length
    · rw [if_pos hc]
      obtain ⟨data2, p1, p2⟩ := pass_settles less N hN size hsize (data.length + 1) data orig hB
        (by omega) H
      have hl2 : data2.length = data.length :=
        ((Blocks_perm N _ data2 orig p2).trans (Blocks_perm N _ data orig hB).symm).length_eq
      obtain ⟨out, o1, o2, o3⟩ := ih (2 * size) data2 orig (by omega) p2 (by omega) (by omega) H
      refine ⟨out, ?_, o2, o3⟩
      rw [bind_ok_eq _ _ _ p1]
      exact o1
    · rw [if_neg hc]
      exact ⟨data, rfl, Blocks_perm N size data orig hB,
        Blocks_short N size data orig hB (by omega)⟩

/-- The library sort with a comparator that settles an arrangement relation `N` on every
pair it is asked about: the sort succeeds and returns a rearrangement of the input that is
arranged by `N`.  The comparator is only ever asked whether an element may move in
front of one that stood before it in the input. -/
theorem SliceStable_settles {β : Type} (less : β → β → Except Err Bool) (N : β → β → Prop)
    (hN : ∀ a b c, N a b → N b c → N a c) (xs : List β)
    (H : ∀ x y, List.Sublist [x, y] xs → Settles less N x y) :
    ∃ out, SliceStable less xs = .ok out ∧ out.Perm xs ∧ out.Pairwise N := by
  obtain ⟨data, d1, d2⟩ := blocks_settles less N hN 20 (by omega) (xs.length + 1) xs (by omega) H
  obtain ⟨out, o1, o2, o3⟩ := rounds_settles less N hN (data.length + 1) 20 data xs (by omega) d2
    (by omega) (by omega) H
  refine ⟨out, ?_, o2, o3⟩
  unfold SliceStable stable_func
  rw [bind_ok_eq _ _ _ d1]
  exact o1
/-! ## Lemmas: stable sorting -/

theorem sinkLeft_pure {β : Type} (less : β → β → Except Err Bool) (p : β → β → Bool) (x : β)
    (left : List β) (h : ∀ y ∈ left, less x y = .ok (p x y)) :
    sinkLeft less x left = .ok (List.orderedInsert (fun a b => p a b = false) x left) := by
  induction left with
  | nil => rfl
  | cons y left ih =>
    unfold sinkLeft
    rw [h y (List.mem_cons_self _ _)]
    have ih' := ih (fun z hz => h z (List.mem_cons_of_mem _ hz))
    cases hp : p x y
    · simp [List.orderedInsert, hp, bind, Except.bind, pure, Except.pure]
    · simp [List.orderedInsert, hp, bind, Except.bind, pure, Except.pure, ih']

theorem foldlM_sinkLeft_pure {β : Type} (less : β → β → Except Err Bool) (p : β → β → Bool)
    (xs : List β) :
    ∀ left : List β, (∀ a ∈ xs ++ left, ∀ b ∈ xs ++ left, less a b = .ok (p a b)) →
      xs.foldlM (fun left x => sinkLeft less x left) left =
        .ok (xs.foldl (fun left x => List.orderedInsert (fun a b => p a b = false) x left) left) := by
  induction xs with
  | nil => intro left _; rfl
  | cons x xs ih =>
    intro left h
    rw [List.foldlM_cons, sinkLeft_pure less p x left (fun y hy =>
      h x (by simp) y (by simp [hy]))]
    show List.foldlM _ _ xs = _
    rw [ih]
    · rfl
    · intro a ha b hb
      apply h
      · rcases List.mem_append.mp ha with ha | ha
        · simp [ha]
        · rcases (List.mem_orderedInsert _).mp ha with ha | ha
          · simp [ha]
          · simp [ha]
      · rcases List.mem_append.mp hb with hb | hb
        · simp [hb]
        · rcases (List.mem_orderedInsert _).mp hb with hb | hb
          · simp [hb]
          · simp [hb]

theorem insertionSort_eq_foldr {β : Type} (r : β → β → Prop) [DecidableRel r] (l : List β) :
    List.insertionSort r l = l.foldr (List.orderedInsert r) [] := by
  induction l with
  | nil => rfl
  | cons a l ih => simp [List.insertionSort, ih]

theorem insertionSort_func_pure {β : Type} (less : β → β → Except Err Bool) (p : β → β → Bool)
    (xs : List β) (h : ∀ a ∈ xs, ∀ b ∈ xs, less a b = .ok (p a b)) :
    insertionSort_func less xs = .ok (stableSort p xs) := by
  unfold insertionSort_func stableSort
  rw [foldlM_sinkLeft_pure less p xs [] (by simpa using h), insertionSort_eq_foldr,
    List.foldr_reverse]
  rfl

theorem stableSort_perm {β : Type} (p : β → β → Bool) (xs : List β) :
    (stableSort p xs).Perm xs := by
  unfold stableSort
  exact (List.reverse_perm _).trans ((List.perm_insertionSort _ _).trans (List.reverse_perm _))

/-- Stability for an arbitrary comparator: a pair standing in source order that the
comparator does not ask to swap keeps its order. -/
theorem stableSort_stable {β : Type} (p : β → β → Bool) (xs : List β) (a b : β)
    (h : List.Sublist [a, b] xs) (hp : p b a = false) : List.Sublist [a, b] (stableSort p xs) := by
  unfold stableSort
  have h1 : List.Sublist [b, a] xs.reverse := by
    have := h.reverse
    simpa using this
  have h2 := List.pair_sublist_insertionSort (r := fun a b => p a b = false) hp h1
  have := h2.reverse
  simpa using this

theorem stableSort_sorted {β : Type} (p : β → β → Bool) (xs : List β)
    (htot : ∀ a b, p a b = false ∨ p b a = false)
    (htr : ∀ a b c, p a b = false → p b c = false → p a c = false) :
    (stableSort p xs).Pairwise (fun a b => p b a = false) := by
  unfold stableSort
  haveI : IsTotal β (fun a b => p a b = false) := ⟨htot⟩
  haveI : IsTrans β (fun a b => p a b = false) := ⟨htr⟩
  have := List.sorted_insertionSort (fun a b => p a b = false) xs.reverse
  rw [List.pairwise_reverse]
  exact this

theorem pair_sublist_unique {β : Type} (l : List β) (hnd : l.Nodup) (a b : β)
    (h1 : List.Sublist [a, b] l) (h2 : List.Sublist [b, a] l) : False := by
  induction l with
  | nil => simp at h1
  | cons x l ih =>
    rw [List.nodup_cons] at hnd
    cases h1 with
    | cons _ h1 =>
      cases h2 with
      | cons _ h2 => exact ih hnd.2 h1 h2
      | cons₂ _ h2 =>
        have : b ∈ l := (h1.subset) (by simp)
        exact hnd.1 this
    | cons₂ _ h1 =>
      cases h2 with
      | cons _ h2 =>
        have : a ∈ l := (h2.subset) (by simp)
        exact hnd.1 this
      | cons₂ _ h2 =>
        have : a ∈ l := h2.subset (by simp)
        exact hnd.1 this

theorem pair_sublist_range (n a b : Nat) (hab : a < b) (hb : b < n) :
    List.Sublist [a, b] (List.range n) := by
  apply List.sublist_of_subperm_of_sorted (r := (· ≤ ·))
  · apply List.subperm_of_subset
    · simp; omega
    · intro x hx
      simp at hx
      rw [List.mem_range]
      omega
  · simp [List.Sorted]; omega
  · exact List.sorted_le_range n

/-- On a slice of at most 20 elements the library sort is the insertion sort. -/
theorem SliceStable_short {β : Type} (less : β → β → Except Err Bool) (p : β → β → Bool)
    (xs : List β) (hlen : xs.length ≤ 20) (h : ∀ a ∈ xs, ∀ b ∈ xs, less a b = .ok (p a b)) :
    SliceStable less xs = .ok (stableSort p xs) := by
  have hs := insertionSort_func_pure less p xs h
  have hl : (stableSort p xs).length = xs.length := (stableSort_perm p xs).length_eq
  have hr : ∀ d : List β, d.length ≤ 20 →
      stable_func.rounds less (d.length + 1) 20 d = .ok d := by
    intro d hd
    unfold stable_func.rounds
    rw [if_neg (by omega)]
    rfl
  unfold SliceStable stable_func
  unfold stable_func.blocks
  by_cases hc : 20 ≤ xs.length
  · rw [if_pos hc, List.take_of_length_le hlen, List.drop_of_length_le hlen]
    have e : stable_func.blocks less 20 xs.length ([] : List β) = .ok [] := by
      obtain ⟨n, hn⟩ : ∃ n, xs.length = n + 1 := ⟨xs.length - 1, by omega⟩
      rw [hn]
      unfold stable_func.blocks
      rw [if_neg (by simp)]
      rfl
    rw [hs, e]
    show stable_func.rounds less (List.length (stableSort p xs ++ []) + 1) 20
      (stableSort p xs ++ []) = .ok (stableSort p xs)
    rw [List.append_nil]
    exact hr _ (by omega)
  · rw [if_neg hc, bind_ok_eq _ _ _ hs]
    exact hr _ (by omega)

theorem strictWeak_total {β : Type} (p : β → β → Bool) (hw : StrictWeak p) (a b : β) :
    p a b = false ∨ p b a = false := by
  cases h : p a b
  · exact Or.inl rfl
  · exact Or.inr (hw.asymm a b h)

theorem tieLe_trans {β : Type} (p : β → β → Bool) (hw : StrictWeak p) (pos : β → Nat)
    (a b c : β) (h1 : tieLe p pos a b) (h2 : tieLe p pos b c) : tieLe p pos a c := by
  unfold tieLe at h1 h2 ⊢
  rcases h1 with h1 | ⟨h1, h1'⟩ <;> rcases h2 with h2 | ⟨h2, h2'⟩
  · left
    cases hac : p a c
    · have := hw.negtrans a c b hac (hw.asymm b c h2)
      rw [h1] at this; cases this
    · rfl
  · left
    cases hac : p a c
    · have := hw.negtrans a c b hac h2
      rw [h1] at this; cases this
    · rfl
  · left
    cases hac : p a c
    · have := hw.negtrans b a c h1 hac
      rw [h2] at this; cases this
    · rfl
  · exact Or.inr ⟨hw.negtrans c b a h2 h1, Nat.le_trans h1' h2'⟩

theorem tieLe_antisymm (p : Nat → Nat → Bool) (hw : StrictWeak p) (a b : Nat)
    (h1 : tieLe p id a b) (h2 : tieLe p id b a) : a = b := by
  unfold tieLe at h1 h2
  rcases h1 with h1 | ⟨h1, h1'⟩ <;> rcases h2 with h2 | ⟨h2, h2'⟩
  · have := hw.asymm a b h1
    rw [h2] at this; cases this
  · rw [h1] at h2; cases h2
  · rw [h2] at h1; cases h1
  · simp only [id] at h1' h2'; omega

/-- A stable sort by `p` of a list that is increasing in `pos` is ordered by `p` with
ties in `pos` order. -/
theorem stableSort_tieLe (p : Nat → Nat → Bool) (hw : StrictWeak p) (xs : List Nat)
    (hxs : xs.Sorted (· < ·)) : (stableSort p xs).Pairwise (tieLe p id) := by
  have hsorted := stableSort_sorted p xs (strictWeak_total p hw) hw.negtrans
  have hperm := stableSort_perm p xs
  have hnd : (stableSort p xs).Nodup := hperm.nodup_iff.mpr hxs.nodup
  rw [List.pairwise_iff_forall_sublist] at hsorted ⊢
  intro a b hab
  have hba := hsorted hab
  by_cases hle : a ≤ b
  · exact Or.inr ⟨hba, hle⟩
  · left
    cases hp : p a b
    · exfalso
      have hmem : ∀ x ∈ [a, b], x ∈ xs := fun x hx => hperm.subset (hab.subset hx)
      have hsub : List.Sublist [b, a] xs := by
        apply List.sublist_of_subperm_of_sorted (r := (· ≤ ·))
        · apply List.subperm_of_subset
          · simp; omega
          · intro x hx
            apply hmem
            simp at hx ⊢
            tauto
        · simp [List.Sorted]; omega
        · exact hxs.le_of_lt
      exact pair_sublist_unique _ hnd a b hab (stableSort_stable _ xs b a hsub hp)
    · rfl

theorem tieLe_sorted_unique (p : Nat → Nat → Bool) (hw : StrictWeak p) (l₁ l₂ : List Nat)
    (hp : l₁.Perm l₂) (h1 : l₁.Pairwise (tieLe p id)) (h2 : l₂.Pairwise (tieLe p id)) :
    l₁ = l₂ := by
  haveI : IsAntisymm Nat (tieLe p id) := ⟨fun a b => tieLe_antisymm p hw a b⟩
  exact List.eq_of_perm_of_sorted hp h1 h2

/-- For a comparator that is a strict weak order the library sort returns the stable
sorted arrangement, whatever the length of the slice. -/
theorem SliceStable_weak (less : Nat → Nat → Except Err Bool) (p : Nat → Nat → Bool)
    (hw : StrictWeak p) (xs : List Nat) (hxs : xs.Sorted (· < ·))
    (h : ∀ a ∈ xs, ∀ b ∈ xs, less a b = .ok (p a b)) :
    SliceStable less xs = .ok (stableSort p xs) := by
  obtain ⟨out, h1, h2, h3⟩ := SliceStable_settles less (tieLe p id)
    (tieLe_trans p hw id) xs (fun x y hxy => by
      have hx : x ∈ xs := hxy.subset (by simp)
      have hy : y ∈ xs := hxy.subset (by simp)
      have hlt : x < y := by
        have := hxs.sublist hxy
        simp [List.Sorted] at this
        exact this
      exact ⟨p y x, h y hy x hx, fun e => Or.inl e, fun e => Or.inr ⟨e, Nat.le_of_lt hlt⟩⟩)
  rw [h1, tieLe_sorted_unique p hw out (stableSort p xs) (h2.trans (stableSort_perm p xs).symm)
    h3 (stableSort_tieLe p hw xs hxs)]

theorem weakOn_of_linear {α : Type} (before : α → α → Bool) (hb : StrictLinear before) :
    WeakOn before (fun _ => True) := by
  refine ⟨fun a b _ _ h => ?_, fun a b c _ _ _ h1 h2 => ?_⟩
  · cases hba : before b a
    · rfl
    · have := hb.trans _ _ _ h hba
      rw [hb.irrefl] at this
      cases this
  · cases hac : before a c
    · rfl
    · cases hcb : before c b
      · have := hb.total b c h2 hcb
        subst this
        rw [hac] at h1
        exact h1
      · have := hb.trans _ _ _ hac hcb
        rw [h1] at this
        cases this

theorem weakOn_float64 (desc : Bool) :
    WeakOn (beforeFloat64 desc) (fun v => v.isNaN = false) := by
  cases desc
  · refine ⟨fun a b ha hb h => ?_, fun a b c ha hb hc h1 h2 => ?_⟩
    · simp only [beforeFloat64, Float64.lt, ha, hb] at h ⊢
      simp at h ⊢
      omega
    · simp only [beforeFloat64, Float64.lt, ha, hb, hc] at h1 h2 ⊢
      simp at h1 h2 ⊢
      omega
  · refine ⟨fun a b ha hb h => ?_, fun a b c ha hb hc h1 h2 => ?_⟩
    · simp only [beforeFloat64, Float64.lt, ha, hb] at h ⊢
      simp at h ⊢
      omega
    · simp only [beforeFloat64, Float64.lt, ha, hb, hc] at h1 h2 ⊢
      simp at h1 h2 ⊢
      omega

/-- The row comparator is a strict weak order when the value comparison is one on the
values that occur as keys. -/
theorem rowLess_weak {α : Type} (before : α → α → Bool) (S : α → Prop) (hb : WeakOn before S)
    (key : Nat → Option α) (hS : ∀ i v, key i = some v → S v) :
    StrictWeak (rowLess before key) := by
  refine ⟨fun a b h => ?_, fun a b c h1 h2 => ?_⟩
  · unfold rowLess at h ⊢
    cases ha : key a <;> cases hkb : key b <;> simp only [ha, hkb] at h ⊢
    · simp at h ⊢; omega
    · simp at h
    · exact hb.asymm _ _ (hS a _ ha) (hS b _ hkb) h
  · unfold rowLess at h1 h2 ⊢
    cases ha : key a <;> cases hkb : key b <;> cases hc : key c <;>
      simp only [ha, hkb, hc] at h1 h2 ⊢
    · simp at h1 h2 ⊢; omega
    · simp at h2
    · simp at h1
    · simp at h1
    · simp at h2
    · exact hb.negtrans _ _ _ (hS a _ ha) (hS b _ hkb) (hS c _ hc) h1 h2

theorem bytesLess_irrefl (a : GoString) : bytesLess a a = false := by
  induction a with
  | nil => rfl
  | cons x a ih => simp [bytesLess, ih]

theorem bytesLess_trans (a b c : GoString) (h1 : bytesLess a b = true)
    (h2 : bytesLess b c = true) : bytesLess a c = true := by
  induction a generalizing b c with
  | nil =>
    cases b with
    | nil => simp [bytesLess] at h1
    | cons y b =>
      cases c with
      | nil => simp [bytesLess] at h2
      | cons z c => simp [bytesLess]
  | cons x a ih =>
    cases b with
    | nil => simp [bytesLess] at h1
    | cons y b =>
      cases c with
      | nil => simp [bytesLess] at h2
      | cons z c =>
        simp only [bytesLess] at h1 h2 ⊢
        by_cases hxy : x < y
        · by_cases hyz : y < z
          · simp [show x < z by omega]
          · by_cases hzy : z < y
            · simp [hyz, hzy] at h2
            · have : y = z := by omega
              subst this
              simp [hxy]
        · by_cases hyx : y < x
          · simp [hxy, hyx] at h1
          · have hxy' : x = y := by omega
            subst hxy'
            simp only [hxy, if_false] at h1
            by_cases hyz : x < z
            · simp [hyz]
            · by_cases hzy : z < x
              · simp [hyz, hzy] at h2
              · simp only [hyz, hzy, if_false] at h2 ⊢
                exact ih b c h1 h2

theorem bytesLess_total (a b : GoString) (h1 : bytesLess a b = false)
    (h2 : bytesLess b a = false) : a = b := by
  induction a generalizing b with
  | nil =>
    cases b with
    | nil => rfl
    | cons y b => simp [bytesLess] at h1
  | cons x a ih =>
    cases b with
    | nil => simp [bytesLess] at h2
    | cons y b =>
      simp only [bytesLess] at h1 h2
      by_cases hxy : x < y
      · simp [hxy] at h1
      · by_cases hyx : y < x
        · simp [hyx] at h2
        · have : x = y := by omega
          subst this
          simp only [hxy, if_false] at h1 h2
          rw [ih b h1 h2]

/-- `bytesLess` is the lexicographic order of the byte sequences. -/
theorem bytesLess_iff_lex (a b : GoString) : bytesLess a b = true ↔ List.Lex (· < ·) a b := by
  induction a generalizing b with
  | nil =>
    cases b with
    | nil => simp [bytesLess]
    | cons y b => simp [bytesLess, List.Lex.nil]
  | cons x a ih =>
    cases b with
    | nil => simp [bytesLess]
    | cons y b =>
      simp only [bytesLess]
      by_cases hxy : x < y
      · simp only [hxy, if_true, true_iff]
        exact List.Lex.rel hxy
      · by_cases hyx : y < x
        · simp only [hxy, hyx, if_true, if_false, Bool.false_eq_true, false_iff]
          intro h
          cases h with
          | cons h => exact Nat.lt_irrefl _ hyx
          | rel h => exact hxy h
        · have : x = y := by omega
          subst this
          simp only [hxy, if_false]
          constructor
          · intro h
            exact List.Lex.cons ((ih b).mp h)
          · intro h
            cases h with
            | cons h => exact (ih b).mpr h
            | rel h => exact absurd h hxy

theorem strictLinear_int64 (desc : Bool) : StrictLinear (beforeInt64 desc) := by
  cases desc
  · exact ⟨fun a => by simp [beforeInt64],
      fun a b c h1 h2 => by simp [beforeInt64] at h1 h2 ⊢; omega,
      fun a b h1 h2 => by simp [beforeInt64] at h1 h2; omega⟩
  · exact ⟨fun a => by simp [beforeInt64],
      fun a b c h1 h2 => by simp [beforeInt64] at h1 h2 ⊢; omega,
      fun a b h1 h2 => by simp [beforeInt64] at h1 h2; omega⟩

theorem strictLinear_bool (desc : Bool) : StrictLinear (beforeBool desc) := by
  cases desc
  · exact ⟨by decide, by decide, by decide⟩
  · exact ⟨by decide, by decide, by decide⟩

theorem strictLinear_utf8 (desc : Bool) : StrictLinear (beforeUtf8 desc) := by
  cases desc
  · exact ⟨fun a => bytesLess_irrefl a, fun a b c h1 h2 => bytesLess_trans a b c h1 h2,
      fun a b h1 h2 => bytesLess_total a b h1 h2⟩
  · exact ⟨fun a => bytesLess_irrefl a, fun a b c h1 h2 => bytesLess_trans c b a h2 h1,
      fun a b h1 h2 => (bytesLess_total b a h1 h2).symm⟩

namespace TypedColumn

variable {α : Type}

theorem key_of_lt (c : TypedColumn α) (i : Nat) (h : i < c.data.length) :
    c.key i = if c.valid.bit i then some (c.data.get ⟨i, h⟩) else none := by
  unfold key
  rw [rows_getElem? c i h]
  cases c.valid.bit i <;> rfl

theorem sortLess_pure (col : TypedColumn α) (hwf : col.WF) (before : α → α → Bool)
    (li lj : Nat) (hi : li < col.data.length) (hj : lj < col.data.length) :
    sortLess col before li lj = .ok (rowLess before col.key li lj) := by
  unfold sortLess rowLess
  rw [col.IsNull_of_WF hwf li hi, col.IsNull_of_WF hwf lj hj, key_of_lt col li hi,
    key_of_lt col lj hj, sliceGet_of_lt _ _ hi, sliceGet_of_lt _ _ hj]
  cases col.valid.bit li <;> cases col.valid.bit lj <;> rfl

end TypedColumn

/-- On a column satisfying the invariant the comparator of `SortBy` settles that null
keys stand last, whatever the value comparison answers. -/
theorem TypedColumn.sortLess_settles {α : Type} (col : TypedColumn α) (hwf : col.WF)
    (before : α → α → Bool) (x y : Nat) (hx : x < col.data.length) (hy : y < col.data.length) :
    Settles (sortLess col before) (fun a b => col.key a = none → col.key b = none) x y := by
  refine ⟨rowLess before col.key y x, col.sortLess_pure hwf before y x hy hx, ?_, ?_⟩
  · intro h hk
    unfold rowLess at h
    rw [hk] at h
    cases hkx : col.key x with
    | none => rfl
    | some v => rw [hkx] at h; simp at h
  · intro h hk
    unfold rowLess at h
    rw [hk] at h
    cases hky : col.key y with
    | none => rfl
    | some v => rw [hky] at h; simp at h

/-- Whatever its value comparison, the sort of a typed key column succeeds, rearranges
the given rows and puts the rows with a null key last. -/
theorem TypedColumn.sort_total {α : Type} (col : TypedColumn α) (hwf : col.WF)
    (before : α → α → Bool) (order : List Nat) (h : ∀ r ∈ order, r < col.data.length) :
    ∃ out, SliceStable (sortLess col before) order = .ok out ∧ out.Perm order ∧
      out.Pairwise (fun a b => col.key a = none → col.key b = none) :=
  SliceStable_settles _ _ (fun _ _ _ hab hbc hk => hbc (hab hk)) order
    (fun x y hxy => col.sortLess_settles hwf before x y (h x (hxy.subset (by simp)))
      (h y (hxy.subset (by simp))))

/-- The key of a row that is out of range is null. -/
theorem TypedColumn.key_none_of_ge {α : Type} (col : TypedColumn α) (i : Nat)
    (h : col.data.length ≤ i) : col.key i = none := by
  unfold TypedColumn.key
  rw [List.getElem?_eq_none (by rw [TypedColumn.rows_length]; exact h)]

theorem TypedColumn.key_mem_rows {α : Type} (col : TypedColumn α) (i : Nat) (v : α)
    (h : col.key i = some v) : (v, true) ∈ col.rows := by
  unfold TypedColumn.key at h
  split at h
  · rename_i a heq
    injection h with h
    subst h
    exact List.getElem?_mem heq
  · cases h

/-- When the comparator is a strict weak order on the keys, or the column has at most 20
rows, the sort of a typed key column returns the stable sorted arrangement. -/
theorem TypedColumn.sort_stable {α : Type} (col : TypedColumn α) (hwf : col.WF)
    (before : α → α → Bool)
    (hw : StrictWeak (rowLess before col.key) ∨ col.data.length ≤ 20) :
    SliceStable (sortLess col before) (List.range col.data.length) =
      .ok (stableSort (rowLess before col.key) (List.range col.data.length)) := by
  have hpure : ∀ a ∈ List.range col.data.length, ∀ b ∈ List.range col.data.length,
      sortLess col before a b = .ok (rowLess before col.key a b) :=
    fun a ha b hb => col.sortLess_pure hwf before a b (List.mem_range.mp ha) (List.mem_range.mp hb)
  rcases hw with hw | hw
  · exact SliceStable_weak _ _ hw _ (List.sorted_lt_range _) hpure
  · exact SliceStable_short _ _ _ (by rw [List.length_range]; exact hw) hpure

theorem sortOrder_total (c : Column) (hwf : c.WF) (desc : Bool) (order : List Nat)
    (h : ∀ r ∈ order, r < c.Len) :
    ∃ out, sortOrder c desc order = .ok out ∧ out.Perm order := by
  cases c with
  | int64 t =>
    obtain ⟨out, h1, h2, _⟩ := t.sort_total hwf (beforeInt64 desc) order h
    exact ⟨out, h1, h2⟩
  | float64 t =>
    obtain ⟨out, h1, h2, _⟩ := t.sort_total hwf (beforeFloat64 desc) order h
    exact ⟨out, h1, h2⟩
  | bool t =>
    obtain ⟨out, h1, h2, _⟩ := t.sort_total hwf (beforeBool desc) order h
    exact ⟨out, h1, h2⟩
  | utf8 t =>
    obtain ⟨out, h1, h2, _⟩ := t.sort_total hwf (beforeUtf8 desc) order h
    exact ⟨out, h1, h2⟩

theorem sortOrder_spec (c : Column) (hwf : c.WF) (desc : Bool) (order : List Nat)
    (h : ∀ r ∈ order, r < c.Len) :
    sortOrder c desc order = .ok (sortedOrder c desc order) := by
  obtain ⟨out, h1, _⟩ := sortOrder_total c hwf desc order h
  unfold sortedOrder
  rw [h1]

theorem sortedOrder_perm (c : Column) (hwf : c.WF) (desc : Bool) (order : List Nat)
    (h : ∀ r ∈ order, r < c.Len) : (sortedOrder c desc order).Perm order := by
  obtain ⟨out, h1, h2⟩ := sortOrder_total c hwf desc order h
  unfold sortedOrder
  rw [h1]
  exact h2

theorem NaNFree_weak (t : Float64Column) (hfree : (Column.float64 t).NaNFree) (desc : Bool) :
    StrictWeak (rowLess (beforeFloat64 desc) t.key) :=
  rowLess_weak _ _ (weakOn_float64 desc) t.key
    (fun i v hk => hfree (v, true) (t.key_mem_rows i v hk) rfl)

/-- For a key column free of NaN, or of at most 20 rows, `sortOrder` computes the stable
sorted arrangement of the rows. -/
theorem sortedOrder_stable (c : Column) (hwf : c.WF) (desc : Bool)
    (h : c.NaNFree ∨ c.Len ≤ 20) :
    sortedOrder c desc (List.range c.Len) = stableOrder c desc (List.range c.Len) := by
  have key : sortOrder c desc (List.range c.Len) = .ok (stableOrder c desc (List.range c.Len)) := by
    cases c with
    | int64 t =>
      exact t.sort_stable hwf _ (Or.inl (rowLess_weak _ _
        (weakOn_of_linear _ (strictLinear_int64 desc)) _ (fun _ _ _ => trivial)))
    | float64 t =>
      rcases h with h | h
      · exact t.sort_stable hwf _ (Or.inl (NaNFree_weak t h desc))
      · exact t.sort_stable hwf _ (Or.inr h)
    | bool t =>
      exact t.sort_stable hwf _ (Or.inl (rowLess_weak _ _
        (weakOn_of_linear _ (strictLinear_bool desc)) _ (fun _ _ _ => trivial)))
    | utf8 t =>
      exact t.sort_stable hwf _ (Or.inl (rowLess_weak _ _
        (weakOn_of_linear _ (strictLinear_utf8 desc)) _ (fun _ _ _ => trivial)))
  unfold sortedOrder
  rw [key]
/-! ## Lemmas: expression evaluation -/

theorem bitmap.set_spec (b : bitmap) (i : Nat) (h : i / 64 < b.bits.length) :
    ∃ b', b.set i = .ok b' ∧ b'.bits.length = b.bits.length ∧
      ∀ j, b'.bit j = (b.bit j || decide (j = i)) := by
  refine ⟨⟨b.bits.set (i / 64) (b.bits.getD (i / 64) 0 ||| (1 <<< (i % 64)))⟩, ?_, ?_, ?_⟩
  · unfold bitmap.set
    rw [sliceGet_getD _ _ 0 h]
    show sliceSet _ _ _ >>= _ = _
    rw [sliceSet_of_lt _ _ _ h]
    rfl
  · simp
  · intro j
    unfold bitmap.bit
    rw [getD_set _ _ _ _ h]
    by_cases hw : j / 64 = i / 64
    · rw [if_pos hw, testBit_mark, hw]
      by_cases hji : j = i
      · subst hji; simp
      · have : ¬ j % 64 = i % 64 := by omega
        simp [hji, this]
    · rw [if_neg hw]
      have : j ≠ i := by intro e; apply hw; rw [e]
      simp [this]

theorem newBitmapFromBools_fill_spec (ms : List Bool) :
    ∀ (i : Nat) (b : bitmap), i + ms.length ≤ 64 * b.bits.length →
      ∃ b', newBitmapFromBools.fill ms i b = .ok b' ∧ b'.bits.length = b.bits.length ∧
        ∀ j, b'.bit j = (b.bit j || (decide (i ≤ j) && ms.getD (j - i) false)) := by
  induction ms with
  | nil =>
    intro i b _
    exact ⟨b, rfl, rfl, fun j => by simp⟩
  | cons m ms ih =>
    intro i b hcov
    simp only [List.length_cons] at hcov
    unfold newBitmapFromBools.fill
    cases m
    · obtain ⟨b', h1, h2, h3⟩ := ih (i + 1) b (by omega)
      refine ⟨b', h1, h2, fun j => ?_⟩
      rw [h3 j]
      by_cases hj : i + 1 ≤ j
      · have e : j - i = (j - (i + 1)) + 1 := by omega
        have hij : i ≤ j := by omega
        simp [hj, hij, e]
      · by_cases hij : i ≤ j
        · have e : j - i = 0 := by omega
          simp [hj, hij, e]
        · simp [hj, hij]
    · obtain ⟨b1, hs1, hs2, hs3⟩ := bitmap.set_spec b i (by omega)
      obtain ⟨b', h1, h2, h3⟩ := ih (i + 1) b1 (by rw [hs2]; omega)
      refine ⟨b', ?_, by rw [h2, hs2], fun j => ?_⟩
      · show (b.set i >>= fun b => newBitmapFromBools.fill ms (i + 1) b) = _
        rw [hs1]
        exact h1
      · rw [h3 j, hs3 j]
        by_cases hj : i + 1 ≤ j
        · have e : j - i = (j - (i + 1)) + 1 := by omega
          have hij : i ≤ j := by omega
          have hne : ¬ j = i := by omega
          simp [hj, hij, e, hne]
        · by_cases hij : i ≤ j
          · have e : j = i := by omega
            subst e
            simp
          · have hne : ¬ j = i := by omega
            simp [hj, hij, hne]

theorem newBitmapFromBools_spec (vs : List Bool) :
    ∃ b, newBitmapFromBools vs = .ok b ∧ b.bits.length = (vs.length + 63) / 64 ∧
      ∀ j, b.bit j = vs.getD j false := by
  obtain ⟨b, h1, h2, h3⟩ := newBitmapFromBools_fill_spec vs 0
    ⟨List.replicate ((vs.length + 63) / 64) 0⟩ (by simp; omega)
  refine ⟨b, h1, by simpa using h2, fun j => ?_⟩
  rw [h3 j]
  have : (bitmap.mk (List.replicate ((vs.length + 63) / 64) 0)).bit j = false := by
    unfold bitmap.bit
    by_cases hj : j / 64 < (vs.length + 63) / 64
    · rw [List.getD_eq_getElem _ _ (by simpa using hj)]
      simp
    · rw [List.getD_eq_default _ _ (by simpa using hj)]
      simp
  simp [this]

theorem packMask_spec (cs : List (Bool × Bool)) :
    ∃ m, packMask cs = .ok m ∧ m.name = "_mask" ∧ m.data = cs.map Prod.fst ∧ m.rows = cs ∧
      m.WF := by
  obtain ⟨b, h1, h2, h3⟩ := newBitmapFromBools_spec (cs.map Prod.snd)
  refine ⟨⟨"_mask", cs.map Prod.fst, b⟩, ?_, rfl, rfl, ?_, ?_⟩
  · unfold packMask TypedColumn.New
    show (newBitmapFromBools (cs.map Prod.snd) >>= _) = _
    rw [h1]
    rfl
  · unfold TypedColumn.rows TypedColumn.valids
    have hv : (List.range (cs.map Prod.fst).length).map b.bit = cs.map Prod.snd := by
      apply List.ext_getElem
      · simp
      · intro i hi1 hi2
        simp only [List.getElem_map, List.getElem_range]
        rw [h3]
        simp at hi2
        simp [List.getD_eq_getElem?_getD, List.getElem?_eq_getElem, hi2]
    show List.zip (cs.map Prod.fst) ((List.range (cs.map Prod.fst).length).map b.bit) = cs
    rw [hv]
    clear hv h1 h2 h3
    induction cs with
    | nil => rfl
    | cons c cs ih => simp [ih]
  · unfold TypedColumn.WF
    show (cs.map Prod.fst).length ≤ 64 * b.bits.length
    rw [h2]
    simp
    omega

theorem logical_cell_spec (op : String) (la lb : BoolColumn) (hla : la.WF) (hlb : lb.WF)
    (i : Nat) (a b : Bool × Bool) (ha : la.rows[i]? = some a) (hb : lb.rows[i]? = some b) :
    logicalExpr.cell op la lb i = .ok (logicalExpr.combine op a b) := by
  obtain ⟨a1, a2⟩ := a
  obtain ⟨b1, b2⟩ := b
  obtain ⟨h1, h2⟩ := TypedColumn.observe_row la hla i a1 a2 ha
  obtain ⟨h3, h4⟩ := TypedColumn.observe_row lb hlb i b1 b2 hb
  unfold logicalExpr.cell logicalExpr.combine
  rw [h1, h2, h3, h4]
  cases a2 <;> cases b2 <;> cases a1 <;> cases b1 <;> by_cases hop : (op == "and") = true <;>
    simp [hop, bind, Except.bind, pure, Except.pure]

theorem logical_cells_spec (op : String) (la lb : BoolColumn) (hla : la.WF) (hlb : lb.WF)
    (hlen : la.Len = lb.Len) :
    (List.range la.Len).mapM (logicalExpr.cell op la lb) =
      .ok (List.zipWith (logicalExpr.combine op) la.rows lb.rows) := by
  have hl1 : la.rows.length = la.Len := TypedColumn.rows_length la
  have hl2 : lb.rows.length = la.Len := by rw [TypedColumn.rows_length lb]; exact hlen.symm
  rw [mapM_ok (logicalExpr.cell op la lb)
    (fun i => logicalExpr.combine op (la.rows.getD i (false, false)) (lb.rows.getD i (false, false)))]
  · congr 1
    apply List.ext_getElem
    · simp [hl1, hl2]
    · intro i h1 h2
      simp only [List.length_map, List.length_range] at h1
      simp [List.getD_eq_getElem?_getD, List.getElem?_eq_getElem, hl1, hl2, h1]
  · intro i hi
    have hi' : i < la.Len := List.mem_range.mp hi
    apply logical_cell_spec op la lb hla hlb
    · rw [List.getD_eq_getElem _ _ (by omega)]; exact List.getElem?_eq_getElem (by omega)
    · rw [List.getD_eq_getElem _ _ (by omega)]; exact List.getElem?_eq_getElem (by omega)

theorem maskOf_eq (n : Nat) (cell : Nat → Except Err (Bool × Bool)) :
    maskOf n cell = (List.range n).mapM cell >>= packMask := rfl

/-- `Eval` computes the cells and then builds the mask column from them. -/
theorem Eval_eq_cells (rt : FloatRuntime) (df : DataFrame) (e : Expr) :
    e.Eval rt df = e.cells rt df >>= packMask := by
  induction e with
  | compareExpr left op right =>
    unfold Expr.Eval Expr.cells
    cases hc : df.Column left with
    | error err => rfl
    | ok oc =>
      cases oc with
      | none => rfl
      | some col => rfl
  | evenExpr name =>
    unfold Expr.Eval Expr.cells
    cases hc : df.Column name with
    | error err => rfl
    | ok oc =>
      cases oc with
      | none => rfl
      | some col => rfl
  | logicalExpr left right op ihl ihr =>
    unfold Expr.Eval Expr.cells
    rw [ihl, ihr]
    cases hca : Expr.cells rt df left with
    | error err => rfl
    | ok ca =>
      obtain ⟨la, hla1, _, _, hla4, hla5⟩ := packMask_spec ca
      cases hcb : Expr.cells rt df right with
      | error err =>
        show (packMask ca >>= fun la => (Except.error err >>= packMask) >>= _) = _
        rw [hla1]
        rfl
      | ok cb =>
        obtain ⟨lb, hlb1, _, _, hlb4, hlb5⟩ := packMask_spec cb
        have e1 : la.Len = ca.length := by rw [← hla4]; exact (TypedColumn.rows_length la).symm
        have e2 : lb.Len = cb.length := by rw [← hlb4]; exact (TypedColumn.rows_length lb).symm
        simp only [bind, Except.bind, hla1, hlb1, e1, e2]
        by_cases hlen : ca.length = cb.length
        · have hne : (ca.length != cb.length) = false := by simpa using hlen
          simp only [hne, Bool.false_eq_true, if_false]
          rw [maskOf_eq, ← e1, logical_cells_spec op la lb hla5 hlb5 (by rw [e1, e2, hlen]),
            hla4, hlb4]
          rfl
        · have hne : (ca.length != cb.length) = true := by simpa using hlen
          simp only [hne, if_true]
          rfl

/-! ## Lemmas: frame operations -/

theorem WF_facts {df : DataFrame} (hwf : df.WF) :
    (∀ c ∈ df.columns, c.Len = df.nrows ∧ c.WF) ∧ df.columns ≠ [] := by
  obtain ⟨_, _, _, h4, h5⟩ := frame_of_New hwf.1
  exact ⟨fun c hc => ⟨h4 c hc, hwf.2 c hc⟩, h5⟩

theorem mapRows_Len_eq (f : (α : Type) → List (α × Bool) → List (α × Bool)) (c : Column)
    (m : Nat) (h : ∀ (α : Type) (rs : List (α × Bool)), rs.length = c.Len → (f α rs).length = m) :
    (c.mapRows f).Len = m := by
  cases c with
  | int64 t =>
    show ((f Int t.rows).map Prod.fst).length = m
    rw [List.length_map]
    exact h Int t.rows (TypedColumn.rows_length t)
  | float64 t =>
    show ((f Float64 t.rows).map Prod.fst).length = m
    rw [List.length_map]
    exact h Float64 t.rows (TypedColumn.rows_length t)
  | bool t =>
    show ((f Bool t.rows).map Prod.fst).length = m
    rw [List.length_map]
    exact h Bool t.rows (TypedColumn.rows_length t)
  | utf8 t =>
    show ((f GoString t.rows).map Prod.fst).length = m
    rw [List.length_map]
    exact h GoString t.rows (TypedColumn.rows_length t)

theorem filterRows_Name (mask : List Bool) (c : Column) : (c.filterRows mask).Name = c.Name :=
  Column.mapRows_Name _ c

theorem takeRows_Name (order : List Nat) (c : Column) : (c.takeRows order).Name = c.Name :=
  Column.mapRows_Name _ c

theorem filterRows_Len (mask : List Bool) (c : Column) (h : mask.length = c.Len) :
    (c.filterRows mask).Len = mask.count true :=
  mapRows_Len_eq _ c _ (fun _ rs hrs => pick_length mask rs (by rw [h, hrs]))

theorem takeRows_Len (order : List Nat) (c : Column) (h : ∀ r ∈ order, r < c.Len) :
    (c.takeRows order).Len = order.length :=
  mapRows_Len_eq _ c _ (fun _ rs hrs => gather_length order rs (by rw [hrs]; exact h))

theorem cells_length (rt : FloatRuntime) (df : DataFrame) (hwf : df.WF) (e : Expr) :
    ∀ cs, e.cells rt df = .ok cs → cs.length = df.nrows := by
  induction e with
  | compareExpr left op right =>
    intro cs h
    unfold Expr.cells at h
    rcases frame_Column_cases hwf.1 left with ⟨_, h2⟩ | ⟨c, hc1, _, hc3⟩
    · rw [h2] at h; cases h
    · rw [hc3] at h
      have := mapM_ok_length _ _ _ h
      rw [this, List.length_range]
      exact ((WF_facts hwf).1 c hc1).1
  | evenExpr name =>
    intro cs h
    unfold Expr.cells at h
    rcases frame_Column_cases hwf.1 name with ⟨_, h2⟩ | ⟨c, hc1, _, hc3⟩
    · rw [h2] at h; cases h
    · rw [hc3] at h
      have := mapM_ok_length _ _ _ h
      rw [this, List.length_range]
      exact ((WF_facts hwf).1 c hc1).1
  | logicalExpr left right op ihl ihr =>
    intro cs h
    unfold Expr.cells at h
    cases hca : Expr.cells rt df left with
    | error err => rw [hca] at h; cases h
    | ok ca =>
      cases hcb : Expr.cells rt df right with
      | error err => rw [hca, hcb] at h; cases h
      | ok cb =>
        rw [hca, hcb] at h
        simp only [bind, Except.bind] at h
        have h1 := ihl ca hca
        have h2 := ihr cb hcb
        have hne : (ca.length != cb.length) = false := by simp [h1, h2]
        simp only [hne, Bool.false_eq_true, if_false, pure, Except.pure] at h
        injection h with h
        subst h
        simp [h1, h2]

theorem Filter_frame_spec (rt : FloatRuntime) (df : DataFrame) (hwf : df.WF) (e : Expr)
    (cs : List (Bool × Bool)) (h : e.cells rt df = .ok cs) :
    df.Filter rt e = .ok ⟨df.columns.map (Column.filterRows (cs.map Prod.fst)), df.index,
      (cs.map Prod.fst).count true⟩ := by
  have hlen := cells_length rt df hwf e cs h
  obtain ⟨m, hm1, _, hm3, hm4, _⟩ := packMask_spec cs
  have hmlen : m.Len = df.nrows := by
    rw [← hlen, ← hm4]; exact (TypedColumn.rows_length m).symm
  unfold DataFrame.Filter
  rw [Eval_eq_cells, h]
  simp only [bind, Except.bind, hm1]
  have hne : (m.Len != df.nrows) = false := by simp [hmlen]
  simp only [hne, Bool.false_eq_true, if_false]
  have hmask : ∀ c ∈ df.columns, m.data.length = c.Len := by
    intro c hc
    rw [((WF_facts hwf).1 c hc).1, ← hmlen]
    rfl
  rw [mapM_ok (fun c => c.Filter m.data) (Column.filterRows m.data) df.columns
    (fun c hc => Column.Filter_spec c m.data ((WF_facts hwf).1 c hc).2 (hmask c hc))]
  simp only []
  rw [hm3]
  have := NewDataFrame_map hwf.1 (Column.filterRows (cs.map Prod.fst))
    (fun c => Column.mapRows_Name _ c) ((cs.map Prod.fst).count true)
    (fun c hc => filterRows_Len _ c (by rw [← hm3]; exact hmask c hc))
  exact this

theorem SortBy_frame_spec (df : DataFrame) (hwf : df.WF) (column : String) (desc : Bool)
    (key : Column) (hkey : df.Column column = .ok (some key)) :
    df.SortBy column desc = .ok ⟨df.columns.map
      (Column.takeRows (sortedOrder key desc (List.range df.nrows))), df.index, df.nrows⟩ := by
  obtain ⟨hk1, _⟩ := frame_Column_some hwf.1 column key hkey
  obtain ⟨hk2, hk3⟩ := (WF_facts hwf).1 key hk1
  have hperm := sortedOrder_perm key hk3 desc (List.range df.nrows)
    (fun r hr => by rw [hk2]; exact List.mem_range.mp hr)
  have hin : ∀ r ∈ sortedOrder key desc (List.range df.nrows), r < df.nrows :=
    fun r hr => List.mem_range.mp (hperm.subset hr)
  unfold DataFrame.SortBy
  rw [hkey]
  simp only [bind, Except.bind]
  rw [sortOrder_spec key hk3 desc _ (fun r hr => by rw [hk2]; exact List.mem_range.mp hr)]
  simp only []
  rw [mapM_ok (fun c => c.Take ((sortedOrder key desc (List.range df.nrows)).map Int.ofNat))
    (Column.takeRows (sortedOrder key desc (List.range df.nrows))) df.columns
    (fun c hc => Column.Take_spec c _ ((WF_facts hwf).1 c hc).2
      (fun r hr => by rw [((WF_facts hwf).1 c hc).1]; exact hin r hr))]
  simp only []
  have := NewDataFrame_map hwf.1 (Column.takeRows (sortedOrder key desc (List.range df.nrows)))
    (fun c => Column.mapRows_Name _ c) df.nrows
    (fun c hc => by
      rw [takeRows_Len _ c (fun r hr => by rw [((WF_facts hwf).1 c hc).1]; exact hin r hr),
        hperm.length_eq, List.length_range])
  exact this

/-! ## Lemmas: observing sorted and filtered columns -/

theorem sublist_pair_positions {β : Type} (l : List β) (a b : β) (h : List.Sublist [a, b] l) :
    ∃ i j : Nat, i < j ∧ l[i]? = some a ∧ l[j]? = some b := by
  induction l with
  | nil => cases h
  | cons x l ih =>
    cases h with
    | cons _ h =>
      obtain ⟨i, j, hij, hi, hj⟩ := ih h
      exact ⟨i + 1, j + 1, by omega, by simpa using hi, by simpa using hj⟩
    | cons₂ _ h =>
      have hb : b ∈ l := h.subset (by simp)
      obtain ⟨j, hj⟩ := List.mem_iff_getElem?.mp hb
      exact ⟨0, j + 1, by omega, by simp, by simpa using hj⟩

theorem pairwise_positions {β : Type} (R : β → β → Prop) (l : List β) (h : l.Pairwise R)
    (i j : Nat) (a b : β) (hij : i < j) (hi : l[i]? = some a) (hj : l[j]? = some b) : R a b := by
  obtain ⟨hi1, hi2⟩ := List.getElem?_eq_some_iff.mp hi
  obtain ⟨hj1, hj2⟩ := List.getElem?_eq_some_iff.mp hj
  have := (List.pairwise_iff_getElem.mp h) i j hi1 hj1 hij
  rwa [hi2, hj2] at this

namespace TypedColumn

variable {α : Type}

theorem key_none_iff (t : TypedColumn α) (hwf : t.WF) (p : Nat) (hp : p < t.data.length) :
    t.key p = none ↔ t.IsNull p = .ok true := by
  rw [key_of_lt t p hp, t.IsNull_of_WF hwf p hp]
  cases t.valid.bit p <;> simp

theorem key_some_iff (t : TypedColumn α) (hwf : t.WF) (p : Nat) (hp : p < t.data.length)
    (v : α) : t.key p = some v ↔ t.IsNull p = .ok false ∧ t.Value p = .ok v := by
  rw [key_of_lt t p hp, t.IsNull_of_WF hwf p hp]
  unfold Value
  rw [sliceGet_of_lt _ _ hp]
  cases t.valid.bit p <;> simp

/-- Reading row `i` of the gathered column is reading row `order[i]` of the source. -/
theorem gathered_observe (t : TypedColumn α) (hwf : t.WF) (order : List Nat)
    (hin : ∀ r ∈ order, r < t.data.length) (i p : Nat) (hi : order[i]? = some p) :
    (ofRows t.name (gather order t.rows)).IsNull i = t.IsNull p ∧
      (ofRows t.name (gather order t.rows)).Value i = t.Value p := by
  have hp : p < t.data.length := hin p (List.getElem?_mem hi)
  have hrow := rows_getElem? t p hp
  have hout : (ofRows t.name (gather order t.rows)).rows[i]? =
      some (t.data.get ⟨p, hp⟩, t.valid.bit p) := by
    rw [ofRows_rows, gather_getElem? _ _ (by rw [rows_length]; exact hin), hi]
    exact hrow
  have h1 := observe_row t hwf p _ _ hrow
  have h2 := observe_row _ (ofRows_WF _ _) i _ _ hout
  exact ⟨h2.1.trans h1.1.symm, h2.2.trans h1.2.symm⟩

end TypedColumn

theorem stableSort_range_getElem? (p : Nat → Nat → Bool) (n i : Nat) (hi : i < n) :
    ∃ r, (stableSort p (List.range n))[i]? = some r ∧ r < n := by
  have hperm := stableSort_perm p (List.range n)
  have hlen : (stableSort p (List.range n)).length = n := by
    rw [hperm.length_eq, List.length_range]
  have hi' : i < (stableSort p (List.range n)).length := by rw [hlen]; exact hi
  refine ⟨(stableSort p (List.range n)).get ⟨i, hi'⟩, List.getElem?_eq_getElem hi', ?_⟩
  exact List.mem_range.mp (hperm.subset (List.get_mem _ _ _))

theorem stableSort_range_lt (p : Nat → Nat → Bool) (n : Nat) (r : Nat)
    (hr : r ∈ stableSort p (List.range n)) : r < n :=
  List.mem_range.mp ((stableSort_perm p (List.range n)).subset hr)

namespace TypedColumn

variable {α : Type}

theorem sorted_nulls_last (t : TypedColumn α) (hwf : t.WF) (order : List Nat)
    (hperm : order.Perm (List.range t.data.length))
    (hlast : order.Pairwise (fun a b => t.key a = none → t.key b = none)) (i j : Nat)
    (hi : i < t.data.length) (hj : j < t.data.length)
    (h1 : (ofRows t.name (gather order t.rows)).IsNull i = .ok true)
    (h2 : (ofRows t.name (gather order t.rows)).IsNull j = .ok false) : j < i := by
  have hlen : order.length = t.data.length := by rw [hperm.length_eq, List.length_range]
  have hin : ∀ r ∈ order, r < t.data.length := fun r hr => List.mem_range.mp (hperm.subset hr)
  have hp1 : order[i]? = some (order.get ⟨i, by omega⟩) := List.getElem?_eq_getElem (by omega)
  have hq1 : order[j]? = some (order.get ⟨j, by omega⟩) := List.getElem?_eq_getElem (by omega)
  have hp2 := hin _ (List.get_mem order i (by omega))
  have hq2 := hin _ (List.get_mem order j (by omega))
  rw [(gathered_observe t hwf _ hin i _ hp1).1] at h1
  rw [(gathered_observe t hwf _ hin j _ hq1).1] at h2
  have hkp := (key_none_iff t hwf _ hp2).mpr h1
  have hkq : t.key (order.get ⟨j, by omega⟩) ≠ none := by
    intro e
    rw [(key_none_iff t hwf _ hq2).mp e] at h2
    cases h2
  rcases Nat.lt_trichotomy i j with hlt | heq | hgt
  · exact absurd (pairwise_positions _ _ hlast i j _ _ hlt hp1 hq1 hkp) hkq
  · subst heq
    exact absurd hkp hkq
  · exact hgt

theorem sorted_stable (t : TypedColumn α) (hwf : t.WF) (before : α → α → Bool)
    (a b : Nat) (hab : a < b) (hb : b < t.data.length)
    (h : (t.IsNull a = .ok true ∧ t.IsNull b = .ok true) ∨
      (t.IsNull a = .ok false ∧ t.IsNull b = .ok false ∧
        ∃ va vb, t.Value a = .ok va ∧ t.Value b = .ok vb ∧ before vb va = false)) :
    List.Sublist [a, b] (stableSort (rowLess before t.key) (List.range t.data.length)) := by
  apply stableSort_stable _ _ a b (pair_sublist_range _ a b hab hb)
  have ha : a < t.data.length := by omega
  unfold rowLess
  rcases h with ⟨h1, h2⟩ | ⟨h1, h2, va, vb, hva, hvb, h3⟩
  · rw [(key_none_iff t hwf a ha).mpr h1, (key_none_iff t hwf b hb).mpr h2]
    simp; omega
  · rw [(key_some_iff t hwf a ha _).mpr ⟨h1, hva⟩, (key_some_iff t hwf b hb _).mpr ⟨h2, hvb⟩]
    exact h3

theorem sorted_ordered (t : TypedColumn α) (hwf : t.WF) (before : α → α → Bool)
    (hb : StrictLinear before) (i j : Nat) (hij : i < j) (hj : j < t.data.length) (vi vj : α)
    (h1 : (ofRows t.name (gather (stableSort (rowLess before t.key) (List.range t.data.length))
      t.rows)).IsNull i = .ok false)
    (h2 : (ofRows t.name (gather (stableSort (rowLess before t.key) (List.range t.data.length))
      t.rows)).IsNull j = .ok false)
    (h3 : (ofRows t.name (gather (stableSort (rowLess before t.key) (List.range t.data.length))
      t.rows)).Value i = .ok vi)
    (h4 : (ofRows t.name (gather (stableSort (rowLess before t.key) (List.range t.data.length))
      t.rows)).Value j = .ok vj) : before vj vi = false := by
  have hi : i < t.data.length := by omega
  obtain ⟨p, hp1, hp2⟩ := stableSort_range_getElem? (rowLess before t.key) _ i hi
  obtain ⟨q, hq1, hq2⟩ := stableSort_range_getElem? (rowLess before t.key) _ j hj
  have hin := stableSort_range_lt (rowLess before t.key) t.data.length
  rw [(gathered_observe t hwf _ hin i p hp1).1] at h1
  rw [(gathered_observe t hwf _ hin j q hq1).1] at h2
  rw [(gathered_observe t hwf _ hin i p hp1).2] at h3
  rw [(gathered_observe t hwf _ hin j q hq1).2] at h4
  have hkp := (key_some_iff t hwf p hp2 vi).mpr ⟨h1, h3⟩
  have hkq := (key_some_iff t hwf q hq2 vj).mpr ⟨h2, h4⟩
  have hw := rowLess_weak before _ (weakOn_of_linear before hb) t.key (fun _ _ _ => trivial)
  have hs := stableSort_sorted (rowLess before t.key) (List.range t.data.length)
    (strictWeak_total _ hw) hw.negtrans
  have := pairwise_positions _ _ hs i j p q hij hp1 hq1
  simp only [rowLess, hkp, hkq] at this
  exact this

end TypedColumn

theorem map_frame_WF {df : DataFrame} (hwf : df.WF) (f : Column → Column)
    (hname : ∀ c, (f c).Name = c.Name) (m : Nat) (hlen : ∀ c ∈ df.columns, (f c).Len = m)
    (hf : ∀ c, (f c).WF) : (DataFrame.mk (df.columns.map f) df.index m).WF := by
  refine ⟨NewDataFrame_map hwf.1 f hname m hlen, ?_⟩
  intro c hc
  obtain ⟨c', _, rfl⟩ := List.mem_map.mp hc
  exact hf c'

theorem forall₂_map_self {β : Type} (R : β → β → Prop) (f : β → β) (l : List β)
    (h : ∀ x ∈ l, R (f x) x) : List.Forall₂ R (l.map f) l := by
  induction l with
  | nil => exact List.Forall₂.nil
  | cons x l ih =>
    exact List.Forall₂.cons (h x (List.mem_cons_self _ _))
      (ih (fun y hy => h y (List.mem_cons_of_mem _ hy)))

/-- Everything the sort claims share: `SortBy` succeeds, its row order is the value of
`sortOrder` on the key column, a permutation of the row numbers; every column of the
result holds the source rows in that order, and the key column is found again. -/
theorem SortBy_outcome (df : DataFrame) (hwf : df.WF) (column : String) (desc : Bool)
    (key : Column) (hkey : df.Column column = .ok (some key)) :
    ∃ out, df.SortBy column desc = .ok out ∧ out.WF ∧ out.nrows = df.nrows ∧
      out.index = df.index ∧
      out.columns = df.columns.map (Column.takeRows (sortedOrder key desc (List.range df.nrows))) ∧
      sortOrder key desc (List.range df.nrows) =
        .ok (sortedOrder key desc (List.range df.nrows)) ∧
      (sortedOrder key desc (List.range df.nrows)).Perm (List.range df.nrows) ∧
      List.Forall₂ (fun o s => o.RowsFrom s (sortedOrder key desc (List.range df.nrows)))
        out.columns df.columns ∧
      out.Column column =
        .ok (some (key.takeRows (sortedOrder key desc (List.range df.nrows)))) := by
  obtain ⟨hk1, hkn⟩ := frame_Column_some hwf.1 column key hkey
  obtain ⟨hk2, hk3⟩ := (WF_facts hwf).1 key hk1
  have hperm := sortedOrder_perm key hk3 desc (List.range df.nrows)
    (fun r hr => by rw [hk2]; exact List.mem_range.mp hr)
  have hin : ∀ r ∈ sortedOrder key desc (List.range df.nrows), r < df.nrows :=
    fun r hr => List.mem_range.mp (hperm.subset hr)
  have hlen : ∀ c ∈ df.columns,
      (c.takeRows (sortedOrder key desc (List.range df.nrows))).Len = df.nrows := by
    intro c hc
    rw [takeRows_Len _ c (fun r hr => by rw [((WF_facts hwf).1 c hc).1]; exact hin r hr),
      hperm.length_eq, List.length_range]
  have hout := map_frame_WF hwf (Column.takeRows (sortedOrder key desc (List.range df.nrows)))
    (fun c => Column.mapRows_Name _ c) df.nrows hlen (fun c => Column.mapRows_WF _ c)
  refine ⟨_, SortBy_frame_spec df hwf column desc key hkey, hout, rfl, rfl, rfl,
    sortOrder_spec key hk3 desc _ (fun r hr => by rw [hk2]; exact List.mem_range.mp hr), hperm,
    ?_, ?_⟩
  · apply forall₂_map_self
    intro c hc
    exact Column.takeRows_RowsFrom c _ ((WF_facts hwf).1 c hc).2
      (fun r hr => by rw [((WF_facts hwf).1 c hc).1]; exact hin r hr)
  · have := frame_Column_of_mem hout.1 (key.takeRows (sortedOrder key desc (List.range df.nrows)))
      (List.mem_map.mpr ⟨key, hk1, rfl⟩)
    rwa [takeRows_Name, hkn] at this

theorem sortedOrder_of_ok (c : Column) (desc : Bool) (order out : List Nat)
    (h : sortOrder c desc order = .ok out) : sortedOrder c desc order = out := by
  unfold sortedOrder
  rw [h]

/-- The row order of a typed key column: a rearrangement of the rows with the null keys
last. -/
theorem sortedOrder_facts {α : Type} (t : TypedColumn α) (hwf : t.WF) (before : α → α → Bool)
    (c : Column) (desc : Bool)
    (hc : sortOrder c desc (List.range t.data.length) =
      SliceStable (sortLess t before) (List.range t.data.length)) :
    (sortedOrder c desc (List.range t.data.length)).Perm (List.range t.data.length) ∧
      (sortedOrder c desc (List.range t.data.length)).Pairwise
        (fun a b => t.key a = none → t.key b = none) := by
  obtain ⟨out, h1, h2, h3⟩ := t.sort_total hwf before (List.range t.data.length)
    (fun r hr => List.mem_range.mp hr)
  rw [sortedOrder_of_ok c desc _ out (hc.trans h1)]
  exact ⟨h2, h3⟩

theorem map_ok_inj {β γ : Type} (f : β → γ) (hf : Function.Injective f) (x y : Except Err β)
    (h : f <$> x = f <$> y) : x = y := by
  cases x with
  | error e =>
    cases y with
    | error e' =>
      have h' : (Except.error e : Except Err γ) = .error e' := h
      injection h' with h'
      rw [h']
    | ok b => cases h
  | ok a =>
    cases y with
    | error e' => cases h
    | ok b =>
      have h' : (Except.ok (f a) : Except Err γ) = .ok (f b) := h
      injection h' with h'
      rw [hf h']

theorem map_ok_eq {β γ : Type} (f : β → γ) (x : Except Err β) (c : γ) (h : f <$> x = .ok c) :
    ∃ a, x = .ok a ∧ c = f a := by
  cases x with
  | error e => cases h
  | ok a =>
    have h' : (Except.ok (f a) : Except Err γ) = .ok c := h
    injection h' with h'
    exact ⟨a, rfl, h'.symm⟩

theorem float64_lt_irrefl (v : Float64) : Float64.lt v v = false := by
  simp [Float64.lt]

theorem beforeFloat64_irrefl (desc : Bool) (v : Float64) : beforeFloat64 desc v v = false := by
  cases desc <;> exact float64_lt_irrefl v

theorem int64_le_of_not_before (desc : Bool) (vi vj : Int)
    (h : beforeInt64 desc vj vi = false) :
    (desc = false → Cell.le (.int64 vi) (.int64 vj)) ∧
      (desc = true → Cell.le (.int64 vj) (.int64 vi)) := by
  cases desc
  · refine ⟨fun _ => ?_, fun e => by cases e⟩
    simp [beforeInt64] at h
    exact h
  · refine ⟨fun e => (by cases e), fun _ => ?_⟩
    simp [beforeInt64] at h
    exact h

theorem bool_le_of_not_before (desc : Bool) (vi vj : Bool)
    (h : beforeBool desc vj vi = false) :
    (desc = false → Cell.le (.bool vi) (.bool vj)) ∧
      (desc = true → Cell.le (.bool vj) (.bool vi)) := by
  cases desc <;> cases vi <;> cases vj <;> simp [beforeBool, Cell.le] at h ⊢

theorem utf8_le_of_not_less (a b : GoString) (h : bytesLess b a = false) :
    Cell.le (.utf8 a) (.utf8 b) := by
  cases hab : bytesLess a b
  · exact Or.inl (bytesLess_total a b hab h)
  · exact Or.inr ((bytesLess_iff_lex a b).mp hab)

theorem utf8_le_of_not_before (desc : Bool) (vi vj : GoString)
    (h : beforeUtf8 desc vj vi = false) :
    (desc = false → Cell.le (.utf8 vi) (.utf8 vj)) ∧
      (desc = true → Cell.le (.utf8 vj) (.utf8 vi)) := by
  cases desc
  · exact ⟨fun _ => utf8_le_of_not_less vi vj h, fun e => by cases e⟩
  · exact ⟨fun e => (by cases e), fun _ => utf8_le_of_not_less vj vi h⟩

/-! ## Lemmas: masks -/

theorem compare_cell_sound (rt : FloatRuntime) (op : String) (right : Literal) (col : Column)
    (i : Nat) (y : Bool × Bool) (h : compareExpr.cell rt op right col i = .ok y) :
    y.1 = true → y.2 = true := by
  unfold compareExpr.cell at h
  cases hn : col.IsNull i with
  | error e => rw [hn] at h; cases h
  | ok b =>
    rw [hn] at h
    cases b
    · simp only [bind, Except.bind, Bool.false_eq_true, if_false] at h
      cases col with
      | int64 c =>
        simp only [] at h
        cases hl : literalToInt64 rt right with
        | none => rw [hl] at h; cases h
        | some r =>
          rw [hl] at h
          simp only [bind, Except.bind] at h
          cases hv : c.Value i with
          | error e => rw [hv] at h; cases h
          | ok v =>
            rw [hv] at h
            injection h with h
            subst h
            intro _; rfl
      | float64 c =>
        simp only [] at h
        cases hl : literalToFloat64 rt right with
        | none => rw [hl] at h; cases h
        | some r =>
          rw [hl] at h
          simp only [bind, Except.bind] at h
          cases hv : c.Value i with
          | error e => rw [hv] at h; cases h
          | ok v =>
            rw [hv] at h
            injection h with h
            subst h
            intro _; rfl
      | utf8 c =>
        simp only [bind, Except.bind] at h
        cases hv : c.Value i with
        | error e => rw [hv] at h; cases h
        | ok v =>
          rw [hv] at h
          injection h with h
          subst h
          intro _; rfl
      | bool c =>
        simp only [] at h
        cases right with
        | bool r =>
          simp only [bind, Except.bind] at h
          cases hv : c.Value i with
          | error e => rw [hv] at h; cases h
          | ok v =>
            rw [hv] at h
            injection h with h
            subst h
            intro _; rfl
        | _ => cases h
    · simp only [bind, Except.bind, if_true, pure, Except.pure] at h
      injection h with h
      subst h
      intro e; cases e

theorem even_cell_sound (rt : FloatRuntime) (col : Column)
    (i : Nat) (y : Bool × Bool) (h : evenExpr.cell rt col i = .ok y) :
    y.1 = true → y.2 = true := by
  unfold evenExpr.cell at h
  cases hn : col.IsNull i with
  | error e => rw [hn] at h; cases h
  | ok b =>
    rw [hn] at h
    cases b
    · simp only [bind, Except.bind, Bool.false_eq_true, if_false] at h
      cases col with
      | int64 c =>
        simp only [bind, Except.bind] at h
        cases hv : c.Value i with
        | error e => rw [hv] at h; cases h
        | ok v =>
          rw [hv] at h
          injection h with h
          subst h
          intro _; rfl
      | float64 c =>
        simp only [bind, Except.bind] at h
        cases hv : c.Value i with
        | error e => rw [hv] at h; cases h
        | ok v =>
          rw [hv] at h
          injection h with h
          subst h
          intro _; rfl
      | utf8 c =>
        simp only [bind, Except.bind] at h
        cases hv : c.Value i with
        | error e => rw [hv] at h; cases h
        | ok v =>
          rw [hv] at h
          injection h with h
          subst h
          intro _; rfl
      | bool c =>
        simp only [bind, Except.bind] at h
        cases hv : c.Value i with
        | error e => rw [hv] at h; cases h
        | ok v =>
          rw [hv] at h
          injection h with h
          subst h
          intro _; rfl
    · simp only [bind, Except.bind, if_true, pure, Except.pure] at h
      injection h with h
      subst h
      intro e; cases e

theorem mem_zipWith_exists {β γ δ : Type} (f : β → γ → δ) (l₁ : List β) (l₂ : List γ) (c : δ)
    (h : c ∈ List.zipWith f l₁ l₂) : ∃ a b, c = f a b := by
  induction l₁ generalizing l₂ with
  | nil => simp at h
  | cons x l₁ ih =>
    cases l₂ with
    | nil => simp at h
    | cons y l₂ =>
      rw [List.zipWith_cons_cons, List.mem_cons] at h
      rcases h with h | h
      · exact ⟨x, y, h⟩
      · exact ih l₂ h

theorem combine_sound (op : String) (a b : Bool × Bool) :
    (logicalExpr.combine op a b).1 = true → (logicalExpr.combine op a b).2 = true := by
  unfold logicalExpr.combine
  split
  · intro e; cases e
  · intro _; rfl

/-- A mask cell that holds `true` is valid: null rows always carry `false`. -/
theorem cells_sound (rt : FloatRuntime) (df : DataFrame) (e : Expr) :
    ∀ cs, e.cells rt df = .ok cs → ∀ c ∈ cs, c.1 = true → c.2 = true := by
  induction e with
  | compareExpr left op right =>
    intro cs h c hc
    unfold Expr.cells at h
    cases hcol : df.Column left with
    | error err => rw [hcol] at h; cases h
    | ok oc =>
      rw [hcol] at h
      cases oc with
      | none => cases h
      | some col =>
        obtain ⟨i, _, hi⟩ := mapM_ok_mem_out _ _ _ h c hc
        exact compare_cell_sound rt op right col i c hi
  | evenExpr name =>
    intro cs h c hc
    unfold Expr.cells at h
    cases hcol : df.Column name with
    | error err => rw [hcol] at h; cases h
    | ok oc =>
      rw [hcol] at h
      cases oc with
      | none => cases h
      | some col =>
        obtain ⟨i, _, hi⟩ := mapM_ok_mem_out _ _ _ h c hc
        exact even_cell_sound rt col i c hi
  | logicalExpr left right op _ _ =>
    intro cs h c hc
    unfold Expr.cells at h
    cases hca : Expr.cells rt df left with
    | error err => rw [hca] at h; cases h
    | ok ca =>
      cases hcb : Expr.cells rt df right with
      | error err => rw [hca, hcb] at h; cases h
      | ok cb =>
        rw [hca, hcb] at h
        simp only [bind, Except.bind] at h
        split at h
        · cases h
        · injection h with h
          subst h
          obtain ⟨a, b, rfl⟩ := mem_zipWith_exists _ _ _ c hc
          exact combine_sound op a b

theorem Eval_ok_cells (rt : FloatRuntime) (df : DataFrame) (e : Expr) (mask : BoolColumn)
    (h : e.Eval rt df = .ok mask) :
    ∃ cs, e.cells rt df = .ok cs ∧ packMask cs = .ok mask ∧ mask.data = cs.map Prod.fst ∧
      mask.rows = cs ∧ mask.WF := by
  rw [Eval_eq_cells] at h
  cases hcs : e.cells rt df with
  | error err => rw [hcs] at h; cases h
  | ok cs =>
    rw [hcs] at h
    obtain ⟨m, hm1, _, hm3, hm4, hm5⟩ := packMask_spec cs
    have h' : packMask cs = .ok mask := h
    rw [hm1] at h'
    injection h' with h'
    subst h'
    exact ⟨cs, rfl, hm1, hm3, hm4, hm5⟩

theorem keptRows_eq (mask : BoolColumn) (cs : List (Bool × Bool)) (hrows : mask.rows = cs)
    (hwf : mask.WF) (hs : ∀ c ∈ cs, c.1 = true → c.2 = true) :
    keptRows mask cs.length = truePositions (cs.map Prod.fst) := by
  unfold keptRows truePositions
  rw [List.length_map]
  apply List.filter_congr
  intro i hi
  have hi' : i < cs.length := List.mem_range.mp hi
  have hrow : mask.rows[i]? = some (cs.get ⟨i, hi'⟩) := by
    rw [hrows]; exact List.getElem?_eq_getElem hi'
  obtain ⟨h1, h2⟩ := TypedColumn.observe_row mask hwf i _ _ hrow
  rw [h1, h2]
  have hsound := hs _ (List.get_mem cs i hi')
  have hget : (cs.map Prod.fst).getD i false = (cs.get ⟨i, hi'⟩).1 := by
    rw [List.getD_eq_getElem _ _ (by simpa using hi')]
    simp
  rw [hget]
  cases h3 : (cs.get ⟨i, hi'⟩).1 <;> cases h4 : (cs.get ⟨i, hi'⟩).2 <;> simp
  rw [h3, h4] at hsound
  exact absurd (hsound rfl) (by simp)

/-! ## Lemmas: moving a filter in front of a projection -/

theorem Select_ok_iff (df : DataFrame) (names : List String) (out : DataFrame) :
    df.Select names = .ok out ↔
      ∃ picked, List.Forall₂ (fun name c => df.Column name = .ok (some c)) names picked ∧
        NewDataFrame picked = .ok out := by
  have hf : ∀ name c, DataFrame.Select.lookup df name = .ok c ↔
      df.Column name = .ok (some c) := by
    intro name c
    unfold DataFrame.Select.lookup
    cases hcol : df.Column name with
    | error e =>
      constructor
      · intro h; cases h
      · intro h; cases h
    | ok oc =>
      cases oc with
      | none =>
        constructor
        · intro h; cases h
        · intro h; cases h
      | some c' =>
        constructor
        · intro h
          have h' : (Except.ok c' : Except Err Column) = .ok c := h
          injection h' with h'
          rw [h']
        · intro h
          injection h with h
          injection h with h
          rw [h]
          rfl
  unfold DataFrame.Select
  constructor
  · intro h
    cases hm : names.mapM (DataFrame.Select.lookup df) with
    | error e => rw [hm] at h; cases h
    | ok picked =>
      rw [hm] at h
      refine ⟨picked, ?_, h⟩
      have := (mapM_ok_forall₂ _ _ _).mp hm
      exact this.imp (fun name c hnc => (hf name c).mp hnc)
  · rintro ⟨picked, h1, h2⟩
    have := (mapM_ok_forall₂ (DataFrame.Select.lookup df) names picked).mpr
      (h1.imp (fun name c hnc => (hf name c).mpr hnc))
    rw [this]
    exact h2

theorem Filter_ok_cells (rt : FloatRuntime) (df : DataFrame) (e : Expr) (out : DataFrame)
    (h : df.Filter rt e = .ok out) : ∃ cs, e.cells rt df = .ok cs := by
  unfold DataFrame.Filter at h
  rw [Eval_eq_cells] at h
  cases hcs : e.cells rt df with
  | error err => rw [hcs] at h; cases h
  | ok cs => exact ⟨cs, rfl⟩

/-- The cells of an expression do not change when the frame is replaced by a frame with
more columns. -/
theorem cells_of_subframe (rt : FloatRuntime) (big small : DataFrame)
    (hbig : NewDataFrame big.columns = .ok big) (hsmall : NewDataFrame small.columns = .ok small)
    (hsub : ∀ c ∈ small.columns, c ∈ big.columns) (e : Expr) :
    ∀ cs, e.cells rt small = .ok cs → e.cells rt big = .ok cs := by
  have hcol : ∀ name c, small.Column name = .ok (some c) → big.Column name = .ok (some c) := by
    intro name c h
    obtain ⟨h1, h2⟩ := frame_Column_some hsmall name c h
    rw [← h2]
    exact frame_Column_of_mem hbig c (hsub c h1)
  have hnone : ∀ name, small.Column name = .ok none ∨ ∃ c, small.Column name = .ok (some c) := by
    intro name
    rcases frame_Column_cases hsmall name with ⟨_, h⟩ | ⟨c, _, _, h⟩
    · exact Or.inl h
    · exact Or.inr ⟨c, h⟩
  induction e with
  | compareExpr left op right =>
    intro cs h
    unfold Expr.cells at h ⊢
    rcases hnone left with h0 | ⟨c, hc⟩
    · rw [h0] at h; cases h
    · rw [hc] at h
      rw [hcol left c hc]
      exact h
  | evenExpr name =>
    intro cs h
    unfold Expr.cells at h ⊢
    rcases hnone name with h0 | ⟨c, hc⟩
    · rw [h0] at h; cases h
    · rw [hc] at h
      rw [hcol name c hc]
      exact h
  | logicalExpr left right op ihl ihr =>
    intro cs h
    unfold Expr.cells at h ⊢
    cases hca : Expr.cells rt small left with
    | error err => rw [hca] at h; cases h
    | ok ca =>
      cases hcb : Expr.cells rt small right with
      | error err => rw [hca, hcb] at h; cases h
      | ok cb =>
        rw [hca, hcb] at h
        rw [ihl ca hca, ihr cb hcb]
        exact h

/-- A filter may be moved in front of a projection. -/
theorem Select_Filter_swap (rt : FloatRuntime) (df f1 f2 : DataFrame) (hwf : df.WF)
    (names : List String) (e : Expr) (h1 : df.Select names = .ok f1)
    (h2 : f1.Filter rt e = .ok f2) :
    ∃ g, df.Filter rt e = .ok g ∧ g.Select names = .ok f2 := by
  obtain ⟨picked, hp1, hp2⟩ := (Select_ok_iff df names f1).mp h1
  have hf1c : f1.columns = picked := (frame_of_New hp2).1
  have hmem : ∀ c ∈ picked, c ∈ df.columns := by
    intro c hc
    obtain ⟨i, hi⟩ := List.mem_iff_getElem?.mp hc
    obtain ⟨hi1, hi2⟩ := List.getElem?_eq_some_iff.mp hi
    have hi3 : i < names.length := by rw [hp1.length_eq]; exact hi1
    have := List.Forall₂.get hp1 hi3 hi1
    simp only [List.get_eq_getElem] at this
    rw [hi2] at this
    exact (frame_Column_some hwf.1 _ c this).1
  have hf1wf : f1.WF := by
    refine ⟨by rw [hf1c]; exact hp2, ?_⟩
    intro c hc
    rw [hf1c] at hc
    exact hwf.2 c (hmem c hc)
  obtain ⟨cs, hcs⟩ := Filter_ok_cells rt f1 e f2 h2
  have hcs' := cells_of_subframe rt df f1 hwf.1 hf1wf.1 (by rw [hf1c]; exact hmem) e cs hcs
  have hF1 := Filter_frame_spec rt f1 hf1wf e cs hcs
  have hF := Filter_frame_spec rt df hwf e cs hcs'
  rw [hF1] at h2
  injection h2 with h2
  refine ⟨_, hF, ?_⟩
  rw [Select_ok_iff]
  have hlen1 := cells_length rt f1 hf1wf e cs hcs
  have hlen := cells_length rt df hwf e cs hcs'
  have hgwf : (DataFrame.mk (df.columns.map (Column.filterRows (cs.map Prod.fst))) df.index
      ((cs.map Prod.fst).count true)).WF :=
    map_frame_WF hwf _ (fun c => filterRows_Name _ c) _
      (fun c hc => filterRows_Len _ c (by
        rw [List.length_map, hlen, ((WF_facts hwf).1 c hc).1]))
      (fun c => Column.mapRows_WF _ c)
  refine ⟨picked.map (Column.filterRows (cs.map Prod.fst)), ?_, ?_⟩
  · rw [List.forall₂_map_right_iff]
    refine hp1.imp ?_
    intro name c hnc
    obtain ⟨hc1, hc2⟩ := frame_Column_some hwf.1 name c hnc
    have := frame_Column_of_mem hgwf.1 (Column.filterRows (cs.map Prod.fst) c)
      (List.mem_map.mpr ⟨c, hc1, rfl⟩)
    rwa [filterRows_Name, hc2] at this
  · rw [← h2, hf1c]
    exact NewDataFrame_map hp2 _ (fun c => filterRows_Name _ c) _
      (fun c hc => filterRows_Len _ c (by
        rw [List.length_map, hlen, ((WF_facts hwf).1 c (hmem c hc)).1]))

/-! ## Lemmas: expressions over reordered frames -/

theorem gather_cons {β : Type} (r : Nat) (order : List Nat) (xs : List β) (h : r < xs.length) :
    gather (r :: order) xs = xs.get ⟨r, h⟩ :: gather order xs := by
  simp [gather, List.filterMap_cons, List.getElem?_eq_getElem h]

theorem gather_map {β γ : Type} (f : β → γ) (order : List Nat) (xs : List β) :
    gather order (xs.map f) = (gather order xs).map f := by
  induction order with
  | nil => rfl
  | cons r order ih =>
    by_cases h : r < xs.length
    · rw [gather_cons r order xs h, gather_cons r order (xs.map f) (by simpa using h), ih]
      simp
    · have h1 : xs[r]? = none := List.getElem?_eq_none (by omega)
      have h2 : (xs.map f)[r]? = none := List.getElem?_eq_none (by simp; omega)
      have e1 : gather (r :: order) xs = gather order xs := by
        simp [gather, List.filterMap_cons, h1]
      have e2 : gather (r :: order) (xs.map f) = gather order (xs.map f) := by
        simp only [gather, List.filterMap_cons, h2]
      rw [e1, e2, ih]

theorem gather_zipWith {β γ δ : Type} (f : β → γ → δ) (order : List Nat) (xs : List β)
    (ys : List γ) (hx : ∀ r ∈ order, r < xs.length) (hy : ∀ r ∈ order, r < ys.length) :
    gather order (List.zipWith f xs ys) = List.zipWith f (gather order xs) (gather order ys) := by
  induction order with
  | nil => rfl
  | cons r order ih =>
    have hrx := hx r (List.mem_cons_self _ _)
    have hry := hy r (List.mem_cons_self _ _)
    rw [gather_cons r order xs hrx, gather_cons r order ys hry,
      gather_cons r order (List.zipWith f xs ys) (by simp; omega), List.zipWith_cons_cons,
      ih (fun q hq => hx q (List.mem_cons_of_mem _ hq)) (fun q hq => hy q (List.mem_cons_of_mem _ hq))]
    simp

theorem gather_range {β : Type} (xs : List β) : gather (List.range xs.length) xs = xs := by
  apply List.ext_getElem?
  intro i
  rw [gather_getElem? _ _ (fun p hp => List.mem_range.mp hp)]
  by_cases h : i < xs.length
  · simp [List.getElem?_range h]
  · rw [List.getElem?_eq_none (by simpa using h), List.getElem?_eq_none (by omega)]
    rfl

theorem gather_perm {β : Type} (order : List Nat) (xs : List β)
    (h : order.Perm (List.range xs.length)) : (gather order xs).Perm xs := by
  have := List.Perm.filterMap (fun r => xs[r]?) h
  have e : List.filterMap (fun r => xs[r]?) (List.range xs.length) = xs := gather_range xs
  rw [e] at this
  exact this

theorem mapM_exists {β γ : Type} (g : β → Except Err γ) (l : List β)
    (h : ∀ x ∈ l, ∃ y, g x = .ok y) : ∃ zs, l.mapM g = .ok zs := by
  induction l with
  | nil => exact ⟨[], rfl⟩
  | cons x l ih =>
    obtain ⟨y, hy⟩ := h x (List.mem_cons_self _ _)
    obtain ⟨zs, hzs⟩ := ih (fun z hz => h z (List.mem_cons_of_mem _ hz))
    exact ⟨y :: zs, by rw [List.mapM_cons, hy, hzs]; rfl⟩

theorem mapM_range_getElem? {γ : Type} (g : Nat → Except Err γ) (n : Nat) (zs : List γ)
    (h : (List.range n).mapM g = .ok zs) (r : Nat) (hr : r < n) :
    ∃ z, zs[r]? = some z ∧ g r = .ok z := by
  have h2 := (mapM_ok_forall₂ g _ zs).mp h
  have hlen : zs.length = n := by rw [← h2.length_eq, List.length_range]
  have hr1 : r < (List.range n).length := by simpa using hr
  have hr2 : r < zs.length := by omega
  have := List.Forall₂.get h2 hr1 hr2
  simp only [List.get_eq_getElem, List.getElem_range] at this
  exact ⟨zs[r], List.getElem?_eq_getElem hr2, this⟩

/-- Running a row-wise computation over a permutation of the rows succeeds exactly when
it succeeds over the rows in order, with the results permuted. -/
theorem mapM_perm_range {γ : Type} (g : Nat → Except Err γ) (order : List Nat) (n : Nat)
    (hperm : order.Perm (List.range n)) (ys : List γ) (h : order.mapM g = .ok ys) :
    ∃ zs, (List.range n).mapM g = .ok zs ∧ ys = gather order zs := by
  have hall : ∀ r ∈ List.range n, ∃ y, g r = .ok y := by
    intro r hr
    obtain ⟨y, hy, _⟩ := mapM_ok_of_mem g order ys h r (hperm.symm.subset hr)
    exact ⟨y, hy⟩
  obtain ⟨zs, hzs⟩ := mapM_exists g _ hall
  refine ⟨zs, hzs, ?_⟩
  have hin : ∀ r ∈ order, r < n := fun r hr => List.mem_range.mp (hperm.subset hr)
  have key : ∀ l : List Nat, (∀ r ∈ l, r < n) → l.mapM g = .ok (gather l zs) := by
    intro l
    induction l with
    | nil => intro _; rfl
    | cons r l ih =>
      intro hl
      obtain ⟨z, hz1, hz2⟩ := mapM_range_getElem? g n zs hzs r (hl r (List.mem_cons_self _ _))
      have hg : gather (r :: l) zs = z :: gather l zs := by
        simp [gather, List.filterMap_cons, hz1]
      rw [List.mapM_cons, hz2, ih (fun q hq => hl q (List.mem_cons_of_mem _ hq)), hg]
      rfl
  have := key order hin
  rw [h] at this
  injection this

theorem mapM_map {β γ δ : Type} (g : γ → Except Err δ) (f : β → γ) (l : List β) :
    (l.map f).mapM g = l.mapM (fun x => g (f x)) := by
  induction l with
  | nil => rfl
  | cons x l ih => rw [List.map_cons, List.mapM_cons, List.mapM_cons, ih]

theorem mapM_congr {β γ : Type} (f g : β → Except Err γ) (l : List β)
    (h : ∀ x ∈ l, f x = g x) : l.mapM f = l.mapM g := by
  induction l with
  | nil => rfl
  | cons x l ih =>
    rw [List.mapM_cons, List.mapM_cons, h x (List.mem_cons_self _ _),
      ih (fun y hy => h y (List.mem_cons_of_mem _ hy))]

theorem map_getD_range (order : List Nat) :
    (List.range order.length).map (fun i => order.getD i 0) = order := by
  apply List.ext_getElem
  · simp
  · intro i h1 h2
    simp [List.getD_eq_getElem?_getD, List.getElem?_eq_getElem h2]
theorem compare_cell_takeRows (rt : FloatRuntime) (op : String) (right : Literal) (c : Column)
    (hwf : c.WF) (order : List Nat) (hin : ∀ r ∈ order, r < c.Len) (i p : Nat)
    (hi : order[i]? = some p) :
    compareExpr.cell rt op right (c.takeRows order) i = compareExpr.cell rt op right c p := by
  cases c with
  | int64 t =>
    obtain ⟨h1, h2⟩ := TypedColumn.gathered_observe t hwf order hin i p hi
    simp only [Column.takeRows, Column.mapRows, compareExpr.cell, Column.IsNull]
    rw [h1, h2]
  | float64 t =>
    obtain ⟨h1, h2⟩ := TypedColumn.gathered_observe t hwf order hin i p hi
    simp only [Column.takeRows, Column.mapRows, compareExpr.cell, Column.IsNull]
    rw [h1, h2]
  | bool t =>
    obtain ⟨h1, h2⟩ := TypedColumn.gathered_observe t hwf order hin i p hi
    simp only [Column.takeRows, Column.mapRows, compareExpr.cell, Column.IsNull]
    rw [h1, h2]
  | utf8 t =>
    obtain ⟨h1, h2⟩ := TypedColumn.gathered_observe t hwf order hin i p hi
    simp only [Column.takeRows, Column.mapRows, compareExpr.cell, Column.IsNull]
    rw [h1, h2]

theorem even_cell_takeRows (rt : FloatRuntime) (c : Column)
    (hwf : c.WF) (order : List Nat) (hin : ∀ r ∈ order, r < c.Len) (i p : Nat)
    (hi : order[i]? = some p) :
    evenExpr.cell rt (c.takeRows order) i = evenExpr.cell rt c p := by
  cases c with
  | int64 t =>
    obtain ⟨h1, h2⟩ := TypedColumn.gathered_observe t hwf order hin i p hi
    simp only [Column.takeRows, Column.mapRows, evenExpr.cell, Column.IsNull]
    rw [h1, h2]
  | float64 t =>
    obtain ⟨h1, h2⟩ := TypedColumn.gathered_observe t hwf order hin i p hi
    simp only [Column.takeRows, Column.mapRows, evenExpr.cell, Column.IsNull]
    rw [h1, h2]
  | bool t =>
    obtain ⟨h1, h2⟩ := TypedColumn.gathered_observe t hwf order hin i p hi
    simp only [Column.takeRows, Column.mapRows, evenExpr.cell, Column.IsNull]
    rw [h1, h2]
  | utf8 t =>
    obtain ⟨h1, h2⟩ := TypedColumn.gathered_observe t hwf order hin i p hi
    simp only [Column.takeRows, Column.mapRows, evenExpr.cell, Column.IsNull]
    rw [h1, h2]

/-- Row-wise cells over a reordered column: they are the cells of the source column,
reordered. -/
theorem cells_takeRows (cell : Column → Nat → Except Err (Bool × Bool)) (c : Column)
    (order : List Nat) (hperm : order.Perm (List.range c.Len))
    (hcell : ∀ i p, order[i]? = some p → cell (c.takeRows order) i = cell c p)
    (cs1 : List (Bool × Bool))
    (h : (List.range (c.takeRows order).Len).mapM (cell (c.takeRows order)) = .ok cs1) :
    ∃ cs, (List.range c.Len).mapM (cell c) = .ok cs ∧ cs1 = gather order cs := by
  have hin : ∀ r ∈ order, r < c.Len := fun r hr => List.mem_range.mp (hperm.subset hr)
  have hlen : (c.takeRows order).Len = order.length := takeRows_Len order c hin
  rw [hlen] at h
  have h2 : order.mapM (cell c) = .ok cs1 := by
    rw [← h]
    conv_lhs => rw [← map_getD_range order]
    rw [mapM_map]
    apply mapM_congr
    intro i hi
    have hi' : i < order.length := List.mem_range.mp hi
    symm
    apply hcell
    rw [List.getD_eq_getElem _ _ hi']
    exact List.getElem?_eq_getElem hi'
  exact mapM_perm_range (cell c) order c.Len hperm cs1 h2

/-- The cells of an expression over a frame whose rows were reordered by `order` are
the cells over the original frame, reordered. -/
theorem cells_of_reordered (rt : FloatRuntime) (df : DataFrame) (hwf : df.WF)
    (order : List Nat) (hperm : order.Perm (List.range df.nrows)) (e : Expr) :
    ∀ cs1, e.cells rt ⟨df.columns.map (Column.takeRows order), df.index, df.nrows⟩ = .ok cs1 →
      ∃ cs, e.cells rt df = .ok cs ∧ cs1 = gather order cs := by
  have hin : ∀ r ∈ order, r < df.nrows := fun r hr => List.mem_range.mp (hperm.subset hr)
  have hlen : ∀ c ∈ df.columns, (c.takeRows order).Len = df.nrows := by
    intro c hc
    rw [takeRows_Len _ c (fun r hr => by rw [((WF_facts hwf).1 c hc).1]; exact hin r hr),
      hperm.length_eq, List.length_range]
  have hswf := map_frame_WF hwf (Column.takeRows order) (fun c => takeRows_Name _ c) df.nrows
    hlen (fun c => Column.mapRows_WF _ c)
  have hcol : ∀ name c1,
      (DataFrame.mk (df.columns.map (Column.takeRows order)) df.index df.nrows).Column name =
        .ok (some c1) →
      ∃ c ∈ df.columns, c1 = c.takeRows order ∧ df.Column name = .ok (some c) := by
    intro name c1 h
    obtain ⟨h1, h2⟩ := frame_Column_some hswf.1 name c1 h
    obtain ⟨c, hc, rfl⟩ := List.mem_map.mp h1
    refine ⟨c, hc, rfl, ?_⟩
    rw [← h2, takeRows_Name]
    exact frame_Column_of_mem hwf.1 c hc
  have hnone : ∀ name,
      (DataFrame.mk (df.columns.map (Column.takeRows order)) df.index df.nrows).Column name =
        .ok none ∨ ∃ c1,
      (DataFrame.mk (df.columns.map (Column.takeRows order)) df.index df.nrows).Column name =
        .ok (some c1) := by
    intro name
    rcases frame_Column_cases hswf.1 name with ⟨_, h⟩ | ⟨c, _, _, h⟩
    · exact Or.inl h
    · exact Or.inr ⟨c, h⟩
  induction e with
  | compareExpr left op right =>
    intro cs1 h
    unfold Expr.cells at h ⊢
    rcases hnone left with h0 | ⟨c1, hc1⟩
    · rw [h0] at h; cases h
    · rw [hc1] at h
      obtain ⟨c, hc, rfl, hdf⟩ := hcol left c1 hc1
      rw [hdf]
      obtain ⟨hcl, hcw⟩ := (WF_facts hwf).1 c hc
      exact cells_takeRows (compareExpr.cell rt op right) c order (by rw [hcl]; exact hperm)
        (fun i p hi => compare_cell_takeRows rt op right c hcw order
          (fun r hr => by rw [hcl]; exact hin r hr) i p hi) cs1 h
  | evenExpr name =>
    intro cs1 h
    unfold Expr.cells at h ⊢
    rcases hnone name with h0 | ⟨c1, hc1⟩
    · rw [h0] at h; cases h
    · rw [hc1] at h
      obtain ⟨c, hc, rfl, hdf⟩ := hcol name c1 hc1
      rw [hdf]
      obtain ⟨hcl, hcw⟩ := (WF_facts hwf).1 c hc
      exact cells_takeRows (evenExpr.cell rt) c order (by rw [hcl]; exact hperm)
        (fun i p hi => even_cell_takeRows rt c hcw order
          (fun r hr => by rw [hcl]; exact hin r hr) i p hi) cs1 h
  | logicalExpr left right op ihl ihr =>
    intro cs1 h
    unfold Expr.cells at h ⊢
    cases hca : Expr.cells rt ⟨df.columns.map (Column.takeRows order), df.index, df.nrows⟩ left with
    | error err => rw [hca] at h; cases h
    | ok ca1 =>
      cases hcb : Expr.cells rt ⟨df.columns.map (Column.takeRows order), df.index, df.nrows⟩
          right with
      | error err => rw [hca, hcb] at h; cases h
      | ok cb1 =>
        rw [hca, hcb] at h
        obtain ⟨ca, hca2, rfl⟩ := ihl ca1 hca
        obtain ⟨cb, hcb2, rfl⟩ := ihr cb1 hcb
        rw [hca2, hcb2]
        have hla := cells_length rt df hwf left ca hca2
        have hlb := cells_length rt df hwf right cb hcb2
        simp only [bind, Except.bind] at h ⊢
        have hne : (ca.length != cb.length) = false := by simp [hla, hlb]
        simp only [hne, Bool.false_eq_true, if_false, pure, Except.pure]
        split at h
        · cases h
        · injection h with h
          refine ⟨_, rfl, ?_⟩
          rw [← h, gather_zipWith _ _ _ _ (fun r hr => by rw [hla]; exact hin r hr)
            (fun r hr => by rw [hlb]; exact hin r hr)]

/-! ## Lemmas: sorting and filtering commute -/

theorem gather_eq_map {β : Type} (order : List Nat) (xs : List β) (d : β)
    (h : ∀ r ∈ order, r < xs.length) : gather order xs = order.map (fun r => xs.getD r d) := by
  induction order with
  | nil => rfl
  | cons r order ih =>
    have hr := h r (List.mem_cons_self _ _)
    rw [gather_cons r order xs hr, ih (fun q hq => h q (List.mem_cons_of_mem _ hq)), List.map_cons,
      List.getD_eq_getElem _ _ hr]
    rfl

theorem pick_gather {β : Type} (order : List Nat) (m : List Bool) (rs : List β)
    (hm : ∀ r ∈ order, r < m.length) (hr : ∀ r ∈ order, r < rs.length) :
    pick (gather order m) (gather order rs) =
      gather (order.filter (fun r => m.getD r false)) rs := by
  induction order with
  | nil => rfl
  | cons r order ih =>
    have hrm := hm r (List.mem_cons_self _ _)
    have hrr := hr r (List.mem_cons_self _ _)
    have ih' := ih (fun q hq => hm q (List.mem_cons_of_mem _ hq))
      (fun q hq => hr q (List.mem_cons_of_mem _ hq))
    rw [gather_cons r order m hrm, gather_cons r order rs hrr, List.filter_cons,
      List.getD_eq_getElem _ _ hrm]
    cases hv : m.get ⟨r, hrm⟩
    · have hv' : m[r] = false := hv
      simp only [pick, hv', Bool.false_eq_true, if_false]
      exact ih'
    · have hv' : m[r] = true := hv
      simp only [pick, hv', if_true]
      rw [gather_cons r _ rs hrr, ih']

theorem gather_gather {β : Type} (order pos : List Nat) (rs : List β)
    (ho : ∀ r ∈ order, r < pos.length) (hp : ∀ p ∈ pos, p < rs.length) :
    gather order (gather pos rs) = gather (gather order pos) rs := by
  induction order with
  | nil => rfl
  | cons r order ih =>
    have hr := ho r (List.mem_cons_self _ _)
    have ih' := ih (fun q hq => ho q (List.mem_cons_of_mem _ hq))
    have hlen : (gather pos rs).length = pos.length := gather_length pos rs hp
    have hp' : pos.get ⟨r, hr⟩ < rs.length := hp _ (List.get_mem _ _ _)
    rw [gather_cons r order (gather pos rs) (by rw [hlen]; exact hr), gather_cons r order pos hr,
      gather_cons _ _ rs hp', ih']
    congr 1
    have h1 := gather_getElem? pos rs hp r
    rw [List.getElem?_eq_getElem (by rw [hlen]; exact hr), List.getElem?_eq_getElem hr] at h1
    simp only [Option.some_bind] at h1
    have h2 : rs[pos[r]]? = some (rs.get ⟨pos.get ⟨r, hr⟩, hp'⟩) := List.getElem?_eq_getElem hp'
    rw [h2] at h1
    injection h1

theorem truePositions_sorted (m : List Bool) : (truePositions m).Sorted (· < ·) := by
  unfold truePositions
  exact (List.sorted_lt_range _).filter _

theorem sorted_getD_lt (pos : List Nat) (h : pos.Sorted (· < ·)) (i j : Nat) (hij : i < j)
    (hj : j < pos.length) : pos.getD i 0 < pos.getD j 0 := by
  have hi : i < pos.length := by omega
  rw [List.getD_eq_getElem _ _ hi, List.getD_eq_getElem _ _ hj]
  exact (List.pairwise_iff_getElem.mp h) i j hi hj hij

namespace TypedColumn

variable {α : Type}

theorem key_picked (t : TypedColumn α) (m : List Bool) (hm : m.length = t.data.length)
    (i : Nat) (hi : i < (truePositions m).length) :
    (ofRows t.name (pick m t.rows)).key i = t.key ((truePositions m).getD i 0) := by
  unfold key
  rw [ofRows_rows, pick_eq_gather m t.rows (by rw [rows_length, hm]),
    gather_getElem? _ _ (fun p hp => by rw [rows_length, ← hm]; exact truePositions_lt m p hp),
    List.getElem?_eq_getElem hi, List.getD_eq_getElem _ _ hi]
  rfl

/-- The rows that survive a filter are sorted into the same order whether the filter
runs before or after the sort. -/
theorem sort_filter_order (t : TypedColumn α) (before : α → α → Bool) (S : α → Prop)
    (hb : WeakOn before S) (hS : ∀ i v, t.key i = some v → S v) (m : List Bool)
    (hm : m.length = t.data.length) :
    (stableSort (rowLess before t.key) (List.range t.data.length)).filter
        (fun r => m.getD r false) =
      gather (stableSort (rowLess before (ofRows t.name (pick m t.rows)).key)
        (List.range (m.count true))) (truePositions m) := by
  have hk : m.count true = (truePositions m).length := (truePositions_length m).symm
  have hw : StrictWeak (rowLess before t.key) := rowLess_weak before S hb t.key hS
  have hw2 : StrictWeak (rowLess before (ofRows t.name (pick m t.rows)).key) := by
    apply rowLess_weak before S hb
    intro i v hv
    by_cases hi : i < (truePositions m).length
    · rw [key_picked t m hm i hi] at hv
      exact hS _ v hv
    · have hlen : (ofRows t.name (pick m t.rows)).data.length ≤ i := by
        have e : (ofRows t.name (pick m t.rows)).data.length = (pick m t.rows).length := by
          simp [ofRows]
        rw [e, pick_eq_gather m t.rows (by rw [rows_length, hm]),
          gather_length _ _ (fun p hp => by rw [rows_length, ← hm]; exact truePositions_lt m p hp)]
        omega
      rw [key_none_of_ge _ i hlen] at hv
      cases hv
  have hperm' := stableSort_perm (rowLess before (ofRows t.name (pick m t.rows)).key)
    (List.range (m.count true))
  have hin' : ∀ r ∈ stableSort (rowLess before (ofRows t.name (pick m t.rows)).key)
      (List.range (m.count true)), r < (truePositions m).length :=
    fun r hr => hk ▸ List.mem_range.mp (hperm'.subset hr)
  apply tieLe_sorted_unique (rowLess before t.key) hw
  · have h1 : ((stableSort (rowLess before t.key) (List.range t.data.length)).filter
        (fun r => m.getD r false)).Perm (truePositions m) := by
      have := (stableSort_perm (rowLess before t.key) (List.range t.data.length)).filter
        (fun r => m.getD r false)
      unfold truePositions
      rw [hm]
      exact this
    have h2 : (gather (stableSort (rowLess before (ofRows t.name (pick m t.rows)).key)
        (List.range (m.count true))) (truePositions m)).Perm (truePositions m) :=
      gather_perm _ _ (hk ▸ hperm')
    exact h1.trans h2.symm
  · exact (stableSort_tieLe _ hw _ (List.sorted_lt_range _)).sublist
      (List.filter_sublist _)
  · rw [gather_eq_map _ _ 0 hin', List.pairwise_map]
    have hs := stableSort_tieLe _ hw2
      (List.range (m.count true)) (List.sorted_lt_range _)
    refine hs.imp_of_mem ?_
    intro i j hi hj hij
    have hi' := hin' i hi
    have hj' := hin' j hj
    have hmono : ∀ a b, a < (truePositions m).length → b < (truePositions m).length →
        (a < b ↔ (truePositions m).getD a 0 < (truePositions m).getD b 0) := by
      intro a b ha hb'
      constructor
      · intro hab
        exact sorted_getD_lt _ (truePositions_sorted m) a b hab hb'
      · intro hab
        by_contra hcon
        rcases Nat.lt_or_eq_of_le (Nat.le_of_not_lt hcon) with hlt | heq
        · have := sorted_getD_lt _ (truePositions_sorted m) b a hlt ha
          omega
        · subst heq; omega
    have hless : ∀ a b, a < (truePositions m).length → b < (truePositions m).length →
        rowLess before (ofRows t.name (pick m t.rows)).key a b =
          rowLess before t.key ((truePositions m).getD a 0) ((truePositions m).getD b 0) := by
      intro a b ha hb'
      unfold rowLess
      rw [key_picked t m hm a ha, key_picked t m hm b hb']
      cases t.key ((truePositions m).getD a 0) <;> cases t.key ((truePositions m).getD b 0) <;>
        simp only []
      exact decide_eq_decide.mpr (hmono a b ha hb')
    unfold tieLe at hij ⊢
    rw [← hless i j hi' hj', ← hless j i hj' hi']
    rcases hij with h | ⟨h1, h2⟩
    · exact Or.inl h
    · refine Or.inr ⟨h1, ?_⟩
      simp only [id] at h2 ⊢
      rcases Nat.lt_or_eq_of_le h2 with hlt | heq
      · exact Nat.le_of_lt ((hmono i j hi' hj').mp hlt)
      · rw [heq]

end TypedColumn

/-! ## Lemmas: moving a filter in front of a sort -/

theorem mapRows_mapRows (f g : (α : Type) → List (α × Bool) → List (α × Bool)) (c : Column) :
    (c.mapRows f).mapRows g = c.mapRows (fun α rs => g α (f α rs)) := by
  cases c <;> simp only [Column.mapRows, TypedColumn.ofRows_rows] <;> rfl

theorem mapRows_congr (f g : (α : Type) → List (α × Bool) → List (α × Bool)) (c : Column)
    (h : ∀ (α : Type) (rs : List (α × Bool)), rs.length = c.Len → f α rs = g α rs) :
    c.mapRows f = c.mapRows g := by
  cases c with
  | int64 t => simp only [Column.mapRows]; rw [h Int t.rows (TypedColumn.rows_length t)]
  | float64 t => simp only [Column.mapRows]; rw [h Float64 t.rows (TypedColumn.rows_length t)]
  | bool t => simp only [Column.mapRows]; rw [h Bool t.rows (TypedColumn.rows_length t)]
  | utf8 t => simp only [Column.mapRows]; rw [h GoString t.rows (TypedColumn.rows_length t)]

theorem mapRows_DType (f : (α : Type) → List (α × Bool) → List (α × Bool)) (c : Column) :
    (c.mapRows f).DType = c.DType := by
  cases c <;> rfl

theorem pick_subset {β : Type} (m : List Bool) (xs : List β) : ∀ x ∈ pick m xs, x ∈ xs := by
  induction m generalizing xs with
  | nil => intro x hx; simp [pick] at hx
  | cons b m ih =>
    cases xs with
    | nil => intro x hx; cases b <;> simp [pick] at hx
    | cons y ys =>
      intro x hx
      cases b with
      | true =>
        simp only [pick] at hx
        rcases List.mem_cons.mp hx with hx | hx
        · rw [hx]; exact List.mem_cons_self _ _
        · exact List.mem_cons_of_mem _ (ih ys x hx)
      | false =>
        simp only [pick] at hx
        exact List.mem_cons_of_mem _ (ih ys x hx)

theorem gather_subset {β : Type} (order : List Nat) (xs : List β) :
    ∀ x ∈ gather order xs, x ∈ xs := by
  intro x hx
  unfold gather at hx
  obtain ⟨r, _, hr⟩ := List.mem_filterMap.mp hx
  exact List.getElem?_mem hr

/-- Rebuilding a column from some of its rows introduces no NaN. -/
theorem mapRows_NaNFree (f : (α : Type) → List (α × Bool) → List (α × Bool)) (c : Column)
    (hsub : ∀ (α : Type) (rs : List (α × Bool)), ∀ r ∈ f α rs, r ∈ rs) (h : c.NaNFree) :
    (c.mapRows f).NaNFree := by
  cases c with
  | int64 t => trivial
  | float64 t =>
    intro r hr
    simp only [TypedColumn.ofRows_rows] at hr
    exact h r (hsub _ _ r hr)
  | bool t => trivial
  | utf8 t => trivial

theorem filterRows_NaNFree (m : List Bool) (c : Column) (h : c.NaNFree) :
    (c.filterRows m).NaNFree :=
  mapRows_NaNFree _ c (fun _ rs => pick_subset m rs) h

theorem takeRows_NaNFree (order : List Nat) (c : Column) (h : c.NaNFree) :
    (c.takeRows order).NaNFree :=
  mapRows_NaNFree _ c (fun _ rs => gather_subset order rs) h

theorem stable_filter_order_col (key : Column) (hfree : key.NaNFree) (desc : Bool)
    (m : List Bool) (hm : m.length = key.Len) :
    (stableOrder key desc (List.range key.Len)).filter (fun r => m.getD r false) =
      gather (stableOrder (key.filterRows m) desc (List.range (m.count true)))
        (truePositions m) := by
  cases key with
  | int64 t =>
    exact t.sort_filter_order (beforeInt64 desc) _ (weakOn_of_linear _ (strictLinear_int64 desc))
      (fun _ _ _ => trivial) m hm
  | float64 t =>
    exact t.sort_filter_order (beforeFloat64 desc) _ (weakOn_float64 desc)
      (fun i v hk => hfree (v, true) (t.key_mem_rows i v hk) rfl) m hm
  | bool t =>
    exact t.sort_filter_order (beforeBool desc) _ (weakOn_of_linear _ (strictLinear_bool desc))
      (fun _ _ _ => trivial) m hm
  | utf8 t =>
    exact t.sort_filter_order (beforeUtf8 desc) _ (weakOn_of_linear _ (strictLinear_utf8 desc))
      (fun _ _ _ => trivial) m hm

theorem sort_filter_order_col (key : Column) (hwf : key.WF) (hfree : key.NaNFree) (desc : Bool)
    (m : List Bool) (hm : m.length = key.Len) :
    (sortedOrder key desc (List.range key.Len)).filter (fun r => m.getD r false) =
      gather (sortedOrder (key.filterRows m) desc (List.range (m.count true)))
        (truePositions m) := by
  have hL : (key.filterRows m).Len = m.count true := filterRows_Len m key hm
  have h2 := sortedOrder_stable (key.filterRows m) (Column.mapRows_WF _ key) desc
    (Or.inl (filterRows_NaNFree m key hfree))
  rw [hL] at h2
  rw [sortedOrder_stable key hwf desc (Or.inl hfree), h2]
  exact stable_filter_order_col key hfree desc m hm

theorem takeRows_filterRows_comm (order order' : List Nat) (m : List Bool) (n : Nat)
    (hord : ∀ r ∈ order, r < n) (hm : m.length = n)
    (hord' : ∀ r ∈ order', r < (truePositions m).length)
    (hkey : order.filter (fun r => m.getD r false) = gather order' (truePositions m))
    (c : Column) (hc : c.Len = n) :
    (c.takeRows order).filterRows (gather order m) = (c.filterRows m).takeRows order' := by
  unfold Column.filterRows Column.takeRows
  rw [mapRows_mapRows, mapRows_mapRows]
  apply mapRows_congr
  intro α rs hrs
  show pick (gather order m) (gather order rs) = gather order' (pick m rs)
  rw [pick_gather order m rs (fun r hr => by rw [hm]; exact hord r hr)
      (fun r hr => by rw [hrs, hc]; exact hord r hr), hkey,
    pick_eq_gather m rs (by rw [hm, hrs, hc]),
    gather_gather order' _ rs hord'
      (fun p hp => by rw [hrs, hc, ← hm]; exact truePositions_lt m p hp)]

theorem SortBy_ok_key (df : DataFrame) (hwf : df.WF) (column : String) (desc : Bool)
    (out : DataFrame) (h : df.SortBy column desc = .ok out) :
    ∃ key, df.Column column = .ok (some key) := by
  rcases frame_Column_cases hwf.1 column with ⟨_, h0⟩ | ⟨c, _, _, hc⟩
  · unfold DataFrame.SortBy at h
    rw [h0] at h
    cases h
  · exact ⟨c, hc⟩

/-- A filter may be moved in front of a sort whose key column holds no NaN in a valid
row. -/
theorem Sort_Filter_swap (rt : FloatRuntime) (df f1 f2 : DataFrame) (hwf : df.WF)
    (column : String) (desc : Bool) (e : Expr)
    (hty : ∀ c ∈ df.columns, c.Name = column → c.NaNFree)
    (h1 : df.SortBy column desc = .ok f1) (h2 : f1.Filter rt e = .ok f2) :
    ∃ g, df.Filter rt e = .ok g ∧ g.SortBy column desc = .ok f2 := by
  obtain ⟨key, hkey⟩ := SortBy_ok_key df hwf column desc f1 h1
  obtain ⟨hk1, hkn⟩ := frame_Column_some hwf.1 column key hkey
  obtain ⟨hk2, hk3⟩ := (WF_facts hwf).1 key hk1
  obtain ⟨out, ho1, ho2, _, _, _, _, hperm, _, _⟩ := SortBy_outcome df hwf column desc key hkey
  have hspec := SortBy_frame_spec df hwf column desc key hkey
  rw [hspec] at h1
  injection h1 with h1
  subst h1
  rw [hspec] at ho1
  injection ho1 with ho1
  subst ho1
  have hin : ∀ r ∈ sortedOrder key desc (List.range df.nrows), r < df.nrows :=
    fun r hr => List.mem_range.mp (hperm.subset hr)
  obtain ⟨cs1, hcs1⟩ := Filter_ok_cells rt _ e f2 h2
  obtain ⟨cs, hcs, hcs1eq⟩ := cells_of_reordered rt df hwf _ hperm e cs1 hcs1
  have hlen := cells_length rt df hwf e cs hcs
  have hF1 := Filter_frame_spec rt _ ho2 e cs1 hcs1
  rw [hF1] at h2
  injection h2 with h2
  have hF := Filter_frame_spec rt df hwf e cs hcs
  have hmlen : (cs.map Prod.fst).length = df.nrows := by rw [List.length_map, hlen]
  have hgwf : (DataFrame.mk (df.columns.map (Column.filterRows (cs.map Prod.fst))) df.index
      ((cs.map Prod.fst).count true)).WF :=
    map_frame_WF hwf _ (fun c => filterRows_Name _ c) _
      (fun c hc => filterRows_Len _ c (by rw [hmlen, ((WF_facts hwf).1 c hc).1]))
      (fun c => Column.mapRows_WF _ c)
  have hgkey : (DataFrame.mk (df.columns.map (Column.filterRows (cs.map Prod.fst))) df.index
      ((cs.map Prod.fst).count true)).Column column =
        .ok (some (key.filterRows (cs.map Prod.fst))) := by
    have := frame_Column_of_mem hgwf.1 (key.filterRows (cs.map Prod.fst))
      (List.mem_map.mpr ⟨key, hk1, rfl⟩)
    rwa [filterRows_Name, hkn] at this
  refine ⟨_, hF, ?_⟩
  rw [SortBy_frame_spec _ hgwf column desc _ hgkey, ← h2]
  have hfst : cs1.map Prod.fst =
      gather (sortedOrder key desc (List.range df.nrows)) (cs.map Prod.fst) := by
    rw [hcs1eq, gather_map]
  have hcount : (cs1.map Prod.fst).count true = (cs.map Prod.fst).count true := by
    rw [hfst]
    exact (gather_perm _ _ (by rw [hmlen]; exact hperm)).count_eq true
  have hperm' := sortedOrder_perm (key.filterRows (cs.map Prod.fst))
    (Column.mapRows_WF _ key) desc (List.range ((cs.map Prod.fst).count true))
    (fun r hr => by
      rw [filterRows_Len _ key (by rw [hmlen, hk2])]
      exact List.mem_range.mp hr)
  have hord : (sortedOrder key desc (List.range df.nrows)).filter
      (fun r => (cs.map Prod.fst).getD r false) =
      gather (sortedOrder (key.filterRows (cs.map Prod.fst)) desc
        (List.range ((cs.map Prod.fst).count true))) (truePositions (cs.map Prod.fst)) := by
    have := sort_filter_order_col key hk3 (hty key hk1 hkn) desc (cs.map Prod.fst)
      (by rw [hmlen, hk2])
    rwa [hk2] at this
  refine congrArg Except.ok ?_
  dsimp only
  congr 1
  · rw [List.map_map, List.map_map]
    apply List.map_congr_left
    intro c hc
    simp only [Function.comp]
    rw [hfst]
    exact (takeRows_filterRows_comm _ _ (cs.map Prod.fst) df.nrows hin hmlen
      (fun r hr => by
        rw [truePositions_length]
        exact List.mem_range.mp (hperm'.subset hr))
      hord c ((WF_facts hwf).1 c hc).1).symm
  · exact hcount.symm

/-! ## Lemmas: predicate pushdown -/

theorem applyOps_cons_ok (rt : FloatRuntime) (op : planOp) (rest : List planOp)
    (df out : DataFrame) :
    applyOps rt (op :: rest) df = .ok out ↔
      ∃ mid, applyOp rt df op = .ok mid ∧ applyOps rt rest mid = .ok out := by
  have e : applyOps rt (op :: rest) df = (applyOp rt df op >>= fun d => applyOps rt rest d) := rfl
  rw [e]
  cases h : applyOp rt df op with
  | error e =>
    constructor
    · intro h'; cases h'
    · rintro ⟨mid, h1, _⟩; cases h1
  | ok mid =>
    constructor
    · intro h'; exact ⟨mid, rfl, h'⟩
    · rintro ⟨mid', h1, h2⟩
      injection h1 with h1
      subst h1
      exact h2

theorem Select_outcome (df out : DataFrame) (hwf : df.WF) (names : List String)
    (h : df.Select names = .ok out) : out.WF ∧ ∀ c ∈ out.columns, c ∈ df.columns := by
  obtain ⟨picked, hp1, hp2⟩ := (Select_ok_iff df names out).mp h
  have hc : out.columns = picked := (frame_of_New hp2).1
  have hmem : ∀ c ∈ picked, c ∈ df.columns := by
    intro c hcm
    obtain ⟨i, hi⟩ := List.mem_iff_getElem?.mp hcm
    obtain ⟨hi1, hi2⟩ := List.getElem?_eq_some_iff.mp hi
    have hi3 : i < names.length := by rw [hp1.length_eq]; exact hi1
    have := List.Forall₂.get hp1 hi3 hi1
    simp only [List.get_eq_getElem] at this
    rw [hi2] at this
    exact (frame_Column_some hwf.1 _ c this).1
  refine ⟨⟨by rw [hc]; exact hp2, ?_⟩, by rw [hc]; exact hmem⟩
  intro c hcm
  rw [hc] at hcm
  exact hwf.2 c (hmem c hcm)

/-- Every operation keeps the frame invariants, and every column of its result has the
name and type of a column of its input and holds rows of that column only. -/
theorem applyOp_outcome (rt : FloatRuntime) (df out : DataFrame) (hwf : df.WF) (op : planOp)
    (h : applyOp rt df op = .ok out) :
    out.WF ∧ ∀ c ∈ out.columns, ∃ c0 ∈ df.columns, c0.Name = c.Name ∧ c0.DType = c.DType ∧
      (c0.NaNFree → c.NaNFree) := by
  unfold applyOp at h
  split at h
  · cases hf : op.filter with
    | none => rw [hf] at h; cases h
    | some e =>
      rw [hf] at h
      simp only [] at h
      obtain ⟨cs, hcs⟩ := Filter_ok_cells rt df e out h
      have hlen := cells_length rt df hwf e cs hcs
      rw [Filter_frame_spec rt df hwf e cs hcs] at h
      injection h with h
      subst h
      refine ⟨map_frame_WF hwf _ (fun c => filterRows_Name _ c) _
        (fun c hc => filterRows_Len _ c (by
          rw [List.length_map, hlen, ((WF_facts hwf).1 c hc).1]))
        (fun c => Column.mapRows_WF _ c), ?_⟩
      intro c hc
      obtain ⟨c0, hc0, rfl⟩ := List.mem_map.mp hc
      exact ⟨c0, hc0, (filterRows_Name _ c0).symm, (mapRows_DType _ c0).symm,
        filterRows_NaNFree _ c0⟩
  · split at h
    · obtain ⟨h1, h2⟩ := Select_outcome df out hwf op.cols h
      exact ⟨h1, fun c hc => ⟨c, h2 c hc, rfl, rfl, id⟩⟩
    · split at h
      · obtain ⟨key, hkey⟩ := SortBy_ok_key df hwf op.sortBy op.desc out h
        obtain ⟨out', ho1, ho2, _, _, ho5, _⟩ := SortBy_outcome df hwf op.sortBy op.desc key hkey
        rw [ho1] at h
        injection h with h
        subst h
        refine ⟨ho2, ?_⟩
        intro c hc
        rw [ho5] at hc
        obtain ⟨c0, hc0, rfl⟩ := List.mem_map.mp hc
        exact ⟨c0, hc0, (takeRows_Name _ c0).symm, (mapRows_DType _ c0).symm,
          takeRows_NaNFree _ c0⟩
      · injection h with h
        subst h
        exact ⟨hwf, fun c hc => ⟨c, hc, rfl, rfl, id⟩⟩

theorem SortKeysNaNFree_step (rt : FloatRuntime) (df out : DataFrame) (hwf : df.WF) (op : planOp)
    (h : applyOp rt df op = .ok out) (ops : List planOp) (hk : SortKeysNaNFree df ops) :
    SortKeysNaNFree out ops := by
  intro op' hop' hty c hc hname
  obtain ⟨c0, hc0, hn0, _, hf0⟩ := (applyOp_outcome rt df out hwf op h).2 c hc
  exact hf0 (hk op' hop' hty c0 hc0 (hn0.trans hname))

/-- A column that is not Float64 holds no NaN. -/
theorem NaNFree_of_DType (c : Column) (h : c.DType ≠ DTypeFloat64) : c.NaNFree := by
  cases c with
  | int64 t => trivial
  | float64 t => exact absurd rfl h
  | bool t => trivial
  | utf8 t => trivial

theorem SortKeysOK_NaNFree (df : DataFrame) (ops : List planOp) (hk : SortKeysOK df ops) :
    SortKeysNaNFree df ops :=
  fun op hop hty c hc hname => NaNFree_of_DType c (hk op hop hty c hc hname)

/-- One swap: a filter that follows a non-filter operation may run before it. -/
theorem swap_step (rt : FloatRuntime) (df mid out : DataFrame) (hwf : df.WF) (op f : planOp)
    (hop : (op.typeID == opFilter) = false) (hf : (f.typeID == opFilter) = true)
    (hk : SortKeysNaNFree df [op]) (h1 : applyOp rt df op = .ok mid)
    (h2 : applyOp rt mid f = .ok out) :
    ∃ g, applyOp rt df f = .ok g ∧ applyOp rt g op = .ok out := by
  unfold applyOp at h2
  rw [if_pos hf] at h2
  cases hfe : f.filter with
  | none => rw [hfe] at h2; cases h2
  | some e =>
    rw [hfe] at h2
    simp only [] at h2
    have hfapply : ∀ d, applyOp rt d f = d.Filter rt e := by
      intro d
      unfold applyOp
      rw [if_pos hf, hfe]
    unfold applyOp at h1
    rw [hop] at h1
    simp only [Bool.false_eq_true, if_false] at h1
    by_cases hsel : (op.typeID == opSelect) = true
    · rw [if_pos hsel] at h1
      obtain ⟨g, hg1, hg2⟩ := Select_Filter_swap rt df mid out hwf op.cols e h1 h2
      refine ⟨g, by rw [hfapply]; exact hg1, ?_⟩
      unfold applyOp
      rw [hop]
      simp only [Bool.false_eq_true, if_false]
      rw [if_pos hsel]
      exact hg2
    · rw [if_neg hsel] at h1
      by_cases hsort : (op.typeID == opSort) = true
      · rw [if_pos hsort] at h1
        have hty : ∀ c ∈ df.columns, c.Name = op.sortBy → c.NaNFree :=
          hk op (List.mem_singleton.mpr rfl) (by simpa using hsort)
        obtain ⟨g, hg1, hg2⟩ := Sort_Filter_swap rt df mid out hwf op.sortBy op.desc e hty h1 h2
        refine ⟨g, by rw [hfapply]; exact hg1, ?_⟩
        unfold applyOp
        rw [hop]
        simp only [Bool.false_eq_true, if_false]
        rw [if_neg hsel, if_pos hsort]
        exact hg2
      · rw [if_neg hsort] at h1
        injection h1 with h1
        subst h1
        refine ⟨out, by rw [hfapply]; exact h2, ?_⟩
        unfold applyOp
        rw [hop]
        simp only [Bool.false_eq_true, if_false]
        rw [if_neg hsel, if_neg hsort]
        rfl

/-- A non-filter operation may be moved behind a run of filters that follow it. -/
theorem bubble (rt : FloatRuntime) (op : planOp) (hop : (op.typeID == opFilter) = false)
    (tail : List planOp) (fs : List planOp) :
    ∀ (df out : DataFrame), df.WF → SortKeysNaNFree df [op] →
      (∀ f ∈ fs, (f.typeID == opFilter) = true) →
      applyOps rt (op :: (fs ++ tail)) df = .ok out →
      applyOps rt (fs ++ op :: tail) df = .ok out := by
  induction fs with
  | nil => intro df out _ _ _ h; exact h
  | cons f fs ih =>
    intro df out hwf hk hfs h
    obtain ⟨mid, h1, h2⟩ := (applyOps_cons_ok rt op _ df out).mp h
    rw [List.cons_append] at h2
    obtain ⟨mid2, h3, h4⟩ := (applyOps_cons_ok rt f _ mid out).mp h2
    obtain ⟨g, hg1, hg2⟩ := swap_step rt df mid mid2 hwf op f hop
      (hfs f (List.mem_cons_self _ _)) hk h1 h3
    rw [List.cons_append, applyOps_cons_ok]
    refine ⟨g, hg1, ?_⟩
    apply ih g out (applyOp_outcome rt df g hwf f hg1).1
      (SortKeysNaNFree_step rt df g hwf f hg1 [op] hk)
      (fun f' hf' => hfs f' (List.mem_cons_of_mem _ hf'))
    rw [applyOps_cons_ok]
    exact ⟨mid2, hg2, h4⟩

/-- Pushdown safety: whenever the operations succeed in declared order, the partitioned
list (filters first) succeeds with the same frame. -/
theorem applyOps_partition (rt : FloatRuntime) (ops : List planOp) :
    ∀ (df out : DataFrame), df.WF → SortKeysNaNFree df ops → applyOps rt ops df = .ok out →
      applyOps rt (ops.filter (fun op => op.typeID == opFilter) ++
        ops.filter (fun op => !(op.typeID == opFilter))) df = .ok out := by
  induction ops with
  | nil => intro df out _ _ h; exact h
  | cons op ops ih =>
    intro df out hwf hk h
    obtain ⟨mid, h1, h2⟩ := (applyOps_cons_ok rt op ops df out).mp h
    have hmid := applyOp_outcome rt df mid hwf op h1
    have hk' : SortKeysNaNFree mid ops :=
      SortKeysNaNFree_step rt df mid hwf op h1 ops
        (fun o ho => hk o (List.mem_cons_of_mem _ ho))
    have hrec := ih mid out hmid.1 hk' h2
    by_cases hop : (op.typeID == opFilter) = true
    · rw [List.filter_cons, if_pos hop, List.filter_cons]
      simp only [hop, Bool.not_true, Bool.false_eq_true, if_false]
      rw [List.cons_append, applyOps_cons_ok]
      exact ⟨mid, h1, hrec⟩
    · have hop' : (op.typeID == opFilter) = false := by simpa using hop
      rw [List.filter_cons, if_neg hop, List.filter_cons]
      simp only [hop', Bool.not_false, if_true]
      apply bubble rt op hop' _ _ df out hwf
        (fun o ho hs => hk o (by rw [List.mem_singleton.mp ho]; exact List.mem_cons_self _ _) hs)
        (fun f hf => (List.mem_filter.mp hf).2)
      rw [applyOps_cons_ok]
      exact ⟨mid, h1, hrec⟩

/-! ## Lemmas: `newBitmap` -/

theorem newBitmap_length (n : Nat) (b : Bool) : (newBitmap n b).bits.length = (n + 63) / 64 := by
  unfold newBitmap
  cases b
  · simp
  · simp only [if_true]
    split <;> simp

theorem newBitmap_true_getD (n k : Nat) (hk : k < (n + 63) / 64) :
    (newBitmap n true).bits.getD k 0 =
      if k = (n + 63) / 64 - 1 ∧ n % 64 ≠ 0 then 2 ^ (n % 64) - 1 else 2 ^ 64 - 1 := by
  unfold newBitmap
  simp only [if_true]
  by_cases hr : n % 64 = 0
  · have hc : (n % 64 != 0 && decide ((n + 63) / 64 > 0)) = false := by simp [hr]
    rw [hc]
    simp only [Bool.false_eq_true, if_false]
    rw [if_neg (fun h => h.2 hr)]
    rw [List.getD_eq_getElem?_getD, List.getElem?_replicate, if_pos hk]
    rfl
  · have hc : (n % 64 != 0 && decide ((n + 63) / 64 > 0)) = true := by
      simp only [Bool.and_eq_true, bne_iff_ne, ne_eq, decide_eq_true_eq]
      exact ⟨hr, by omega⟩
    rw [hc]
    simp only [if_true]
    rw [List.getD_eq_getElem?_getD, List.getElem?_set]
    by_cases hl : k = (n + 63) / 64 - 1
    · subst hl
      rw [if_pos rfl]
      simp only [List.length_replicate]
      rw [if_pos hk, if_pos ⟨trivial, hr⟩, Nat.one_shiftLeft]
      rfl
    · rw [if_neg (fun h => hl h.symm), if_neg (fun h => hl h.1), List.getElem?_replicate,
        if_pos hk]
      rfl

theorem newBitmap_true_bit (n i : Nat) (hi : i < 64 * ((n + 63) / 64)) :
    (newBitmap n true).bit i = decide (i < n) := by
  unfold bitmap.bit
  rw [newBitmap_true_getD n (i / 64) (by omega)]
  by_cases hl : i / 64 = (n + 63) / 64 - 1 ∧ n % 64 ≠ 0
  · rw [if_pos hl, Nat.testBit_two_pow_sub_one]
    congr 1
    apply propext
    omega
  · rw [if_neg hl, Nat.testBit_two_pow_sub_one]
    have h1 : i % 64 < 64 := Nat.mod_lt _ (by decide)
    have h2 : i < n := by
      by_contra hc
      apply hl
      omega
    simp [h1, h2]

theorem newBitmap_true_get (n i : Nat) (hi : i < 64 * ((n + 63) / 64)) :
    (newBitmap n true).get i = .ok (decide (i < n)) := by
  rw [bitmap.get_of_lt _ _ (by rw [newBitmap_length]; omega), newBitmap_true_bit n i hi]
/-! ## Lemmas: failing lookups of `Select` -/

theorem first_failing {β : Type} (P : β → Prop) (l : List β) (h : ∃ x ∈ l, ¬ P x) :
    ∃ pre x post, l = pre ++ x :: post ∧ (∀ y ∈ pre, P y) ∧ ¬ P x := by
  classical
  induction l with
  | nil => obtain ⟨x, hx, _⟩ := h; cases hx
  | cons a l ih =>
    by_cases ha : P a
    · obtain ⟨x, hx, hnx⟩ := h
      rcases List.mem_cons.mp hx with rfl | hx
      · exact absurd ha hnx
      · obtain ⟨pre, y, post, h1, h2, h3⟩ := ih ⟨x, hx, hnx⟩
        refine ⟨a :: pre, y, post, by rw [h1]; rfl, ?_, h3⟩
        intro z hz
        rcases List.mem_cons.mp hz with rfl | hz
        · exact ha
        · exact h2 z hz
    · exact ⟨[], a, l, rfl, fun _ hy => (by cases hy), ha⟩

theorem mapM_error_at {β γ : Type} (f : β → Except Err γ) (pre post : List β) (x : β) (e : Err)
    (hpre : ∀ y ∈ pre, ∃ z, f y = .ok z) (hx : f x = .error e) :
    (pre ++ x :: post).mapM f = .error e := by
  induction pre with
  | nil =>
    rw [List.nil_append, List.mapM_cons, hx]
    rfl
  | cons a pre ih =>
    obtain ⟨z, hz⟩ := hpre a (List.mem_cons_self _ _)
    rw [List.cons_append, List.mapM_cons, hz, ih (fun y hy => hpre y (List.mem_cons_of_mem _ hy))]
    rfl

theorem Select_unknown {cols : List Column} {df : DataFrame} (h : NewDataFrame cols = .ok df)
    (pre post : List String) (name : String) (hpre : ∀ n ∈ pre, n ∈ cols.map Column.Name)
    (hname : name ∉ cols.map Column.Name) :
    df.Select (pre ++ name :: post) = .error (Err.unknownColumn name) := by
  unfold DataFrame.Select
  rw [mapM_error_at (DataFrame.Select.lookup df) pre post name (Err.unknownColumn name)]
  · rfl
  · intro n hn
    rcases frame_Column_cases h n with ⟨h1, _⟩ | ⟨c, _, _, hc⟩
    · exact absurd (hpre n hn) h1
    · exact ⟨c, by unfold DataFrame.Select.lookup; rw [hc]; rfl⟩
  · unfold DataFrame.Select.lookup
    rw [frame_Column_none h name hname]
    rfl
/-! ## Lemmas: the rows of evaluated masks -/

theorem maskOf_rows (n : Nat) (cell : Nat → Except Err (Bool × Bool)) (g : Nat → Bool × Bool)
    (h : ∀ i, i < n → cell i = .ok (g i)) :
    ∃ m, maskOf n cell = .ok m ∧ m.Len = n ∧ ∀ i, i < n → MaskRow m i (g i).1 (g i).2 := by
  have hm : (List.range n).mapM cell = .ok ((List.range n).map g) :=
    mapM_ok cell g _ (fun i hi => h i (List.mem_range.mp hi))
  obtain ⟨m, hm1, _, hm3, hm4, hm5⟩ := packMask_spec ((List.range n).map g)
  have hlen : m.Len = n := by
    unfold TypedColumn.Len
    rw [hm3]
    simp
  refine ⟨m, ?_, hlen, ?_⟩
  · rw [maskOf_eq, hm]
    exact hm1
  · intro i hi
    have hrow : m.rows[i]? = some ((g i).1, (g i).2) := by
      rw [hm4]
      simp [hi]
    obtain ⟨h1, h2⟩ := TypedColumn.observe_row m hm5 i _ _ hrow
    exact ⟨h1, fun _ => h2⟩

theorem maskOf_error (n : Nat) (cell : Nat → Except Err (Bool × Bool)) (e : Err)
    (hall : ∀ i, i < n → (∃ y, cell i = .ok y) ∨ cell i = .error e)
    (hex : ∃ i, i < n ∧ cell i = .error e) : maskOf n cell = .error e := by
  obtain ⟨pre, x, post, h1, h2, h3⟩ :=
    first_failing (fun i => ∃ y, cell i = .ok y) (List.range n) (by
      obtain ⟨i, hi, hc⟩ := hex
      refine ⟨i, List.mem_range.mpr hi, ?_⟩
      rintro ⟨y, hy⟩
      rw [hc] at hy
      cases hy)
  have hx : x < n := List.mem_range.mp (by rw [h1]; simp)
  have hxe : cell x = .error e := by
    rcases hall x hx with hok | herr
    · exact absurd hok h3
    · exact herr
  rw [maskOf_eq, h1, mapM_error_at cell pre post x e h2 hxe]
  rfl

theorem maskOf_rows_ex (n : Nat) (cell : Nat → Except Err (Bool × Bool))
    (h : ∀ i, i < n → ∃ y, cell i = .ok y) :
    ∃ m, maskOf n cell = .ok m ∧ m.Len = n ∧
      ∀ i, i < n → ∃ y, cell i = .ok y ∧ MaskRow m i y.1 y.2 := by
  obtain ⟨m, h1, h2, h3⟩ := maskOf_rows n cell
    (fun i => match cell i with
      | .ok y => y
      | .error _ => (false, false))
    (fun i hi => by
      obtain ⟨y, hy⟩ := h i hi
      dsimp only
      rw [hy])
  refine ⟨m, h1, h2, fun i hi => ?_⟩
  obtain ⟨y, hy⟩ := h i hi
  have := h3 i hi
  rw [hy] at this
  exact ⟨y, hy, this⟩

theorem compare_int64_cell (rt : FloatRuntime) (op : String) (lit : Literal) (t : Int64Column)
    (hwf : t.WF) (i : Nat) (hi : i < t.data.length) :
    t.IsNull i = .ok (!t.valid.bit i) ∧ t.Value i = .ok (t.data.getD i 0) ∧
    compareExpr.cell rt op lit (.int64 t) i =
      if t.valid.bit i then
        match literalToInt64 rt lit with
        | none => .error Err.cannotCompareInt64
        | some r => .ok (if op == "eq" then decide (t.data.getD i 0 = r)
            else decide (t.data.getD i 0 > r), true)
      else .ok (false, false) := by
  have hn : (Column.int64 t).IsNull i = .ok (!t.valid.bit i) := t.IsNull_of_WF hwf i hi
  have hv : t.Value i = .ok (t.data.getD i 0) := sliceGet_getD _ _ 0 hi
  refine ⟨hn, hv, ?_⟩
  unfold compareExpr.cell
  rw [hn]
  cases hb : t.valid.bit i
  · rfl
  · cases hl : literalToInt64 rt lit with
    | none => simp [bind, Except.bind, hl]; rfl
    | some r =>
      simp [bind, Except.bind, hl, hv]
      rfl

theorem compare_Eval_int64 (rt : FloatRuntime) (df : DataFrame) (name op : String)
    (lit : Literal) (t : Int64Column) (hwf : df.WF)
    (hcol : df.Column name = .ok (some (.int64 t))) :
    (Expr.compareExpr name op lit).Eval rt df =
        maskOf df.Height (compareExpr.cell rt op lit (.int64 t)) ∧
      t.WF ∧ t.data.length = df.Height := by
  obtain ⟨hin, _⟩ := frame_Column_some hwf.1 name _ hcol
  obtain ⟨hlen, hcwf⟩ := (WF_facts hwf).1 _ hin
  refine ⟨?_, hcwf, hlen⟩
  unfold Expr.Eval
  rw [hcol]
  show maskOf (Column.int64 t).Len _ = _
  rw [hlen]
  rfl

/-- An Int64 column compared with a literal that coerces to the integer `r`. -/
theorem compare_int64_mask (rt : FloatRuntime) (df : DataFrame) (name op : String)
    (lit : Literal) (r : Int) (t : Int64Column) (hwf : df.WF)
    (hcol : df.Column name = .ok (some (.int64 t))) (hlit : literalToInt64 rt lit = some r) :
    ∃ m, (Expr.compareExpr name op lit).Eval rt df = .ok m ∧ m.Len = df.Height ∧
      ∀ i, i < df.Height → ∃ null, t.IsNull i = .ok null ∧ m.IsNull i = .ok null ∧
        (null = false → ∃ v, t.Value i = .ok v ∧
          m.Value i = .ok (if op == "eq" then decide (v = r) else decide (v > r))) := by
  obtain ⟨he, htwf, hlen⟩ := compare_Eval_int64 rt df name op lit t hwf hcol
  obtain ⟨m, h1, h2, h3⟩ := maskOf_rows df.Height (compareExpr.cell rt op lit (.int64 t))
    (fun i => if t.valid.bit i then
      (if op == "eq" then decide (t.data.getD i 0 = r) else decide (t.data.getD i 0 > r), true)
      else (false, false))
    (fun i hi => by
      rw [(compare_int64_cell rt op lit t htwf i (hlen ▸ hi)).2.2, hlit]
      dsimp only
      cases t.valid.bit i <;> rfl)
  refine ⟨m, he ▸ h1, h2, fun i hi => ?_⟩
  obtain ⟨hn, hv, _⟩ := compare_int64_cell rt op lit t htwf i (hlen ▸ hi)
  obtain ⟨hm1, hm2⟩ := h3 i hi
  refine ⟨_, hn, ?_, ?_⟩
  · cases hb : t.valid.bit i <;> rw [hb] at hm1 <;> exact hm1
  · intro hnull
    have hb : t.valid.bit i = true := by
      cases hb : t.valid.bit i
      · rw [hb] at hnull; cases hnull
      · rfl
    rw [hb] at hm2
    exact ⟨_, hv, hm2 rfl⟩

/-- An Int64 column compared with a literal that does not coerce to an integer: the
type error arises at the first non-null row, and only there. -/
theorem compare_int64_mismatch (rt : FloatRuntime) (df : DataFrame) (name op : String)
    (lit : Literal) (t : Int64Column) (hwf : df.WF)
    (hcol : df.Column name = .ok (some (.int64 t))) (hlit : literalToInt64 rt lit = none) :
    ((∃ i, i < df.Height ∧ t.IsNull i = .ok false) →
      (Expr.compareExpr name op lit).Eval rt df = .error Err.cannotCompareInt64) ∧
    ((∀ i, i < df.Height → t.IsNull i = .ok true) →
      ∃ m, (Expr.compareExpr name op lit).Eval rt df = .ok m ∧ m.Len = df.Height ∧
        ∀ i, i < df.Height → m.IsNull i = .ok true) := by
  obtain ⟨he, htwf, hlen⟩ := compare_Eval_int64 rt df name op lit t hwf hcol
  have hcell : ∀ i, i < df.Height → t.IsNull i = .ok (!t.valid.bit i) ∧
      compareExpr.cell rt op lit (.int64 t) i =
        if t.valid.bit i then .error Err.cannotCompareInt64 else .ok (false, false) := by
    intro i hi
    obtain ⟨hn, _, hc⟩ := compare_int64_cell rt op lit t htwf i (hlen ▸ hi)
    rw [hlit] at hc
    exact ⟨hn, hc⟩
  constructor
  · rintro ⟨i, hi, hnull⟩
    rw [he]
    apply maskOf_error
    · intro j hj
      rw [(hcell j hj).2]
      cases t.valid.bit j
      · exact Or.inl ⟨_, rfl⟩
      · exact Or.inr rfl
    · refine ⟨i, hi, ?_⟩
      obtain ⟨hn, hc⟩ := hcell i hi
      rw [hn] at hnull
      have hb : t.valid.bit i = true := by
        cases hb : t.valid.bit i
        · rw [hb] at hnull; cases hnull
        · rfl
      rw [hc, hb]
      rfl
  · intro hall
    have hbit : ∀ i, i < df.Height → t.valid.bit i = false := by
      intro i hi
      have := hall i hi
      rw [(hcell i hi).1] at this
      cases hb : t.valid.bit i
      · rfl
      · rw [hb] at this; cases this
    obtain ⟨m, h1, h2, h3⟩ := maskOf_rows df.Height (compareExpr.cell rt op lit (.int64 t))
      (fun _ => (false, false))
      (fun i hi => by rw [(hcell i hi).2, hbit i hi]; rfl)
    exact ⟨m, he ▸ h1, h2, fun i hi => (h3 i hi).1⟩

theorem even_cell_eq (rt : FloatRuntime) (col : Column) (hwf : col.WF) (i : Nat)
    (hi : i < col.Len) :
    ∃ null, col.IsNull i = .ok null ∧
      ((null = true ∧ evenExpr.cell rt col i = .ok (false, false)) ∨
        (null = false ∧ ∃ v, col.Value i = .ok v ∧
          evenExpr.cell rt col i = .ok (decide (v.isEven rt), true))) := by
  unfold evenExpr.cell
  cases col with
  | int64 t =>
    have hn : (Column.int64 t).IsNull i = .ok (!t.valid.bit i) := t.IsNull_of_WF hwf i hi
    have hv : t.Value i = .ok (t.data.get ⟨i, hi⟩) := sliceGet_of_lt _ _ hi
    refine ⟨_, hn, ?_⟩
    rw [hn]
    cases hb : t.valid.bit i
    · exact Or.inl ⟨rfl, rfl⟩
    · refine Or.inr ⟨rfl, _, by show Cell.int64 <$> t.Value i = _; rw [hv]; rfl, ?_⟩
      simp only [bind, Except.bind, hv, Cell.isEven, Int.dvd_iff_tmod_eq_zero]
      rfl
  | float64 t =>
    have hn : (Column.float64 t).IsNull i = .ok (!t.valid.bit i) := t.IsNull_of_WF hwf i hi
    have hv : t.Value i = .ok (t.data.get ⟨i, hi⟩) := sliceGet_of_lt _ _ hi
    refine ⟨_, hn, ?_⟩
    rw [hn]
    cases hb : t.valid.bit i
    · exact Or.inl ⟨rfl, rfl⟩
    · refine Or.inr ⟨rfl, _, by show Cell.float64 <$> t.Value i = _; rw [hv]; rfl, ?_⟩
      simp only [bind, Except.bind, hv, Cell.isEven, Int.dvd_iff_tmod_eq_zero]
      rfl
  | utf8 t =>
    have hn : (Column.utf8 t).IsNull i = .ok (!t.valid.bit i) := t.IsNull_of_WF hwf i hi
    have hv : t.Value i = .ok (t.data.get ⟨i, hi⟩) := sliceGet_of_lt _ _ hi
    refine ⟨_, hn, ?_⟩
    rw [hn]
    cases hb : t.valid.bit i
    · exact Or.inl ⟨rfl, rfl⟩
    · refine Or.inr ⟨rfl, _, by show Cell.utf8 <$> t.Value i = _; rw [hv]; rfl, ?_⟩
      simp only [bind, Except.bind, hv, Cell.isEven, Nat.dvd_iff_mod_eq_zero]
      rfl
  | bool t =>
    have hn : (Column.bool t).IsNull i = .ok (!t.valid.bit i) := t.IsNull_of_WF hwf i hi
    have hv : t.Value i = .ok (t.data.get ⟨i, hi⟩) := sliceGet_of_lt _ _ hi
    refine ⟨_, hn, ?_⟩
    rw [hn]
    cases hb : t.valid.bit i
    · exact Or.inl ⟨rfl, rfl⟩
    · refine Or.inr ⟨rfl, _, by show Cell.bool <$> t.Value i = _; rw [hv]; rfl, ?_⟩
      simp only [bind, Except.bind, hv, Cell.isEven]
      cases t.data.get ⟨i, hi⟩ <;> rfl

/-- The mask of `Even` over any column of a frame. -/
theorem even_mask (rt : FloatRuntime) (df : DataFrame) (name : String) (col : Column)
    (hwf : df.WF) (hcol : df.Column name = .ok (some col)) :
    ∃ m, (Expr.evenExpr name).Eval rt df = .ok m ∧ m.Len = df.Height ∧
      ∀ i, i < df.Height → ∃ null, col.IsNull i = .ok null ∧ m.IsNull i = .ok null ∧
        (null = false → ∃ v, col.Value i = .ok v ∧
          m.Value i = .ok (decide (v.isEven rt))) := by
  obtain ⟨hin, _⟩ := frame_Column_some hwf.1 name _ hcol
  obtain ⟨hlen, hcwf⟩ := (WF_facts hwf).1 _ hin
  have he : (Expr.evenExpr name).Eval rt df = maskOf df.Height (evenExpr.cell rt col) := by
    unfold Expr.Eval
    rw [hcol]
    show maskOf col.Len _ = _
    rw [hlen]
    rfl
  obtain ⟨m, h1, h2, h3⟩ := maskOf_rows_ex df.Height (evenExpr.cell rt col) (fun i hi => by
    obtain ⟨null, _, h | h⟩ := even_cell_eq rt col hcwf i (hlen ▸ hi)
    · exact ⟨_, h.2⟩
    · obtain ⟨_, v, _, hv⟩ := h
      exact ⟨_, hv⟩)
  refine ⟨m, he ▸ h1, h2, fun i hi => ?_⟩
  obtain ⟨y, hy, hm1, hm2⟩ := h3 i hi
  obtain ⟨null, hnull, h | h⟩ := even_cell_eq rt col hcwf i (hlen ▸ hi)
  · obtain ⟨hn, hc⟩ := h
    rw [hc] at hy
    injection hy with hy
    subst hy hn
    exact ⟨true, hnull, hm1, fun hf => by cases hf⟩
  · obtain ⟨hn, v, hv, hc⟩ := h
    rw [hc] at hy
    injection hy with hy
    subst hy hn
    exact ⟨false, hnull, hm1, fun _ => ⟨v, hv, hm2 rfl⟩⟩

/-- The mask of a logical expression over two evaluated masks of equal length. -/
theorem logical_mask (rt : FloatRuntime) (df : DataFrame) (a b : Expr) (op : String)
    (ma mb : BoolColumn) (ha : a.Eval rt df = .ok ma) (hb : b.Eval rt df = .ok mb)
    (hlen : ma.Len = mb.Len) :
    ∃ m, (Expr.logicalExpr a b op).Eval rt df = .ok m ∧ m.Len = ma.Len ∧
      ∀ i, i < ma.Len → ∃ na nb, ma.IsNull i = .ok na ∧ mb.IsNull i = .ok nb ∧
        m.IsNull i = .ok (na || nb) ∧
        (na = false → nb = false → ∃ va vb, ma.Value i = .ok va ∧ mb.Value i = .ok vb ∧
          m.Value i = .ok (if op == "and" then va && vb else va || vb)) := by
  obtain ⟨_, _, _, _, _, hwa⟩ := Eval_ok_cells rt df a ma ha
  obtain ⟨_, _, _, _, _, hwb⟩ := Eval_ok_cells rt df b mb hb
  have he : (Expr.logicalExpr a b op).Eval rt df = maskOf ma.Len (logicalExpr.cell op ma mb) := by
    unfold Expr.Eval
    rw [ha, hb]
    have : (ma.Len != mb.Len) = false := by simp [hlen]
    simp only [bind, Except.bind, this]
    rfl
  have hra : ∀ i, i < ma.Len → ma.rows[i]? = some (ma.data.getD i false, ma.valid.bit i) := by
    intro i hi
    rw [TypedColumn.rows_getElem? ma i hi, List.getD_eq_getElem _ _ hi]
    rfl
  have hrb : ∀ i, i < ma.Len → mb.rows[i]? = some (mb.data.getD i false, mb.valid.bit i) := by
    intro i hi
    have hi' : i < mb.data.length := by
      have : i < mb.Len := hlen ▸ hi
      exact this
    rw [TypedColumn.rows_getElem? mb i hi', List.getD_eq_getElem _ _ hi']
    rfl
  obtain ⟨m, h1, h2, h3⟩ := maskOf_rows ma.Len (logicalExpr.cell op ma mb)
    (fun i => logicalExpr.combine op (ma.data.getD i false, ma.valid.bit i)
      (mb.data.getD i false, mb.valid.bit i))
    (fun i hi => logical_cell_spec op ma mb hwa hwb i _ _ (hra i hi) (hrb i hi))
  refine ⟨m, he ▸ h1, h2, fun i hi => ?_⟩
  obtain ⟨ha1, ha2⟩ := TypedColumn.observe_row ma hwa i _ _ (hra i hi)
  obtain ⟨hb1, hb2⟩ := TypedColumn.observe_row mb hwb i _ _ (hrb i hi)
  obtain ⟨hm1, hm2⟩ := h3 i hi
  refine ⟨_, _, ha1, hb1, ?_, ?_⟩
  · rw [hm1]
    unfold logicalExpr.combine
    cases ma.valid.bit i <;> cases mb.valid.bit i <;> rfl
  · intro hna hnb
    have hva : ma.valid.bit i = true := by
      cases hv : ma.valid.bit i
      · rw [hv] at hna; cases hna
      · rfl
    have hvb : mb.valid.bit i = true := by
      cases hv : mb.valid.bit i
      · rw [hv] at hnb; cases hnb
      · rfl
    refine ⟨_, _, ha2, hb2, ?_⟩
    have := hm2 (by unfold logicalExpr.combine; rw [hva, hvb]; rfl)
    rw [this]
    unfold logicalExpr.combine
    rw [hva, hvb]
    rfl
/-! ## Lemmas: the invariants of returned frames -/

theorem New_invariants {cols : List Column} {df : DataFrame} (h : NewDataFrame cols = .ok df) :
    FrameInvariants df := by
  obtain ⟨h1, h2, h3, h4, h5⟩ := frame_of_New h
  unfold FrameInvariants DataFrame.Width DataFrame.Columns DataFrame.Height
  rw [h1, h2]
  refine ⟨?_, h4, ?_, ?_⟩
  · exact List.length_pos.mpr h5
  · rw [sharesName_iff]
    exact fun hn => hn h3
  · intro i c hc
    exact indexOf_lookup cols h3 i c hc

theorem bind_ok {β γ : Type} {x : Except Err β} {f : β → Except Err γ} {z : γ}
    (h : (x >>= f) = .ok z) : ∃ y, x = .ok y ∧ f y = .ok z := by
  cases x with
  | error e => cases h
  | ok y => exact ⟨y, rfl, h⟩

theorem Filter_from_New (rt : FloatRuntime) (df : DataFrame) (e : Expr) (out : DataFrame)
    (h : df.Filter rt e = .ok out) : ∃ cols, NewDataFrame cols = .ok out := by
  unfold DataFrame.Filter at h
  obtain ⟨mask, _, h⟩ := bind_ok h
  by_cases hl : (mask.Len != df.nrows) = true
  · rw [if_pos hl] at h
    cases h
  · rw [if_neg hl] at h
    obtain ⟨cols, _, h⟩ := bind_ok h
    exact ⟨cols, h⟩

theorem SortBy_from_New (df : DataFrame) (column : String) (desc : Bool) (out : DataFrame)
    (h : df.SortBy column desc = .ok out) : ∃ cols, NewDataFrame cols = .ok out := by
  unfold DataFrame.SortBy at h
  obtain ⟨oc, _, h⟩ := bind_ok h
  cases oc with
  | none => cases h
  | some c =>
    obtain ⟨order, _, h⟩ := bind_ok h
    obtain ⟨cols, _, h⟩ := bind_ok h
    exact ⟨cols, h⟩
/-! ## Lemmas: `append` on the heap of backing arrays -/

theorem opHeap.Extends_read {h2 h : opHeap} (he : h2.Extends h) (s : opSlice)
    (hv : h.Valid s) : h2.Valid s ∧ h2.read s = h.read s := by
  obtain ⟨hle, hcap⟩ := hv
  by_cases hc : 0 < s.cap
  · obtain ⟨h1, h2'⟩ := hcap hc
    have hg := he.2 s.arr h1
    refine ⟨⟨hle, fun _ => ⟨by have := he.1; omega, by rw [hg]; exact h2'⟩⟩, ?_⟩
    unfold opHeap.read
    rw [hg]
  · have hl : s.len = 0 := by omega
    refine ⟨⟨hle, fun h0 => absurd h0 hc⟩, ?_⟩
    unfold opHeap.read
    rw [hl]
    rfl

theorem arrays_getD_set (l : List (List planOp)) (p j : Nat) (x : List planOp)
    (hp : p < l.length) : (l.set p x).getD j [] = if j = p then x else l.getD j [] := by
  simp only [List.getD_eq_getElem?_getD, List.getElem?_set]
  by_cases h : p = j
  · subst h; simp [hp]
  · have h' : ¬ j = p := fun e => h e.symm
    simp [h, h']

theorem arrays_getD_snoc (l : List (List planOp)) (x : List planOp) (j : Nat) :
    (l ++ [x]).getD j [] = if j = l.length then x else l.getD j [] := by
  rcases Nat.lt_trichotomy j l.length with h | h | h
  · rw [List.getD_append _ _ _ _ h, if_neg (by omega)]
  · subst h; simp [List.getD_eq_getElem?_getD]
  · have h1 : (l ++ [x]).length ≤ j := by simp; omega
    rw [List.getD_eq_default _ _ h1, List.getD_eq_default _ _ (by omega), if_neg (by omega)]

theorem set_getD_self (l : List (List planOp)) (i : Nat) : l.set i (l.getD i []) = l := by
  apply List.ext_getElem?
  intro j
  rw [List.getElem?_set]
  by_cases hij : i = j
  · subst hij
    by_cases hi : i < l.length
    · simp [hi, List.getD_eq_getElem _ _ hi]
    · simp [hi]
      omega
  · simp [hij]

theorem opHeap.read_length {h : opHeap} {s : opSlice} (hv : h.Valid s) :
    (h.read s).length = s.len := by
  obtain ⟨hle, hcap⟩ := hv
  unfold opHeap.read
  rw [List.length_take]
  by_cases hc : 0 < s.cap
  · rw [(hcap hc).2]; omega
  · omega

/-- `append` returns a valid slice that holds the old elements followed by the new
ones; it leaves every array other than the one of `s` unchanged, and it either reuses the
array of `s` or allocates a new one. -/
theorem opHeap.append_spec (grow : Nat → Nat → Nat) (h : opHeap) (s : opSlice)
    (xs : List planOp) (hv : h.Valid s) :
    (h.append grow s xs).1.Valid (h.append grow s xs).2 ∧
      (h.append grow s xs).1.read (h.append grow s xs).2 = h.read s ++ xs ∧
      h.arrays.length ≤ (h.append grow s xs).1.arrays.length ∧
      (∀ j, j < h.arrays.length → j ≠ s.arr ∨ s.cap = 0 →
        (h.append grow s xs).1.arrays.getD j [] = h.arrays.getD j []) ∧
      ((h.append grow s xs).2.cap = 0 ∨ (h.append grow s xs).2.arr = s.arr ∧ 0 < s.cap ∨
        (h.append grow s xs).2.arr = h.arrays.length) := by
  have hrl := opHeap.read_length hv
  obtain ⟨hle, hcap⟩ := hv
  unfold opHeap.append
  by_cases hfit : s.len + xs.length ≤ s.cap
  · simp only [hfit, if_true]
    by_cases hc : 0 < s.cap
    · obtain ⟨h1, h2⟩ := hcap hc
      have hnew : (h.arrays.set s.arr ((h.arrays.getD s.arr []).take s.len ++ xs ++
          (h.arrays.getD s.arr []).drop (s.len + xs.length))).getD s.arr [] =
          (h.arrays.getD s.arr []).take s.len ++ xs ++
            (h.arrays.getD s.arr []).drop (s.len + xs.length) := by
        rw [arrays_getD_set _ _ _ _ h1, if_pos rfl]
      refine ⟨⟨hfit, fun _ => ⟨by simpa using h1, ?_⟩⟩, ?_, by simp, ?_, Or.inr (Or.inl ⟨trivial, hc⟩)⟩
      · show ((h.arrays.set s.arr _).getD s.arr []).length = s.cap
        rw [hnew]
        simp only [List.length_append, List.length_take, List.length_drop, h2]
        omega
      · show ((h.arrays.set s.arr _).getD s.arr []).take (s.len + xs.length) = _
        rw [hnew]
        unfold opHeap.read
        have hl : ((h.arrays.getD s.arr []).take s.len ++ xs).length = s.len + xs.length := by
          simp only [List.length_append, List.length_take, h2]
          omega
        rw [List.take_append_eq_append_take, hl, Nat.sub_self, List.take_zero,
          List.append_nil, List.take_of_length_le (by omega)]
      · intro j _ hj
        show (h.arrays.set s.arr _).getD j [] = _
        rw [arrays_getD_set _ _ _ _ h1, if_neg (by omega)]
    · have hl : s.len = 0 := by omega
      have hx : xs = [] := List.length_eq_zero.mp (by omega)
      subst hx
      have hset : h.arrays.set s.arr ((h.arrays.getD s.arr []).take s.len ++ [] ++
          (h.arrays.getD s.arr []).drop (s.len + ([] : List planOp).length)) = h.arrays := by
        rw [hl]
        simp only [List.take_zero, List.nil_append, List.length_nil, Nat.add_zero, List.drop_zero]
        exact set_getD_self _ _
      rw [hset]
      refine ⟨⟨hfit, fun h0 => absurd h0 hc⟩, ?_, Nat.le_refl _, fun _ _ _ => rfl,
        Or.inl (by show s.cap = 0; omega)⟩
      unfold opHeap.read
      simp [hl]
  · simp only [hfit, if_false]
    refine ⟨⟨Nat.le_max_left _ _, fun _ => ⟨by simp, ?_⟩⟩, ?_, by simp, ?_, Or.inr (Or.inr trivial)⟩
    · show ((h.arrays ++ [_]).getD h.arrays.length []).length = _
      rw [arrays_getD_snoc, if_pos rfl]
      simp only [List.length_append, List.length_replicate, hrl]
      have := Nat.le_max_left (s.len + xs.length) (grow s.cap (s.len + xs.length))
      omega
    · show ((h.arrays ++ [_]).getD h.arrays.length []).take (s.len + xs.length) = _
      rw [arrays_getD_snoc, if_pos rfl]
      have hl : (h.read s ++ xs).length = s.len + xs.length := by
        rw [List.length_append, hrl]
      rw [List.take_append_eq_append_take, hl, Nat.sub_self, List.take_zero, List.append_nil,
        List.take_of_length_le (by omega)]
    · intro j hj _
      show (h.arrays ++ [_]).getD j [] = _
      rw [arrays_getD_snoc, if_neg (by omega)]

theorem opSlice.nil_valid (h : opHeap) : h.Valid opSlice.nil :=
  ⟨Nat.le_refl _, fun h0 => absurd h0 (Nat.lt_irrefl 0)⟩

/-- The chaining statement builds its slice in arrays of its own: the result holds the
old operations followed by the new one, and no array of the old heap changes. -/
theorem planRef.chain_spec (grow : Nat → Nat → Nat) (h : opHeap) (p : planRef) (op : planOp) :
    (p.chain grow h op).2.source = p.source ∧
      (p.chain grow h op).1.Valid (p.chain grow h op).2.ops ∧
      (p.chain grow h op).1.read (p.chain grow h op).2.ops = h.read p.ops ++ [op] ∧
      (p.chain grow h op).1.Extends h := by
  have hc : p.chain grow h op =
      (((h.append grow opSlice.nil (h.read p.ops)).1.append grow
          (h.append grow opSlice.nil (h.read p.ops)).2 [op]).1,
        { p with ops := ((h.append grow opSlice.nil (h.read p.ops)).1.append grow
          (h.append grow opSlice.nil (h.read p.ops)).2 [op]).2 }) := rfl
  rw [hc]
  obtain ⟨a1, b1, c1, d1, e1⟩ :=
    opHeap.append_spec grow h opSlice.nil (h.read p.ops) (opSlice.nil_valid h)
  obtain ⟨a2, b2, c2, d2, _⟩ :=
    opHeap.append_spec grow _ _ [op] a1
  have hnil : h.read opSlice.nil = [] := by
    unfold opHeap.read opSlice.nil
    rfl
  rw [hnil, List.nil_append] at b1
  rw [b1] at b2
  refine ⟨rfl, a2, b2, Nat.le_trans c1 c2, fun j hj => ?_⟩
  rw [← d1 j hj (Or.inr rfl)]
  apply d2 j (Nat.lt_of_lt_of_le hj c1)
  rcases e1 with e | ⟨_, e⟩ | e
  · exact Or.inr e
  · exact absurd e (Nat.lt_irrefl 0)
  · exact Or.inl (by rw [e]; omega)

theorem planRef.chain_ChainedTo (grow : Nat → Nat → Nat) (h : opHeap) (p r : planRef)
    (op : planOp) (hp : h.Valid p.ops) (hr : h.Valid r.ops) :
    planRef.ChainedTo h p r (p.chain grow h op) ⟨p.source, h.read p.ops ++ [op]⟩ := by
  obtain ⟨h1, h2, h3, h4⟩ := planRef.chain_spec grow h p op
  obtain ⟨hp1, hp2⟩ := opHeap.Extends_read h4 p.ops hp
  obtain ⟨hr1, hr2⟩ := opHeap.Extends_read h4 r.ops hr
  refine ⟨?_, ?_, ?_, h2, hp1, hr1⟩
  · unfold planRef.view
    rw [h1, h3]
  · unfold planRef.view
    rw [hp2]
  · unfold planRef.view
    rw [hr2]
/-! ## Lemmas: schema inference -/

theorem AllParse_nil (ok : GoString → Bool) (nullSet : List GoString) :
    AllParse ok [] nullSet := by
  intro v hv
  cases hv

theorem AllParse_cons (ok : GoString → Bool) (v : GoString) (rest nullSet : List GoString) :
    AllParse ok (v :: rest) nullSet ↔ (v ∉ nullSet → ok v = true) ∧ AllParse ok rest nullSet := by
  unfold AllParse
  simp only [List.forall_mem_cons]

theorem AllParse_insert (ok : GoString → Bool) (v : GoString) (pre post nullSet : List GoString) :
    AllParse ok (pre ++ v :: post) nullSet ↔
      (v ∉ nullSet → ok v = true) ∧ AllParse ok (pre ++ post) nullSet := by
  unfold AllParse
  simp only [List.mem_append, List.mem_cons]
  constructor
  · intro h
    exact ⟨h v (Or.inr (Or.inl rfl)), fun w hw => h w (hw.elim Or.inl (fun x => Or.inr (Or.inr x)))⟩
  · rintro ⟨h1, h2⟩ w hw
    rcases hw with hw | rfl | hw
    · exact h2 w (Or.inl hw)
    · exact h1
    · exact h2 w (Or.inr hw)

theorem inferType_loop_eq (rt : FloatRuntime) (nullSet : List GoString) :
    ∀ (values : List GoString) (allInt allFloat allBool : Bool),
      inferType.loop rt nullSet values allInt allFloat allBool =
        if allInt = true ∧ AllParse parsesInt values nullSet then DTypeInt64
        else if allFloat = true ∧ AllParse (parsesFloat rt) values nullSet then DTypeFloat64
        else if allBool = true ∧ AllParse parsesBool values nullSet then DTypeBool
        else DTypeUtf8 := by
  intro values
  induction values with
  | nil =>
    intro a f b
    unfold inferType.loop
    simp only [AllParse_nil, and_true]
  | cons v rest ih =>
    intro a f b
    unfold inferType.loop
    by_cases hn : v ∈ nullSet
    · rw [if_pos hn, ih]
      simp only [AllParse_cons, hn, not_true_eq_false, false_implies, true_and]
    · rw [if_neg hn]
      simp only [AllParse_cons, hn, not_false_eq_true, true_implies, ih]
      have hi : (ParseInt v).isNone = !parsesInt v := by
        unfold parsesInt; cases ParseInt v <;> rfl
      have hf : (rt.parseFloat v).isNone = !parsesFloat rt v := by
        unfold parsesFloat; cases rt.parseFloat v <;> rfl
      have hb : (ParseBool (ToLower v)).isNone = !parsesBool v := by
        unfold parsesBool; cases ParseBool (ToLower v) <;> rfl
      rw [hi, hf, hb]
      cases parsesInt v <;> cases parsesFloat rt v <;> cases parsesBool v <;>
        cases a <;> cases f <;> cases b <;> simp

theorem ToLower_no_capital (v : GoString) (c : Nat) (hc : c ∈ ToLower v) :
    ¬ (65 ≤ c ∧ c ≤ 90) := by
  unfold ToLower at hc
  obtain ⟨x, _, hx⟩ := List.mem_map.mp hc
  by_cases h : 65 ≤ x ∧ x ≤ 90
  · rw [if_pos h] at hx; omega
  · rw [if_neg h] at hx; subst hx; exact h

theorem ToLower_head_ne (v : GoString) (c : Nat) (rest : GoString) (hc : 65 ≤ c ∧ c ≤ 90) :
    ToLower v ≠ c :: rest := by
  intro h
  exact ToLower_no_capital v c (by rw [h]; exact List.mem_cons_self _ _) hc

/-- After lowering, `ParseBool` accepts exactly the six lower-case tokens. -/
theorem parsesBool_iff (v : GoString) :
    parsesBool v = true ↔
      ToLower v ∈ [[49], [116], [116, 114, 117, 101], [48], [102], [102, 97, 108, 115, 101]] := by
  have h1 := ToLower_head_ne v 84 [] (by decide)
  have h2 := ToLower_head_ne v 84 [82, 85, 69] (by decide)
  have h3 := ToLower_head_ne v 84 [114, 117, 101] (by decide)
  have h4 := ToLower_head_ne v 70 [] (by decide)
  have h5 := ToLower_head_ne v 70 [65, 76, 83, 69] (by decide)
  have h6 := ToLower_head_ne v 70 [97, 108, 115, 101] (by decide)
  unfold parsesBool ParseBool
  simp only [h1, h2, h3, h4, h5, h6, false_or, or_false, List.mem_cons, List.mem_singleton,
    List.mem_nil_iff]
  by_cases a1 : ToLower v = [49] ∨ ToLower v = [116] ∨ ToLower v = [116, 114, 117, 101]
  · rw [if_pos a1]
    simp only [Option.isSome_some, true_iff]
    rcases a1 with a | a | a <;> simp [a]
  · rw [if_neg a1]
    by_cases a2 : ToLower v = [48] ∨ ToLower v = [102] ∨ ToLower v = [102, 97, 108, 115, 101]
    · rw [if_pos a2]
      simp only [Option.isSome_some, true_iff]
      rcases a2 with a | a | a <;> simp [a]
    · rw [if_neg a2]
      simp only [Option.isSome_none, Bool.false_eq_true, false_iff]
      rintro (a | a | a | a | a | a)
      · exact a1 (Or.inl a)
      · exact a1 (Or.inr (Or.inl a))
      · exact a1 (Or.inr (Or.inr a))
      · exact a2 (Or.inl a)
      · exact a2 (Or.inr (Or.inl a))
      · exact a2 (Or.inr (Or.inr a))
/-! ## Lemmas: when `Select` succeeds -/

theorem forall₂_of_forall_exists {β γ : Type} (R : β → γ → Prop) (l : List β)
    (h : ∀ x ∈ l, ∃ y, R x y) : ∃ ys, List.Forall₂ R l ys := by
  induction l with
  | nil => exact ⟨[], List.Forall₂.nil⟩
  | cons x l ih =>
    obtain ⟨y, hy⟩ := h x (List.mem_cons_self _ _)
    obtain ⟨ys, hys⟩ := ih (fun z hz => h z (List.mem_cons_of_mem _ hz))
    exact ⟨y :: ys, List.Forall₂.cons hy hys⟩

theorem picked_names {cols : List Column} {df : DataFrame} (h : NewDataFrame cols = .ok df)
    (names : List String) (picked : List Column)
    (hf : List.Forall₂ (fun name c => df.Column name = .ok (some c)) names picked) :
    picked.map Column.Name = names ∧ ∀ c ∈ picked, c ∈ cols := by
  induction hf with
  | nil => exact ⟨rfl, fun _ hc => by cases hc⟩
  | cons hab _ ih =>
    obtain ⟨h1, h2⟩ := frame_Column_some h _ _ hab
    refine ⟨by rw [List.map_cons, h2, ih.1], ?_⟩
    intro c hc
    rcases List.mem_cons.mp hc with rfl | hc
    · exact h1
    · exact ih.2 c hc

theorem Select_ok_iff_names {cols : List Column} {df : DataFrame}
    (h : NewDataFrame cols = .ok df) (names : List String) :
    (∃ out, df.Select names = .ok out) ↔
      names ≠ [] ∧ (∀ n ∈ names, n ∈ cols.map Column.Name) ∧ names.Nodup := by
  obtain ⟨_, _, _, hlen, _⟩ := frame_of_New h
  constructor
  · rintro ⟨out, hout⟩
    obtain ⟨picked, hf, hnew⟩ := (Select_ok_iff df names out).mp hout
    obtain ⟨hn, hin⟩ := picked_names h names picked hf
    obtain ⟨_, _, hnd, _, hne⟩ := frame_of_New hnew
    rw [hn] at hnd
    refine ⟨?_, ?_, hnd⟩
    · intro he
      rw [he] at hn
      exact hne (List.map_eq_nil_iff.mp hn)
    · intro n hnm
      rw [← hn] at hnm
      obtain ⟨c, hc, rfl⟩ := List.mem_map.mp hnm
      exact List.mem_map.mpr ⟨c, hin c hc, rfl⟩
  · rintro ⟨hne, hall, hnd⟩
    obtain ⟨picked, hf⟩ := forall₂_of_forall_exists
      (fun name c => df.Column name = .ok (some c)) names (by
        intro n hn
        rcases frame_Column_cases h n with ⟨h1, _⟩ | ⟨c, _, _, hc⟩
        · exact absurd (hall n hn) h1
        · exact ⟨c, hc⟩)
    obtain ⟨hn, hin⟩ := picked_names h names picked hf
    cases hp : picked with
    | nil =>
      rw [hp] at hn
      exact absurd hn.symm hne
    | cons c0 rest =>
      have hnew : NewDataFrame picked = .ok ⟨picked, indexOf picked, c0.Len⟩ := by
        rw [NewDataFrame_ok_iff]
        refine ⟨c0, rest, hp, ?_, by rw [hn]; exact hnd, rfl⟩
        intro c hc
        rw [hlen c (hin c hc), hlen c0 (hin c0 (by rw [hp]; exact List.mem_cons_self _ _))]
      exact ⟨_, (Select_ok_iff df names _).mpr ⟨picked, hf, hnew⟩⟩
/-! ## Lemmas: the content fingerprint -/

theorem foldlM_congr {β σ : Type} (f g : σ → β → Except Err σ) (l : List β)
    (h : ∀ x ∈ l, ∀ s, f s x = g s x) : ∀ s, l.foldlM f s = l.foldlM g s := by
  induction l with
  | nil => intro s; rfl
  | cons x l ih =>
    intro s
    rw [List.foldlM_cons, List.foldlM_cons, h x (List.mem_cons_self _ _) s]
    cases g s x with
    | error e => rfl
    | ok s' => exact ih (fun y hy => h y (List.mem_cons_of_mem _ hy)) s'

theorem foldlM_ok_exists {β σ : Type} (f : σ → β → Except Err σ) (l : List β)
    (h : ∀ x ∈ l, ∀ s, ∃ s', f s x = .ok s') : ∀ s, ∃ s', l.foldlM f s = .ok s' := by
  induction l with
  | nil => intro s; exact ⟨s, rfl⟩
  | cons x l ih =>
    intro s
    obtain ⟨s1, h1⟩ := h x (List.mem_cons_self _ _) s
    obtain ⟨s2, h2⟩ := ih (fun y hy => h y (List.mem_cons_of_mem _ hy)) s1
    exact ⟨s2, by rw [List.foldlM_cons, h1]; exact h2⟩

theorem typed_ValueString_same {α : Type} (ca cb : TypedColumn α) (text : α → GoString)
    (i : Nat) (hn : ca.IsNull i = cb.IsNull i)
    (hv : ca.IsNull i = .ok false → ca.Value i = cb.Value i) :
    ca.ValueString text i = cb.ValueString text i := by
  unfold TypedColumn.ValueString
  rw [← hn]
  cases hc : ca.IsNull i with
  | error e => rfl
  | ok null =>
    cases null
    · have := hv hc
      unfold TypedColumn.Value at this
      simp only [bind, Except.bind, Bool.false_eq_true, if_false, this]
    · rfl

theorem map_ok_cancel {β γ : Type} (f : β → γ) (hf : Function.Injective f)
    (x y : Except Err β) (h : f <$> x = f <$> y) : x = y := by
  cases x with
  | error e =>
    cases y with
    | error e' => injection h with h; rw [h]
    | ok b => cases h
  | ok a =>
    cases y with
    | error e' => cases h
    | ok b =>
      injection h with h
      rw [hf h]

theorem ValueString_same (rt : FloatRuntime) (a b : Column) (i : Nat) (hd : a.DType = b.DType)
    (h : a.SameCell b i) : a.ValueString rt i = b.ValueString rt i := by
  obtain ⟨hn, hv⟩ := h
  cases a <;> cases b <;> (try (simp [Column.DType] at hd))
  · exact typed_ValueString_same _ _ _ i hn
      (fun h0 => map_ok_cancel Cell.int64 (fun _ _ e => by injection e) _ _ (hv h0))
  · exact typed_ValueString_same _ _ _ i hn
      (fun h0 => map_ok_cancel Cell.float64 (fun _ _ e => by injection e) _ _ (hv h0))
  · exact typed_ValueString_same _ _ _ i hn
      (fun h0 => map_ok_cancel Cell.bool (fun _ _ e => by injection e) _ _ (hv h0))
  · exact typed_ValueString_same _ _ _ i hn
      (fun h0 => map_ok_cancel Cell.utf8 (fun _ _ e => by injection e) _ _ (hv h0))

theorem ValueString_null_empty (rt : FloatRuntime) (a b : Column) (i : Nat)
    (h : a.NullVersusEmpty b i) :
    a.ValueString rt i = .ok [] ∧ b.ValueString rt i = .ok [] := by
  obtain ⟨ha, hb, h1, h2, h3⟩ := h
  cases a <;> (try (simp [Column.DType] at ha))
  cases b <;> (try (simp [Column.DType] at hb))
  rename_i ca cb
  have h1' : ca.IsNull i = .ok true := h1
  have h2' : cb.IsNull i = .ok false := h2
  have h3' : sliceGet cb.data i = .ok [] :=
    map_ok_cancel Cell.utf8 (fun _ _ e => by injection e) (cb.Value i) (.ok []) h3
  constructor
  · show ca.ValueString _ i = _
    unfold TypedColumn.ValueString
    rw [h1']
    rfl
  · show cb.ValueString _ i = _
    unfold TypedColumn.ValueString
    rw [h2']
    simp only [bind, Except.bind, Bool.false_eq_true, if_false, h3']
    rfl

theorem ValueString_twin (rt : FloatRuntime) (n : Nat) (a b : Column) (h : a.TwinOf n b)
    (i : Nat) (hi : i < n) : a.ValueString rt i = b.ValueString rt i := by
  obtain ⟨_, hd, _, hc⟩ := h
  rcases hc i hi with h1 | h2 | h3
  · exact ValueString_same rt a b i hd h1
  · obtain ⟨e1, e2⟩ := ValueString_null_empty rt a b i h2
    rw [e1, e2]
  · obtain ⟨e1, e2⟩ := ValueString_null_empty rt b a i h3
    rw [e1, e2]

theorem twins_getElem? {df1 df2 : DataFrame} (h : NullEmptyTwins df1 df2) (j : Nat) :
    (df1.columns[j]? = none ∧ df2.columns[j]? = none) ∨
      ∃ a b, df1.columns[j]? = some a ∧ df2.columns[j]? = some b ∧ a.TwinOf df1.nrows b := by
  have hl := h.2.length_eq
  by_cases hj : j < df1.columns.length
  · have hj2 : j < df2.columns.length := hl ▸ hj
    refine Or.inr ⟨df1.columns.get ⟨j, hj⟩, df2.columns.get ⟨j, hj2⟩,
      List.getElem?_eq_getElem hj, List.getElem?_eq_getElem hj2, ?_⟩
    exact (List.forall₂_iff_get.mp h.2).2 j hj hj2
  · exact Or.inl ⟨List.getElem?_eq_none (by omega), List.getElem?_eq_none (by omega)⟩

theorem checksum_cell_twin (rt : FloatRuntime) {df1 df2 : DataFrame}
    (h : NullEmptyTwins df1 df2) (i : Nat) (hi : i < df1.nrows) (s : List Nat) (j : Nat) :
    ProjectionChecksum.cell rt df1 i s j = ProjectionChecksum.cell rt df2 i s j := by
  unfold ProjectionChecksum.cell sliceGet
  rcases twins_getElem? h j with ⟨h1, h2⟩ | ⟨a, b, h1, h2, ht⟩
  · rw [h1, h2]
  · rw [h1, h2]
    simp only [bind, Except.bind]
    rw [ValueString_twin rt _ a b ht i hi]

theorem checksumInput_twin (rt : FloatRuntime) {df1 df2 : DataFrame}
    (h : NullEmptyTwins df1 df2) (maxCols : Int) :
    df1.checksumInput rt maxCols = df2.checksumInput rt maxCols := by
  unfold DataFrame.checksumInput
  have hc : ProjectionChecksum.clamp df1 maxCols = ProjectionChecksum.clamp df2 maxCols := by
    unfold ProjectionChecksum.clamp
    rw [h.2.length_eq]
  rw [← h.1, hc]
  apply foldlM_congr
  intro i hi s
  unfold ProjectionChecksum.row
  rw [foldlM_congr _ _ _ (fun j _ s' =>
    checksum_cell_twin rt h i (List.mem_range.mp hi) s' j) s]

theorem typed_ValueString_ok {α : Type} (c : TypedColumn α) (text : α → GoString)
    (hwf : c.WF) (i : Nat) (hi : i < c.data.length) : ∃ s, c.ValueString text i = .ok s := by
  unfold TypedColumn.ValueString
  rw [c.IsNull_of_WF hwf i hi, sliceGet_of_lt _ _ hi]
  cases c.valid.bit i
  · exact ⟨[], rfl⟩
  · exact ⟨_, rfl⟩

theorem ValueString_ok (rt : FloatRuntime) (c : Column) (hwf : c.WF) (i : Nat)
    (hi : i < c.Len) : ∃ s, c.ValueString rt i = .ok s := by
  cases c with
  | int64 t => exact typed_ValueString_ok t _ hwf i hi
  | float64 t => exact typed_ValueString_ok t _ hwf i hi
  | bool t => exact typed_ValueString_ok t _ hwf i hi
  | utf8 t => exact typed_ValueString_ok t _ hwf i hi

theorem clamp_le (df : DataFrame) (maxCols : Int) :
    ProjectionChecksum.clamp df maxCols ≤ df.columns.length := by
  unfold ProjectionChecksum.clamp
  simp only []
  split <;> split <;> omega

theorem checksumInput_ok (rt : FloatRuntime) (df : DataFrame) (hwf : df.WF) (maxCols : Int) :
    ∃ bytes, df.checksumInput rt maxCols = .ok bytes := by
  unfold DataFrame.checksumInput
  apply foldlM_ok_exists
  intro i hi s
  unfold ProjectionChecksum.row
  obtain ⟨s1, h1⟩ := foldlM_ok_exists (ProjectionChecksum.cell rt df i)
    (List.range (ProjectionChecksum.clamp df maxCols)) (by
      intro j hj s'
      have hj' : j < df.columns.length :=
        Nat.lt_of_lt_of_le (List.mem_range.mp hj) (clamp_le df maxCols)
      obtain ⟨hlen, hcwf⟩ := (WF_facts hwf).1 _ (List.getElem_mem hj')
      obtain ⟨t, ht⟩ := ValueString_ok rt _ hcwf i (by rw [hlen]; exact List.mem_range.mp hi)
      unfold ProjectionChecksum.cell
      rw [sliceGet_of_lt _ _ hj']
      simp only [bind, Except.bind, List.get_eq_getElem, ht]
      exact ⟨_, rfl⟩) s
  rw [h1]
  exact ⟨_, rfl⟩
/-! ## Lemmas: the typed builders -/

theorem Builder.Append_eq {α : Type} (zero : α) (parse : GoString → Option α)
    (fail : Int → Err) (b : Builder α) (flags : List Bool) (hv : b.valid.Holds flags)
    (raw : GoString) (row : Int) :
    Builder.Append zero parse fail b raw row = .ok
      (if raw ∈ b.nulls then (⟨b.data ++ [zero], b.valid.push false, b.nulls⟩, none)
      else match parse raw with
        | none => (⟨b.data ++ [zero], b.valid, b.nulls⟩, some (fail row))
        | some v => (⟨b.data ++ [v], b.valid.push true, b.nulls⟩, none)) := by
  unfold Builder.Append
  by_cases hn : raw ∈ b.nulls
  · simp only [hn, if_true]
    rw [(bitmapBuilder.push_holds b.valid flags false hv).2]
    rfl
  · simp only [hn, if_false]
    cases parse raw with
    | none => rfl
    | some v =>
      simp only []
      have hs : sliceSet (b.data ++ [zero]) ((b.data ++ [zero]).length - 1) v =
          .ok (b.data ++ [v]) := by
        rw [sliceSet_of_lt _ _ _ (by simp)]
        simp
      rw [hs, (bitmapBuilder.push_holds b.valid flags true hv).2]
      rfl

theorem utf8Builder.Append_text_eq (b : utf8Builder) (flags : List Bool) (hv : b.valid.Holds flags)
    (raw : GoString) (row : Int) :
    utf8Builder.Append b raw row =
      .ok (⟨b.data ++ [raw], b.valid.push (!decide (raw ∈ b.nulls)), b.nulls⟩, none) := by
  unfold utf8Builder.Append
  simp only []
  rw [(bitmapBuilder.push_holds b.valid flags _ hv).2]
  rfl

theorem HoldsRows_snoc (tb tb2 : typedBuilder) (rows : List (Option Cell)) (r : Option Cell)
    (c : Cell) (h : tb.HoldsRows rows) (hv : tb2.valid = tb.valid.push r.isSome)
    (hc : tb2.cells = tb.cells ++ [c]) (hr : ∀ v, r = some v → c = v) :
    tb2.HoldsRows (rows ++ [r]) := by
  obtain ⟨h1, h2, h3⟩ := h
  refine ⟨?_, ?_, ?_⟩
  · rw [hv, List.map_append]
    exact (bitmapBuilder.push_holds _ _ _ h1).1
  · rw [hc]
    simp [h2]
  · intro i v hi
    rw [hc]
    by_cases hlt : i < rows.length
    · rw [List.getElem?_append_left hlt] at hi
      rw [List.getElem?_append_left (by omega)]
      exact h3 i v hi
    · have hge : rows.length ≤ i := by omega
      rw [List.getElem?_append_right hge] at hi
      rw [List.getElem?_append_right (by omega), h2]
      cases hk : i - rows.length with
      | zero =>
        rw [hk] at hi
        simp only [List.getElem?_cons_zero, Option.some.injEq] at hi ⊢
        exact hr v hi
      | succ k =>
        rw [hk] at hi
        simp at hi

theorem typed_Append_eq {α : Type} (wrap : Builder α → typedBuilder) (zero : α)
    (parse : GoString → Option α) (fail : Int → Err) (b : Builder α) (flags : List Bool)
    (hv : b.valid.Holds flags) (raw : GoString) (row : Int) :
    (do
      let (b2, err) ← Builder.Append zero parse fail b raw row
      pure (wrap b2, err) : Except Err (typedBuilder × Option Err)) = .ok
      (if raw ∈ b.nulls then (wrap ⟨b.data ++ [zero], b.valid.push false, b.nulls⟩, none)
      else match parse raw with
        | none => (wrap ⟨b.data ++ [zero], b.valid, b.nulls⟩, some (fail row))
        | some v => (wrap ⟨b.data ++ [v], b.valid.push true, b.nulls⟩, none)) := by
  rw [Builder.Append_eq zero parse fail b flags hv raw row]
  by_cases hn : raw ∈ b.nulls
  · simp only [hn, if_true]; rfl
  · simp only [hn, if_false]
    cases parse raw <;> rfl

/-- One call of `Append` on a builder that holds the rows `rows`. -/
theorem Append_step (rt : FloatRuntime) (tb : typedBuilder) (rows : List (Option Cell))
    (raw : GoString) (row : Int) (h : tb.HoldsRows rows) :
    (raw ∈ tb.nulls → ∃ tb2, tb.Append rt raw row = .ok (tb2, none) ∧
      tb2.HoldsRows (rows ++ [none]) ∧ tb2.dtype = tb.dtype ∧ tb2.nulls = tb.nulls) ∧
    (raw ∉ tb.nulls → ∀ v, parseCell rt tb.dtype raw = some v →
      ∃ tb2, tb.Append rt raw row = .ok (tb2, none) ∧
        tb2.HoldsRows (rows ++ [some v]) ∧ tb2.dtype = tb.dtype ∧ tb2.nulls = tb.nulls) ∧
    (raw ∉ tb.nulls → parseCell rt tb.dtype raw = none →
      ∃ tb2 e, tb.Append rt raw row = .ok (tb2, some e) ∧
        ((tb.dtype = DTypeInt64 ∧ e = Err.parseInt64 row) ∨
          (tb.dtype = DTypeFloat64 ∧ e = Err.parseFloat64 row) ∨
          (tb.dtype = DTypeBool ∧ e = Err.parseBool row)) ∧
        tb2.cells.length = tb.cells.length + 1 ∧ tb2.valid = tb.valid) := by
  cases tb with
  | int64 b =>
    have he := typed_Append_eq typedBuilder.int64 0 ParseInt Err.parseInt64 b _ h.1 raw row
    refine ⟨fun hn => ?_, fun hn v hv => ?_, fun hn hv => ?_⟩
    · have hn' : raw ∈ b.nulls := hn
      rw [if_pos hn'] at he
      exact ⟨_, he, HoldsRows_snoc _ _ rows none (Cell.int64 0) h rfl
        (by simp [typedBuilder.cells]) (fun _ e => by cases e), rfl, rfl⟩
    · have hn' : raw ∉ b.nulls := hn
      rw [if_neg hn'] at he
      cases hp : ParseInt raw with
      | none => simp [parseCell, typedBuilder.dtype, hp] at hv
      | some x =>
        have hx : v = Cell.int64 x := by
          simp [parseCell, typedBuilder.dtype, hp] at hv; exact hv.symm
        rw [hp] at he
        exact ⟨_, he, HoldsRows_snoc _ _ rows (some v) (Cell.int64 x) h rfl
          (by simp [typedBuilder.cells]) (fun _ e => by injection e with e; rw [← e, hx]),
          rfl, rfl⟩
    · have hn' : raw ∉ b.nulls := hn
      rw [if_neg hn'] at he
      cases hp : ParseInt raw with
      | none =>
        rw [hp] at he
        exact ⟨_, _, he, Or.inl ⟨rfl, rfl⟩, by simp [typedBuilder.cells], rfl⟩
      | some x => simp [parseCell, typedBuilder.dtype, hp] at hv
  | float64 b =>
    have he := typed_Append_eq typedBuilder.float64 ⟨0⟩ rt.parseFloat Err.parseFloat64 b _ h.1
      raw row
    refine ⟨fun hn => ?_, fun hn v hv => ?_, fun hn hv => ?_⟩
    · have hn' : raw ∈ b.nulls := hn
      rw [if_pos hn'] at he
      exact ⟨_, he, HoldsRows_snoc _ _ rows none (Cell.float64 ⟨0⟩) h rfl
        (by simp [typedBuilder.cells]) (fun _ e => by cases e), rfl, rfl⟩
    · have hn' : raw ∉ b.nulls := hn
      rw [if_neg hn'] at he
      cases hp : rt.parseFloat raw with
      | none => simp [parseCell, typedBuilder.dtype, hp] at hv
      | some x =>
        have hx : v = Cell.float64 x := by
          simp [parseCell, typedBuilder.dtype, hp] at hv; exact hv.symm
        rw [hp] at he
        exact ⟨_, he, HoldsRows_snoc _ _ rows (some v) (Cell.float64 x) h rfl
          (by simp [typedBuilder.cells]) (fun _ e => by injection e with e; rw [← e, hx]),
          rfl, rfl⟩
    · have hn' : raw ∉ b.nulls := hn
      rw [if_neg hn'] at he
      cases hp : rt.parseFloat raw with
      | none =>
        rw [hp] at he
        exact ⟨_, _, he, Or.inr (Or.inl ⟨rfl, rfl⟩), by simp [typedBuilder.cells], rfl⟩
      | some x => simp [parseCell, typedBuilder.dtype, hp] at hv
  | bool b =>
    have he := typed_Append_eq typedBuilder.bool false (fun s => ParseBool (ToLower s))
      Err.parseBool b _ h.1 raw row
    refine ⟨fun hn => ?_, fun hn v hv => ?_, fun hn hv => ?_⟩
    · have hn' : raw ∈ b.nulls := hn
      rw [if_pos hn'] at he
      exact ⟨_, he, HoldsRows_snoc _ _ rows none (Cell.bool false) h rfl
        (by simp [typedBuilder.cells]) (fun _ e => by cases e), rfl, rfl⟩
    · have hn' : raw ∉ b.nulls := hn
      rw [if_neg hn'] at he
      cases hp : ParseBool (ToLower raw) with
      | none => simp [parseCell, typedBuilder.dtype, hp] at hv
      | some x =>
        have hx : v = Cell.bool x := by
          simp [parseCell, typedBuilder.dtype, hp] at hv; exact hv.symm
        simp only [hp] at he
        exact ⟨_, he, HoldsRows_snoc _ _ rows (some v) (Cell.bool x) h rfl
          (by simp [typedBuilder.cells]) (fun _ e => by injection e with e; rw [← e, hx]),
          rfl, rfl⟩
    · have hn' : raw ∉ b.nulls := hn
      rw [if_neg hn'] at he
      cases hp : ParseBool (ToLower raw) with
      | none =>
        simp only [hp] at he
        exact ⟨_, _, he, Or.inr (Or.inr ⟨rfl, rfl⟩), by simp [typedBuilder.cells], rfl⟩
      | some x => simp [parseCell, typedBuilder.dtype, hp] at hv
  | utf8 b =>
    have he : (typedBuilder.utf8 b).Append rt raw row = .ok
        (typedBuilder.utf8 ⟨b.data ++ [raw], b.valid.push (!decide (raw ∈ b.nulls)), b.nulls⟩,
          none) := by
      unfold typedBuilder.Append
      simp only []
      rw [utf8Builder.Append_text_eq b _ h.1 raw row]
      rfl
    refine ⟨fun hn => ?_, fun hn v hv => ?_, fun hn hv => ?_⟩
    · have hn' : raw ∈ b.nulls := hn
      refine ⟨_, he, HoldsRows_snoc _ _ rows none (Cell.utf8 raw) h ?_
        (by simp [typedBuilder.cells]) (fun _ e => by cases e), rfl, rfl⟩
      simp [typedBuilder.valid, hn']
    · have hn' : raw ∉ b.nulls := hn
      have hx : v = Cell.utf8 raw := by
        simp [parseCell, typedBuilder.dtype] at hv; exact hv.symm
      refine ⟨_, he, HoldsRows_snoc _ _ rows (some v) (Cell.utf8 raw) h ?_
        (by simp [typedBuilder.cells]) (fun _ e => by injection e with e; rw [← e, hx]),
        rfl, rfl⟩
      simp [typedBuilder.valid, hn']
    · simp [parseCell, typedBuilder.dtype] at hv

theorem newBuilder_holds (dtype : DType) (nulls : List GoString) :
    (newBuilder dtype nulls).HoldsRows [] ∧ (newBuilder dtype nulls).nulls = nulls ∧
      (dtype ≠ DTypeInvalid → (newBuilder dtype nulls).dtype = dtype) := by
  cases dtype <;>
    exact ⟨⟨packBits_holds [], rfl, fun i v hi => by simp at hi⟩, rfl,
      fun h => by first | rfl | exact absurd rfl h⟩

theorem built_IsNull {α : Type} (name : String) (data : List α) (valid : bitmapBuilder)
    (rows : List (Option Cell)) (hv : valid.Holds (rows.map Option.isSome)) (i : Nat)
    (r : Option Cell) (hi : rows[i]? = some r) :
    (TypedColumn.Owned name data valid.Build).IsNull i = .ok r.isNone := by
  obtain ⟨_, h2, h3⟩ := hv
  have hlt : i < rows.length := (List.getElem?_eq_some_iff.mp hi).1
  rw [TypedColumn.IsNull_of_lt _ i (by
    show i / 64 < valid.bits.length
    rw [h2, List.length_map]; omega)]
  have hb : (TypedColumn.Owned name data valid.Build).valid.bit i = r.isSome := by
    show (bitmap.mk valid.bits).bit i = _
    rw [h3 i, List.getD_eq_getElem?_getD, List.getElem?_map, hi]
    rfl
  rw [hb]
  cases r <;> rfl

theorem built_Value {α : Type} (wrap : α → Cell) (name : String) (data : List α)
    (valid : bitmap) (i : Nat) (v : Cell) (h : (data.map wrap)[i]? = some v) :
    wrap <$> (TypedColumn.Owned name data valid).Value i = .ok v := by
  rw [List.getElem?_map] at h
  show wrap <$> sliceGet data i = _
  unfold sliceGet
  cases hd : data[i]? with
  | none => rw [hd] at h; cases h
  | some x =>
    rw [hd] at h
    injection h with h
    rw [← h]
    rfl

/-- The column built from a builder that holds the rows `rows`. -/
theorem Build_HasRows (tb : typedBuilder) (rows : List (Option Cell)) (h : tb.HoldsRows rows)
    (name : String) : (tb.Build name).HasRows name tb.dtype rows := by
  obtain ⟨h1, h2, h3⟩ := h
  cases tb with
  | int64 b =>
    refine ⟨rfl, rfl, ?_, fun i r hi => ⟨built_IsNull name b.data b.valid rows h1 i r hi, ?_⟩⟩
    · rw [← h2]; exact (List.length_map _ _).symm
    · intro v hv
      exact built_Value Cell.int64 name b.data _ i v (h3 i v (hv ▸ hi))
  | float64 b =>
    refine ⟨rfl, rfl, ?_, fun i r hi => ⟨built_IsNull name b.data b.valid rows h1 i r hi, ?_⟩⟩
    · rw [← h2]; exact (List.length_map _ _).symm
    · intro v hv
      exact built_Value Cell.float64 name b.data _ i v (h3 i v (hv ▸ hi))
  | bool b =>
    refine ⟨rfl, rfl, ?_, fun i r hi => ⟨built_IsNull name b.data b.valid rows h1 i r hi, ?_⟩⟩
    · rw [← h2]; exact (List.length_map _ _).symm
    · intro v hv
      exact built_Value Cell.bool name b.data _ i v (h3 i v (hv ▸ hi))
  | utf8 b =>
    refine ⟨rfl, rfl, ?_, fun i r hi => ⟨built_IsNull name b.data b.valid rows h1 i r hi, ?_⟩⟩
    · rw [← h2]; exact (List.length_map _ _).symm
    · intro v hv
      exact built_Value Cell.utf8 name b.data _ i v (h3 i v (hv ▸ hi))

/-- A run of `Append` calls that returns no error: every token was a null token or
parsed, and the builder holds one more row per token. -/
theorem appendRows_ok (rt : FloatRuntime) :
    ∀ (tokens : List GoString) (tb tb2 : typedBuilder) (rows : List (Option Cell)) (row : Int),
      tb.HoldsRows rows → tb.appendRows rt tokens row = .ok (tb2, none) →
      tb2.HoldsRows (rows ++ tokens.map (rowOf rt tb.dtype tb.nulls)) ∧
        tb2.dtype = tb.dtype ∧ tb2.nulls = tb.nulls ∧
        ∀ t ∈ tokens, t ∈ tb.nulls ∨ (parseCell rt tb.dtype t).isSome = true := by
  intro tokens
  induction tokens with
  | nil =>
    intro tb tb2 rows row h hr
    have : tb2 = tb := by
      unfold typedBuilder.appendRows at hr
      injection hr with hr
      injection hr with hr
      exact hr.symm
    subst this
    exact ⟨by simpa using h, rfl, rfl, fun _ ht => by cases ht⟩
  | cons t rest ih =>
    intro tb tb2 rows row h hr
    obtain ⟨s1, s2, s3⟩ := Append_step rt tb rows t row h
    unfold typedBuilder.appendRows at hr
    by_cases hn : t ∈ tb.nulls
    · obtain ⟨tb1, ha, hh, hd, hnl⟩ := s1 hn
      rw [ha] at hr
      obtain ⟨i1, i2, i3, i4⟩ := ih tb1 tb2 (rows ++ [none]) (row + 1) hh hr
      rw [hd, hnl] at i1 i4
      refine ⟨?_, i2.trans hd, i3.trans hnl, ?_⟩
      · rw [List.map_cons, show rowOf rt tb.dtype tb.nulls t = none from by
          unfold rowOf; rw [if_pos hn]]
        simpa using i1
      · intro x hx
        rcases List.mem_cons.mp hx with rfl | hx
        · exact Or.inl hn
        · exact i4 x hx
    · cases hp : parseCell rt tb.dtype t with
      | none =>
        obtain ⟨tb1, e, ha, _⟩ := s3 hn hp
        rw [ha] at hr
        injection hr with hr
        injection hr with _ hr
        cases hr
      | some v =>
        obtain ⟨tb1, ha, hh, hd, hnl⟩ := s2 hn v hp
        rw [ha] at hr
        obtain ⟨i1, i2, i3, i4⟩ := ih tb1 tb2 (rows ++ [some v]) (row + 1) hh hr
        rw [hd, hnl] at i1 i4
        refine ⟨?_, i2.trans hd, i3.trans hnl, ?_⟩
        · rw [List.map_cons, show rowOf rt tb.dtype tb.nulls t = some v from by
            unfold rowOf; rw [if_neg hn, hp]]
          simpa using i1
        · intro x hx
          rcases List.mem_cons.mp hx with rfl | hx
          · exact Or.inr (by rw [hp]; rfl)
          · exact i4 x hx

/-- A run of `Append` calls on tokens that are null tokens or parse returns no error. -/
theorem appendRows_accepts (rt : FloatRuntime) :
    ∀ (tokens : List GoString) (tb : typedBuilder) (rows : List (Option Cell)) (row : Int),
      tb.HoldsRows rows →
      (∀ t ∈ tokens, t ∈ tb.nulls ∨ (parseCell rt tb.dtype t).isSome = true) →
      ∃ tb2, tb.appendRows rt tokens row = .ok (tb2, none) := by
  intro tokens
  induction tokens with
  | nil => intro tb rows row _ _; exact ⟨tb, rfl⟩
  | cons t rest ih =>
    intro tb rows row h hall
    obtain ⟨s1, s2, _⟩ := Append_step rt tb rows t row h
    have hrest : ∀ tb1 : typedBuilder, tb1.dtype = tb.dtype → tb1.nulls = tb.nulls →
        ∀ x ∈ rest, x ∈ tb1.nulls ∨ (parseCell rt tb1.dtype x).isSome = true := by
      intro tb1 hd hnl x hx
      rw [hd, hnl]
      exact hall x (List.mem_cons_of_mem _ hx)
    unfold typedBuilder.appendRows
    by_cases hn : t ∈ tb.nulls
    · obtain ⟨tb1, ha, hh, hd, hnl⟩ := s1 hn
      rw [ha]
      exact ih tb1 _ (row + 1) hh (hrest tb1 hd hnl)
    · rcases hall t (List.mem_cons_self _ _) with hc | hc
      · exact absurd hc hn
      · cases hp : parseCell rt tb.dtype t with
        | none => rw [hp] at hc; cases hc
        | some v =>
          obtain ⟨tb1, ha, hh, hd, hnl⟩ := s2 hn v hp
          rw [ha]
          exact ih tb1 _ (row + 1) hh (hrest tb1 hd hnl)

theorem inferType_eq (rt : FloatRuntime) (values nullSet : List GoString) :
    inferType rt values nullSet =
      (if AllParse parsesInt values nullSet then DTypeInt64
      else if AllParse (parsesFloat rt) values nullSet then DTypeFloat64
      else if AllParse parsesBool values nullSet then DTypeBool
      else DTypeUtf8) := by
  unfold inferType
  rw [inferType_loop_eq]
  simp only [true_and]

/-- Every value of the sample is a null token or parses under the inferred type. -/
theorem inferType_accepts (rt : FloatRuntime) (sample nullSet : List GoString) :
    inferType rt sample nullSet ≠ DTypeInvalid ∧
      ∀ v ∈ sample, v ∈ nullSet ∨
        (parseCell rt (inferType rt sample nullSet) v).isSome = true := by
  rw [inferType_eq]
  by_cases h1 : AllParse parsesInt sample nullSet
  · rw [if_pos h1]
    refine ⟨by decide, fun v hv => ?_⟩
    by_cases hn : v ∈ nullSet
    · exact Or.inl hn
    · have := h1 v hv hn
      unfold parsesInt at this
      exact Or.inr (by simp [parseCell, this])
  · rw [if_neg h1]
    by_cases h2 : AllParse (parsesFloat rt) sample nullSet
    · rw [if_pos h2]
      refine ⟨by decide, fun v hv => ?_⟩
      by_cases hn : v ∈ nullSet
      · exact Or.inl hn
      · have := h2 v hv hn
        unfold parsesFloat at this
        exact Or.inr (by simp [parseCell, this])
    · rw [if_neg h2]
      by_cases h3 : AllParse parsesBool sample nullSet
      · rw [if_pos h3]
        refine ⟨by decide, fun v hv => ?_⟩
        by_cases hn : v ∈ nullSet
        · exact Or.inl hn
        · have := h3 v hv hn
          unfold parsesBool at this
          exact Or.inr (by simp [parseCell, this])
      · rw [if_neg h3]
        exact ⟨by decide, fun v _ => Or.inr rfl⟩
/-! ## Lemmas: frames that differ in the order of their columns -/

theorem SameColumns_Column {a b : DataFrame} (h : SameColumns a b) (name : String) :
    a.Column name = b.Column name := by
  obtain ⟨ha, hb, hp⟩ := h
  rcases frame_Column_cases ha.1 name with ⟨h1, h2⟩ | ⟨c, hc1, hc2, hc3⟩
  · rw [h2, frame_Column_none hb.1 name (fun hn => h1 ((hp.map Column.Name).symm.subset hn))]
  · rw [hc3, ← hc2, frame_Column_of_mem hb.1 c (hp.subset hc1)]

theorem SameColumns_nrows {a b : DataFrame} (h : SameColumns a b) : a.nrows = b.nrows := by
  obtain ⟨ha, hb, hp⟩ := h
  obtain ⟨_, _, _, h4, h5⟩ := frame_of_New ha.1
  obtain ⟨_, _, _, g4, _⟩ := frame_of_New hb.1
  obtain ⟨c, hc⟩ := List.exists_mem_of_ne_nil _ h5
  rw [← h4 c hc, ← g4 c (hp.subset hc)]

theorem SameColumns_cells (rt : FloatRuntime) {a b : DataFrame} (h : SameColumns a b)
    (e : Expr) : e.cells rt a = e.cells rt b := by
  induction e with
  | compareExpr left op right =>
    unfold Expr.cells
    rw [SameColumns_Column h left]
  | evenExpr name =>
    unfold Expr.cells
    rw [SameColumns_Column h name]
  | logicalExpr left right op ihl ihr =>
    unfold Expr.cells
    rw [ihl, ihr]

theorem SameUpToOrder_refl (r : Except Err DataFrame) (h : ∀ out, r = .ok out → out.WF) :
    SameUpToOrder r r := by
  cases r with
  | error e => exact rfl
  | ok out => exact ⟨h out rfl, h out rfl, List.Perm.refl _⟩

theorem SameColumns_Filter (rt : FloatRuntime) {a b : DataFrame} (h : SameColumns a b)
    (e : Expr) : SameUpToOrder (a.Filter rt e) (b.Filter rt e) := by
  have hcells := SameColumns_cells rt h e
  cases hcs : e.cells rt a with
  | error err =>
    have e1 : a.Filter rt e = .error err := by
      unfold DataFrame.Filter
      rw [Eval_eq_cells, hcs]
      rfl
    have e2 : b.Filter rt e = .error err := by
      unfold DataFrame.Filter
      rw [Eval_eq_cells, ← hcells, hcs]
      rfl
    rw [e1, e2]
    exact rfl
  | ok cs =>
    have hlen := cells_length rt a h.1 e cs hcs
    rw [Filter_frame_spec rt a h.1 e cs hcs,
      Filter_frame_spec rt b h.2.1 e cs (by rw [← hcells]; exact hcs)]
    refine ⟨?_, ?_, h.2.2.map _⟩
    · exact map_frame_WF h.1 _ (fun c => filterRows_Name _ c) _
        (fun c hc => filterRows_Len _ c (by
          rw [List.length_map, hlen, ((WF_facts h.1).1 c hc).1]))
        (fun c => Column.mapRows_WF _ c)
    · exact map_frame_WF h.2.1 _ (fun c => filterRows_Name _ c) _
        (fun c hc => filterRows_Len _ c (by
          rw [List.length_map, hlen, ((WF_facts h.2.1).1 c hc).1, SameColumns_nrows h]))
        (fun c => Column.mapRows_WF _ c)

theorem SameColumns_SortBy {a b : DataFrame} (h : SameColumns a b) (column : String)
    (desc : Bool) : SameUpToOrder (a.SortBy column desc) (b.SortBy column desc) := by
  have hcol := SameColumns_Column h column
  rcases frame_Column_cases h.1.1 column with ⟨_, h0⟩ | ⟨key, _, _, hkey⟩
  · have e1 : a.SortBy column desc = .error (Err.unknownColumn column) := by
      unfold DataFrame.SortBy
      rw [h0]
      rfl
    have e2 : b.SortBy column desc = .error (Err.unknownColumn column) := by
      unfold DataFrame.SortBy
      rw [← hcol, h0]
      rfl
    rw [e1, e2]
    exact rfl
  · obtain ⟨o1, p1, p2, _, _, p5, _⟩ := SortBy_outcome a h.1 column desc key hkey
    obtain ⟨o2, q1, q2, _, _, q5, _⟩ := SortBy_outcome b h.2.1 column desc key
      (by rw [← hcol]; exact hkey)
    rw [p1, q1]
    refine ⟨p2, q2, ?_⟩
    rw [p5, q5, SameColumns_nrows h]
    exact h.2.2.map _

theorem SameColumns_Select {a b : DataFrame} (h : SameColumns a b) (names : List String) :
    a.Select names = b.Select names := by
  have e : DataFrame.Select.lookup a = DataFrame.Select.lookup b := by
    funext name
    unfold DataFrame.Select.lookup
    rw [SameColumns_Column h name]
  unfold DataFrame.Select
  rw [e]

/-- One operation on two frames that hold the same columns: the outcomes agree up to the
order of the columns, and a projection returns the same outcome for both. -/
theorem SameColumns_applyOp (rt : FloatRuntime) {a b : DataFrame} (h : SameColumns a b)
    (op : planOp) :
    SameUpToOrder (applyOp rt a op) (applyOp rt b op) ∧
      (op.typeID = opSelect → applyOp rt a op = applyOp rt b op) := by
  unfold applyOp
  by_cases hf : (op.typeID == opFilter) = true
  · rw [if_pos hf, if_pos hf]
    refine ⟨?_, fun hs => ?_⟩
    · cases op.filter with
      | none => exact rfl
      | some e => exact SameColumns_Filter rt h e
    · rw [hs] at hf
      exact absurd hf (by decide)
  · rw [if_neg hf, if_neg hf]
    by_cases hs : (op.typeID == opSelect) = true
    · rw [if_pos hs, if_pos hs, SameColumns_Select h op.cols]
      exact ⟨SameUpToOrder_refl _ (fun out ho => (Select_outcome b out h.2.1 op.cols ho).1),
        fun _ => rfl⟩
    · rw [if_neg hs, if_neg hs]
      refine ⟨?_, fun e => absurd (by rw [e]; rfl) hs⟩
      by_cases hso : (op.typeID == opSort) = true
      · rw [if_pos hso, if_pos hso]
        exact SameColumns_SortBy h op.sortBy op.desc
      · rw [if_neg hso, if_neg hso]
        exact h

/-- A list of operations on two frames that hold the same columns: the outcomes agree up
to the order of the columns, and they are the same outcome when the list holds a
projection. -/
theorem SameColumns_applyOps (rt : FloatRuntime) (ops : List planOp) :
    ∀ a b : DataFrame, SameColumns a b →
      SameUpToOrder (applyOps rt ops a) (applyOps rt ops b) ∧
        ((∃ op ∈ ops, op.typeID = opSelect) → applyOps rt ops a = applyOps rt ops b) := by
  induction ops with
  | nil =>
    intro a b h
    exact ⟨h, fun ⟨op, hop, _⟩ => by cases hop⟩
  | cons op rest ih =>
    intro a b h
    obtain ⟨h1, h2⟩ := SameColumns_applyOp rt h op
    have ea : applyOps rt (op :: rest) a = (applyOp rt a op >>= fun d => applyOps rt rest d) := rfl
    have eb : applyOps rt (op :: rest) b = (applyOp rt b op >>= fun d => applyOps rt rest d) := rfl
    rw [ea, eb]
    cases ha : applyOp rt a op with
    | error e1 =>
      cases hb : applyOp rt b op with
      | error e2 =>
        rw [ha, hb] at h1
        have e : e1 = e2 := h1
        subst e
        exact ⟨rfl, fun _ => rfl⟩
      | ok b2 => rw [ha, hb] at h1; exact absurd h1 id
    | ok a2 =>
      cases hb : applyOp rt b op with
      | error e2 => rw [ha, hb] at h1; exact absurd h1 id
      | ok b2 =>
        rw [ha, hb] at h1
        have hs : SameColumns a2 b2 := h1
        obtain ⟨i1, i2⟩ := ih a2 b2 hs
        refine ⟨i1, ?_⟩
        rintro ⟨o, ho, hsel⟩
        rcases List.mem_cons.mp ho with ho | ho
        · subst ho
          have := h2 hsel
          rw [ha, hb] at this
          injection this with this
          subst this
          rfl
        · exact i2 ⟨o, ho, hsel⟩
theorem Build_WF (tb : typedBuilder) (rows : List (Option Cell)) (h : tb.HoldsRows rows)
    (name : String) : (tb.Build name).WF := by
  obtain ⟨⟨_, h1, _⟩, h2, _⟩ := h
  rw [List.length_map] at h1
  cases tb with
  | int64 b =>
    have e : b.data.length = rows.length := by rw [← h2]; exact (List.length_map _ _).symm
    show b.data.length ≤ 64 * b.valid.bits.length
    rw [e]
    have : b.valid.bits.length = (rows.length + 63) / 64 := h1
    omega
  | float64 b =>
    have e : b.data.length = rows.length := by rw [← h2]; exact (List.length_map _ _).symm
    show b.data.length ≤ 64 * b.valid.bits.length
    rw [e]
    have : b.valid.bits.length = (rows.length + 63) / 64 := h1
    omega
  | bool b =>
    have e : b.data.length = rows.length := by rw [← h2]; exact (List.length_map _ _).symm
    show b.data.length ≤ 64 * b.valid.bits.length
    rw [e]
    have : b.valid.bits.length = (rows.length + 63) / 64 := h1
    omega
  | utf8 b =>
    have e : b.data.length = rows.length := by rw [← h2]; exact (List.length_map _ _).symm
    show b.data.length ≤ 64 * b.valid.bits.length
    rw [e]
    have : b.valid.bits.length = (rows.length + 63) / 64 := h1
    omega

/-- Every column that `recordsToFrame` builds has a validity bit for each row. -/
theorem recordsToFrame_column_WF (rt : FloatRuntime) (rows : List jsonRow) (key : String)
    (c : Column) (h : recordsToFrame.column rt rows key = .ok c) : c.WF := by
  unfold recordsToFrame.column at h
  simp only [] at h
  generalize recordsToFrame.raw rows key = raw at h
  cases ha : typedBuilder.appendRows rt (newBuilder (inferType rt raw [[]]) [[]]) raw 1 with
  | error e => rw [ha] at h; cases h
  | ok res =>
    obtain ⟨tb, err⟩ := res
    rw [ha] at h
    cases err with
    | some e => cases h
    | none =>
      have h' : (Except.ok (tb.Build key) : Except Err Column) = .ok c := h
      injection h' with h'
      subst h'
      obtain ⟨g, _⟩ := appendRows_ok rt raw _ tb [] 1 (newBuilder_holds _ _).1 ha
      exact Build_WF tb _ g key

/-- A frame read from a JSON source satisfies the frame invariants. -/
theorem readJSON_WF (rt : FloatRuntime) (rd : Readers) (path : String) (b : DataFrame)
    (h : readJSON rt rd path = .ok b) : b.WF := by
  unfold readJSON at h
  cases hr : rd.readRows path with
  | error e => rw [hr] at h; cases h
  | ok rows =>
    rw [hr] at h
    have g : recordsToFrame rt rd.rangeKeys rows = .ok b := h
    unfold recordsToFrame at g
    by_cases h0 : (rows.length == 0) = true
    · rw [if_pos h0] at g; cases g
    · rw [if_neg h0] at g
      simp only [] at g
      cases hm : (rd.rangeKeys (recordsToFrame.keySet rows)).mapM
          (recordsToFrame.column rt rows) with
      | error e => rw [hm] at g; cases g
      | ok cols =>
        rw [hm] at g
        have hnew : NewDataFrame cols = .ok b := g
        obtain ⟨hc, _⟩ := frame_of_New hnew
        refine ⟨by rw [hc]; exact hnew, ?_⟩
        intro c hcm
        rw [hc] at hcm
        obtain ⟨k, _, hk⟩ := mapM_ok_mem_out _ _ _ hm c hcm
        exact recordsToFrame_column_WF rt rows k c hk

/-- Two reads of one JSON source that decode the same records materialize frames holding
the same columns, whatever the order in which the keys are visited. -/
theorem readJSON_SameColumns (rt : FloatRuntime) (rd1 rd2 : Readers) (path : String)
    (b1 : DataFrame) (hrows : rd1.readRows path = rd2.readRows path)
    (h1 : readJSON rt rd1 path = .ok b1) :
    ∃ b2, readJSON rt rd2 path = .ok b2 ∧ SameColumns b1 b2 := by
  have hwf := readJSON_WF rt rd1 path b1 h1
  unfold readJSON at h1 ⊢
  rw [← hrows]
  cases hr : rd1.readRows path with
  | error e => rw [hr] at h1; cases h1
  | ok rows =>
    rw [hr] at h1
    have g1 : recordsToFrame rt rd1.rangeKeys rows = .ok b1 := h1
    show ∃ b2, recordsToFrame rt rd2.rangeKeys rows = .ok b2 ∧ SameColumns b1 b2
    unfold recordsToFrame at g1 ⊢
    by_cases h0 : (rows.length == 0) = true
    · rw [if_pos h0] at g1; cases g1
    · rw [if_neg h0] at g1
      rw [if_neg h0]
      simp only [] at g1 ⊢
      cases hm : (rd1.rangeKeys (recordsToFrame.keySet rows)).mapM
          (recordsToFrame.column rt rows) with
      | error e => rw [hm] at g1; cases g1
      | ok cols1 =>
        rw [hm] at g1
        have hnew : NewDataFrame cols1 = .ok b1 := g1
        obtain ⟨hc1, _, hnd, hlen, hne⟩ := frame_of_New hnew
        have hperm : (rd2.rangeKeys (recordsToFrame.keySet rows)).Perm
            (rd1.rangeKeys (recordsToFrame.keySet rows)) :=
          (rd2.rangeKeys_perm _).trans (rd1.rangeKeys_perm _).symm
        have hg : ∀ k ∈ rd1.rangeKeys (recordsToFrame.keySet rows),
            recordsToFrame.column rt rows k =
              .ok (match recordsToFrame.column rt rows k with
                | .ok c => c
                | .error _ => Column.int64 ⟨"", [], ⟨[]⟩⟩) := by
          intro k hk
          obtain ⟨c, hc, _⟩ := mapM_ok_of_mem _ _ _ hm k hk
          rw [hc]
        have e1 := mapM_ok _ _ _ hg
        rw [hm] at e1
        injection e1 with e1
        have e2 := mapM_ok _ _ (rd2.rangeKeys (recordsToFrame.keySet rows))
          (fun k hk => hg k (hperm.subset hk))
        rw [e2]
        have hcols : (List.map (fun k => match recordsToFrame.column rt rows k with
            | .ok c => c
            | .error _ => Column.int64 ⟨"", [], ⟨[]⟩⟩)
            (rd2.rangeKeys (recordsToFrame.keySet rows))).Perm cols1 := by
          rw [e1]
          exact hperm.map _
        generalize List.map (fun k => match recordsToFrame.column rt rows k with
            | .ok c => c
            | .error _ => Column.int64 ⟨"", [], ⟨[]⟩⟩)
            (rd2.rangeKeys (recordsToFrame.keySet rows)) = cols2 at hcols ⊢
        cases cols2 with
        | nil => exact absurd hcols.symm.eq_nil hne
        | cons c0 rest =>
          have hnew2 : NewDataFrame (c0 :: rest) =
              .ok ⟨c0 :: rest, indexOf (c0 :: rest), c0.Len⟩ :=
            (NewDataFrame_ok_iff _ _).mpr ⟨c0, rest, rfl,
              fun c hc => by
                rw [hlen c (hcols.subset hc), hlen c0 (hcols.subset (List.mem_cons_self _ _))],
              (hcols.map Column.Name).nodup_iff.mpr hnd, rfl⟩
          refine ⟨_, hnew2, hwf, ⟨hnew2, ?_⟩, ?_⟩
          · intro c hc
            exact hwf.2 c (by rw [hc1]; exact hcols.subset hc)
          · rw [hc1]
            exact hcols.symm
/-! ## Claims -/

/-- C1: for every column whose validity bitmap covers its rows and every mask of the
column's length, `Filter(mask)` returns a column of the same name whose length is the
number of true entries of the mask and whose `k`-th row reads back as the source row at
the `k`-th true position of the mask (same nullity, same stored value). -/
theorem C1_Filter_keeps_masked_rows (c : Column) (mask : List Bool) (hwf : c.WF)
    (hlen : mask.length = c.Len) :
    ∃ out, c.Filter mask = .ok out ∧ out.Name = c.Name ∧ out.Len = mask.count true ∧
      out.RowsFrom c (truePositions mask) := by
  have hrows : (c.filterRows mask).RowsFrom c (truePositions mask) := by
    rw [Column.filterRows_eq_takeRows c mask hlen]
    exact Column.takeRows_RowsFrom c _ hwf (fun p hp => hlen ▸ truePositions_lt mask p hp)
  exact ⟨c.filterRows mask, Column.Filter_spec c mask hwf hlen, hrows.1,
    hrows.2.1.trans (truePositions_length mask), hrows⟩

/-- Witness of C1 on `age = [10, null, 7, 42]` with mask `[true, true, false, true]`. -/
theorem C1_Filter_keeps_masked_rows_witness :
    sampleAge.WF ∧ [true, true, false, true].length = sampleAge.Len ∧
      ∃ out, sampleAge.Filter [true, true, false, true] = .ok out ∧ out.Name = sampleAge.Name ∧
        out.Len = [true, true, false, true].count true ∧
        out.RowsFrom sampleAge (truePositions [true, true, false, true]) :=
  ⟨by decide, by decide,
    C1_Filter_keeps_masked_rows sampleAge [true, true, false, true] (by decide) (by decide)⟩

/-- C3: for every column whose validity bitmap covers its rows and every index sequence
`order` with all entries in range, `Take(order)` returns a column of length `len(order)`
whose row `i` reads back as source row `order[i]` (same nullity, same stored value). -/
theorem C3_Take_gathers_rows (c : Column) (order : List Int) (hwf : c.WF)
    (hr : ∀ r ∈ order, 0 ≤ r ∧ r < (c.Len : Int)) :
    ∃ out, c.Take order = .ok out ∧ out.Len = order.length ∧
      out.RowsFrom c (order.map Int.toNat) := by
  have hback : (order.map Int.toNat).map Int.ofNat = order := by
    rw [List.map_map]
    conv_rhs => rw [← List.map_id order]
    apply List.map_congr_left
    intro r hrm
    simpa using Int.toNat_of_nonneg (hr r hrm).1
  have hin : ∀ p ∈ order.map Int.toNat, p < c.Len := by
    intro p hp
    obtain ⟨r, hrm, rfl⟩ := List.mem_map.mp hp
    have := hr r hrm
    omega
  have hrows := Column.takeRows_RowsFrom c _ hwf hin
  refine ⟨c.takeRows (order.map Int.toNat), ?_, ?_, hrows⟩
  · have := Column.Take_spec c (order.map Int.toNat) hwf hin
    rwa [hback] at this
  · simpa using hrows.2.1

/-- Witness of C3 on `age = [10, null, 7, 42]` with order `[3, 1, 1, 0]`. -/
theorem C3_Take_gathers_rows_witness :
    sampleAge.WF ∧ (∀ r ∈ [3, 1, 1, 0], 0 ≤ r ∧ r < (sampleAge.Len : Int)) ∧
      ∃ out, sampleAge.Take [3, 1, 1, 0] = .ok out ∧ out.Len = [3, 1, 1, (0 : Int)].length ∧
        out.RowsFrom sampleAge ([3, 1, 1, 0].map Int.toNat) :=
  ⟨by decide, by decide, C3_Take_gathers_rows sampleAge [3, 1, 1, 0] (by decide) (by decide)⟩

/-- C9: `NewDataFrame(cols)` fails if and only if `cols` is empty, or some column's
length differs from the first column's length, or two columns share a name; when it
succeeds the frame's Height is the common column length, its Width is the number of
columns, and `Column(name)` returns the column of that name (and nothing for a name that
no column has). -/
theorem C9_NewDataFrame_validation (cols : List Column) :
    ((∃ e, NewDataFrame cols = .error e) ↔
      cols = [] ∨ LengthDiffers cols ∨ SharesName cols) ∧
    ∀ df, NewDataFrame cols = .ok df →
      (∀ c ∈ cols, c.Len = df.Height) ∧ df.Width = cols.length ∧
      (∀ c ∈ cols, df.Column c.Name = .ok (some c)) ∧
      (∀ name, name ∉ cols.map Column.Name → df.Column name = .ok none) := by
  refine ⟨?_, fun df h => ?_⟩
  · rw [sharesName_iff]
    exact NewDataFrame_error_iff cols
  · obtain ⟨h1, _, _, h4, _⟩ := frame_of_New h
    exact ⟨h4, by rw [DataFrame.Width, h1], fun c hc => frame_Column_of_mem h c hc,
      fun name hn => frame_Column_none h name hn⟩

/-- Witness of C9: the two sample columns construct `sampleFrame`; an empty list, a
column of another length and a repeated name are rejected. -/
theorem C9_NewDataFrame_validation_witness :
    NewDataFrame [sampleAge, sampleName] = .ok sampleFrame ∧
    ((∀ c ∈ [sampleAge, sampleName], c.Len = sampleFrame.Height) ∧
      sampleFrame.Width = [sampleAge, sampleName].length ∧
      (∀ c ∈ [sampleAge, sampleName], sampleFrame.Column c.Name = .ok (some c)) ∧
      (∀ name, name ∉ [sampleAge, sampleName].map Column.Name →
        sampleFrame.Column name = .ok none)) ∧
    NewDataFrame [] = .error Err.noColumns ∧
    NewDataFrame [sampleAge, .int64 ⟨"n", [1], ⟨[1]⟩⟩] = .error (Err.mismatchedLength "n") ∧
    NewDataFrame [sampleAge, sampleAge] = .error (Err.duplicateColumn "age") :=
  ⟨by decide, (C9_NewDataFrame_validation [sampleAge, sampleName]).2 sampleFrame (by decide),
    by decide, by decide, by decide⟩

/-- C10: for every successfully constructed frame `F`, selecting all of its column names
in their original order succeeds and returns `F` itself: the same columns in the same
order, the same name index and the same row count. -/
theorem C10_Select_all_roundtrip (cols : List Column) (df : DataFrame)
    (h : NewDataFrame cols = .ok df) :
    df.Select (df.Columns.map Column.Name) = .ok df := by
  have hc : df.Columns = cols := (frame_of_New h).1
  rw [hc, Select_spec h cols (fun _ hc => hc), h]

/-- Witness of C10 on `sampleFrame`. -/
theorem C10_Select_all_roundtrip_witness :
    NewDataFrame [sampleAge, sampleName] = .ok sampleFrame ∧
      sampleFrame.Select (sampleFrame.Columns.map Column.Name) = .ok sampleFrame :=
  ⟨by decide, C10_Select_all_roundtrip [sampleAge, sampleName] sampleFrame (by decide)⟩

/-- C8: `optimize` returns a plan with the same source whose operation list is the
subsequence of filter operations of `ops`, in their original relative order, followed
by the subsequence of the remaining operations, in their original relative order. -/
theorem C8_optimize_partitions (lf : LazyFrame) :
    lf.optimize.source = lf.source ∧
      lf.optimize.ops = lf.ops.filter (fun op => op.typeID == opFilter) ++
        lf.ops.filter (fun op => !(op.typeID == opFilter)) :=
  ⟨rfl, optimize_ops lf⟩

/-- C4: for every frame satisfying the frame invariants, every existing key column
(of any of the four types, Float64 keys holding NaN included) and both values of `desc`,
`SortBy` succeeds; its row order `order` is a rearrangement of the row numbers, the
result has the height of the source and every result column holds the source rows in
that order; and in the result every row whose key is null stands after every row whose
key is non-null. -/
theorem C4_SortBy_nulls_last (df : DataFrame) (column : String) (desc : Bool) (key : Column)
    (hwf : df.WF) (hkey : df.Column column = .ok (some key)) :
    ∃ out order outKey, df.SortBy column desc = .ok out ∧
      sortOrder key desc (List.range df.Height) = .ok order ∧
      order.Perm (List.range df.Height) ∧ out.Height = df.Height ∧
      List.Forall₂ (fun o s => o.RowsFrom s order) out.columns df.columns ∧
      out.Column column = .ok (some outKey) ∧
      ∀ i j, i < out.Height → j < out.Height →
        outKey.IsNull i = .ok true → outKey.IsNull j = .ok false → j < i := by
  obtain ⟨out, h1, _, h3, _, _, h6, h7, h8, h9⟩ := SortBy_outcome df hwf column desc key hkey
  obtain ⟨hk1, _⟩ := frame_Column_some hwf.1 column key hkey
  obtain ⟨hk2, hk3⟩ := (WF_facts hwf).1 key hk1
  refine ⟨out, _, _, h1, h6, h7, h3, h8, h9, ?_⟩
  intro i j hi hj hn1 hn2
  rw [DataFrame.Height, h3, ← hk2] at hi hj
  rw [← hk2] at hn1 hn2
  cases key with
  | int64 t =>
    obtain ⟨f1, f2⟩ := sortedOrder_facts t hk3 (beforeInt64 desc) (.int64 t) desc rfl
    exact t.sorted_nulls_last hk3 _ f1 f2 i j hi hj hn1 hn2
  | float64 t =>
    obtain ⟨f1, f2⟩ := sortedOrder_facts t hk3 (beforeFloat64 desc) (.float64 t) desc rfl
    exact t.sorted_nulls_last hk3 _ f1 f2 i j hi hj hn1 hn2
  | bool t =>
    obtain ⟨f1, f2⟩ := sortedOrder_facts t hk3 (beforeBool desc) (.bool t) desc rfl
    exact t.sorted_nulls_last hk3 _ f1 f2 i j hi hj hn1 hn2
  | utf8 t =>
    obtain ⟨f1, f2⟩ := sortedOrder_facts t hk3 (beforeUtf8 desc) (.utf8 t) desc rfl
    exact t.sorted_nulls_last hk3 _ f1 f2 i j hi hj hn1 hn2

/-- Witness of C4: `sampleFrame` sorted by `age`, descending; the row order is
`3, 0, 2, 1`, so the null age of row 1 is last. -/
theorem C4_SortBy_nulls_last_witness :
    sampleFrame.WF ∧ sampleFrame.Column "age" = .ok (some sampleAge) ∧
      sortOrder sampleAge true (List.range sampleFrame.Height) = .ok [3, 0, 2, 1] ∧
      ∃ out order outKey, sampleFrame.SortBy "age" true = .ok out ∧
        sortOrder sampleAge true (List.range sampleFrame.Height) = .ok order ∧
        order.Perm (List.range sampleFrame.Height) ∧ out.Height = sampleFrame.Height ∧
        List.Forall₂ (fun o s => o.RowsFrom s order) out.columns sampleFrame.columns ∧
        out.Column "age" = .ok (some outKey) ∧
        ∀ i j, i < out.Height → j < out.Height →
          outKey.IsNull i = .ok true → outKey.IsNull j = .ok false → j < i :=
  ⟨by decide, by decide, by decide,
    C4_SortBy_nulls_last sampleFrame "age" true sampleAge (by decide) (by decide)⟩

/-- C5, as stated, fails for a Float64 key column that holds a NaN in a frame of more
than 20 rows.  In `sampleNaNFrame` the rows 18 and 20 hold the equal keys `1.0`, and
`SortBy` (ascending) computes the row order `20, 0, 1, ..., 19`: row 20 comes to stand
before row 18. -/
theorem C5_SortBy_stable_counterexample :
    sampleNaNFrame.WF ∧ sampleNaNFrame.Column "k" = .ok (some sampleNaNKey) ∧
      sampleNaNKey.IsNull 18 = .ok false ∧ sampleNaNKey.IsNull 20 = .ok false ∧
      sampleNaNKey.Value 18 = .ok (.float64 ⟨0x3ff0000000000000⟩) ∧
      sampleNaNKey.Value 20 = .ok (.float64 ⟨0x3ff0000000000000⟩) ∧
      sortOrder sampleNaNKey false (List.range sampleNaNFrame.Height) =
        .ok [20, 0, 1, 2, 3, 4, 5, 6, 7, 8, 9, 10, 11, 12, 13, 14, 15, 16, 17, 18, 19] ∧
      sampleNaNFrame.SortBy "k" false =
        .ok ⟨[.float64 ⟨"k", [⟨0x3ff0000000000000⟩] ++ List.replicate 17 ⟨0x4000000000000000⟩ ++
          [⟨0x7ff8000000000000⟩, ⟨0x3ff0000000000000⟩, ⟨0x4014000000000000⟩], ⟨[2097151]⟩⟩],
          [("k", 0)], 21⟩ := by
  decide

/-- C5 (amended): `SortBy` is stable in both directions whenever the key column holds no
NaN in a valid row or the frame has at most 20 rows.  The row order it computes is a
rearrangement `order` of the row numbers (every result column holds the source rows in
that order), and any two source rows `a < b` whose keys are both null, or both non-null
and equal (Go `==`, so `-0` equals `+0`), stand in `order` with `a` before `b`. -/
theorem C5_SortBy_stable_unless_NaN (df : DataFrame) (column : String) (desc : Bool)
    (key : Column) (hwf : df.WF) (hkey : df.Column column = .ok (some key))
    (hnan : key.NaNFree ∨ df.Height ≤ 20) :
    ∃ out order, df.SortBy column desc = .ok out ∧
      sortOrder key desc (List.range df.Height) = .ok order ∧
      order.Perm (List.range df.Height) ∧
      List.Forall₂ (fun o s => o.RowsFrom s order) out.columns df.columns ∧
      ∀ a b, a < b → b < df.Height →
        ((key.IsNull a = .ok true ∧ key.IsNull b = .ok true) ∨
          (key.IsNull a = .ok false ∧ key.IsNull b = .ok false ∧
            ∃ va vb, key.Value a = .ok va ∧ key.Value b = .ok vb ∧
              Cell.sameKey va vb = true)) →
        ∃ i j : Nat, i < j ∧ order[i]? = some a ∧ order[j]? = some b := by
  obtain ⟨out, h1, _, _, _, _, h6, h7, h8, _⟩ := SortBy_outcome df hwf column desc key hkey
  obtain ⟨hk1, _⟩ := frame_Column_some hwf.1 column key hkey
  obtain ⟨hk2, hk3⟩ := (WF_facts hwf).1 key hk1
  refine ⟨out, _, h1, h6, h7, h8, ?_⟩
  intro a b hab hb h
  apply sublist_pair_positions
  have hh : df.Height = key.Len := hk2.symm
  rw [hh] at hb hnan
  rw [← hk2, sortedOrder_stable key hk3 desc hnan]
  cases key with
  | int64 t =>
    refine t.sorted_stable hk3 (beforeInt64 desc) a b hab hb ?_
    rcases h with h | ⟨h1, h2, va, vb, h3, h4, h5⟩
    · exact Or.inl h
    · obtain ⟨x, hx, rfl⟩ := map_ok_eq Cell.int64 _ va h3
      obtain ⟨y, hy, rfl⟩ := map_ok_eq Cell.int64 _ vb h4
      have e : x = y := by simpa [Cell.sameKey] using h5
      exact Or.inr ⟨h1, h2, x, y, hx, hy, e ▸ (strictLinear_int64 desc).irrefl x⟩
  | float64 t =>
    refine t.sorted_stable hk3 (beforeFloat64 desc) a b hab hb ?_
    rcases h with h | ⟨h1, h2, va, vb, h3, h4, h5⟩
    · exact Or.inl h
    · obtain ⟨x, hx, rfl⟩ := map_ok_eq Cell.float64 _ va h3
      obtain ⟨y, hy, rfl⟩ := map_ok_eq Cell.float64 _ vb h4
      refine Or.inr ⟨h1, h2, x, y, hx, hy, ?_⟩
      simp only [Cell.sameKey, Float64.eq, Bool.and_eq_true, decide_eq_true_eq] at h5
      cases desc <;> simp [beforeFloat64, Float64.lt, h5.2]
  | bool t =>
    refine t.sorted_stable hk3 (beforeBool desc) a b hab hb ?_
    rcases h with h | ⟨h1, h2, va, vb, h3, h4, h5⟩
    · exact Or.inl h
    · obtain ⟨x, hx, rfl⟩ := map_ok_eq Cell.bool _ va h3
      obtain ⟨y, hy, rfl⟩ := map_ok_eq Cell.bool _ vb h4
      have e : x = y := by simpa [Cell.sameKey] using h5
      exact Or.inr ⟨h1, h2, x, y, hx, hy, e ▸ (strictLinear_bool desc).irrefl x⟩
  | utf8 t =>
    refine t.sorted_stable hk3 (beforeUtf8 desc) a b hab hb ?_
    rcases h with h | ⟨h1, h2, va, vb, h3, h4, h5⟩
    · exact Or.inl h
    · obtain ⟨x, hx, rfl⟩ := map_ok_eq Cell.utf8 _ va h3
      obtain ⟨y, hy, rfl⟩ := map_ok_eq Cell.utf8 _ vb h4
      have e : x = y := by simpa [Cell.sameKey] using h5
      exact Or.inr ⟨h1, h2, x, y, hx, hy, e ▸ (strictLinear_utf8 desc).irrefl x⟩

/-- Witness of amended C5: `name = ["b", null, "a", null]` sorted ascending; the computed
order of the source rows is `2, 0, 1, 3`. -/
theorem C5_SortBy_stable_unless_NaN_witness :
    sampleFrame.WF ∧ sampleFrame.Column "name" = .ok (some sampleName) ∧
      (sampleName.NaNFree ∨ sampleFrame.Height ≤ 20) ∧
      sortOrder sampleName false (List.range sampleFrame.Height) = .ok [2, 0, 1, 3] ∧
      ∃ out order, sampleFrame.SortBy "name" false = .ok out ∧
        sortOrder sampleName false (List.range sampleFrame.Height) = .ok order ∧
        order.Perm (List.range sampleFrame.Height) ∧
        List.Forall₂ (fun o s => o.RowsFrom s order) out.columns sampleFrame.columns ∧
        ∀ a b, a < b → b < sampleFrame.Height →
          ((sampleName.IsNull a = .ok true ∧ sampleName.IsNull b = .ok true) ∨
            (sampleName.IsNull a = .ok false ∧ sampleName.IsNull b = .ok false ∧
              ∃ va vb, sampleName.Value a = .ok va ∧ sampleName.Value b = .ok vb ∧
                Cell.sameKey va vb = true)) →
          ∃ i j : Nat, i < j ∧ order[i]? = some a ∧ order[j]? = some b :=
  ⟨by decide, by decide, by decide, by decide,
    C5_SortBy_stable_unless_NaN sampleFrame "name" false sampleName (by decide) (by decide)
      (by decide)⟩

/-- C6: for an Int64, Bool or Utf8 key column, `SortBy` returns a frame whose rows are a
permutation of the source rows, the same one in every column, such that the non-null
keys are non-decreasing when `desc` is false and non-increasing when `desc` is true, in
the order `Cell.le` (numeric, `false` before `true`, byte-wise lexicographic). -/
theorem C6_SortBy_orders_keys (df : DataFrame) (column : String) (desc : Bool) (key : Column)
    (hwf : df.WF) (hkey : df.Column column = .ok (some key))
    (hty : key.DType ≠ DTypeFloat64) :
    ∃ out order outKey, df.SortBy column desc = .ok out ∧
      order.Perm (List.range df.Height) ∧ out.Height = df.Height ∧
      List.Forall₂ (fun o s => o.RowsFrom s order) out.columns df.columns ∧
      out.Column column = .ok (some outKey) ∧
      ∀ i j vi vj, i < j → j < out.Height →
        outKey.IsNull i = .ok false → outKey.IsNull j = .ok false →
        outKey.Value i = .ok vi → outKey.Value j = .ok vj →
        (desc = false → Cell.le vi vj) ∧ (desc = true → Cell.le vj vi) := by
  obtain ⟨out, h1, _, h3, _, _, _, h7, h8, h9⟩ := SortBy_outcome df hwf column desc key hkey
  obtain ⟨hk1, _⟩ := frame_Column_some hwf.1 column key hkey
  obtain ⟨hk2, hk3⟩ := (WF_facts hwf).1 key hk1
  refine ⟨out, _, _, h1, h7, h3, h8, h9, ?_⟩
  intro i j vi vj hij hj hn1 hn2 hv1 hv2
  rw [DataFrame.Height, h3, ← hk2] at hj
  have hso := sortedOrder_stable key hk3 desc (Or.inl (NaNFree_of_DType key hty))
  rw [← hk2, hso] at hn1 hn2 hv1 hv2
  cases key with
  | int64 t =>
    obtain ⟨x, hx1, rfl⟩ := map_ok_eq Cell.int64 _ vi hv1
    obtain ⟨y, hy1, rfl⟩ := map_ok_eq Cell.int64 _ vj hv2
    exact int64_le_of_not_before desc x y
      (t.sorted_ordered hk3 _ (strictLinear_int64 desc) i j hij hj x y hn1 hn2 hx1 hy1)
  | float64 t => exact absurd rfl hty
  | bool t =>
    obtain ⟨x, hx1, rfl⟩ := map_ok_eq Cell.bool _ vi hv1
    obtain ⟨y, hy1, rfl⟩ := map_ok_eq Cell.bool _ vj hv2
    exact bool_le_of_not_before desc x y
      (t.sorted_ordered hk3 _ (strictLinear_bool desc) i j hij hj x y hn1 hn2 hx1 hy1)
  | utf8 t =>
    obtain ⟨x, hx1, rfl⟩ := map_ok_eq Cell.utf8 _ vi hv1
    obtain ⟨y, hy1, rfl⟩ := map_ok_eq Cell.utf8 _ vj hv2
    exact utf8_le_of_not_before desc x y
      (t.sorted_ordered hk3 _ (strictLinear_utf8 desc) i j hij hj x y hn1 hn2 hx1 hy1)

/-- Witness of C6: `sampleFrame` sorted by `name`, descending. -/
theorem C6_SortBy_orders_keys_witness :
    sampleFrame.WF ∧ sampleFrame.Column "name" = .ok (some sampleName) ∧
      sampleName.DType ≠ DTypeFloat64 ∧
      ∃ out order outKey, sampleFrame.SortBy "name" true = .ok out ∧
        order.Perm (List.range sampleFrame.Height) ∧ out.Height = sampleFrame.Height ∧
        List.Forall₂ (fun o s => o.RowsFrom s order) out.columns sampleFrame.columns ∧
        out.Column "name" = .ok (some outKey) ∧
        ∀ i j vi vj, i < j → j < out.Height →
          outKey.IsNull i = .ok false → outKey.IsNull j = .ok false →
          outKey.Value i = .ok vi → outKey.Value j = .ok vj →
          (true = false → Cell.le vi vj) ∧ (true = true → Cell.le vj vi) :=
  ⟨by decide, by decide, by decide,
    C6_SortBy_orders_keys sampleFrame "name" true sampleName (by decide) (by decide) (by decide)⟩

/-- C2: for every frame satisfying the frame invariants and every expression built from
comparisons, `Even`, `And` and `Or` whose evaluation succeeds with mask `mask`,
`DataFrame.Filter` succeeds and every column of the result holds, in source order,
exactly the source rows whose mask row is non-null and true. -/
theorem C2_Filter_keeps_true_rows (rt : FloatRuntime) (df : DataFrame) (e : Expr)
    (mask : BoolColumn) (hwf : df.WF) (he : e.Eval rt df = .ok mask) :
    ∃ out, df.Filter rt e = .ok out ∧ out.Height = (keptRows mask df.Height).length ∧
      List.Forall₂ (fun o s => o.RowsFrom s (keptRows mask df.Height)) out.columns df.columns := by
  obtain ⟨cs, hcs, _, hdata, hrows, hmwf⟩ := Eval_ok_cells rt df e mask he
  have hlen := cells_length rt df hwf e cs hcs
  have hkept : keptRows mask df.Height = truePositions (cs.map Prod.fst) := by
    rw [DataFrame.Height, ← hlen]
    exact keptRows_eq mask cs hrows hmwf (cells_sound rt df e cs hcs)
  refine ⟨_, Filter_frame_spec rt df hwf e cs hcs, ?_, ?_⟩
  · rw [hkept, truePositions_length]
    rfl
  · rw [hkept]
    apply forall₂_map_self
    intro c hc
    obtain ⟨hc1, hc2⟩ := (WF_facts hwf).1 c hc
    have hml : (cs.map Prod.fst).length = c.Len := by rw [List.length_map, hlen, hc1]
    rw [Column.filterRows_eq_takeRows c _ hml]
    exact Column.takeRows_RowsFrom c _ hc2 (fun p hp => hml ▸ truePositions_lt _ p hp)

/-- Witness of C2: `age = [10, null, 7, 42]` filtered by `Col("age").Gt(9)`: the mask is
`[true, null, false, true]` and the rows `10` and `42` remain. -/
theorem C2_Filter_keeps_true_rows_witness :
    sampleFrame.WF ∧
      ((Col "age").Gt (.int 9)).Eval sampleRuntime sampleFrame =
        .ok ⟨"_mask", [true, false, false, true], ⟨[13]⟩⟩ ∧
      keptRows ⟨"_mask", [true, false, false, true], ⟨[13]⟩⟩ sampleFrame.Height = [0, 3] ∧
      sampleFrame.Filter sampleRuntime ((Col "age").Gt (.int 9)) =
        .ok ⟨[.int64 ⟨"age", [10, 42], ⟨[3]⟩⟩, .utf8 ⟨"name", [[98], []], ⟨[1]⟩⟩],
          [("name", 1), ("age", 0)], 2⟩ ∧
      ∃ out, sampleFrame.Filter sampleRuntime ((Col "age").Gt (.int 9)) = .ok out ∧
        out.Height = (keptRows ⟨"_mask", [true, false, false, true], ⟨[13]⟩⟩
          sampleFrame.Height).length ∧
        List.Forall₂ (fun o s => o.RowsFrom s
          (keptRows ⟨"_mask", [true, false, false, true], ⟨[13]⟩⟩ sampleFrame.Height))
          out.columns sampleFrame.columns :=
  ⟨by decide, by decide, by decide, by decide,
    C2_Filter_keeps_true_rows sampleRuntime sampleFrame ((Col "age").Gt (.int 9))
      ⟨"_mask", [true, false, false, true], ⟨[13]⟩⟩ (by decide) (by decide)⟩

/-- C7, as stated, fails.  (1) `select("name")` followed by a filter on `age`: in declared
order the filter fails with an unknown-column error, while `Collect` hoists the filter and
succeeds.  (2) `sort("x")` followed by `filter(x > 0)` on `x = [3.0, NaN, 1.0]`: in
declared order the result is `[3.0, 1.0]`, while `Collect` returns `[1.0, 3.0]`. -/
theorem C7_optimizer_equivalence_counterexample :
    (readSource sampleRuntime sampleReaders planSelectThenFilter.source = .ok sampleFrame ∧
      applyOps sampleRuntime planSelectThenFilter.ops sampleFrame =
        .error (Err.unknownColumn "age") ∧
      planSelectThenFilter.Collect sampleRuntime sampleReaders =
        .ok ⟨[.utf8 ⟨"name", [[98], []], ⟨[1]⟩⟩], [("name", 0)], 2⟩) ∧
    (readSource sampleRuntime sampleFloatReaders planSortThenFilter.source = .ok sampleFloats ∧
      applyOps sampleRuntime planSortThenFilter.ops sampleFloats =
        .ok ⟨[.float64 ⟨"x", [⟨0x4008000000000000⟩, ⟨0x3ff0000000000000⟩], ⟨[3]⟩⟩],
          [("x", 0)], 2⟩ ∧
      planSortThenFilter.Collect sampleRuntime sampleFloatReaders =
        .ok ⟨[.float64 ⟨"x", [⟨0x3ff0000000000000⟩, ⟨0x4008000000000000⟩], ⟨[3]⟩⟩],
          [("x", 0)], 2⟩) := by
  decide

/-- C7 (amended): for every plan whose source materializes a base frame satisfying the
frame invariants, and none of whose sort operations is keyed on a column of the base
frame that holds a NaN in a valid row (so Int64, Bool and Utf8 keys and every Float64 key
without NaN are covered): if applying the operations sequentially in declared order to
the base frame succeeds with frame `out`, then `Collect` (which executes the optimized
list) also succeeds and returns `out`, identical in columns, index, rows, values and
order. -/
theorem C7_Collect_agrees_unless_NaN (rt : FloatRuntime) (rd : Readers)
    (lf : LazyFrame) (base out : DataFrame) (hsrc : readSource rt rd lf.source = .ok base)
    (hwf : base.WF) (hkeys : SortKeysNaNFree base lf.ops)
    (horig : applyOps rt lf.ops base = .ok out) :
    lf.Collect rt rd = .ok out := by
  unfold LazyFrame.Collect
  have hs : lf.optimize.source = lf.source := rfl
  simp only [hs, hsrc, bind, Except.bind]
  rw [optimize_ops]
  exact applyOps_partition rt lf.ops base out hwf hkeys horig

/-- Witness of amended C7 with a Float64 sort key: `sort(x), filter(x > 0.0)` on
`x = [3.0, -0.0, 1.0, 2.0]`; in declared order and in `Collect` the result is
`x = [1.0, 2.0, 3.0]`. -/
theorem C7_Collect_agrees_unless_NaN_witness :
    readSource sampleRuntime sampleCleanReaders planSortThenFilter.source =
        .ok sampleCleanFloats ∧
      sampleCleanFloats.WF ∧ SortKeysNaNFree sampleCleanFloats planSortThenFilter.ops ∧
      applyOps sampleRuntime planSortThenFilter.ops sampleCleanFloats =
        .ok ⟨[.float64 ⟨"x", [⟨0x3ff0000000000000⟩, ⟨0x4000000000000000⟩,
          ⟨0x4008000000000000⟩], ⟨[7]⟩⟩], [("x", 0)], 3⟩ ∧
      planSortThenFilter.Collect sampleRuntime sampleCleanReaders =
        .ok ⟨[.float64 ⟨"x", [⟨0x3ff0000000000000⟩, ⟨0x4000000000000000⟩,
          ⟨0x4008000000000000⟩], ⟨[7]⟩⟩], [("x", 0)], 3⟩ :=
  ⟨by decide, by decide, by decide, by decide,
    C7_Collect_agrees_unless_NaN sampleRuntime sampleCleanReaders planSortThenFilter
      sampleCleanFloats _ (by decide) (by decide) (by decide) (by decide)⟩

/-- C17: `newBitmap(n, true)` stores `ceil(n/64)` words in which exactly the bit
positions `0 .. n-1` are set: `get(i)` is true for every `i < n`; when `n` is not a
multiple of 64 the last word equals `2^(n mod 64) - 1`; and every stored bit at a
position `≥ n` reads as false. -/
theorem C17_newBitmap_sets_first_n_bits (n : Nat) :
    (newBitmap n true).bits.length = (n + 63) / 64 ∧
    (∀ i, i < n → (newBitmap n true).get i = .ok true) ∧
    (n % 64 ≠ 0 → (newBitmap n true).bits.getLast? = some (2 ^ (n % 64) - 1)) ∧
    (∀ i, n ≤ i → i < 64 * ((n + 63) / 64) → (newBitmap n true).get i = .ok false) := by
  refine ⟨newBitmap_length n true, ?_, ?_, ?_⟩
  · intro i hi
    rw [newBitmap_true_get n i (by omega)]
    simp [hi]
  · intro hr
    have hk : (n + 63) / 64 - 1 < (n + 63) / 64 := by omega
    have hg := newBitmap_true_getD n ((n + 63) / 64 - 1) hk
    rw [if_pos ⟨rfl, hr⟩, List.getD_eq_getElem?_getD] at hg
    rw [List.getLast?_eq_getElem?, newBitmap_length]
    have hl : (n + 63) / 64 - 1 < (newBitmap n true).bits.length := by
      rw [newBitmap_length]; exact hk
    rw [List.getElem?_eq_getElem hl] at hg ⊢
    exact congrArg some hg
  · intro i hn hi
    rw [newBitmap_true_get n i hi]
    simp [hn]
/-- C11: when some requested name is not a column of the frame, `Select` fails with the
unknown-column error of the first such name; and whenever `Select` succeeds, the result
has the height of the frame and one column per name, its `i`-th column being the
frame's own column named `names[i]` (so with its rows in the same order). -/
theorem C11_Select_unknown_or_positional (cols : List Column) (df : DataFrame)
    (names : List String) (h : NewDataFrame cols = .ok df) :
    ((∃ name ∈ names, ∀ c ∈ df.Columns, c.Name ≠ name) →
      ∃ pre name post, names = pre ++ name :: post ∧ (∀ n ∈ pre, ∃ c ∈ df.Columns, c.Name = n) ∧
        (∀ c ∈ df.Columns, c.Name ≠ name) ∧
        df.Select names = .error (Err.unknownColumn name)) ∧
    (∀ out : DataFrame, df.Select names = .ok out →
      out.Height = df.Height ∧ out.Width = names.length ∧
        ∀ (i : Nat) (name : String), names[i]? = some name →
          ∃ c, out.Columns[i]? = some c ∧ c ∈ df.Columns ∧ c.Name = name ∧
            df.Column name = .ok (some c)) := by
  obtain ⟨hcols, -, -, hlen, -⟩ := frame_of_New h
  have hmem : ∀ n : String, n ∈ cols.map Column.Name ↔ ∃ c ∈ df.Columns, c.Name = n := by
    intro n
    unfold DataFrame.Columns
    rw [hcols, List.mem_map]
  constructor
  · intro hex
    obtain ⟨pre, name, post, h1, h2, h3⟩ :=
      first_failing (fun n => n ∈ cols.map Column.Name) names (by
        obtain ⟨name, hn, hc⟩ := hex
        refine ⟨name, hn, fun hin => ?_⟩
        obtain ⟨c, hc1, hc2⟩ := (hmem name).mp hin
        exact hc c hc1 hc2)
    refine ⟨pre, name, post, h1, fun n hn => (hmem n).mp (h2 n hn), ?_, ?_⟩
    · intro c hc hname
      exact h3 ((hmem name).mpr ⟨c, hc, hname⟩)
    · rw [h1]
      exact Select_unknown h pre post name h2 h3
  · intro out hout
    obtain ⟨picked, hf, hnew⟩ := (Select_ok_iff df names out).mp hout
    obtain ⟨ocols, -, -, olen, one⟩ := frame_of_New hnew
    have hfl := hf.length_eq
    have hget : ∀ (i : Nat) (name : String), names[i]? = some name →
        ∃ c, picked[i]? = some c ∧ df.Column name = .ok (some c) := by
      intro i name hi
      obtain ⟨hi1, hi2⟩ := List.getElem?_eq_some_iff.mp hi
      have hi3 : i < picked.length := hfl ▸ hi1
      refine ⟨picked.get ⟨i, hi3⟩, List.getElem?_eq_getElem hi3, ?_⟩
      have := (List.forall₂_iff_get.mp hf).2 i hi1 hi3
      rw [List.get_eq_getElem, hi2] at this
      exact this
    refine ⟨?_, ?_, ?_⟩
    · cases hp : picked with
      | nil => exact absurd hp one
      | cons c rest =>
        have hn0 : 0 < names.length := by rw [hfl, hp]; simp
        obtain ⟨c', hc1, hc2⟩ := hget 0 (names.get ⟨0, hn0⟩) (List.getElem?_eq_getElem hn0)
        rw [hp] at hc1
        have hc1 : c = c' := by simpa using hc1
        subst hc1
        have hin := (frame_Column_some h _ c hc2).1
        show out.nrows = df.nrows
        rw [← olen c (by rw [hp]; exact List.mem_cons_self _ _), hlen c hin]
    · show out.columns.length = names.length
      rw [ocols, hfl]
    · intro i name hi
      obtain ⟨c, hc1, hc2⟩ := hget i name hi
      obtain ⟨hin, hname⟩ := frame_Column_some h name c hc2
      refine ⟨c, ?_, ?_, hname, hc2⟩
      · show out.columns[i]? = some c
        rw [ocols]; exact hc1
      · show c ∈ df.columns
        rw [hcols]; exact hin

/-- Witness of C11 on `sampleFrame`: the unknown name `zip` is reported, and selecting
`name, age` returns the two columns in the requested order. -/
theorem C11_Select_unknown_or_positional_witness :
    NewDataFrame [sampleAge, sampleName] = .ok sampleFrame ∧
      sampleFrame.Select ["name", "zip", "age"] = .error (Err.unknownColumn "zip") ∧
      sampleFrame.Select ["name", "age"] =
        .ok ⟨[sampleName, sampleAge], [("age", 1), ("name", 0)], 4⟩ ∧
      ∀ out : DataFrame, sampleFrame.Select ["name", "age"] = .ok out →
        out.Height = sampleFrame.Height ∧ out.Width = ["name", "age"].length ∧
          ∀ (i : Nat) (name : String), ["name", "age"][i]? = some name →
            ∃ c, out.Columns[i]? = some c ∧ c ∈ sampleFrame.Columns ∧ c.Name = name ∧
              sampleFrame.Column name = .ok (some c) :=
  ⟨by decide, by decide, by decide,
    (C11_Select_unknown_or_positional [sampleAge, sampleName] sampleFrame ["name", "age"]
      (by decide)).2⟩

/-- C12: for every frame satisfying the frame invariants, every Int64 column `c` of it
and every integer literal `r`, `Col(c).Gt(r)` and `Col(c).Eq(r)` evaluate to a mask of
the frame's height in which row `i` is null exactly when row `i` of `c` is null, and
otherwise holds `c[i] > r`, respectively `c[i] == r`. -/
theorem C12_Int64_comparison_mask (rt : FloatRuntime) (df : DataFrame) (name : String)
    (t : Int64Column) (r : Int) (lit : Literal) (hwf : df.WF)
    (hcol : df.Column name = .ok (some (.int64 t)))
    (hlit : lit = .int r ∨ lit = .int64 r ∨ lit = .int32 r) :
    (∃ m, ((Col name).Gt lit).Eval rt df = .ok m ∧ m.Len = df.Height ∧
      ∀ i, i < df.Height → ∃ null, t.IsNull i = .ok null ∧ m.IsNull i = .ok null ∧
        (null = false → ∃ v, t.Value i = .ok v ∧ m.Value i = .ok (decide (v > r)))) ∧
    (∃ m, ((Col name).Eq lit).Eval rt df = .ok m ∧ m.Len = df.Height ∧
      ∀ i, i < df.Height → ∃ null, t.IsNull i = .ok null ∧ m.IsNull i = .ok null ∧
        (null = false → ∃ v, t.Value i = .ok v ∧ m.Value i = .ok (decide (v = r)))) := by
  have hl : literalToInt64 rt lit = some r := by
    rcases hlit with rfl | rfl | rfl <;> rfl
  exact ⟨compare_int64_mask rt df name "gt" lit r t hwf hcol hl,
    compare_int64_mask rt df name "eq" lit r t hwf hcol hl⟩

/-- Witness of C12: `age = [10, null, 7, 42]` compared with the literal `9`. -/
theorem C12_Int64_comparison_mask_witness :
    sampleFrame.WF ∧
      ((Col "age").Gt (.int 9)).Eval sampleRuntime sampleFrame =
        .ok ⟨"_mask", [true, false, false, true], ⟨[13]⟩⟩ ∧
      ((∃ m, ((Col "age").Gt (.int 9)).Eval sampleRuntime sampleFrame = .ok m ∧
        m.Len = sampleFrame.Height ∧
        ∀ i, i < sampleFrame.Height → ∃ null,
          TypedColumn.IsNull (⟨"age", [10, 0, 7, 42], ⟨[13]⟩⟩ : Int64Column) i = .ok null ∧
          m.IsNull i = .ok null ∧
          (null = false → ∃ v,
            TypedColumn.Value (⟨"age", [10, 0, 7, 42], ⟨[13]⟩⟩ : Int64Column) i = .ok v ∧
            m.Value i = .ok (decide (v > 9)))) ∧
      (∃ m, ((Col "age").Eq (.int 9)).Eval sampleRuntime sampleFrame = .ok m ∧
        m.Len = sampleFrame.Height ∧
        ∀ i, i < sampleFrame.Height → ∃ null,
          TypedColumn.IsNull (⟨"age", [10, 0, 7, 42], ⟨[13]⟩⟩ : Int64Column) i = .ok null ∧
          m.IsNull i = .ok null ∧
          (null = false → ∃ v,
            TypedColumn.Value (⟨"age", [10, 0, 7, 42], ⟨[13]⟩⟩ : Int64Column) i = .ok v ∧
            m.Value i = .ok (decide (v = 9))))) :=
  ⟨by decide, by decide,
    C12_Int64_comparison_mask sampleRuntime sampleFrame "age" ⟨"age", [10, 0, 7, 42], ⟨[13]⟩⟩ 9
      (.int 9) (by decide) (by decide) (Or.inl rfl)⟩

/-- C13, as stated, fails: the literal is only coerced when the loop reaches a non-null
row.  On the frame `age:Int64 = [null, null]` the comparisons with the boolean literal
`true`, which does not coerce to an integer, evaluate without error to an all-null mask. -/
theorem C13_type_error_counterexample :
    sampleNullAges.WF ∧
      sampleNullAges.Column "age" = .ok (some (.int64 ⟨"age", [0, 0], ⟨[0]⟩⟩)) ∧
      ∀ rt : FloatRuntime, literalToInt64 rt (.bool true) = none ∧
        ((Col "age").Eq (.bool true)).Eval rt sampleNullAges =
          .ok ⟨"_mask", [false, false], ⟨[0]⟩⟩ ∧
        ((Col "age").Gt (.bool true)).Eval rt sampleNullAges =
          .ok ⟨"_mask", [false, false], ⟨[0]⟩⟩ :=
  ⟨by decide, by decide, fun _ => ⟨rfl, rfl, rfl⟩⟩

/-- C13 (amended): for every frame satisfying the frame invariants, every Int64 column
`c` of it and every literal `v` that does not coerce to a 64-bit integer, evaluating
`Col(c).Eq(v)` or `Col(c).Gt(v)` fails with the type error `cannot compare int64 column
with literal` whenever `c` has at least one non-null row; when every row of `c` is null
(in particular when the frame has no rows) the evaluation succeeds with an all-null mask
of the frame's height. -/
theorem C13_type_error_needs_non_null_row (rt : FloatRuntime) (df : DataFrame)
    (name : String) (t : Int64Column) (lit : Literal) (e : Expr) (hwf : df.WF)
    (hcol : df.Column name = .ok (some (.int64 t))) (hlit : literalToInt64 rt lit = none)
    (he : e = (Col name).Eq lit ∨ e = (Col name).Gt lit) :
    ((∃ i, i < df.Height ∧ t.IsNull i = .ok false) →
      e.Eval rt df = .error Err.cannotCompareInt64) ∧
    ((∀ i, i < df.Height → t.IsNull i = .ok true) →
      ∃ m, e.Eval rt df = .ok m ∧ m.Len = df.Height ∧
        ∀ i, i < df.Height → m.IsNull i = .ok true) := by
  rcases he with rfl | rfl
  · exact compare_int64_mismatch rt df name "eq" lit t hwf hcol hlit
  · exact compare_int64_mismatch rt df name "gt" lit t hwf hcol hlit

/-- Witness of amended C13: `age = [10, null, 7, 42]` has a non-null row, so comparing
it with the boolean literal `true` is a type error. -/
theorem C13_type_error_needs_non_null_row_witness :
    sampleFrame.WF ∧
      sampleFrame.Column "age" = .ok (some (.int64 ⟨"age", [10, 0, 7, 42], ⟨[13]⟩⟩)) ∧
      literalToInt64 sampleRuntime (.bool true) = none ∧
      ((Col "age").Gt (.bool true)).Eval sampleRuntime sampleFrame =
        .error Err.cannotCompareInt64 :=
  ⟨by decide, by decide, by decide,
    (C13_type_error_needs_non_null_row sampleRuntime sampleFrame "age"
      ⟨"age", [10, 0, 7, 42], ⟨[13]⟩⟩ (.bool true) ((Col "age").Gt (.bool true)) (by decide)
      (by decide) (by decide) (Or.inr rfl)).1 ⟨0, by decide, by decide⟩⟩

/-- C20: for every frame satisfying the frame invariants and every column `c` of it,
`Col(c).Even()` evaluates to a mask of the frame's height in which row `i` is null
exactly when row `i` of `c` is null, and is otherwise true exactly when the value is
even: an Int64 value divisible by two (negative values included), a Utf8 value of even
byte length, a Bool value that is false (and a Float64 value whose conversion to
`int64` is divisible by two). -/
theorem C20_Even_mask (rt : FloatRuntime) (df : DataFrame) (name : String) (col : Column)
    (hwf : df.WF) (hcol : df.Column name = .ok (some col)) :
    ∃ m, ((Col name).Even).Eval rt df = .ok m ∧ m.Len = df.Height ∧
      ∀ i, i < df.Height → ∃ null, col.IsNull i = .ok null ∧ m.IsNull i = .ok null ∧
        (null = false → ∃ v, col.Value i = .ok v ∧ m.Value i = .ok (decide (v.isEven rt))) :=
  even_mask rt df name col hwf hcol

/-- Witness of C20: `x = [4, 3, null, -2]` gives the mask `[true, false, null, true]`. -/
theorem C20_Even_mask_witness :
    sampleXs.WF ∧
      ((Col "x").Even).Eval sampleRuntime sampleXs =
        .ok ⟨"_mask", [true, false, false, true], ⟨[11]⟩⟩ ∧
      ∃ m, ((Col "x").Even).Eval sampleRuntime sampleXs = .ok m ∧ m.Len = sampleXs.Height ∧
        ∀ i, i < sampleXs.Height → ∃ null,
          (Column.int64 ⟨"x", [4, 3, 0, -2], ⟨[11]⟩⟩).IsNull i = .ok null ∧
          m.IsNull i = .ok null ∧
          (null = false → ∃ v, (Column.int64 ⟨"x", [4, 3, 0, -2], ⟨[11]⟩⟩).Value i = .ok v ∧
            m.Value i = .ok (decide (v.isEven sampleRuntime))) :=
  ⟨by decide, by decide,
    C20_Even_mask sampleRuntime sampleXs "x" (.int64 ⟨"x", [4, 3, 0, -2], ⟨[11]⟩⟩) (by decide)
      (by decide)⟩
/-- C14: for every pair of expressions `a`, `b` that evaluate to masks of equal length,
row `i` of `And(a, b)` and of `Or(a, b)` is null exactly when row `i` of the mask of `a`
is null or row `i` of the mask of `b` is null (so a null operand makes the row null even
where the other operand alone would decide it); otherwise it holds the conjunction,
respectively the disjunction, of the two operand values. -/
theorem C14_logical_null_propagation (rt : FloatRuntime) (df : DataFrame) (a b : Expr)
    (ma mb : BoolColumn) (ha : a.Eval rt df = .ok ma) (hb : b.Eval rt df = .ok mb)
    (hlen : ma.Len = mb.Len) :
    (∃ m, (And a b).Eval rt df = .ok m ∧ m.Len = ma.Len ∧
      ∀ i, i < ma.Len → ∃ na nb, ma.IsNull i = .ok na ∧ mb.IsNull i = .ok nb ∧
        m.IsNull i = .ok (na || nb) ∧
        (na = false → nb = false → ∃ va vb, ma.Value i = .ok va ∧ mb.Value i = .ok vb ∧
          m.Value i = .ok (va && vb))) ∧
    (∃ m, (Or a b).Eval rt df = .ok m ∧ m.Len = ma.Len ∧
      ∀ i, i < ma.Len → ∃ na nb, ma.IsNull i = .ok na ∧ mb.IsNull i = .ok nb ∧
        m.IsNull i = .ok (na || nb) ∧
        (na = false → nb = false → ∃ va vb, ma.Value i = .ok va ∧ mb.Value i = .ok vb ∧
          m.Value i = .ok (va || vb))) :=
  ⟨logical_mask rt df a b "and" ma mb ha hb hlen, logical_mask rt df a b "or" ma mb ha hb hlen⟩

/-- Witness of C14 on `sampleFrame`: `age > 9` is `[true, null, false, true]` and
`name == "b"` is `[true, null, false, null]`; their conjunction is
`[true, null, false, null]` and their disjunction is `[true, null, false, null]`: in the
last row the true operand does not decide the disjunction, the null operand does. -/
theorem C14_logical_null_propagation_witness :
    ((Col "age").Gt (.int 9)).Eval sampleRuntime sampleFrame =
        .ok ⟨"_mask", [true, false, false, true], ⟨[13]⟩⟩ ∧
      ((Col "name").Eq (.string [98])).Eval sampleRuntime sampleFrame =
        .ok ⟨"_mask", [true, false, false, false], ⟨[5]⟩⟩ ∧
      (And ((Col "age").Gt (.int 9)) ((Col "name").Eq (.string [98]))).Eval sampleRuntime
        sampleFrame = .ok ⟨"_mask", [true, false, false, false], ⟨[5]⟩⟩ ∧
      (Or ((Col "age").Gt (.int 9)) ((Col "name").Eq (.string [98]))).Eval sampleRuntime
        sampleFrame = .ok ⟨"_mask", [true, false, false, false], ⟨[5]⟩⟩ ∧
      ∃ m, (Or ((Col "age").Gt (.int 9)) ((Col "name").Eq (.string [98]))).Eval sampleRuntime
          sampleFrame = .ok m ∧
        m.Len = TypedColumn.Len (⟨"_mask", [true, false, false, true], ⟨[13]⟩⟩ : BoolColumn) ∧
        ∀ i, i < TypedColumn.Len (⟨"_mask", [true, false, false, true], ⟨[13]⟩⟩ : BoolColumn) →
          ∃ na nb,
            TypedColumn.IsNull (⟨"_mask", [true, false, false, true], ⟨[13]⟩⟩ : BoolColumn) i =
              .ok na ∧
            TypedColumn.IsNull (⟨"_mask", [true, false, false, false], ⟨[5]⟩⟩ : BoolColumn) i =
              .ok nb ∧
            m.IsNull i = .ok (na || nb) ∧
            (na = false → nb = false → ∃ va vb,
              TypedColumn.Value (⟨"_mask", [true, false, false, true], ⟨[13]⟩⟩ : BoolColumn) i =
                .ok va ∧
              TypedColumn.Value (⟨"_mask", [true, false, false, false], ⟨[5]⟩⟩ : BoolColumn) i =
                .ok vb ∧
              m.Value i = .ok (va || vb)) :=
  ⟨by decide, by decide, by decide, by decide,
    (C14_logical_null_propagation sampleRuntime sampleFrame ((Col "age").Gt (.int 9))
      ((Col "name").Eq (.string [98])) ⟨"_mask", [true, false, false, true], ⟨[13]⟩⟩
      ⟨"_mask", [true, false, false, false], ⟨[5]⟩⟩ (by decide) (by decide) (by decide)).2⟩
/-- C18: every frame returned by `NewDataFrame`, `Select`, `Filter` or `SortBy`
satisfies the frame invariants: it has at least one column, every column has `Len()`
equal to the frame's `Height()`, no two columns share a name, and the name index maps
the name of each column to the position of that column. -/
theorem C18_returned_frames_keep_invariants (rt : FloatRuntime) (df out : DataFrame)
    (cols : List Column) (names : List String) (e : Expr) (column : String) (desc : Bool)
    (h : NewDataFrame cols = .ok out ∨ df.Select names = .ok out ∨
      df.Filter rt e = .ok out ∨ df.SortBy column desc = .ok out) :
    0 < out.Width ∧ (∀ c ∈ out.Columns, c.Len = out.Height) ∧ ¬ SharesName out.Columns ∧
      ∀ (i : Nat) (c : Column), out.Columns[i]? = some c →
        out.index.lookup c.Name = some i ∧ out.Column c.Name = .ok (some c) := by
  have hnew : ∃ cols', NewDataFrame cols' = .ok out := by
    rcases h with h | h | h | h
    · exact ⟨cols, h⟩
    · obtain ⟨picked, _, hp⟩ := (Select_ok_iff df names out).mp h
      exact ⟨picked, hp⟩
    · exact Filter_from_New rt df e out h
    · exact SortBy_from_New df column desc out h
  obtain ⟨cols', hc⟩ := hnew
  obtain ⟨h1, h2, h3, h4⟩ := New_invariants hc
  refine ⟨h1, h2, h3, fun i c hi => ⟨h4 i c hi, ?_⟩⟩
  have hcols := (frame_of_New hc).1
  exact frame_Column_of_getElem? hc i c (by rw [← hcols]; exact hi)

/-- Witness of C18: the frames returned for `sampleFrame` by a selection, a filter and a
sort. -/
theorem C18_returned_frames_keep_invariants_witness :
    sampleFrame.Filter sampleRuntime ((Col "age").Gt (.int 9)) =
        .ok ⟨[.int64 ⟨"age", [10, 42], ⟨[3]⟩⟩, .utf8 ⟨"name", [[98], []], ⟨[1]⟩⟩],
          [("name", 1), ("age", 0)], 2⟩ ∧
      FrameInvariants ⟨[.int64 ⟨"age", [10, 42], ⟨[3]⟩⟩, .utf8 ⟨"name", [[98], []], ⟨[1]⟩⟩],
        [("name", 1), ("age", 0)], 2⟩ :=
  ⟨by decide,
    let h := C18_returned_frames_keep_invariants sampleRuntime sampleFrame
      ⟨[.int64 ⟨"age", [10, 42], ⟨[3]⟩⟩, .utf8 ⟨"name", [[98], []], ⟨[1]⟩⟩],
        [("name", 1), ("age", 0)], 2⟩ [] [] ((Col "age").Gt (.int 9)) "" false
      (Or.inr (Or.inr (Or.inl (by decide))))
    ⟨h.1, h.2.1, h.2.2.1, fun i c hi => (h.2.2.2 i c hi).1⟩⟩
/-- C19, as stated, fails for a JSON source.  `readJSON` builds the columns in the order
in which Go's `range` visits the keys of a map, and that order may differ between two
calls.  The plans `filter(Even x), sort(x)` and `sort(x), filter(Even x)` hold the same
operations and are optimized to the same list; collected over the same records
`{x, y}`, one call visiting the keys as `x, y` and the other as `y, x`, they return the
frames `[x, y]` and `[y, x]`, which differ.  Even one plan collected twice does. -/
theorem C19_same_subsequences_counterexample :
    planJsonFilterSort.source = planJsonSortFilter.source ∧
    planJsonFilterSort.ops ≠ planJsonSortFilter.ops ∧
    planJsonFilterSort.ops.filter (fun op => op.typeID == opFilter) =
      planJsonSortFilter.ops.filter (fun op => op.typeID == opFilter) ∧
    planJsonFilterSort.ops.filter (fun op => !(op.typeID == opFilter)) =
      planJsonSortFilter.ops.filter (fun op => !(op.typeID == opFilter)) ∧
    planJsonFilterSort.optimize = planJsonSortFilter.optimize ∧
    sampleJsonForward.readRows "xs.json" = sampleJsonBackward.readRows "xs.json" ∧
    planJsonFilterSort.Collect sampleRuntime sampleJsonForward =
      .ok ⟨[.int64 ⟨"x", [-2, 4], ⟨[3]⟩⟩, .utf8 ⟨"y", [[], [97]], ⟨[2]⟩⟩],
        [("y", 1), ("x", 0)], 2⟩ ∧
    planJsonSortFilter.Collect sampleRuntime sampleJsonBackward =
      .ok ⟨[.utf8 ⟨"y", [[], [97]], ⟨[2]⟩⟩, .int64 ⟨"x", [-2, 4], ⟨[3]⟩⟩],
        [("x", 1), ("y", 0)], 2⟩ ∧
    planJsonFilterSort.Collect sampleRuntime sampleJsonForward ≠
      planJsonSortFilter.Collect sampleRuntime sampleJsonBackward ∧
    planJsonFilterSort.Collect sampleRuntime sampleJsonForward ≠
      planJsonFilterSort.Collect sampleRuntime sampleJsonBackward := by
  decide

/-- C19 (amended): two plans over the same source whose filters appear in the same
relative order and whose select and sort operations appear in the same relative order are
optimized to the same plan.  Two calls of `Collect`, one for each plan, return the same
outcome (frame or error) whenever both calls materialize the same base frame or fail to
materialize it with the same error.  When the two base frames hold the same columns in a
different order, the outcomes agree up to the order of the columns, and they are the same
outcome if the plans hold a select operation.  Two calls on a JSON source that decode the
same records do materialize frames that satisfy the frame invariants and hold the same
columns. -/
theorem C19_reordered_plans_agree (rt : FloatRuntime) (rd1 rd2 : Readers)
    (p q : LazyFrame) (hsource : p.source = q.source)
    (hfilters : p.ops.filter (fun op => op.typeID == opFilter) =
      q.ops.filter (fun op => op.typeID == opFilter))
    (hothers : p.ops.filter (fun op => !(op.typeID == opFilter)) =
      q.ops.filter (fun op => !(op.typeID == opFilter))) :
    p.optimize = q.optimize ∧
    (readSource rt rd1 p.source = readSource rt rd2 q.source →
      p.Collect rt rd1 = q.Collect rt rd2) ∧
    (∀ b1 b2 : DataFrame, readSource rt rd1 p.source = .ok b1 →
      readSource rt rd2 q.source = .ok b2 → SameColumns b1 b2 →
      SameUpToOrder (p.Collect rt rd1) (q.Collect rt rd2) ∧
        ((∃ op ∈ p.ops, op.typeID = opSelect) → p.Collect rt rd1 = q.Collect rt rd2)) ∧
    (p.source.kind = sourceJSON → rd1.readRows p.source.path = rd2.readRows q.source.path →
      ∀ b1 : DataFrame, readSource rt rd1 p.source = .ok b1 →
        ∃ b2, readSource rt rd2 q.source = .ok b2 ∧ SameColumns b1 b2) := by
  have hopt : p.optimize = q.optimize := by
    have h1 : p.optimize.source = q.optimize.source := hsource
    have h2 : p.optimize.ops = q.optimize.ops := by
      rw [optimize_ops, optimize_ops, hfilters, hothers]
    cases hp : p.optimize
    cases hq : q.optimize
    rw [hp, hq] at h1 h2
    simp only at h1 h2
    rw [h1, h2]
  have hp : ∀ rd, p.Collect rt rd =
      (readSource rt rd p.source >>= fun df => applyOps rt p.optimize.ops df) := fun _ => rfl
  have hq : ∀ rd, q.Collect rt rd =
      (readSource rt rd q.source >>= fun df => applyOps rt q.optimize.ops df) := fun _ => rfl
  refine ⟨hopt, ?_, ?_, ?_⟩
  · intro h
    rw [hp, hq, h, hopt]
  · intro b1 b2 h1 h2 hs
    rw [hp, hq, h1, h2, ← hopt]
    obtain ⟨g1, g2⟩ := SameColumns_applyOps rt p.optimize.ops b1 b2 hs
    refine ⟨g1, fun hsel => g2 ?_⟩
    obtain ⟨op, hop, hty⟩ := hsel
    refine ⟨op, ?_, hty⟩
    rw [optimize_ops]
    apply List.mem_append_right
    rw [List.mem_filter]
    refine ⟨hop, ?_⟩
    rw [hty]
    rfl
  · intro hk hrows b1 h1
    have e : ∀ rd, readSource rt rd p.source = readJSON rt rd p.source.path := by
      intro rd
      unfold readSource
      rw [hk]
      rfl
    rw [← hsource] at hrows ⊢
    rw [e] at h1
    rw [e]
    exact readJSON_SameColumns rt rd1 rd2 _ b1 hrows h1

/-- Witness of amended C19: `filter(Even x), select(x), sort(x)` and
`select(x), filter(Even x), sort(x)` over the records `{x, y}` of a JSON source, one call
visiting the keys as `x, y` and the other as `y, x`: both return `x = [-2, 4]`. -/
theorem C19_reordered_plans_agree_witness :
    planJsonEvenFirst.ops ≠ planJsonEvenSecond.ops ∧
    readSource sampleRuntime sampleJsonForward planJsonEvenFirst.source =
      .ok ⟨[.int64 ⟨"x", [4, 3, -2], ⟨[7]⟩⟩, .utf8 ⟨"y", [[97], [98], []], ⟨[3]⟩⟩],
        [("y", 1), ("x", 0)], 3⟩ ∧
    readSource sampleRuntime sampleJsonBackward planJsonEvenSecond.source =
      .ok ⟨[.utf8 ⟨"y", [[97], [98], []], ⟨[3]⟩⟩, .int64 ⟨"x", [4, 3, -2], ⟨[7]⟩⟩],
        [("x", 1), ("y", 0)], 3⟩ ∧
    planJsonEvenFirst.Collect sampleRuntime sampleJsonForward =
      .ok ⟨[.int64 ⟨"x", [-2, 4], ⟨[3]⟩⟩], [("x", 0)], 2⟩ ∧
    (planJsonEvenFirst.optimize = planJsonEvenSecond.optimize ∧
    (readSource sampleRuntime sampleJsonForward planJsonEvenFirst.source =
        readSource sampleRuntime sampleJsonBackward planJsonEvenSecond.source →
      planJsonEvenFirst.Collect sampleRuntime sampleJsonForward =
        planJsonEvenSecond.Collect sampleRuntime sampleJsonBackward) ∧
    (∀ b1 b2 : DataFrame,
      readSource sampleRuntime sampleJsonForward planJsonEvenFirst.source = .ok b1 →
      readSource sampleRuntime sampleJsonBackward planJsonEvenSecond.source = .ok b2 →
      SameColumns b1 b2 →
      SameUpToOrder (planJsonEvenFirst.Collect sampleRuntime sampleJsonForward)
          (planJsonEvenSecond.Collect sampleRuntime sampleJsonBackward) ∧
        ((∃ op ∈ planJsonEvenFirst.ops, op.typeID = opSelect) →
          planJsonEvenFirst.Collect sampleRuntime sampleJsonForward =
            planJsonEvenSecond.Collect sampleRuntime sampleJsonBackward)) ∧
    (planJsonEvenFirst.source.kind = sourceJSON →
      sampleJsonForward.readRows planJsonEvenFirst.source.path =
        sampleJsonBackward.readRows planJsonEvenSecond.source.path →
      ∀ b1 : DataFrame,
        readSource sampleRuntime sampleJsonForward planJsonEvenFirst.source = .ok b1 →
        ∃ b2, readSource sampleRuntime sampleJsonBackward planJsonEvenSecond.source = .ok b2 ∧
          SameColumns b1 b2)) :=
  ⟨by decide, by decide, by decide, by decide,
    C19_reordered_plans_agree sampleRuntime sampleJsonForward sampleJsonBackward
      planJsonEvenFirst planJsonEvenSecond (by decide) (by decide) (by decide)⟩
/-- C15: for every stored plan `p` (in any heap, with any growth rule of `append`),
`p.Select(cols)`, `p.Filter(e)` and `p.Sort(col, desc)` each return a new plan with the
source of `p` and the operation list of `p` followed by exactly the new operation, and
they leave unchanged what `p` and every other stored plan `r` denote: the source and
operation list of `p` are as before, and plans branched from the same `p` earlier or
later do not affect each other. -/
theorem C15_chaining_leaves_plans_unchanged (grow : Nat → Nat → Nat) (h : opHeap)
    (p r : planRef) (cols : List String) (expr : Expr) (col : String) (desc : Bool)
    (hp : h.Valid p.ops) (hr : h.Valid r.ops) :
    planRef.ChainedTo h p r (p.Select grow h cols) ((p.view h).Select cols) ∧
      planRef.ChainedTo h p r (p.Filter grow h expr) ((p.view h).Filter expr) ∧
      planRef.ChainedTo h p r (p.Sort grow h col desc) ((p.view h).Sort col desc) :=
  ⟨planRef.chain_ChainedTo grow h p r _ hp hr, planRef.chain_ChainedTo grow h p r _ hp hr,
    planRef.chain_ChainedTo grow h p r _ hp hr⟩

/-- Witness of C15: a stored plan of two operations whose backing array has room for
two more.  Two plans are branched from it, one by `Select` and then one by `Filter`;
afterwards the plan and the first branch still read as before, although the capacity
would have let an in-place `append` overwrite them. -/
theorem C15_chaining_leaves_plans_unchanged_witness :
    sampleHeap.Valid samplePlanRef.ops ∧
      planRef.view (samplePlanRef.Select sampleGrow sampleHeap ["name"]).1
          (samplePlanRef.Select sampleGrow sampleHeap ["name"]).2 =
        (samplePlanRef.view sampleHeap).Select ["name"] ∧
      planRef.view
          (samplePlanRef.Filter sampleGrow
            (samplePlanRef.Select sampleGrow sampleHeap ["name"]).1 (Col "age").Even).1
          (samplePlanRef.Select sampleGrow sampleHeap ["name"]).2 =
        (samplePlanRef.view sampleHeap).Select ["name"] ∧
      planRef.view
          (samplePlanRef.Filter sampleGrow
            (samplePlanRef.Select sampleGrow sampleHeap ["name"]).1 (Col "age").Even).1
          samplePlanRef = samplePlanRef.view sampleHeap ∧
      planRef.ChainedTo sampleHeap samplePlanRef samplePlanRef
        (samplePlanRef.Select sampleGrow sampleHeap ["name"])
        ((samplePlanRef.view sampleHeap).Select ["name"]) :=
  ⟨by decide, by decide, by decide, by decide,
    (C15_chaining_leaves_plans_unchanged sampleGrow sampleHeap samplePlanRef samplePlanRef
      ["name"] (Col "age").Even "age" false (by decide) (by decide)).1⟩
/-- C16: `inferType` returns the first type, in the priority order Int64, Float64,
Bool, for which every sample value that is not a null token parses under that type
(integers by `strconv.ParseInt` in base 10, floats by `strconv.ParseFloat`, booleans by
`strconv.ParseBool` after lowering the case, that is exactly the texts that lower to
`1 t true 0 f false`), and Utf8 when there is none.  So a sample whose non-null values
all parse as integers infers Int64, and adding to it one non-null value that parses as
a float but not as an integer makes it infer Float64 (`ParseFloat` accepting every text
that `ParseInt` accepts). -/
theorem C16_inferType_priority (rt : FloatRuntime) (values nullSet : List GoString) :
    inferType rt values nullSet =
        (if AllParse parsesInt values nullSet then DTypeInt64
        else if AllParse (parsesFloat rt) values nullSet then DTypeFloat64
        else if AllParse parsesBool values nullSet then DTypeBool
        else DTypeUtf8) ∧
      (∀ v, parsesBool v = true ↔ ToLower v ∈
        [[49], [116], [116, 114, 117, 101], [48], [102], [102, 97, 108, 115, 101]]) ∧
      (AllParse parsesInt values nullSet → inferType rt values nullSet = DTypeInt64) ∧
      ((∀ s, parsesInt s = true → parsesFloat rt s = true) →
        ∀ pre post v, values = pre ++ post → AllParse parsesInt values nullSet →
          v ∉ nullSet → parsesInt v = false → parsesFloat rt v = true →
          inferType rt (pre ++ v :: post) nullSet = DTypeFloat64) := by
  have hspec : ∀ vs, inferType rt vs nullSet =
      (if AllParse parsesInt vs nullSet then DTypeInt64
      else if AllParse (parsesFloat rt) vs nullSet then DTypeFloat64
      else if AllParse parsesBool vs nullSet then DTypeBool
      else DTypeUtf8) := by
    intro vs
    unfold inferType
    rw [inferType_loop_eq]
    simp only [true_and]
  refine ⟨hspec values, parsesBool_iff, fun h => by rw [hspec, if_pos h], ?_⟩
  intro hpf pre post v hv hall hnull hint hfloat
  subst hv
  rw [hspec, if_neg, if_pos]
  · rw [AllParse_insert]
    exact ⟨fun _ => hfloat, fun w hw hwn => hpf w (hall w hw hwn)⟩
  · rw [AllParse_insert]
    intro h
    have := h.1 hnull
    rw [hint] at this
    cases this

/-- Witness of C16 with the null token `NA`: the sample `7, NA, -12` infers Int64;
with `1.5` added it infers Float64; `tRuE, 0` infers Bool; `7, x` infers Utf8; and a
sample of null tokens only infers Int64. -/
theorem C16_inferType_priority_witness :
    inferType sampleParseRuntime [[55], [78, 65], [45, 49, 50]] [[78, 65]] = DTypeInt64 ∧
      inferType sampleParseRuntime [[55], [49, 46, 53], [78, 65], [45, 49, 50]] [[78, 65]] =
        DTypeFloat64 ∧
      inferType sampleParseRuntime [[116, 82, 117, 69], [48]] [[78, 65]] = DTypeBool ∧
      inferType sampleParseRuntime [[55], [120]] [[78, 65]] = DTypeUtf8 ∧
      inferType sampleParseRuntime [[78, 65], [78, 65]] [[78, 65]] = DTypeInt64 ∧
      inferType sampleParseRuntime ([[55]] ++ [49, 46, 53] :: [[78, 65], [45, 49, 50]])
        [[78, 65]] = DTypeFloat64 :=
  ⟨by decide, by decide, by decide, by decide, by decide,
    (C16_inferType_priority sampleParseRuntime [[55], [78, 65], [45, 49, 50]] [[78, 65]]).2.2.2
      (fun s hs => by
        unfold parsesFloat sampleParseRuntime
        unfold parsesInt at hs
        simp only [hs, if_true]
        rfl)
      [[55]] [[78, 65], [45, 49, 50]] [49, 46, 53] rfl (by decide) (by decide) (by decide)
      (by decide)⟩

/-- C25: on a frame built by `NewDataFrame`, `Select` succeeds if and only if the name
list is non-empty, every name is the name of a column of the frame, and the names are
pairwise distinct.  In particular `Select` with an empty list fails, and `Select` with a
repeated name fails although every name is present. -/
theorem C25_Select_succeeds_iff (cols : List Column) (df : DataFrame) (names : List String)
    (h : NewDataFrame cols = .ok df) :
    ((∃ out, df.Select names = .ok out) ↔
      names ≠ [] ∧ (∀ n ∈ names, ∃ c ∈ df.Columns, c.Name = n) ∧ names.Nodup) ∧
    df.Select [] = .error Err.noColumns ∧
    ((∀ n ∈ names, ∃ c ∈ df.Columns, c.Name = n) → ¬ names.Nodup →
      ∃ e, df.Select names = .error e) := by
  have hcols : df.Columns = cols := (frame_of_New h).1
  have hiff : (∃ out, df.Select names = .ok out) ↔
      names ≠ [] ∧ (∀ n ∈ names, ∃ c ∈ df.Columns, c.Name = n) ∧ names.Nodup := by
    rw [Select_ok_iff_names h names, hcols]
    simp only [List.mem_map]
  refine ⟨hiff, rfl, ?_⟩
  intro hall hdup
  cases hs : df.Select names with
  | error e => exact ⟨e, rfl⟩
  | ok out => exact absurd (hiff.mp ⟨out, hs⟩).2.2 hdup

/-- Witness of C25 on `sampleFrame`: the empty selection and the selection
`age, name, age` fail, the second with the duplicate-column error, while `name, age`
succeeds. -/
theorem C25_Select_succeeds_iff_witness :
    NewDataFrame [sampleAge, sampleName] = .ok sampleFrame ∧
      sampleFrame.Select [] = .error Err.noColumns ∧
      sampleFrame.Select ["age", "name", "age"] = .error (Err.duplicateColumn "age") ∧
      ((∃ out, sampleFrame.Select ["name", "age"] = .ok out) ↔
        ["name", "age"] ≠ [] ∧ (∀ n ∈ ["name", "age"], ∃ c ∈ sampleFrame.Columns, c.Name = n) ∧
          ["name", "age"].Nodup) :=
  ⟨by decide, by decide, by decide,
    (C25_Select_succeeds_iff [sampleAge, sampleName] sampleFrame ["name", "age"] (by decide)).1⟩
/-- C23: conditional pushdown safety.  For every base frame satisfying the frame
invariants, and every operation list none of whose sort operations is keyed on a
Float64 column of that frame: if applying the operations sequentially in declared order
succeeds with the frame `out`, then applying the operations of the optimized plan
sequentially also succeeds and returns `out` itself (the same columns, rows, values,
nullity and order). -/
theorem C23_conditional_pushdown_safety (rt : FloatRuntime) (source : lazySource)
    (ops : List planOp) (base out : DataFrame) (hwf : base.WF) (hkeys : SortKeysOK base ops)
    (horig : applyOps rt ops base = .ok out) :
    applyOps rt (LazyFrame.optimize ⟨source, ops⟩).ops base = .ok out := by
  rw [optimize_ops]
  exact applyOps_partition rt ops base out hwf (SortKeysOK_NaNFree base ops hkeys) horig

/-- Witness of C23 on `sampleFrame`: `sort(name), select(name, age), filter(Even age)`
is optimized to run the filter first, and both orders return `name = ["b", null]`,
`age = [10, 42]`. -/
theorem C23_conditional_pushdown_safety_witness :
    sampleFrame.WF ∧ SortKeysOK sampleFrame opsSortSelectEven ∧
      (LazyFrame.optimize ⟨⟨sourceJSON, "people.json", ⟨0, []⟩⟩, opsSortSelectEven⟩).ops =
        [⟨opFilter, [], some (Col "age").Even, "", false⟩, ⟨opSort, [], none, "name", false⟩,
          ⟨opSelect, ["name", "age"], none, "", false⟩] ∧
      applyOps sampleRuntime opsSortSelectEven sampleFrame =
        .ok ⟨[.utf8 ⟨"name", [[98], []], ⟨[1]⟩⟩, .int64 ⟨"age", [10, 42], ⟨[3]⟩⟩],
          [("age", 1), ("name", 0)], 2⟩ ∧
      applyOps sampleRuntime
          (LazyFrame.optimize ⟨⟨sourceJSON, "people.json", ⟨0, []⟩⟩, opsSortSelectEven⟩).ops
          sampleFrame =
        .ok ⟨[.utf8 ⟨"name", [[98], []], ⟨[1]⟩⟩, .int64 ⟨"age", [10, 42], ⟨[3]⟩⟩],
          [("age", 1), ("name", 0)], 2⟩ :=
  ⟨by decide, by decide, by decide, by decide,
    C23_conditional_pushdown_safety sampleRuntime ⟨sourceJSON, "people.json", ⟨0, []⟩⟩
      opsSortSelectEven sampleFrame _ (by decide) (by decide) (by decide)⟩
/-- C22: the content fingerprint cannot distinguish null from empty text.  If two frames
are identical except that at some cells of Utf8 columns one holds a null and the other a
present empty string, then `ValueString` agrees on every cell, and for every `maxCols`
`ProjectionChecksum` writes the same byte sequence to the hash and so returns the same
digest; on frames satisfying the frame invariants it does return one. -/
theorem C22_checksum_blind_to_null_versus_empty (rt : FloatRuntime)
    (sum : List Nat → GoString) (df1 df2 : DataFrame) (h : NullEmptyTwins df1 df2) :
    (∀ (j i : Nat) (a b : Column), df1.Columns[j]? = some a → df2.Columns[j]? = some b →
      i < df1.Height → a.ValueString rt i = b.ValueString rt i) ∧
    ∀ maxCols : Int,
      df1.checksumInput rt maxCols = df2.checksumInput rt maxCols ∧
        df1.ProjectionChecksum rt sum maxCols = df2.ProjectionChecksum rt sum maxCols ∧
        (df1.WF → ∃ bytes, df1.checksumInput rt maxCols = .ok bytes ∧
          df1.ProjectionChecksum rt sum maxCols = .ok (sum bytes) ∧
          df2.ProjectionChecksum rt sum maxCols = .ok (sum bytes)) := by
  constructor
  · intro j i a b ha hb hi
    rcases twins_getElem? h j with ⟨h1, _⟩ | ⟨a', b', h1, h2, ht⟩
    · have ha' : df1.columns[j]? = some a := ha
      rw [h1] at ha'
      cases ha'
    · have ha' : df1.columns[j]? = some a := ha
      have hb' : df2.columns[j]? = some b := hb
      rw [h1] at ha'
      rw [h2] at hb'
      injection ha' with ha'
      injection hb' with hb'
      subst ha' hb'
      exact ValueString_twin rt _ _ _ ht i hi
  · intro maxCols
    have hin := checksumInput_twin rt h maxCols
    have hsum : df1.ProjectionChecksum rt sum maxCols = df2.ProjectionChecksum rt sum maxCols := by
      unfold DataFrame.ProjectionChecksum
      rw [hin]
    refine ⟨hin, hsum, fun hwf => ?_⟩
    obtain ⟨bytes, hb⟩ := checksumInput_ok rt df1 hwf maxCols
    have h1 : df1.ProjectionChecksum rt sum maxCols = .ok (sum bytes) := by
      unfold DataFrame.ProjectionChecksum
      rw [hb]
      rfl
    exact ⟨bytes, hb, h1, hsum ▸ h1⟩

/-- Witness of C22: `note = [null, "x"]` against `note = ["", "x"]` beside the same `id`
column; both frames write the bytes `1 US LF 2 US x LF` to the hash. -/
theorem C22_checksum_blind_to_null_versus_empty_witness :
    NullEmptyTwins sampleNoteNull sampleNoteEmpty ∧ sampleNoteNull ≠ sampleNoteEmpty ∧
      sampleNoteNull.checksumInput sampleRuntime 5 = .ok [49, 31, 10, 50, 31, 120, 10] ∧
      ∀ maxCols : Int,
        sampleNoteNull.checksumInput sampleRuntime maxCols =
            sampleNoteEmpty.checksumInput sampleRuntime maxCols ∧
          sampleNoteNull.ProjectionChecksum sampleRuntime (fun bytes => bytes) maxCols =
            sampleNoteEmpty.ProjectionChecksum sampleRuntime (fun bytes => bytes) maxCols ∧
          (sampleNoteNull.WF → ∃ bytes,
            sampleNoteNull.checksumInput sampleRuntime maxCols = .ok bytes ∧
            sampleNoteNull.ProjectionChecksum sampleRuntime (fun bytes => bytes) maxCols =
              .ok bytes ∧
            sampleNoteEmpty.ProjectionChecksum sampleRuntime (fun bytes => bytes) maxCols =
              .ok bytes) :=
  ⟨by decide, by decide, by decide,
    (C22_checksum_blind_to_null_versus_empty sampleRuntime (fun bytes => bytes) sampleNoteNull
      sampleNoteEmpty (by decide)).2⟩
/-- C21: on a builder that holds the rows `rows` (each of its earlier `Append` calls
returned no error), `Append(raw, row)` appends exactly one row: for a null token it
appends a null row and returns no error; otherwise, when `raw` parses under the dtype of
the builder, it appends a present row holding the parsed value and returns no error;
otherwise (Int64, Float64 and Bool builders only) it returns the parse error of that
dtype carrying `row`, having appended a data slot but no validity bit.  `Build(name)` is
the column named `name` of the rows held; so after a run of `k` appends without error on
a new builder it has length `k`, and its row `i` is null exactly when token `i` is a
null token and otherwise holds the parsed value. -/
theorem C21_Append_appends_one_row (rt : FloatRuntime) (tb : typedBuilder)
    (rows : List (Option Cell)) (raw : GoString) (row : Int) (h : tb.HoldsRows rows) :
    (∀ name, (tb.Build name).HasRows name tb.dtype rows) ∧
    (raw ∈ tb.nulls → ∃ tb2, tb.Append rt raw row = .ok (tb2, none) ∧
      tb2.HoldsRows (rows ++ [none]) ∧ tb2.dtype = tb.dtype ∧ tb2.nulls = tb.nulls) ∧
    (raw ∉ tb.nulls → ∀ v, parseCell rt tb.dtype raw = some v →
      ∃ tb2, tb.Append rt raw row = .ok (tb2, none) ∧
        tb2.HoldsRows (rows ++ [some v]) ∧ tb2.dtype = tb.dtype ∧ tb2.nulls = tb.nulls) ∧
    (raw ∉ tb.nulls → parseCell rt tb.dtype raw = none →
      ∃ tb2 e, tb.Append rt raw row = .ok (tb2, some e) ∧
        ((tb.dtype = DTypeInt64 ∧ e = Err.parseInt64 row) ∨
          (tb.dtype = DTypeFloat64 ∧ e = Err.parseFloat64 row) ∨
          (tb.dtype = DTypeBool ∧ e = Err.parseBool row)) ∧
        tb2.cells.length = tb.cells.length + 1 ∧ tb2.valid = tb.valid) ∧
    (∀ (tokens : List GoString) (start : Int) (tb2 : typedBuilder) (name : String),
      rows = [] → tb.appendRows rt tokens start = .ok (tb2, none) →
      (tb2.Build name).Name = name ∧ (tb2.Build name).Len = tokens.length ∧
        ∀ (i : Nat) (t : GoString), tokens[i]? = some t →
          (tb2.Build name).IsNull i = .ok (decide (t ∈ tb.nulls)) ∧
          (t ∉ tb.nulls → ∃ v, parseCell rt tb.dtype t = some v ∧
            (tb2.Build name).Value i = .ok v)) := by
  obtain ⟨s1, s2, s3⟩ := Append_step rt tb rows raw row h
  refine ⟨fun name => Build_HasRows tb rows h name, s1, s2, s3, ?_⟩
  intro tokens start tb2 name hrows hrun
  subst hrows
  obtain ⟨r1, r2, _, r4⟩ := appendRows_ok rt tokens tb tb2 [] start h hrun
  obtain ⟨b1, _, b3, b4⟩ := Build_HasRows tb2 _ r1 name
  refine ⟨b1, by rw [b3]; simp, fun i t hi => ?_⟩
  have hrow : ([] ++ tokens.map (rowOf rt tb.dtype tb.nulls))[i]? =
      some (rowOf rt tb.dtype tb.nulls t) := by
    rw [List.nil_append, List.getElem?_map, hi]
    rfl
  obtain ⟨c1, c2⟩ := b4 i _ hrow
  have hacc := r4 t (List.getElem?_mem hi)
  by_cases hn : t ∈ tb.nulls
  · refine ⟨?_, fun hc => absurd hn hc⟩
    rw [c1]
    unfold rowOf
    rw [if_pos hn]
    simp [hn]
  · rcases hacc with hc | hc
    · exact absurd hc hn
    · cases hp : parseCell rt tb.dtype t with
      | none => rw [hp] at hc; cases hc
      | some v =>
        have hro : rowOf rt tb.dtype tb.nulls t = some v := by
          unfold rowOf
          rw [if_neg hn, hp]
        refine ⟨?_, fun _ => ⟨v, rfl, c2 v hro⟩⟩
        rw [c1, hro]
        simp [hn]

/-- Witness of C21 on a new Int64 builder with the null token `NA`: appending `x` at row
3 returns the parse error of row 3; the run `7, NA` builds `n = [7, null]`. -/
theorem C21_Append_appends_one_row_witness :
    (newBuilder DTypeInt64 [tokenNA]).HoldsRows [] ∧
      (newBuilder DTypeInt64 [tokenNA]).Append sampleRuntime tokenX 3 =
        .ok (.int64 ⟨[0], ⟨[], 0⟩, [tokenNA]⟩, some (Err.parseInt64 3)) ∧
      (newBuilder DTypeInt64 [tokenNA]).appendRows sampleRuntime [tokenSeven, tokenNA] 1 =
        .ok (.int64 ⟨[7, 0], ⟨[1], 2⟩, [tokenNA]⟩, none) ∧
      typedBuilder.Build (.int64 ⟨[7, 0], ⟨[1], 2⟩, [tokenNA]⟩) "n" =
        .int64 ⟨"n", [7, 0], ⟨[1]⟩⟩ ∧
      (tokenSeven ∉ (newBuilder DTypeInt64 [tokenNA]).nulls →
        ∀ v, parseCell sampleRuntime (newBuilder DTypeInt64 [tokenNA]).dtype tokenSeven = some v →
          ∃ tb2, (newBuilder DTypeInt64 [tokenNA]).Append sampleRuntime tokenSeven 1 =
              .ok (tb2, none) ∧
            tb2.HoldsRows ([] ++ [some v]) ∧
            tb2.dtype = (newBuilder DTypeInt64 [tokenNA]).dtype ∧
            tb2.nulls = (newBuilder DTypeInt64 [tokenNA]).nulls) :=
  ⟨(newBuilder_holds DTypeInt64 [tokenNA]).1, by decide, by decide, by decide,
    (C21_Append_appends_one_row sampleRuntime (newBuilder DTypeInt64 [tokenNA]) [] tokenSeven 1
      (newBuilder_holds DTypeInt64 [tokenNA]).1).2.2.1⟩

/-- C24: inference and ingestion agree on sampled values.  For every sample and null
set, every value of the sample is a null token or parses under the inferred type; so the
builder created for the inferred type, in any state reached without error, returns no
error from `Append` on a value of the sample, and the run of `Append` over the whole
sample on the new builder returns no error and builds the column of the sample's rows. -/
theorem C24_inferred_builder_accepts_sample (rt : FloatRuntime)
    (sample nullSet : List GoString) :
    (∀ (tb : typedBuilder) (rows : List (Option Cell)) (v : GoString) (row : Int),
      tb.HoldsRows rows → tb.dtype = inferType rt sample nullSet → tb.nulls = nullSet →
      v ∈ sample → ∃ tb2, tb.Append rt v row = .ok (tb2, none)) ∧
    (∀ start : Int, ∃ tb2,
      (newBuilder (inferType rt sample nullSet) nullSet).appendRows rt sample start =
          .ok (tb2, none) ∧
        ∀ name, (tb2.Build name).HasRows name (inferType rt sample nullSet)
          (sample.map (rowOf rt (inferType rt sample nullSet) nullSet))) := by
  obtain ⟨hne, hacc⟩ := inferType_accepts rt sample nullSet
  obtain ⟨n1, n2, n3⟩ := newBuilder_holds (inferType rt sample nullSet) nullSet
  have n3' := n3 hne
  constructor
  · intro tb rows v row h hd hnl hv
    obtain ⟨s1, s2, _⟩ := Append_step rt tb rows v row h
    by_cases hn : v ∈ tb.nulls
    · obtain ⟨tb2, ha, _⟩ := s1 hn
      exact ⟨tb2, ha⟩
    · rcases hacc v hv with hc | hc
      · exact absurd (hnl ▸ hc) hn
      · rw [← hd] at hc
        cases hp : parseCell rt tb.dtype v with
        | none => rw [hp] at hc; cases hc
        | some c =>
          obtain ⟨tb2, ha, _⟩ := s2 hn c hp
          exact ⟨tb2, ha⟩
  · intro start
    obtain ⟨tb2, hrun⟩ := appendRows_accepts rt sample _ [] start n1 (by
      intro t ht
      rw [n2, n3']
      exact hacc t ht)
    obtain ⟨r1, r2, _, _⟩ := appendRows_ok rt sample _ tb2 [] start n1 hrun
    rw [n2, n3', List.nil_append] at r1
    refine ⟨tb2, hrun, fun name => ?_⟩
    have := Build_HasRows tb2 _ r1 name
    rw [r2, n3'] at this
    exact this

/-- Witness of C24 with the null token `NA`: the sample `7, NA, 1.5` infers Float64 and
the Float64 builder takes all three values. -/
theorem C24_inferred_builder_accepts_sample_witness :
    inferType sampleParseRuntime [tokenSeven, tokenNA, [49, 46, 53]] [tokenNA] = DTypeFloat64 ∧
      (newBuilder DTypeFloat64 [tokenNA]).appendRows sampleParseRuntime
          [tokenSeven, tokenNA, [49, 46, 53]] 1 =
        .ok (.float64 ⟨[⟨0⟩, ⟨0⟩, ⟨0x3FF8000000000000⟩], ⟨[5], 3⟩, [tokenNA]⟩, none) ∧
      ∀ start : Int, ∃ tb2,
        (newBuilder (inferType sampleParseRuntime [tokenSeven, tokenNA, [49, 46, 53]] [tokenNA])
            [tokenNA]).appendRows sampleParseRuntime [tokenSeven, tokenNA, [49, 46, 53]] start =
          .ok (tb2, none) ∧
        ∀ name, (tb2.Build name).HasRows name
          (inferType sampleParseRuntime [tokenSeven, tokenNA, [49, 46, 53]] [tokenNA])
          ([tokenSeven, tokenNA, [49, 46, 53]].map
            (rowOf sampleParseRuntime
              (inferType sampleParseRuntime [tokenSeven, tokenNA, [49, 46, 53]] [tokenNA])
              [tokenNA])) :=
  ⟨by decide, by decide,
    (C24_inferred_builder_accepts_sample sampleParseRuntime [tokenSeven, tokenNA, [49, 46, 53]]
      [tokenNA]).2⟩
end Grizzly
